import Mathlib

/-!
# sproto: a shallow embedding of `lualib-src/sproto/sproto.c`

Bytes are natural numbers (a `uint8_t` is a number below 256), C `int`s that
hold sizes are `Int`/`Nat` (the sizes of the buffers involved stay far below
`2^31`), unsigned 32-bit arithmetic is written with an explicit `% 2^32`.
A destination buffer is a byte-addressed memory `Mem`; a pointer into it is
the offset from the start of the buffer.
-/

namespace Sproto

/-! ## Byte memory -/

/-- Byte-addressed memory of a destination buffer: offset ↦ byte. -/
abbrev Mem := Nat → Nat

/-- The store `p[0] = v`. -/
def wr (m : Mem) (p v : Nat) : Mem := fun q => if q = p then v else m q

/-- The call `memcpy(dst, bytes, bytes.length)`. -/
def memcpy (m : Mem) (dst : Nat) : List Nat → Mem
  | [] => m
  | b :: bs => memcpy (wr m dst b) (dst + 1) bs

/-- The call `memset(dst, v, n)`. -/
def memset (m : Mem) (dst v n : Nat) : Mem := memcpy m dst (List.replicate n v)

/-- The `n` bytes stored at offsets `p, p+1, ..., p+n-1`. -/
def readN (m : Mem) (p n : Nat) : List Nat := (List.range n).map (fun k => m (p + k))

/-- An all-zero memory, used for concrete runs. -/
def zeroMem : Mem := fun _ => 0

/-! ## 0-pack -/

/-- State of the `for (i=0;i<8;i++)` loop of `pack_seg`. -/
structure SegState where
  mem : Mem
  buffer : Nat
  sz : Int
  notzero : Nat
  header : Nat

/-- One iteration of the loop of `pack_seg` on the byte `b = src[i]`. -/
def pack_seg_step (b i : Nat) (s : SegState) : SegState :=
  if b ≠ 0 then
    let s1 : SegState := { s with notzero := s.notzero + 1, header := s.header ||| (1 <<< i) }
    if s.sz > 0 then
      { s1 with mem := wr s.mem s.buffer b, buffer := s.buffer + 1, sz := s.sz - 1 }
    else s1
  else s

/-- The loop of `pack_seg` over the bytes `src[i], src[i+1], ...`. -/
def pack_seg_loop : List Nat → Nat → SegState → SegState
  | [], _, s => s
  | b :: bs, i, s => pack_seg_loop bs (i + 1) (pack_seg_step b i s)

/-- The function `pack_seg(src, buffer, sz, n)`: `src` is the list of the 8 bytes
the pointer `src` addresses, `buffer` the offset of the output pointer. Returns
the memory and the returned `int`. -/
def pack_seg (src : List Nat) (m : Mem) (buffer : Nat) (sz : Int) (n : Nat) : Mem × Nat :=
  let obuffer : Option Nat := if sz - 1 < 0 then none else some buffer
  let s := pack_seg_loop src 0 { mem := m, buffer := buffer + 1, sz := sz - 1, notzero := 0, header := 0 }
  let notzero := if (s.notzero = 7 ∨ s.notzero = 6) ∧ n > 0 then 8 else s.notzero
  if notzero = 8 then
    if n > 0 then (s.mem, 8) else (s.mem, 10)
  else
    match obuffer with
    | some p => (wr s.mem p s.header, notzero + 1)
    | none => (s.mem, notzero + 1)

/-- The function `write_ff(src, src_end, des, n)`: `srcv` is the whole source
buffer, `src` an offset into it, and `src_end` is `srcv.length`. -/
def write_ff (srcv : List Nat) (src : Nat) (m : Mem) (des n : Nat) : Mem :=
  let m1 := wr (wr m des 0xff) (des + 1) ((n - 1) % 256)
  if src + n * 8 ≤ srcv.length then
    memcpy m1 (des + 2) ((srcv.drop src).take (n * 8))
  else
    let sz := srcv.length - src
    memset (memcpy m1 (des + 2) ((srcv.drop src).take sz)) (des + 2 + sz) 0 (n * 8 - sz)

/-- Local variables of `sproto_pack`. The source pointers are offsets into
`srcv`. (In the padded last iteration `src` is the local array `tmp`;
`ff_srcstart` is assigned only when `pack_seg` returns 10, which a zero-padded
block never does, see `pack_seg_padded`, so `ff_srcstart` always points into
`srcv`.) -/
structure PackState where
  mem : Mem
  buffer : Nat
  bufsz : Int
  ff_srcstart : Nat
  ff_desstart : Nat
  ff_n : Nat
  size : Nat

/-- The 8 bytes that `src` addresses in the iteration of `sproto_pack` that
starts at offset `i`: the source bytes themselves or, when fewer than 8 remain,
their copy in `tmp` with `tmp[7-j] = 0` for `j < padding`. -/
def srcBlock (srcv : List Nat) (i : Nat) : List Nat :=
  if i + 8 > srcv.length then
    let padding := i + 8 - srcv.length
    (srcv.drop i).take (8 - padding) ++ List.replicate padding 0
  else (srcv.drop i).take 8

/-- Body of the loop of `sproto_pack` for the block at offset `i`. -/
def pack_step (srcv : List Nat) (i : Nat) (s : PackState) : PackState :=
  let r := pack_seg (srcBlock srcv i) s.mem s.buffer s.bufsz s.ff_n
  let n := r.2
  let bufsz := s.bufsz - n
  let s1 : PackState :=
    if n = 10 then
      { s with mem := r.1, bufsz := bufsz, ff_srcstart := i, ff_desstart := s.buffer, ff_n := 1 }
    else if n = 8 ∧ s.ff_n > 0 then
      if s.ff_n + 1 = 256 then
        { s with mem := if bufsz ≥ 0 then write_ff srcv s.ff_srcstart r.1 s.ff_desstart 256 else r.1,
                 bufsz := bufsz, ff_n := 0 }
      else { s with mem := r.1, bufsz := bufsz, ff_n := s.ff_n + 1 }
    else
      if s.ff_n > 0 then
        { s with mem := if bufsz ≥ 0 then write_ff srcv s.ff_srcstart r.1 s.ff_desstart s.ff_n else r.1,
                 bufsz := bufsz, ff_n := 0 }
      else { s with mem := r.1, bufsz := bufsz }
  { s1 with buffer := s1.buffer + n, size := s1.size + n }

/-- The loop `for (i=0;i<srcsz;i+=8)` of `sproto_pack`, `k` iterations from
offset `i`. -/
def pack_loop (srcv : List Nat) : Nat → Nat → PackState → PackState
  | 0, _, s => s
  | k + 1, i, s => pack_loop srcv k (i + 8) (pack_step srcv i s)

/-- The statement `if(bufsz >= 0 && ff_n > 0) write_ff(...)` after the loop of
`sproto_pack`. -/
def pack_finish (srcv : List Nat) (s : PackState) : Mem :=
  if s.bufsz ≥ 0 ∧ s.ff_n > 0 then write_ff srcv s.ff_srcstart s.mem s.ff_desstart s.ff_n
  else s.mem

/-- The local variables of `sproto_pack` before the loop (`ff_srcstart` and
`ff_desstart` are `NULL`, never read while `ff_n = 0`). -/
def pack_init (bufferv : Mem) (bufsz : Int) : PackState :=
  { mem := bufferv, buffer := 0, bufsz := bufsz, ff_srcstart := 0, ff_desstart := 0,
    ff_n := 0, size := 0 }

/-- The function `sproto_pack(srcv, srcsz, bufferv, bufsz)`; the loop runs for
`i = 0, 8, ...` below `srcsz`, that is `(srcsz + 7) / 8` times. Returns the
returned size and the destination memory. -/
def sproto_pack (srcv : List Nat) (bufferv : Mem) (bufsz : Int) : Nat × Mem :=
  let s := pack_loop srcv ((srcv.length + 7) / 8) 0 (pack_init bufferv bufsz)
  (s.size, pack_finish srcv s)

/-! ## 0-unpack -/

/-- Local variables of `sproto_unpack`; `src` is the list of the `srcsz` bytes
not yet consumed. -/
structure UnpackState where
  src : List Nat
  mem : Mem
  buffer : Nat
  bufsz : Int
  size : Nat

/-- The store of one output byte in the mask branch, guarded by `bufsz > 0`. -/
def unpack_put (s : UnpackState) (b : Nat) : UnpackState :=
  if s.bufsz > 0 then
    { s with mem := wr s.mem s.buffer b, bufsz := s.bufsz - 1, buffer := s.buffer + 1 }
  else s

/-- The loop `for (i=0;i<8;i++)` of the mask branch of `sproto_unpack`, `k`
iterations from bit `i`. `.error m` is `return -1` at a set bit with no source
byte left, `m` being the destination memory at that moment: the bytes the
earlier iterations stored stay stored. -/
def unpack_bits (header : Nat) : Nat → Nat → UnpackState → Except Mem UnpackState
  | 0, _, s => .ok s
  | k + 1, i, s =>
    let nz := (header >>> i) &&& 1
    if nz ≠ 0 then
      match s.src with
      | [] => .error s.mem
      | b :: rest =>
        let s1 := unpack_put s b
        unpack_bits header k (i + 1) { s1 with src := rest, size := s1.size + 1 }
    else
      let s1 := unpack_put s 0
      unpack_bits header k (i + 1) { s1 with size := s1.size + 1 }

/-- The loop `while (srcsz > 0)` of `sproto_unpack`. The result is the returned
`int` and the destination memory at the return; `none` only when the fuel runs
out. -/
def unpack_loop : Nat → UnpackState → Option (Int × Mem)
  | 0, _ => none
  | fuel + 1, s =>
    match s.src with
    | [] => some ((s.size : Int), s.mem)
    | header :: src =>
      if header = 0xff then
        match src with
        | [] => some (-1, s.mem)
        | c :: src1 =>
          let n := (c + 1) * 8
          if src.length < n + 1 then some (-1, s.mem)
          else
            let m := if s.bufsz ≥ n then memcpy s.mem s.buffer (src1.take n) else s.mem
            unpack_loop fuel
              { src := src1.drop n, mem := m, buffer := s.buffer + n, bufsz := s.bufsz - n,
                size := s.size + n }
      else
        match unpack_bits header 8 0 { s with src := src } with
        | .error m => some (-1, m)
        | .ok s1 => unpack_loop fuel s1

/-- The function `sproto_unpack(srcv, srcsz, bufferv, bufsz)`; every iteration
of the loop consumes at least one source byte, so `srcsz + 1` iterations are
enough (`sproto_unpack_total`). -/
def sproto_unpack (srcv : List Nat) (bufferv : Mem) (bufsz : Int) : Option (Int × Mem) :=
  unpack_loop (srcv.length + 1)
    { src := srcv, mem := bufferv, buffer := 0, bufsz := bufsz, size := 0 }

/-! ## Functional description of the packed stream -/

/-- The non-zero bytes of a block, in order. -/
def nzBytes (b : List Nat) : List Nat := b.filter (fun x => x ≠ 0)

/-- The value of `header` after the loop of `pack_seg` has run over the bytes
`b` from bit `i` with `header = h` before. -/
def maskOf : List Nat → Nat → Nat → Nat
  | [], _, h => h
  | x :: xs, i, h => maskOf xs (i + 1) (if x ≠ 0 then h ||| (1 <<< i) else h)

/-- The value `pack_seg` returns for a block with `notzero` non-zero bytes when
called with `n`. -/
def segRet (notzero n : Nat) : Nat :=
  let nz := if (notzero = 7 ∨ notzero = 6) ∧ n > 0 then 8 else notzero
  if nz = 8 then (if n > 0 then 8 else 10) else nz + 1

/-- The record `write_ff` writes for a pending run of `n` blocks with bytes `run`
(nothing when no run is pending). -/
def flushFF (n : Nat) (run : List Nat) : List Nat :=
  if n = 0 then [] else 0xff :: ((n - 1) % 256) :: run

/-- The bytes `sproto_pack` produces for the blocks `bs` when a run of `n`
blocks with bytes `run` is pending (`ff_n = n`): the branches are those of the
loop body of `sproto_pack`. -/
def packFrom : Nat → List Nat → List (List Nat) → List Nat
  | n, run, [] => flushFF n run
  | n, run, b :: bs =>
    let r := segRet (nzBytes b).length n
    if r = 10 then packFrom 1 b bs
    else if r = 8 ∧ n > 0 then
      if n + 1 = 256 then flushFF 256 (run ++ b) ++ packFrom 0 [] bs
      else packFrom (n + 1) (run ++ b) bs
    else flushFF n run ++ (maskOf b 0 0 :: nzBytes b) ++ packFrom 0 [] bs

/-- The source zero-padded to a multiple of 8 bytes. -/
def padded (srcv : List Nat) : List Nat :=
  srcv ++ List.replicate ((srcv.length + 7) / 8 * 8 - srcv.length) 0

/-- The blocks of 8 bytes the loop of `sproto_pack` visits from block number `j`
on, `k` of them. -/
def blocksFrom (srcv : List Nat) : Nat → Nat → List (List Nat)
  | 0, _ => []
  | k + 1, j => srcBlock srcv (8 * j) :: blocksFrom srcv k (j + 1)

/-- All blocks of the source. -/
def blocks (srcv : List Nat) : List (List Nat) := blocksFrom srcv ((srcv.length + 7) / 8) 0

/-- The records `sproto_pack` writes for a source whose bytes are all non-zero:
`g` records, each with up to 256 blocks (2048 bytes). -/
def ffRecords : Nat → List Nat → List Nat
  | 0, _ => []
  | g + 1, x =>
    0xff :: (min 256 (x.length / 8) - 1) :: x.take 2048 ++ ffRecords g (x.drop 2048)

/-- One block of `sproto_pack` on the triple (bytes of the closed records,
`ff_n`, bytes of the pending run). -/
def packStep (st : List Nat × Nat × List Nat) (b : List Nat) : List Nat × Nat × List Nat :=
  let r := segRet (nzBytes b).length st.2.1
  if r = 10 then (st.1, 1, b)
  else if r = 8 ∧ st.2.1 > 0 then
    if st.2.1 + 1 = 256 then (st.1 ++ flushFF 256 (st.2.2 ++ b), 0, [])
    else (st.1, st.2.1 + 1, st.2.2 ++ b)
  else (st.1 ++ flushFF st.2.1 st.2.2 ++ (maskOf b 0 0 :: nzBytes b), 0, [])

/-- The triple after the blocks `bs`, from the start. -/
def packPrefix (bs : List (List Nat)) : List Nat × Nat × List Nat :=
  bs.foldl packStep ([], 0, [])

/-- Invariant of the destination pointer of `sproto_unpack`: while room is
left, `buffer + bufsz` is at most the capacity `D`. -/
def unpackInv (D : Int) (s : UnpackState) : Prop := s.bufsz > 0 → (s.buffer : Int) + s.bufsz ≤ D


/-! ## Constants of `sproto.h` -/

/-- Modelled from the spec: `sproto.h` is not among the sources; the spec gives
the builtin primitive id INTEGER = 0. -/
def SPROTO_TINTEGER : Nat := 0

/-- Modelled from the spec: `sproto.h` is not among the sources; the spec gives
the builtin primitive id BOOLEAN = 1. -/
def SPROTO_TBOOLEAN : Nat := 1

/-- Modelled from the spec: `sproto.h` is not among the sources; the spec gives
the builtin primitive id STRING = 2. -/
def SPROTO_TSTRING : Nat := 2

/-- Modelled from the spec: `sproto.h` is not among the sources; the spec gives
the builtin primitive id DOUBLE = 3. -/
def SPROTO_TDOUBLE : Nat := 3

/-- Modelled from the spec: `sproto.h` is not among the sources; STRUCT is the
kind after the four builtin ids (`import_field` rejects a builtin id
`>= SPROTO_TSTRUCT`). -/
def SPROTO_TSTRUCT : Nat := 4

/-- Modelled from the spec: `sproto.h` is not among the sources; ARRAY is a flag
bit orthogonal to the kinds. -/
def SPROTO_TARRAY : Nat := 0x80

/-- Modelled from the spec: `sproto.h` is not among the sources; the callback's
negative sentinel "abort". -/
def SPROTO_CB_ERROR : Int := -1

/-- Modelled from the spec: `sproto.h` is not among the sources; the callback's
negative sentinel "field absent". -/
def SPROTO_CB_NIL : Int := -2

/-- Modelled from the spec: `sproto.h` is not among the sources; the callback's
negative sentinel "omit this array". -/
def SPROTO_CB_NOARRAY : Int := -3

def SIZEOF_LENGTH : Nat := 4
def SIZEOF_HEADER : Nat := 2
def SIZEOF_FIELD : Nat := 2
def SIZEOF_INT64 : Nat := 8
def SIZEOF_INT32 : Nat := 4

/-! ## Descriptors -/

/-- The C `struct field`; `st` is the index of the `sproto_type` the pointer
`st` addresses in the array of types of the schema. -/
structure field where
  tag : Int
  type : Nat
  name : String
  st : Option Nat
  key : Int
  map : Int
  extra : Int
deriving DecidableEq, Repr

/-- The C `struct sproto_type`; the array `f` has `n` entries. -/
structure sproto_type where
  name : String
  base : Int
  maxn : Nat
  f : List field
deriving DecidableEq, Repr

/-- The member `n` of `struct sproto_type`. -/
def sproto_type.n (st : sproto_type) : Nat := st.f.length

/-- What `args->value` addresses when the decoder calls the callback. -/
inductive ArgValue where
  | null
  | u64 (v : Nat)
  | bytes (b : List Nat)
deriving DecidableEq, Repr

/-- The C `struct sproto_arg` as the callback sees it (`ud` is the state the
callback is given separately; `value` is `null` in encoder calls, where the
callback stores into the buffer `value` addresses). -/
structure sproto_arg where
  tagname : String
  tagid : Int
  type : Nat
  subtype : Option Nat
  value : ArgValue
  length : Int
  index : Int
  mainindex : Int
  extra : Int
  ktagname : Option String
  vtagname : Option String
deriving DecidableEq, Repr

/-- What a call of the callback does: the `int` it returns, the integer it
stored through `value` (encoder, integer and boolean fields: `u.u32` is
`u % 2^32`, `u.u64` is `u % 2^64`) and the bytes it stored at `value` (encoder,
string and struct fields). -/
structure CbOut where
  sz : Int
  u : Nat
  bytes : List Nat
deriving DecidableEq, Repr

/-- A callback with its user data `ud` of type `σ`. -/
abbrev sproto_callback (σ : Type) := σ → sproto_arg → CbOut × σ

/-- How a call ends: it returns, an `assert` fails, it reads through a pointer
that is `NULL` or past the end of the array it points into (the call has no
defined result from there on), or the model's loop fuel runs out (the callers
pass enough fuel). -/
inductive Outcome (α : Type) where
  | ret (a : α)
  | assertFailed
  | invalidRead
  | outOfFuel
deriving DecidableEq, Repr

/-! ## Byte primitives -/

/-- The bytes `v & 0xff, (v >> 8) & 0xff, (v >> 16) & 0xff, (v >> 24) & 0xff`. -/
def le32 (v : Nat) : List Nat := [v % 256, v / 2 ^ 8 % 256, v / 2 ^ 16 % 256, v / 2 ^ 24 % 256]

/-- The 8 bytes `v & 0xff, ..., (v >> 56) & 0xff`. -/
def le64 (v : Nat) : List Nat :=
  [v % 256, v / 2 ^ 8 % 256, v / 2 ^ 16 % 256, v / 2 ^ 24 % 256,
   v / 2 ^ 32 % 256, v / 2 ^ 40 % 256, v / 2 ^ 48 % 256, v / 2 ^ 56 % 256]

/-- The byte `p[i]` of a payload. -/
def rd (p : List Nat) (i : Nat) : Nat := p.getD i 0

/-- The function `toword` at offset `i` (bytes are below 256, so `|` is `+`). -/
def toword (p : List Nat) (i : Nat) : Nat := rd p i + rd p (i + 1) * 2 ^ 8

/-- The function `todword` at offset `i`, an `uint32_t`. -/
def todword (p : List Nat) (i : Nat) : Nat :=
  (rd p i + rd p (i + 1) * 2 ^ 8 + rd p (i + 2) * 2 ^ 16 + rd p (i + 3) * 2 ^ 24) % 2 ^ 32

/-- An `int` converted to `size_t` (64 bits). -/
def toSizeT (x : Int) : Int := x % 2 ^ 64

/-- An `int` converted to `uint32_t`. -/
def toU32 (x : Int) : Nat := (x % 2 ^ 32).toNat

/-! ## Field lookup -/

/-- The loop `while (begin < end)` of `findtag`; `end - begin` shrinks in every
iteration, so with `fuel ≥ end - begin` the loop has ended when the fuel is
used up, and the function returns `NULL`. -/
def findtag_loop (f : List field) (tag : Int) : Nat → Nat → Nat → Option field
  | 0, _, _ => none
  | fuel + 1, b, e =>
    if b < e then
      let mid := (b + e) / 2
      match f[mid]? with
      | none => none
      | some fd =>
        if fd.tag = tag then some fd
        else if tag > fd.tag then findtag_loop f tag fuel (mid + 1) e
        else findtag_loop f tag fuel b mid
    else none

/-- The function `findtag`. -/
def findtag (st : sproto_type) (tag : Int) : Option field :=
  if st.base ≥ 0 then
    let t := tag - st.base
    if t < 0 ∨ t ≥ st.n then none else st.f[t.toNat]?
  else findtag_loop st.f tag st.n 0 st.n

/-! ## Encoder -/

/-- The function `fill_size`. -/
def fill_size (m : Mem) (data : Nat) (sz : Int) : Mem × Int :=
  (memcpy m data (le32 (toU32 sz)), sz + SIZEOF_LENGTH)

/-- The function `encode_integer`; `size` is compared as a `size_t`. -/
def encode_integer (v : Nat) (m : Mem) (data : Nat) (size : Int) : Mem × Int :=
  if toSizeT size < SIZEOF_LENGTH + 4 then (m, -1)
  else fill_size (memcpy m (data + 4) (le32 v)) data 4

/-- The function `encode_uint64`; `size` is compared as a `size_t`. -/
def encode_uint64 (v : Nat) (m : Mem) (data : Nat) (size : Int) : Mem × Int :=
  if toSizeT size < SIZEOF_LENGTH + 8 then (m, -1)
  else fill_size (memcpy m (data + 4) (le64 v)) data 8

/-- The function `encode_object`. -/
def encode_object {σ : Type} (cb : sproto_callback σ) (ud : σ) (args : sproto_arg) (m : Mem)
    (data : Nat) (size : Int) : Outcome (Int × Mem × σ) :=
  if size < SIZEOF_LENGTH then .ret (-1, m, ud)
  else
    let r := cb ud { args with value := .null, length := size - SIZEOF_LENGTH }
    let m1 := memcpy m (data + SIZEOF_LENGTH) r.1.bytes
    let sz := r.1.sz
    if sz < 0 then
      if sz = SPROTO_CB_NIL then .ret (0, m1, r.2) else .ret (-1, m1, r.2)
    else if ¬ (sz ≤ size - SIZEOF_LENGTH) then .assertFailed
    else
      let fs := fill_size m1 data sz
      .ret (fs.2, fs.1, r.2)

/-- The function `uint32_to_uint64`. -/
def uint32_to_uint64 (negative : Nat) (m : Mem) (buffer : Nat) : Mem :=
  if negative ≠ 0 then memcpy m (buffer + 4) [0xff, 0xff, 0xff, 0xff]
  else memcpy m (buffer + 4) [0, 0, 0, 0]

/-- The loop `for (i=index-2;i>=0;i--)` of `encode_integer_array`: `k`
iterations, for `i = k-1, ..., 0`. -/
def rearrange (header : Nat) : Nat → Mem → Mem
  | 0, m => m
  | k + 1, m =>
    let m1 := memcpy m (header + 1 + k * SIZEOF_INT64) (readN m (header + 1 + k * SIZEOF_INT32) 4)
    let negative := m1 (header + 1 + k * SIZEOF_INT64 + 3) &&& 0x80
    rearrange header k (uint32_to_uint64 negative m1 (header + 1 + k * SIZEOF_INT64))

/-- Local variables of `encode_integer_array`. -/
structure IntArrayState (σ : Type) where
  mem : Mem
  ud : σ
  buffer : Nat
  size : Int
  intlen : Nat
  index : Nat

/-- How the loop of an array encoder ends: by `break` (with the value of
`*noarray`) or by `return NULL`. -/
inductive LoopExit where
  | brk (noarray : Bool)
  | null
deriving DecidableEq, Repr

/-- The loop `for (;;)` of `encode_integer_array`. -/
def encode_integer_array_loop {σ : Type} (cb : sproto_callback σ) (args : sproto_arg)
    (header : Nat) : Nat → IntArrayState σ → Outcome (LoopExit × IntArrayState σ)
  | 0, _ => .outOfFuel
  | fuel + 1, s =>
    let r := cb s.ud { args with value := .null, length := 8, index := s.index }
    let s0 := { s with ud := r.2 }
    let sz := r.1.sz
    if sz ≤ 0 then
      if sz = SPROTO_CB_NIL then .ret (.brk false, s0)
      else if sz = SPROTO_CB_NOARRAY then .ret (.brk true, s0)
      else .ret (.null, s0)
    else if s.size < SIZEOF_INT64 then .ret (.null, s0)
    else if sz = SIZEOF_INT32 then
      let v := r.1.u % 2 ^ 32
      let m1 := memcpy s.mem s.buffer (le32 v)
      let m2 := if s.intlen = SIZEOF_INT64 then uint32_to_uint64 (v &&& 0x80000000) m1 s.buffer
                else m1
      encode_integer_array_loop cb args header fuel
        { s0 with mem := m2, size := s.size - s.intlen, buffer := s.buffer + s.intlen,
                  index := s.index + 1 }
    else if sz ≠ SIZEOF_INT64 then .ret (.null, s0)
    else if s.intlen = SIZEOF_INT32 then
      let size := s.size - (s.index - 1 : Nat) * SIZEOF_INT32
      if size < SIZEOF_INT64 then .ret (.null, { s0 with size := size })
      else
        let buffer := s.buffer + (s.index - 1) * SIZEOF_INT32
        let m1 := rearrange header (s.index - 1) s.mem
        let m2 := memcpy m1 buffer (le64 (r.1.u % 2 ^ 64))
        encode_integer_array_loop cb args header fuel
          { s0 with mem := m2, size := size - SIZEOF_INT64, buffer := buffer + SIZEOF_INT64,
                    intlen := SIZEOF_INT64, index := s.index + 1 }
    else
      let m2 := memcpy s.mem s.buffer (le64 (r.1.u % 2 ^ 64))
      encode_integer_array_loop cb args header fuel
        { s0 with mem := m2, size := s.size - s.intlen, buffer := s.buffer + s.intlen,
                  index := s.index + 1 }

/-- The function `encode_integer_array`: the returned pointer (`none` is
`NULL`), `*noarray`, the memory and the user data. Every iteration that goes on
has `size ≥ 8` and takes at least 4 from `size`. -/
def encode_integer_array {σ : Type} (cb : sproto_callback σ) (ud : σ) (args : sproto_arg)
    (m : Mem) (buffer : Nat) (size : Int) : Outcome (Option Nat × Bool × Mem × σ) :=
  if size < 1 then .ret (none, false, m, ud)
  else
    match encode_integer_array_loop cb args buffer (size.toNat + 1)
        { mem := m, ud := ud, buffer := buffer + 1, size := size - 1, intlen := SIZEOF_INT32,
          index := 1 } with
    | .outOfFuel => .outOfFuel
    | .assertFailed => .assertFailed
    | .invalidRead => .invalidRead
    | .ret (.null, s) => .ret (none, false, s.mem, s.ud)
    | .ret (.brk noarray, s) =>
      if s.buffer = buffer + 1 then .ret (some buffer, noarray, s.mem, s.ud)
      else .ret (some s.buffer, noarray, wr s.mem buffer s.intlen, s.ud)

/-- Local variables of the loops of `encode_array_object` and of the boolean
case of `encode_array`. -/
structure ArrayState (σ : Type) where
  mem : Mem
  ud : σ
  buffer : Nat
  size : Int
  index : Nat

/-- The loop `for (;;)` of `encode_array_object`. -/
def encode_array_object_loop {σ : Type} (cb : sproto_callback σ) (args : sproto_arg) :
    Nat → ArrayState σ → Outcome (LoopExit × ArrayState σ)
  | 0, _ => .outOfFuel
  | fuel + 1, s =>
    if s.size < SIZEOF_LENGTH then .ret (.null, s)
    else
      let size := s.size - SIZEOF_LENGTH
      let r := cb s.ud { args with value := .null, length := size, index := s.index }
      let m1 := memcpy s.mem (s.buffer + SIZEOF_LENGTH) r.1.bytes
      let s0 := { s with mem := m1, ud := r.2, size := size }
      let sz := r.1.sz
      if sz < 0 then
        if sz = SPROTO_CB_NIL then .ret (.brk false, s0)
        else if sz = SPROTO_CB_NOARRAY then .ret (.brk true, s0)
        else .ret (.null, s0)
      else
        encode_array_object_loop cb args fuel
          { s0 with mem := (fill_size m1 s.buffer sz).1,
                    buffer := s.buffer + SIZEOF_LENGTH + sz.toNat, size := size - sz,
                    index := s.index + 1 }

/-- The function `encode_array_object`. Every iteration that goes on takes at
least 4 from `size`. -/
def encode_array_object {σ : Type} (cb : sproto_callback σ) (ud : σ) (args : sproto_arg)
    (m : Mem) (buffer : Nat) (size : Int) : Outcome (Option Nat × Bool × Mem × σ) :=
  match encode_array_object_loop cb args (size.toNat + 1)
      { mem := m, ud := ud, buffer := buffer, size := size, index := 1 } with
  | .outOfFuel => .outOfFuel
  | .assertFailed => .assertFailed
  | .invalidRead => .invalidRead
  | .ret (.null, s) => .ret (none, false, s.mem, s.ud)
  | .ret (.brk noarray, s) => .ret (some s.buffer, noarray, s.mem, s.ud)

/-- How the boolean loop of `encode_array` ends: by `break`, or by
`return r`. -/
inductive BoolExit where
  | brk
  | retn (r : Int)
deriving DecidableEq, Repr

/-- The loop `for (;;)` of the case `SPROTO_TBOOLEAN` of `encode_array`. -/
def encode_array_bool_loop {σ : Type} (cb : sproto_callback σ) (args : sproto_arg) :
    Nat → ArrayState σ → Outcome (BoolExit × ArrayState σ)
  | 0, _ => .outOfFuel
  | fuel + 1, s =>
    let r := cb s.ud { args with value := .null, length := 4, index := s.index }
    let s0 := { s with ud := r.2 }
    let sz := r.1.sz
    if sz < 0 then
      if sz = SPROTO_CB_NIL then .ret (.brk, s0)
      else if sz = SPROTO_CB_NOARRAY then .ret (.retn 0, s0)
      else .ret (.retn (-1), s0)
    else if s.size < 1 then .ret (.retn (-1), s0)
    else
      encode_array_bool_loop cb args fuel
        { s0 with mem := wr s.mem s.buffer (if r.1.u % 2 ^ 32 ≠ 0 then 1 else 0),
                  size := s.size - 1, buffer := s.buffer + 1, index := s.index + 1 }

/-- The function `encode_array`; `args.type` is the element kind. -/
def encode_array {σ : Type} (cb : sproto_callback σ) (ud : σ) (args : sproto_arg) (m : Mem)
    (data : Nat) (size : Int) : Outcome (Int × Mem × σ) :=
  if size < SIZEOF_LENGTH then .ret (-1, m, ud)
  else
    let size := size - SIZEOF_LENGTH
    let buffer := data + SIZEOF_LENGTH
    let finish (buffer1 : Nat) (m1 : Mem) (ud1 : σ) : Outcome (Int × Mem × σ) :=
      let fs := fill_size m1 data ((buffer1 : Int) - (data + SIZEOF_LENGTH : Nat))
      .ret (fs.2, fs.1, ud1)
    if args.type = SPROTO_TDOUBLE ∨ args.type = SPROTO_TINTEGER then
      match encode_integer_array cb ud args m buffer size with
      | .outOfFuel => .outOfFuel
      | .assertFailed => .assertFailed
      | .invalidRead => .invalidRead
      | .ret (none, _, m1, ud1) => .ret (-1, m1, ud1)
      | .ret (some b, noarray, m1, ud1) => if noarray then .ret (0, m1, ud1) else finish b m1 ud1
    else if args.type = SPROTO_TBOOLEAN then
      match encode_array_bool_loop cb args (size.toNat + 1)
          { mem := m, ud := ud, buffer := buffer, size := size, index := 1 } with
      | .outOfFuel => .outOfFuel
      | .assertFailed => .assertFailed
      | .invalidRead => .invalidRead
      | .ret (.retn r, s) => .ret (r, s.mem, s.ud)
      | .ret (.brk, s) => finish s.buffer s.mem s.ud
    else
      match encode_array_object cb ud args m buffer size with
      | .outOfFuel => .outOfFuel
      | .assertFailed => .assertFailed
      | .invalidRead => .invalidRead
      | .ret (none, _, m1, ud1) => .ret (-1, m1, ud1)
      | .ret (some b, noarray, m1, ud1) => if noarray then .ret (0, m1, ud1) else finish b m1 ud1

/-- Local variables of the loop of `sproto_encode`; `header` is offset 0. -/
structure EncState (σ : Type) where
  mem : Mem
  ud : σ
  data : Nat
  size : Int
  index : Nat
  lasttag : Int

/-- The name `f->st->f[i].name` read through the pointer `f->st`; `none` when
there is nothing to read: `f->st` is `NULL`, or the type it points to has no
field `i`. -/
def subfieldName (types : List sproto_type) (st : Option Nat) (i : Nat) : Option String :=
  match st with
  | none => none
  | some k => match types[k]? with
    | none => none
    | some t => (t.f[i]?).map (fun fd => fd.name)

/-- Both reads `f->st->f[0].name` and `f->st->f[1].name` that `sproto_encode`
and `sproto_decode` make for an array field with `f->map > 0` have something to
read. Neither function tests `f->st` before. -/
def subfieldsReadable (types : List sproto_type) (st : Option Nat) : Bool :=
  (subfieldName types st 0).isSome && (subfieldName types st 1).isSome

/-- The members of `args` that `sproto_encode` and `sproto_decode` set from the
field `f` before they look at its kind (`value` and `length` are set at each
call). -/
def fieldArgs (f : field) : sproto_arg :=
  { tagname := f.name, tagid := f.tag, type := f.type, subtype := f.st, value := .null,
    length := 0, index := 0, mainindex := f.key, extra := f.extra, ktagname := none,
    vtagname := none }

/-- How one iteration of the loop over the fields ends: the loop goes on with
the new state, or the function returns. -/
inductive FieldExit (σ : Type) where
  | next (s : EncState σ)
  | retn (r : Int) (m : Mem) (ud : σ)

/-- The part `if (sz > 0) { ... }` of the loop body of `sproto_encode`: the
field's tag slot, after a skip slot when tags were skipped. -/
def encode_tag {σ : Type} (f : field) (value : Nat) (sz : Int) (s : EncState σ) : FieldExit σ :=
  if sz < 0 then .retn (-1) s.mem s.ud
  else if sz > 0 then
    let data := if value = 0 then s.data + sz.toNat else s.data
    let size := if value = 0 then s.size - sz else s.size
    let record := SIZEOF_HEADER + SIZEOF_FIELD * s.index
    let tag := f.tag - s.lasttag - 1
    if tag > 0 then
      let tag := (tag - 1) * 2 + 1
      if tag > 0xffff then .retn (-1) s.mem s.ud
      else
        let m1 := wr (wr s.mem record (tag.toNat % 256)) (record + 1) (tag.toNat / 2 ^ 8 % 256)
        let record := record + SIZEOF_FIELD
        let m2 := wr (wr m1 record (value % 256)) (record + 1) (value / 2 ^ 8 % 256)
        .next { s with mem := m2, data := data, size := size, index := s.index + 2,
                       lasttag := f.tag }
    else
      let m2 := wr (wr s.mem record (value % 256)) (record + 1) (value / 2 ^ 8 % 256)
      .next { s with mem := m2, data := data, size := size, index := s.index + 1,
                     lasttag := f.tag }
  else .next s

/-- The body of the loop `for (i=0;i<st->n;i++)` of `sproto_encode` for the
field `f`. -/
def encode_field {σ : Type} (types : List sproto_type) (cb : sproto_callback σ) (f : field)
    (s : EncState σ) : Outcome (FieldExit σ) :=
  let type := f.type
  let args : sproto_arg := fieldArgs f
  if type &&& SPROTO_TARRAY ≠ 0 then
    let args1 := { args with type := type ^^^ (type &&& SPROTO_TARRAY) }
    if f.map > 0 ∧ subfieldsReadable types f.st = false then .invalidRead
    else
      let args2 := if f.map > 0 then
          { args1 with ktagname := subfieldName types f.st 0, vtagname := subfieldName types f.st 1 }
        else args1
      match encode_array cb s.ud args2 s.mem s.data s.size with
      | .outOfFuel => .outOfFuel
      | .assertFailed => .assertFailed
      | .invalidRead => .invalidRead
      | .ret (sz, m1, ud1) => .ret (encode_tag f 0 sz { s with mem := m1, ud := ud1 })
  else if type = SPROTO_TDOUBLE ∨ type = SPROTO_TINTEGER ∨ type = SPROTO_TBOOLEAN then
    let r := cb s.ud { args with length := 8 }
    let s1 := { s with ud := r.2 }
    let sz := r.1.sz
    if sz < 0 then
      if sz = SPROTO_CB_NIL then .ret (.next s1)
      else if sz = SPROTO_CB_NOARRAY then .ret (.retn 0 s1.mem s1.ud)
      else .ret (.retn (-1) s1.mem s1.ud)
    else if sz = SIZEOF_INT32 then
      let u32 := r.1.u % 2 ^ 32
      if u32 < 0x7fff then .ret (encode_tag f ((u32 + 1) * 2) 2 s1)
      else
        let e := encode_integer u32 s.mem s.data s.size
        .ret (encode_tag f 0 e.2 { s1 with mem := e.1 })
    else if sz = SIZEOF_INT64 then
      let e := encode_uint64 (r.1.u % 2 ^ 64) s.mem s.data s.size
      .ret (encode_tag f 0 e.2 { s1 with mem := e.1 })
    else .ret (.retn (-1) s1.mem s1.ud)
  else if type = SPROTO_TSTRUCT ∨ type = SPROTO_TSTRING then
    match encode_object cb s.ud args s.mem s.data s.size with
    | .outOfFuel => .outOfFuel
    | .assertFailed => .assertFailed
    | .invalidRead => .invalidRead
    | .ret (sz, m1, ud1) => .ret (encode_tag f 0 sz { s with mem := m1, ud := ud1 })
  else .ret (encode_tag f 0 (-1) s)

/-- The loop `for (i=0;i<st->n;i++)` of `sproto_encode` over the fields. -/
def encode_fields {σ : Type} (types : List sproto_type) (cb : sproto_callback σ) :
    List field → EncState σ → Outcome (FieldExit σ)
  | [], s => .ret (.next s)
  | f :: fs, s =>
    match encode_field types cb f s with
    | .outOfFuel => .outOfFuel
    | .assertFailed => .assertFailed
    | .invalidRead => .invalidRead
    | .ret (.retn r m ud) => .ret (.retn r m ud)
    | .ret (.next s1) => encode_fields types cb fs s1

/-- The function `sproto_encode(st, buffer, size, cb, ud)`; `types` is the array
of types of the schema (read through `f->st`). Returns the returned `int`, the
buffer and the user data. -/
def sproto_encode {σ : Type} (types : List sproto_type) (st : sproto_type) (buffer : Mem)
    (size : Int) (cb : sproto_callback σ) (ud : σ) : Outcome (Int × Mem × σ) :=
  let header_sz := SIZEOF_HEADER + st.maxn * SIZEOF_FIELD
  if size < header_sz then .ret (-1, buffer, ud)
  else
    match encode_fields types cb st.f
        { mem := buffer, ud := ud, data := header_sz, size := size - header_sz, index := 0,
          lasttag := -1 } with
    | .outOfFuel => .outOfFuel
    | .assertFailed => .assertFailed
    | .invalidRead => .invalidRead
    | .ret (.retn r m ud1) => .ret (r, m, ud1)
    | .ret (.next s) =>
      let m1 := wr (wr s.mem 0 (s.index % 256)) 1 (s.index / 2 ^ 8 % 256)
      let datasz := s.data - header_sz
      let m2 := if s.index ≠ st.maxn then
          memcpy m1 (SIZEOF_HEADER + s.index * SIZEOF_FIELD) (readN m1 header_sz datasz)
        else m1
      .ret ((SIZEOF_HEADER + s.index * SIZEOF_FIELD + datasz : Nat), m2, s.ud)

/-! ## Decoder -/

/-- The function `expand64`. -/
def expand64 (v : Nat) : Nat :=
  if v &&& 0x80000000 ≠ 0 then v ||| (0xffffffff <<< 32) else v

/-- The call `cb(args)` of the decoder: the returned `int` and the user data. -/
def callcb {σ : Type} (cb : sproto_callback σ) (ud : σ) (args : sproto_arg) : Int × σ :=
  ((cb ud args).1.sz, (cb ud args).2)

/-- The function `decode_empty_array`. -/
def decode_empty_array {σ : Type} (cb : sproto_callback σ) (ud : σ) (args : sproto_arg) :
    Int × σ :=
  callcb cb ud { args with index := -1, value := .null, length := 0 }

/-- The loop `while (sz > 0)` of `decode_array_object`; `stream` is an offset
into the payload `p`. Every iteration takes at least 4 from `sz`. -/
def decode_array_object_loop {σ : Type} (cb : sproto_callback σ) (args : sproto_arg)
    (p : List Nat) : Nat → σ → Nat → Int → Nat → Outcome (Int × σ)
  | 0, _, _, _, _ => .outOfFuel
  | fuel + 1, ud, stream, sz, index =>
    if sz > 0 then
      if sz < SIZEOF_LENGTH then .ret (-1, ud)
      else
        let hsz := todword p stream
        let stream := stream + SIZEOF_LENGTH
        let sz := sz - SIZEOF_LENGTH
        if hsz > toU32 sz then .ret (-1, ud)
        else
          let r := callcb cb ud
            { args with index := index, value := .bytes ((p.drop stream).take hsz), length := hsz }
          if r.1 ≠ 0 then .ret (-1, r.2)
          else decode_array_object_loop cb args p fuel r.2 (stream + hsz) (sz - hsz) (index + 1)
    else .ret (0, ud)

/-- The function `decode_array_object`; `sz` is the `uint32_t` argument received
as an `int`. -/
def decode_array_object {σ : Type} (cb : sproto_callback σ) (ud : σ) (args : sproto_arg)
    (p : List Nat) (stream : Nat) (sz : Int) : Outcome (Int × σ) :=
  decode_array_object_loop cb args p (sz.toNat + 1) ud stream sz 1

/-- A loop `for (i=0;i<count;i++)` of `decode_array` that calls the callback
with the value `val i` and ignores what it returns: `k` iterations from `i`. -/
def decode_array_each {σ : Type} (cb : sproto_callback σ) (args : sproto_arg) (val : Nat → Nat) :
    Nat → Nat → σ → σ
  | 0, _, ud => ud
  | k + 1, i, ud =>
    let r := callcb cb ud { args with index := (i : Int) + 1, value := .u64 (val i), length := 8 }
    decode_array_each cb args val k (i + 1) r.2

/-- An `int` holding the `uint32_t` value `v`. -/
def u32ToInt (v : Nat) : Int := if v < 2 ^ 31 then v else (v : Int) - 2 ^ 32

/-- The function `decode_array`; `stream` is an offset into the payload `p`. -/
def decode_array {σ : Type} (cb : sproto_callback σ) (ud : σ) (args : sproto_arg)
    (p : List Nat) (stream : Nat) : Outcome (Int × σ) :=
  let sz := todword p stream
  let type := args.type
  if sz = 0 then .ret (decode_empty_array cb ud args)
  else
    let stream := stream + SIZEOF_LENGTH
    if type = SPROTO_TDOUBLE ∨ type = SPROTO_TINTEGER then
      let sz := sz - 1
      if sz = 0 then .ret (decode_empty_array cb ud args)
      else
        let len := rd p stream
        let stream := stream + 1
        if len = SIZEOF_INT32 then
          if sz % SIZEOF_INT32 ≠ 0 then .ret (-1, ud)
          else .ret (0, decode_array_each cb args
            (fun i => expand64 (todword p (stream + i * SIZEOF_INT32))) (sz / SIZEOF_INT32) 0 ud)
        else if len = SIZEOF_INT64 then
          if sz % SIZEOF_INT64 ≠ 0 then .ret (-1, ud)
          else .ret (0, decode_array_each cb args
            (fun i => todword p (stream + i * SIZEOF_INT64)
              ||| (todword p (stream + i * SIZEOF_INT64 + SIZEOF_INT32) <<< 32))
            (sz / SIZEOF_INT64) 0 ud)
        else .ret (-1, ud)
    else if type = SPROTO_TBOOLEAN then
      .ret (0, decode_array_each cb args (fun i => rd p (stream + i)) sz 0 ud)
    else if type = SPROTO_TSTRING ∨ type = SPROTO_TSTRUCT then
      decode_array_object cb ud args p stream (u32ToInt sz)
    else .ret (-1, ud)

/-- Local variables of the loop of `sproto_decode`; `datastream` is an offset
into the payload. -/
structure DecState (σ : Type) where
  ud : σ
  datastream : Nat
  size : Int
  tag : Int

/-- How one iteration of the loop of `sproto_decode` ends. -/
inductive DecExit (σ : Type) where
  | next (s : DecState σ)
  | retn (r : Int) (ud : σ)

/-- The body of the loop `for (i=0;i<fn;i++)` of `sproto_decode` for the header
slot `value = toword(stream + i * SIZEOF_FIELD)`. -/
def decode_slot {σ : Type} (types : List sproto_type) (st : sproto_type) (p : List Nat)
    (cb : sproto_callback σ) (value0 : Nat) (s : DecState σ) : Outcome (DecExit σ) :=
  let tag := s.tag + 1
  if value0 &&& 1 ≠ 0 then .ret (.next { s with tag := tag + (value0 / 2 : Nat) })
  else
    let value : Int := (value0 / 2 : Nat) - 1
    let currentdata := s.datastream
    let adv : Option (Nat × Int) :=
      if value < 0 then
        if s.size < SIZEOF_LENGTH then none
        else
          let sz := todword p s.datastream
          if toU32 s.size < (sz + SIZEOF_LENGTH) % 2 ^ 32 then none
          else some (s.datastream + (sz + SIZEOF_LENGTH) % 2 ^ 32,
                     u32ToInt ((toU32 s.size + 2 ^ 32 - (sz + SIZEOF_LENGTH) % 2 ^ 32) % 2 ^ 32))
      else some (s.datastream, s.size)
    match adv with
    | none => .ret (.retn (-1) s.ud)
    | some (datastream, size) =>
      let s1 : DecState σ := { s with tag := tag, datastream := datastream, size := size }
      match findtag st tag with
      | none => .ret (.next s1)
      | some f =>
        let args : sproto_arg := fieldArgs f
        if value < 0 then
          if f.type &&& SPROTO_TARRAY ≠ 0 then
            let args1 := { args with type := f.type ^^^ (f.type &&& SPROTO_TARRAY) }
            if f.map > 0 ∧ subfieldsReadable types f.st = false then .invalidRead
            else
              let args2 := if f.map > 0 then
                  { args1 with ktagname := subfieldName types f.st 0, vtagname := subfieldName types f.st 1 }
                else args1
              match decode_array cb s.ud args2 p currentdata with
              | .outOfFuel => .outOfFuel
              | .assertFailed => .assertFailed
              | .invalidRead => .invalidRead
              | .ret (r, ud1) =>
                if r ≠ 0 then .ret (.retn (-1) ud1) else .ret (.next { s1 with ud := ud1 })
          else if f.type = SPROTO_TDOUBLE ∨ f.type = SPROTO_TINTEGER then
            let sz := todword p currentdata
            if sz = SIZEOF_INT32 then
              let v := expand64 (todword p (currentdata + SIZEOF_LENGTH))
              let r := callcb cb s.ud { args with value := .u64 v, length := 8 }
              .ret (.next { s1 with ud := r.2 })
            else if sz ≠ SIZEOF_INT64 then .ret (.retn (-1) s.ud)
            else
              let low := todword p (currentdata + SIZEOF_LENGTH)
              let hi := todword p (currentdata + SIZEOF_LENGTH + SIZEOF_INT32)
              let v := low ||| (hi <<< 32)
              let r := callcb cb s.ud { args with value := .u64 v, length := 8 }
              .ret (.next { s1 with ud := r.2 })
          else if f.type = SPROTO_TSTRING ∨ f.type = SPROTO_TSTRUCT then
            let sz := todword p currentdata
            let r := callcb cb s.ud
              { args with value := .bytes ((p.drop (currentdata + SIZEOF_LENGTH)).take sz),
                          length := u32ToInt sz }
            if r.1 ≠ 0 then .ret (.retn (-1) r.2) else .ret (.next { s1 with ud := r.2 })
          else .ret (.retn (-1) s.ud)
        else if f.type ≠ SPROTO_TINTEGER ∧ f.type ≠ SPROTO_TBOOLEAN then .ret (.retn (-1) s.ud)
        else
          let r := callcb cb s.ud { args with value := .u64 (value % 2 ^ 64).toNat, length := 8 }
          .ret (.next { s1 with ud := r.2 })

/-- The loop `for (i=0;i<fn;i++)` of `sproto_decode`: `k` iterations from slot
`i`; the header slots start at offset `SIZEOF_HEADER` of the payload. -/
def decode_slots {σ : Type} (types : List sproto_type) (st : sproto_type) (p : List Nat)
    (cb : sproto_callback σ) : Nat → Nat → DecState σ → Outcome (DecExit σ)
  | 0, _, s => .ret (.next s)
  | k + 1, i, s =>
    match decode_slot types st p cb (toword p (SIZEOF_HEADER + i * SIZEOF_FIELD)) s with
    | .outOfFuel => .outOfFuel
    | .assertFailed => .assertFailed
    | .invalidRead => .invalidRead
    | .ret (.retn r ud) => .ret (.retn r ud)
    | .ret (.next s1) => decode_slots types st p cb k (i + 1) s1

/-- The function `sproto_decode(st, data, size, cb, ud)`; `p` holds the bytes at
`data`. Returns the returned `int` and the user data. -/
def sproto_decode {σ : Type} (types : List sproto_type) (st : sproto_type) (p : List Nat)
    (size : Int) (cb : sproto_callback σ) (ud : σ) : Outcome (Int × σ) :=
  let total := size
  if size < SIZEOF_HEADER then .ret (-1, ud)
  else
    let fn := toword p 0
    let size := size - SIZEOF_HEADER
    if size < fn * SIZEOF_FIELD then .ret (-1, ud)
    else
      let datastream := SIZEOF_HEADER + fn * SIZEOF_FIELD
      let size := size - fn * SIZEOF_FIELD
      match decode_slots types st p cb fn 0
          { ud := ud, datastream := datastream, size := size, tag := -1 } with
      | .outOfFuel => .outOfFuel
      | .assertFailed => .assertFailed
      | .invalidRead => .invalidRead
      | .ret (.retn r ud1) => .ret (r, ud1)
      | .ret (.next s) => .ret (total - s.size, s.ud)

/-! ## Results of a call, for statements -/

/-- The result of a call under a function, when it returned. -/
def Outcome.map {α β : Type} (g : α → β) : Outcome α → Outcome β
  | .ret a => .ret (g a)
  | .assertFailed => .assertFailed
  | .invalidRead => .invalidRead
  | .outOfFuel => .outOfFuel

/-! ## Types as `import_type` builds them -/

/-- The check `if (tag <= last) return NULL` of `import_type` over the fields,
from `last`. -/
def import_tags_ok : List field → Int → Bool
  | [], _ => true
  | f :: fs, last => decide (f.tag > last) && import_tags_ok fs f.tag

/-- The value of `maxn` after the loop of `import_type` over the fields, from
`last` and `maxn`. -/
def import_maxn : List field → Int → Nat → Nat
  | [], _, maxn => maxn
  | f :: fs, last, maxn => import_maxn fs f.tag (if f.tag > last + 1 then maxn + 1 else maxn)

/-- The value `import_type` gives `base` for a non-empty array of fields. -/
def import_base (f0 flast : field) (n : Nat) : Int :=
  if flast.tag - f0.tag + 1 ≠ n then -1 else f0.tag

/-- The kinds `import_field` gives a field: one of the five kinds, with or
without the array flag. -/
def validKind (t : Nat) : Prop :=
  t = SPROTO_TINTEGER ∨ t = SPROTO_TBOOLEAN ∨ t = SPROTO_TSTRING ∨ t = SPROTO_TDOUBLE ∨
  t = SPROTO_TSTRUCT ∨ t = SPROTO_TINTEGER + SPROTO_TARRAY ∨ t = SPROTO_TBOOLEAN + SPROTO_TARRAY ∨
  t = SPROTO_TSTRING + SPROTO_TARRAY ∨ t = SPROTO_TDOUBLE + SPROTO_TARRAY ∨
  t = SPROTO_TSTRUCT + SPROTO_TARRAY

instance (t : Nat) : Decidable (validKind t) := by unfold validKind; infer_instance

/-- A type as `import_type` leaves it: tags strictly ascending from above `-1`
(a tag is an inline header value, at most 32766), `maxn` and `base` as computed
there, kinds as `import_field` sets them. -/
structure LoadedType (st : sproto_type) : Prop where
  ascending : import_tags_ok st.f (-1) = true
  tag_le : ∀ f ∈ st.f, f.tag ≤ 32766
  kind : ∀ f ∈ st.f, validKind f.type
  maxn_eq : st.maxn = import_maxn st.f (-1) st.f.length
  base_eq : st.base = match st.f.head?, st.f.getLast? with
    | some f0, some flast => import_base f0 flast st.f.length
    | _, _ => st.base

/-- The field `f`, when it is an array with `map > 0`, has a subtype with the
two fields whose names `sproto_encode` and `sproto_decode` read. `import_field`
sets `map` without looking at the kind of the field, so a field of a loaded
type need not be so. -/
def mapReadable (types : List sproto_type) (f : field) : Prop :=
  f.type &&& SPROTO_TARRAY ≠ 0 → f.map > 0 → subfieldsReadable types f.st = true

instance (types : List sproto_type) (f : field) : Decidable (mapReadable types f) := by
  unfold mapReadable; infer_instance

/-- Every field among `fs` is `mapReadable`. -/
def mapFieldsReadable (types : List sproto_type) (fs : List field) : Prop :=
  ∀ f ∈ fs, mapReadable types f

instance (types : List sproto_type) (fs : List field) :
    Decidable (mapFieldsReadable types fs) := by
  unfold mapFieldsReadable; infer_instance

/-! ## A host message and its callbacks -/

/-- A value of a host message. -/
inductive HostValue where
  | int (v : Int)
  | bool (b : Bool)
  | str (s : List Nat)
deriving DecidableEq, Repr

/-- What the encode callback of a host does for a scalar value: an integer as 4
bytes when it fits in a signed 32-bit value and as 8 bytes otherwise, a boolean
as the 4-byte value 0 or 1, a string as its bytes when they fit in `length`. -/
def hostValueOut (v : HostValue) (length : Int) : CbOut :=
  match v with
  | .int x =>
    if -2 ^ 31 ≤ x ∧ x < 2 ^ 31 then { sz := 4, u := (x % 2 ^ 32).toNat, bytes := [] }
    else { sz := 8, u := (x % 2 ^ 64).toNat, bytes := [] }
  | .bool b => { sz := 4, u := if b then 1 else 0, bytes := [] }
  | .str s =>
    if (s.length : Int) ≤ length then { sz := s.length, u := 0, bytes := s }
    else { sz := SPROTO_CB_ERROR, u := 0, bytes := [] }

/-- The encode callback for the message `msg` (tag ↦ value) that returns `NIL`
for every absent field, array fields included. -/
def hostEncodeNil (msg : Int → Option HostValue) : sproto_callback Unit :=
  fun ud args =>
    if args.index > 0 then ({ sz := SPROTO_CB_NIL, u := 0, bytes := [] }, ud)
    else match msg args.tagid with
      | none => ({ sz := SPROTO_CB_NIL, u := 0, bytes := [] }, ud)
      | some v => (hostValueOut v args.length, ud)

/-- The encode callback for the message `msg` (tag ↦ value) that returns `NIL`
for an absent non-array field and `NOARRAY` for an array field (the message has
no arrays). -/
def hostEncode (msg : Int → Option HostValue) : sproto_callback Unit :=
  fun ud args =>
    if args.index > 0 then ({ sz := SPROTO_CB_NOARRAY, u := 0, bytes := [] }, ud)
    else match msg args.tagid with
      | none => ({ sz := SPROTO_CB_NIL, u := 0, bytes := [] }, ud)
      | some v => (hostValueOut v args.length, ud)

/-- The decode callback that records every call and returns 0. -/
def recordCb : sproto_callback (List sproto_arg) :=
  fun ud args => ({ sz := 0, u := 0, bytes := [] }, ud ++ [args])

/-- The call the decoder makes for the field `f` holding `v`: integers and
booleans as 64-bit values, a string as its bytes. -/
def hostEvent (f : field) (v : HostValue) : sproto_arg :=
  match v with
  | .int x => { fieldArgs f with value := .u64 (x % 2 ^ 64).toNat, length := 8 }
  | .bool b => { fieldArgs f with value := .u64 (if b then 1 else 0), length := 8 }
  | .str s => { fieldArgs f with value := .bytes s, length := s.length }

/-- The values of a message fit the kinds of the fields they are assigned to:
non-array integer (a signed 64-bit value), boolean, or string. -/
def hostFits (f : field) (v : HostValue) : Prop :=
  match v with
  | .int x => f.type = SPROTO_TINTEGER ∧ -2 ^ 63 ≤ x ∧ x < 2 ^ 63
  | .bool _ => f.type = SPROTO_TBOOLEAN
  | .str _ => f.type = SPROTO_TSTRING

/-- The body bytes the encoder writes for a value (none for an inline one). -/
def hostBody (v : HostValue) : List Nat :=
  match v with
  | .int x =>
    if -2 ^ 31 ≤ x ∧ x < 2 ^ 31 then
      (if (x % 2 ^ 32).toNat < 0x7fff then [] else le32 4 ++ le32 (x % 2 ^ 32).toNat)
    else le32 8 ++ le64 (x % 2 ^ 64).toNat
  | .bool _ => []
  | .str s => le32 s.length ++ s

/-- The number of body bytes of a message over the fields `fs`. -/
def hostBodyLen (msg : Int → Option HostValue) : List field → Nat
  | [] => 0
  | f :: fs => (match msg f.tag with | none => 0 | some v => (hostBody v).length)
                + hostBodyLen msg fs

/-- The calls the decoder is to make for a message over the fields `fs`. -/
def hostEvents (msg : Int → Option HostValue) (fs : List field) : List sproto_arg :=
  fs.filterMap (fun f => (msg f.tag).map (hostEvent f))

/-- The header slot the encoder writes for a present value: `(v + 1) * 2` for a
value encoded inline, 0 for a value that is in the body. -/
def hostSlot (v : HostValue) : Nat :=
  match v with
  | .int x =>
    if -2 ^ 31 ≤ x ∧ x < 2 ^ 31 then
      (if (x % 2 ^ 32).toNat < 0x7fff then ((x % 2 ^ 32).toNat + 1) * 2 else 0)
    else 0
  | .bool b => ((if b then 1 else 0) + 1) * 2
  | .str _ => 0

/-- The header slots of a field that is emitted with the slot `value`, `last`
being the tag of the last field written: a skip slot `(gap - 2) * 2 + 1` first
when the tag is more than one above `last`. -/
def tagSlots (f : field) (last : Int) (value : Nat) : List Nat :=
  (if f.tag - last - 1 > 0 then [((f.tag - last - 1 - 1) * 2 + 1).toNat] else []) ++ [value]

/-- The header slots of a message over the fields `fs`, `last` being the tag
of the last field written. -/
def hostSlots (msg : Int → Option HostValue) : Int → List field → List Nat
  | _, [] => []
  | last, f :: fs =>
    match msg f.tag with
    | none => hostSlots msg last fs
    | some v => tagSlots f last (hostSlot v) ++ hostSlots msg f.tag fs

/-- The body bytes of a message over the fields `fs`. -/
def hostBytes (msg : Int → Option HostValue) (fs : List field) : List Nat :=
  fs.flatMap (fun f => match msg f.tag with | none => [] | some v => hostBody v)

/-- The bytes of 16-bit header slots, little-endian. -/
def slotBytes (vs : List Nat) : List Nat := vs.flatMap (fun v => [v % 256, v / 2 ^ 8 % 256])

/-- The encoding of a message over the fields `fs`: the number of slots, the
slots, the body. -/
def hostWire (msg : Int → Option HostValue) (fs : List field) : List Nat :=
  [(hostSlots msg (-1) fs).length % 256, (hostSlots msg (-1) fs).length / 2 ^ 8 % 256]
    ++ slotBytes (hostSlots msg (-1) fs) ++ hostBytes msg fs

/-- The number of header slots a message that assigns every field of `fs` takes,
`last` being the tag before: one per field and one more per gap. -/
def slotsOf : Int → List field → Nat
  | _, [] => 0
  | last, f :: fs => (if f.tag > last + 1 then 2 else 1) + slotsOf f.tag fs

/-- The encode callback that gives the integers `xs` element by element: 4
bytes when the element fits in a signed 32-bit value, 8 bytes otherwise, `NIL`
after the last. -/
def listEncode (xs : List Int) : sproto_callback Unit :=
  fun ud args =>
    match xs[(args.index - 1).toNat]? with
    | none => ({ sz := SPROTO_CB_NIL, u := 0, bytes := [] }, ud)
    | some x =>
      if args.index < 1 then ({ sz := SPROTO_CB_NIL, u := 0, bytes := [] }, ud)
      else (hostValueOut (.int x) args.length, ud)

/-- The calls the decoder makes for the elements `xs` of an integer array, from
index `i + 1`. -/
def arrayEvents (args : sproto_arg) : Nat → List Int → List sproto_arg
  | _, [] => []
  | i, x :: xs =>
    { args with index := (i : Int) + 1, value := .u64 (x % 2 ^ 64).toNat, length := 8 }
      :: arrayEvents args (i + 1) xs

/-- The integer fits in a signed 32-bit value. -/
def fits32 (x : Int) : Prop := -2 ^ 31 ≤ x ∧ x < 2 ^ 31

instance (x : Int) : Decidable (fits32 x) := by unfold fits32; infer_instance

/-- The 4 little-endian two's-complement bytes of an integer. -/
def int32Bytes (x : Int) : List Nat := le32 (x % 2 ^ 32).toNat

/-- The 8 little-endian two's-complement bytes of an integer (of its sign
extension to 64 bits). -/
def int64Bytes (x : Int) : List Nat := le64 (x % 2 ^ 64).toNat

/-- The body of an integer array after its length prefix: the width byte and
the elements at that width, 4 when every element fits in 32 bits and 8
otherwise. -/
def intArrayBody (xs : List Int) : List Nat :=
  if ∀ x ∈ xs, fits32 x then 4 :: xs.flatMap int32Bytes else 8 :: xs.flatMap int64Bytes

/-! ## The schemas of the scenarios -/

/-- A non-array integer field `name tag : integer` as `import_field` builds
it. -/
def integerField (name : String) (tag : Int) : field :=
  { tag := tag, type := SPROTO_TINTEGER, name := name, st := none, key := -1, map := -1,
    extra := 0 }

/-- The type `Foo { a 0 : integer }`. -/
def fooA : sproto_type := { name := "Foo", base := 0, maxn := 1, f := [integerField "a" 0] }

/-- The type `Foo { a 0 : integer, c 3 : integer }`. -/
def fooAC : sproto_type :=
  { name := "Foo", base := -1, maxn := 3, f := [integerField "a" 0, integerField "c" 3] }

/-- The type `Foo { a 0 : *integer }`. -/
def fooArr : sproto_type :=
  { name := "Foo", base := 0, maxn := 1,
    f := [{ integerField "a" 0 with type := SPROTO_TINTEGER + SPROTO_TARRAY }] }

/-- The type `Foo { a 0 : *integer }` with the map flag on `a`, as `import_field`
leaves it: `map = 1`, and `st = NULL` since `a` is not a struct. -/
def fooMapArr : sproto_type :=
  { name := "Foo", base := 0, maxn := 1,
    f := [{ integerField "a" 0 with type := SPROTO_TINTEGER + SPROTO_TARRAY, map := 1 }] }

/-- The message `a = x`. -/
def msgA (x : Int) : Int → Option HostValue := fun t => if t = 0 then some (.int x) else none

/-- The message `a = x, c = y`. -/
def msgAC (x y : Int) : Int → Option HostValue :=
  fun t => if t = 0 then some (.int x) else if t = 3 then some (.int y) else none

/-- The empty message. -/
def msgNone : Int → Option HostValue := fun _ => none

/-- The returned `int` and the first `k` bytes of the buffer of an encoder
call. -/
def encoded {σ : Type} (k : Nat) (r : Outcome (Int × Mem × σ)) : Outcome (Int × List Nat) :=
  r.map (fun x => (x.1, readN x.2.1 0 k))


/-! ## The records of a packed stream, as the specification describes them -/

/-- The number of set bits of a mask header (bits 0 to 7). -/
def maskBits (h : Nat) : Nat := ((List.range 8).filter (fun i => h.testBit i)).length

/-- The size a packed stream unpacks to according to the specification's
description of the records: an FF header is followed by a count byte `m` and
`8 * (m + 1)` raw bytes and gives `8 * (m + 1)` output bytes; any other header
is a mask followed by one byte per set bit and gives 8 output bytes. The
result is `none` when the stream ends inside a record. Every record has at
least one byte, so `fuel > length` records are enough
(`recordsSize_fuel`). -/
def recordsSize : Nat → List Nat → Option Nat
  | 0, _ => none
  | _ + 1, [] => some 0
  | fuel + 1, h :: rest =>
    if h = 0xff then
      match rest with
      | [] => none
      | m :: body =>
        if body.length < 8 * (m + 1) then none
        else (recordsSize fuel (body.drop (8 * (m + 1)))).map (fun n => 8 * (m + 1) + n)
    else if rest.length < maskBits h then none
    else (recordsSize fuel (rest.drop (maskBits h))).map (fun n => 8 + n)

/-- The events of the decoder for which `sproto_decode` looks at the value the
callback returns: the events of string and struct fields (a non-array field or
an element of an array) and the event of an empty array (index -1). -/
def abortsOnError (a : sproto_arg) : Prop :=
  a.type = SPROTO_TSTRING ∨ a.type = SPROTO_TSTRUCT ∨ a.index = -1

instance (a : sproto_arg) : Decidable (abortsOnError a) := by
  unfold abortsOnError; infer_instance

/-- A log of callback calls, each with the value returned, in which every event
that `sproto_decode` checks was answered by 0. -/
def quietLog (l : List (sproto_arg × Int)) : Prop := ∀ e ∈ l, abortsOnError e.1 → e.2 = 0

/-- The decode callback that records every call and always reports an error
(`SPROTO_CB_ERROR`). -/
def rejectCb : sproto_callback (List (sproto_arg × Int)) :=
  fun ud args => ({ sz := SPROTO_CB_ERROR, u := 0, bytes := [] }, ud ++ [(args, SPROTO_CB_ERROR)])

/-- The type `Foo { s 0 : string }`. -/
def fooS : sproto_type :=
  { name := "Foo", base := 0, maxn := 1,
    f := [{ integerField "s" 0 with type := SPROTO_TSTRING }] }


/-! ## Schema loader

The blob is the list of its bytes and the C pointers into it are offsets; a
byte beyond its end reads as 0. The allocations of the memory pool are taken to
succeed. -/

/-- The C `struct protocol`; `request` and `response` are the indices of the
types that `p[SPROTO_REQUEST]` and `p[SPROTO_RESPONSE]` address (`none` is
`NULL`). -/
structure protocol where
  name : String
  tag : Int
  confirm : Int
  request : Option Nat
  response : Option Nat
deriving DecidableEq, Repr

/-- The C `struct sproto` without its memory pool: the arrays `type` and
`proto`. -/
structure sproto where
  type : List sproto_type
  proto : List protocol
deriving DecidableEq, Repr

/-- The loop `while (length > 0)` of `count_array`; `length` and `nsz` are
`uint32_t`. The fuel runs out only when the loop does not end. -/
def count_array_loop (p : List Nat) : Nat → Nat → Nat → Nat → Outcome Int
  | 0, _, _, _ => .outOfFuel
  | fuel + 1, stream, length, n =>
    if length > 0 then
      if length < SIZEOF_LENGTH then .ret (-1)
      else
        let nsz := (todword p stream + SIZEOF_LENGTH) % 2 ^ 32
        if nsz > length then .ret (-1)
        else count_array_loop p fuel (stream + nsz) (length - nsz) (n + 1)
    else .ret n

/-- The function `count_array`. An iteration that takes at least one byte from
`length` leaves at most `length` iterations. -/
def count_array (p : List Nat) (stream : Nat) : Outcome Int :=
  count_array_loop p (todword p stream + 1) (stream + SIZEOF_LENGTH) (todword p stream) 0

/-- The loop `for (i=0;i<fn;i++)` of `struct_field`, `k` iterations from `i`;
`false` is `return -1`. The sum `SIZEOF_LENGTH + dsz` is an `uint32_t`. -/
def struct_field_loop (p : List Nat) (field : Nat) : Nat → Nat → Nat → Nat → Bool
  | 0, _, _, _ => true
  | k + 1, i, stream, sz =>
    if toword p (field + i * SIZEOF_FIELD) ≠ 0 then struct_field_loop p field k (i + 1) stream sz
    else if sz < SIZEOF_LENGTH then false
    else
      let dsz := todword p stream
      if sz < (SIZEOF_LENGTH + dsz) % 2 ^ 32 then false
      else struct_field_loop p field k (i + 1) (stream + (SIZEOF_LENGTH + dsz) % 2 ^ 32)
        (sz - (SIZEOF_LENGTH + dsz) % 2 ^ 32)

/-- The function `struct_field(stream, sz)`. -/
def struct_field (p : List Nat) (stream sz : Nat) : Int :=
  if sz < SIZEOF_LENGTH then -1
  else
    let fn := toword p stream
    let header := SIZEOF_HEADER + SIZEOF_FIELD * fn
    if sz < header then -1
    else if struct_field_loop p (stream + SIZEOF_HEADER) fn 0 (stream + header) (sz - header)
      then fn
      else -1

/-- The function `import_string`: the C string it builds, the bytes of the
entry before the first NUL. -/
def import_string (p : List Nat) (stream : Nat) : String :=
  String.mk ((((p.drop (stream + SIZEOF_LENGTH)).take (todword p stream)).takeWhile
    (fun b => b ≠ 0)).map Char.ofNat)

/-- The product of two `int`s as the machine computes it: the low 32 bits of
the exact product read as a signed value, which is the exact product when that
fits in an `int`. -/
def mul_int (a b : Int) : Int := (a * b + 2 ^ 31) % 2 ^ 32 - 2 ^ 31

/-- The function `calc_pow`, `fuel` calls deep; `base * base` and `r *= base`
are `int` products (`mul_int`), so the result wraps from `10^10` on. -/
def calc_pow_fuel : Nat → Int → Nat → Int
  | 0, _, _ => 1
  | fuel + 1, base, n =>
    if n = 0 then 1
    else
      let r := calc_pow_fuel fuel (mul_int base base) (n / 2)
      if n &&& 1 ≠ 0 then mul_int r base else r

/-- The function `calc_pow`; `n` halves at every call. -/
def calc_pow (base : Int) (n : Nat) : Int := calc_pow_fuel (n + 1) base n

/-- Local variables of `import_field` and the members of `*f`: `type` is an
`int` that is -1 until it is set, `name` is `none` while it is `NULL`. -/
structure FieldImport where
  tag : Int
  ftag : Int
  ftype : Int
  name : Option String
  st : Option Nat
  key : Int
  map : Int
  extra : Int
  array : Nat
deriving DecidableEq, Repr

/-- The body of the loop of `import_field` for the header slot `value`;
`nameoff` is `stream + fn * SIZEOF_FIELD`; `none` is `return NULL`. -/
def import_field_slot (type_n : Nat) (p : List Nat) (nameoff : Nat) (value : Nat)
    (s : FieldImport) : Option FieldImport :=
  let tag := s.tag + 1
  if value &&& 1 ≠ 0 then some { s with tag := tag + (value / 2 : Nat) }
  else if tag = 0 then
    if value ≠ 0 then none
    else some { s with tag := tag, name := some (import_string p nameoff) }
  else if value = 0 then none
  else
    let v : Int := (value / 2 : Nat) - 1
    if tag = 1 then
      if v ≥ SPROTO_TSTRUCT then none else some { s with tag := tag, ftype := v }
    else if tag = 2 then
      if s.ftype = SPROTO_TINTEGER then some { s with tag := tag, extra := calc_pow 10 v.toNat }
      else if s.ftype = SPROTO_TSTRING then some { s with tag := tag, extra := v }
      else if v ≥ type_n then none
      else if s.ftype ≥ 0 then none
      else some { s with tag := tag, ftype := SPROTO_TSTRUCT, st := some v.toNat }
    else if tag = 3 then some { s with tag := tag, ftag := v }
    else if tag = 4 then
      some { s with tag := tag, array := if v ≠ 0 then SPROTO_TARRAY else s.array }
    else if tag = 5 then some { s with tag := tag, key := v }
    else if tag = 6 then some { s with tag := tag, map := if v ≠ 0 then 1 else s.map }
    else none

/-- The loop `for (i=0;i<fn;i++)` of `import_field`, `k` iterations from `i`;
`stream` addresses the header slots. -/
def import_field_loop (type_n : Nat) (p : List Nat) (stream fn : Nat) :
    Nat → Nat → FieldImport → Option FieldImport
  | 0, _, s => some s
  | k + 1, i, s =>
    match import_field_slot type_n p (stream + fn * SIZEOF_FIELD)
        (toword p (stream + SIZEOF_FIELD * i)) s with
    | none => none
    | some s1 => import_field_loop type_n p stream fn k (i + 1) s1

/-- The function `import_field`: the field and the returned pointer `result`,
or `none` for `NULL`; `type_n` is `s->type_n`. -/
def import_field (type_n : Nat) (p : List Nat) (stream : Nat) : Option (field × Nat) :=
  let sz := todword p stream
  let stream1 := stream + SIZEOF_LENGTH
  let result := stream1 + sz
  let fn := struct_field p stream1 sz
  if fn < 0 then none
  else
    match import_field_loop type_n p (stream1 + SIZEOF_HEADER) fn.toNat fn.toNat 0
        { tag := -1, ftag := -1, ftype := -1, name := none, st := none, key := -1, map := -1,
          extra := 0, array := 0 } with
    | none => none
    | some s =>
      if s.ftag < 0 ∨ s.ftype < 0 ∨ s.name = none then none
      else some ({ tag := s.ftag, type := s.ftype.toNat ||| s.array, name := s.name.getD "",
                   st := s.st, key := s.key, map := s.map, extra := s.extra }, result)

/-- The loop `for (i=0;i<n;i++)` of `import_type` over the field records, `k`
iterations: the fields and the final `maxn`, or `none` for `return NULL`. -/
def import_fields (type_n : Nat) (p : List Nat) : Nat → Nat → Int → Nat → Option (List field × Nat)
  | 0, _, _, maxn => some ([], maxn)
  | k + 1, stream, last, maxn =>
    match import_field type_n p stream with
    | none => none
    | some (f, next) =>
      if f.tag ≤ last then none
      else
        match import_fields type_n p k next f.tag (if f.tag > last + 1 then maxn + 1 else maxn) with
        | none => none
        | some (fs, m) => some (f :: fs, m)

/-- The loop `for (i=0;i<fn*SIZEOF_FIELD;i+=SIZEOF_FIELD)` of `import_type`:
every header slot is 0. -/
def type_slots_zero (p : List Nat) (stream : Nat) : Nat → Nat → Bool
  | 0, _ => true
  | k + 1, i =>
    if toword p (stream + SIZEOF_HEADER + i) ≠ 0 then false
    else type_slots_zero p stream k (i + SIZEOF_FIELD)

/-- The function `import_type`: the type and the returned pointer `result`, or
`none` for `NULL`. With `n = 0` the reads `t->f[0].tag` and `t->f[n-1].tag`
are outside the array of fields; `junk` stands for what they give. -/
def import_type (junk : Int × Int) (type_n : Nat) (p : List Nat) (stream : Nat) :
    Outcome (Option (sproto_type × Nat)) :=
  let sz := todword p stream
  let stream1 := stream + SIZEOF_LENGTH
  let result := stream1 + sz
  let fn := struct_field p stream1 sz
  if fn ≤ 0 ∨ fn > 2 then .ret none
  else if type_slots_zero p stream1 fn.toNat 0 = false then .ret none
  else
    let stream2 := stream1 + SIZEOF_HEADER + fn.toNat * SIZEOF_FIELD
    let name := import_string p stream2
    if fn = 1 then .ret (some ({ name := name, base := 0, maxn := 0, f := [] }, result))
    else
      let stream3 := stream2 + (todword p stream2 + SIZEOF_LENGTH) % 2 ^ 32
      match count_array p stream3 with
      | .outOfFuel => .outOfFuel
      | .assertFailed => .assertFailed
      | .invalidRead => .invalidRead
      | .ret n =>
        if n < 0 then .ret none
        else
          match import_fields type_n p n.toNat (stream3 + SIZEOF_LENGTH) (-1) n.toNat with
          | none => .ret none
          | some (fs, maxn) =>
            let first := match fs.head? with
              | some f0 => f0.tag
              | none => junk.1
            let last := match fs.getLast? with
              | some fl => fl.tag
              | none => junk.2
            let base := if last - first + 1 ≠ n then -1 else first
            .ret (some ({ name := name, base := base, maxn := maxn, f := fs }, result))

/-- Local variables of `import_protocol` and the members of `*p`. -/
structure ProtocolImport where
  tag : Int
  ptag : Int
  name : Option String
  confirm : Int
  request : Option Nat
  response : Option Nat
deriving DecidableEq, Repr

/-- The body of the loop of `import_protocol` for the header slot `value` at
position `i` (the `switch` is on `i`); the caller adds 1 to `tag`. -/
def import_protocol_slot (type_n : Nat) (p : List Nat) (nameoff : Nat) (i : Nat) (value : Nat)
    (s : ProtocolImport) : Option ProtocolImport :=
  if value &&& 1 ≠ 0 then some { s with tag := s.tag + ((value : Int) - 1) / 2 + 1 }
  else
    let v : Int := (value / 2 : Nat) - 1
    let s1 := { s with tag := s.tag + 1 }
    if i = 0 then
      if v ≠ -1 then none else some { s1 with name := some (import_string p nameoff) }
    else if i = 1 then
      if v < 0 then none else some { s1 with ptag := v }
    else if i = 2 then
      if v < 0 ∨ v ≥ type_n then none else some { s1 with request := some v.toNat }
    else if i = 3 then
      if v < 0 ∨ v ≥ type_n then none else some { s1 with response := some v.toNat }
    else if i = 4 then some { s1 with confirm := v }
    else none

/-- The loop `for (i=0;i<fn;i++,tag++)` of `import_protocol`, `k` iterations
from `i`. -/
def import_protocol_loop (type_n : Nat) (p : List Nat) (stream : Nat) (fn : Int) :
    Nat → Nat → ProtocolImport → Option ProtocolImport
  | 0, _, s => some s
  | k + 1, i, s =>
    match import_protocol_slot type_n p (stream + (SIZEOF_FIELD * fn).toNat) i
        (toword p (stream + SIZEOF_FIELD * i)) s with
    | none => none
    | some s1 => import_protocol_loop type_n p stream fn k (i + 1) s1

/-- The function `import_protocol`; a negative `fn` leaves the loop without
iterations. -/
def import_protocol (type_n : Nat) (p : List Nat) (stream : Nat) : Option (protocol × Nat) :=
  let sz := todword p stream
  let stream1 := stream + SIZEOF_LENGTH
  let result := stream1 + sz
  let fn := struct_field p stream1 sz
  match import_protocol_loop type_n p (stream1 + SIZEOF_HEADER) fn fn.toNat 0
      { tag := 0, ptag := -1, name := none, confirm := 0, request := none, response := none } with
  | none => none
  | some s =>
    if s.name = none ∨ s.ptag < 0 then none
    else some ({ name := s.name.getD "", tag := s.ptag, confirm := s.confirm,
                 request := s.request, response := s.response }, result)

/-- The loop `for (i=0;i<s->type_n;i++)` of `create_from_bundle`, `k`
iterations from type `i`. -/
def import_types (junk : Nat → Int × Int) (type_n : Nat) (p : List Nat) :
    Nat → Nat → Nat → Outcome (Option (List sproto_type))
  | 0, _, _ => .ret (some [])
  | k + 1, i, typedata =>
    match import_type (junk i) type_n p typedata with
    | .outOfFuel => .outOfFuel
    | .assertFailed => .assertFailed
    | .invalidRead => .invalidRead
    | .ret none => .ret none
    | .ret (some (t, next)) =>
      match import_types junk type_n p k (i + 1) next with
      | .outOfFuel => .outOfFuel
      | .assertFailed => .assertFailed
      | .invalidRead => .invalidRead
      | .ret none => .ret none
      | .ret (some ts) => .ret (some (t :: ts))

/-- The loop `for (i=0;i<s->protocol_n;i++)` of `create_from_bundle`. -/
def import_protocols (type_n : Nat) (p : List Nat) : Nat → Nat → Option (List protocol)
  | 0, _ => some []
  | k + 1, protocoldata =>
    match import_protocol type_n p protocoldata with
    | none => none
    | some (pr, next) =>
      match import_protocols type_n p k next with
      | none => none
      | some ps => some (pr :: ps)

/-- Local variables of the first loop of `create_from_bundle`. -/
structure BundleState where
  content : Nat
  typedata : Nat
  type_n : Nat
  protocoldata : Nat
  protocol_n : Nat
deriving DecidableEq, Repr

/-- The loop `for (i=0;i<fn;i++)` of `create_from_bundle` over the header
slots of the bundle, `k` iterations from `i`. -/
def bundle_loop (p : List Nat) (stream : Nat) : Nat → Nat → BundleState →
    Outcome (Option BundleState)
  | 0, _, s => .ret (some s)
  | k + 1, i, s =>
    if toword p (stream + i * SIZEOF_FIELD) ≠ 0 then .ret none
    else
      match count_array p s.content with
      | .outOfFuel => .outOfFuel
      | .assertFailed => .assertFailed
      | .invalidRead => .invalidRead
      | .ret n =>
        if n < 0 then .ret none
        else
          let s1 := if i = 0 then
              { s with typedata := s.content + SIZEOF_LENGTH, type_n := n.toNat }
            else { s with protocoldata := s.content + SIZEOF_LENGTH, protocol_n := n.toNat }
          bundle_loop p stream k (i + 1)
            { s1 with content := s.content + (todword p s.content + SIZEOF_LENGTH) % 2 ^ 32 }

/-- The function `create_from_bundle(s, stream, sz)` on a zeroed `*s`: the
loaded schema, or `none` for `NULL`. -/
def create_from_bundle (junk : Nat → Int × Int) (p : List Nat) (sz : Nat) :
    Outcome (Option sproto) :=
  let fn := struct_field p 0 sz
  if fn < 0 ∨ fn > 2 then .ret none
  else
    match bundle_loop p SIZEOF_HEADER fn.toNat 0
        { content := SIZEOF_HEADER + fn.toNat * SIZEOF_FIELD, typedata := 0, type_n := 0,
          protocoldata := 0, protocol_n := 0 } with
    | .outOfFuel => .outOfFuel
    | .assertFailed => .assertFailed
    | .invalidRead => .invalidRead
    | .ret none => .ret none
    | .ret (some b) =>
      match import_types junk b.type_n p b.type_n 0 b.typedata with
      | .outOfFuel => .outOfFuel
      | .assertFailed => .assertFailed
      | .invalidRead => .invalidRead
      | .ret none => .ret none
      | .ret (some ts) =>
        match import_protocols b.type_n p b.protocol_n b.protocoldata with
        | none => .ret none
        | some ps => .ret (some { type := ts, proto := ps })

/-- The function `sproto_create(proto, sz)`. -/
def sproto_create (junk : Nat → Int × Int) (proto : List Nat) (sz : Nat) :
    Outcome (Option sproto) :=
  create_from_bundle junk proto sz

/-! ## Records of a schema blob

The words of the field-record claims, read off the bytes of the blob without
the loader. -/

/-- The offset of record `j` of a sequence of length-prefixed records that
starts at `a`: every record is its 4-byte length and that many bytes. -/
def recordOff (p : List Nat) : Nat → Nat → Nat
  | a, 0 => a
  | a, j + 1 => recordOff p (a + SIZEOF_LENGTH + todword p a) j

/-- The header slots that carry a value, each with its wire tag: the running
tag grows by 1 at every slot, and a slot with low bit 1 adds `slot / 2` more
and carries nothing. `k` slots from slot `i`, the running tag being `tag`. -/
def slotEntries (p : List Nat) (stream : Nat) : Nat → Nat → Int → List (Int × Nat)
  | 0, _, _ => []
  | k + 1, i, tag =>
    let value := toword p (stream + SIZEOF_FIELD * i)
    if value &&& 1 ≠ 0 then slotEntries p stream k (i + 1) (tag + 1 + (value / 2 : Nat))
    else (tag + 1, value) :: slotEntries p stream k (i + 1) (tag + 1)

/-- The tagged value slots of the record at offset `off`. -/
def recordEntries (p : List Nat) (off : Nat) : List (Int × Nat) :=
  slotEntries p (off + SIZEOF_LENGTH + SIZEOF_HEADER) (toword p (off + SIZEOF_LENGTH)) 0 (-1)

/-- The value `slot / 2 - 1` that the record carries for the wire tag `t`, if
it has a value slot for it. -/
def entryValue (E : List (Int × Nat)) (t : Int) : Option Int :=
  (E.find? (fun e => e.1 = t)).map (fun e => ((e.2 / 2 : Nat) : Int) - 1)

/-- The offset of the array of types of the bundle: the first entry after the
header of the bundle. -/
def typesArr (p : List Nat) : Nat := SIZEOF_HEADER + toword p 0 * SIZEOF_FIELD

/-- The offset of the record of type `i`. -/
def typeOff (p : List Nat) (i : Nat) : Nat := recordOff p (typesArr p + SIZEOF_LENGTH) i

/-- The offset of the array of fields of the type record at `toff`: the entry
after the name. -/
def fieldsArr (p : List Nat) (toff : Nat) : Nat :=
  let name := toff + SIZEOF_LENGTH + SIZEOF_HEADER + toword p (toff + SIZEOF_LENGTH) * SIZEOF_FIELD
  name + (todword p name + SIZEOF_LENGTH) % 2 ^ 32

/-- The offset of the record of field `j` of the type record at `toff`. -/
def fieldOff (p : List Nat) (toff : Nat) (j : Nat) : Nat :=
  recordOff p (fieldsArr p toff + SIZEOF_LENGTH) j

/-- Case (a): the field record carries a builtin id of BOOLEAN or DOUBLE
(wire tag 1) and a type index (wire tag 2). -/
def fieldDupType (E : List (Int × Nat)) : Prop :=
  (entryValue E 1 = some SPROTO_TBOOLEAN ∨ entryValue E 1 = some SPROTO_TDOUBLE) ∧
    entryValue E 2 ≠ none

/-- Case (b): the field record carries no builtin id and a type index that is
at least the number of types. -/
def fieldTypeRange (type_n : Nat) (E : List (Int × Nat)) : Prop :=
  entryValue E 1 = none ∧ ∃ v, entryValue E 2 = some v ∧ v ≥ type_n

/-- Case (c): the field record has no name (wire tag 0), no tag (wire tag 3),
or neither a builtin id nor a type index. -/
def fieldIncomplete (E : List (Int × Nat)) : Prop :=
  entryValue E 0 = none ∨ entryValue E 3 = none ∨
    (entryValue E 1 = none ∧ entryValue E 2 = none)

/-- Case (d): the tag the field record carries is at most the tag that the
record `Eprev` of the preceding field carries. -/
def fieldNotAscending (Eprev E : List (Int × Nat)) : Prop :=
  ∃ a b, entryValue Eprev 3 = some a ∧ entryValue E 3 = some b ∧ b ≤ a

/-- The field record `j` of the type record at `toff` is one of the records
that the loader must reject. -/
def badFieldRecord (type_n : Nat) (p : List Nat) (toff j : Nat) : Prop :=
  fieldDupType (recordEntries p (fieldOff p toff j)) ∨
  fieldTypeRange type_n (recordEntries p (fieldOff p toff j)) ∨
  fieldIncomplete (recordEntries p (fieldOff p toff j)) ∨
  (0 < j ∧ fieldNotAscending (recordEntries p (fieldOff p toff (j - 1)))
      (recordEntries p (fieldOff p toff j)))

/-! ## Schemas of the scenarios -/

/-- The values of the reads outside an empty array of fields, all 0. -/
def junk0 : Nat → Int × Int := fun _ => (0, 0)

/-- The number of positions `i ≥ 1` at which the tags of consecutive fields
differ by more than 1. -/
def adjacentGaps : List field → Nat
  | [] => 0
  | [_] => 0
  | f :: g :: fs => (if g.tag - f.tag > 1 then 1 else 0) + adjacentGaps (g :: fs)

/-- The schema blob of the single type `Foo { b 1 : integer }`. -/
def blobFooB : List Nat :=
  [1, 0, 0, 0, 40, 0, 0, 0, 36, 0, 0, 0, 2, 0, 0, 0, 0, 0, 3, 0, 0, 0, 70, 111, 111,
   19, 0, 0, 0, 15, 0, 0, 0, 4, 0, 0, 0, 2, 0, 1, 0, 4, 0, 1, 0, 0, 0, 98]

/-- The schema blob of the single type `Foo { a 0 : *integer }` whose field
record also has the slot 6 (map) with the value 1: the slots are the name, the
builtin id 0, the tag 0 (after a skip), the array flag 1 and the map flag 1
(after a skip). -/
def blobMapArr : List Nat :=
  [1, 0, 0, 0, 46, 0, 0, 0, 42, 0, 0, 0, 2, 0, 0, 0, 0, 0, 3, 0, 0, 0, 70, 111, 111,
   25, 0, 0, 0, 21, 0, 0, 0, 7, 0, 0, 0, 2, 0, 1, 0, 2, 0, 4, 0, 1, 0, 4, 0,
   1, 0, 0, 0, 97]

/-- The schema blob of the single type `Foo { a 0 : integer, c 3 : integer }`. -/
def blobFooAC : List Nat :=
  [1, 0, 0, 0, 59, 0, 0, 0, 55, 0, 0, 0, 2, 0, 0, 0, 0, 0, 3, 0, 0, 0, 70, 111, 111,
   38, 0, 0, 0, 15, 0, 0, 0, 4, 0, 0, 0, 2, 0, 1, 0, 2, 0, 1, 0, 0, 0, 97,
   15, 0, 0, 0, 4, 0, 0, 0, 2, 0, 1, 0, 8, 0, 1, 0, 0, 0, 99]

/-- The schema blob of a type `Foo` whose only field record has the name `a`
and the builtin id of integer, and no tag. -/
def blobNoTag : List Nat :=
  [1, 0, 0, 0, 36, 0, 0, 0, 32, 0, 0, 0, 2, 0, 0, 0, 0, 0, 3, 0, 0, 0, 70, 111, 111,
   15, 0, 0, 0, 11, 0, 0, 0, 2, 0, 0, 0, 2, 0, 1, 0, 0, 0, 97]

/-- The schema blob of a type `Foo` whose only field record has the name `a`
and the tag 0, and neither a builtin id nor a type index. -/
def blobNoType : List Nat :=
  [1, 0, 0, 0, 38, 0, 0, 0, 34, 0, 0, 0, 2, 0, 0, 0, 0, 0, 3, 0, 0, 0, 70, 111, 111,
   17, 0, 0, 0, 13, 0, 0, 0, 3, 0, 0, 0, 3, 0, 2, 0, 1, 0, 0, 0, 97]

/-- The schema blob of a type `Foo` whose only field record carries the builtin
id of boolean and the type index 0. -/
def blobBoolType : List Nat :=
  [1, 0, 0, 0, 40, 0, 0, 0, 36, 0, 0, 0, 2, 0, 0, 0, 0, 0, 3, 0, 0, 0, 70, 111, 111,
   19, 0, 0, 0, 15, 0, 0, 0, 4, 0, 0, 0, 4, 0, 2, 0, 2, 0, 1, 0, 0, 0, 97]

/-- The schema blob of a type `Foo` whose only field record carries the builtin
id of double and the type index 0. -/
def blobDoubleType : List Nat :=
  [1, 0, 0, 0, 40, 0, 0, 0, 36, 0, 0, 0, 2, 0, 0, 0, 0, 0, 3, 0, 0, 0, 70, 111, 111,
   19, 0, 0, 0, 15, 0, 0, 0, 4, 0, 0, 0, 8, 0, 2, 0, 2, 0, 1, 0, 0, 0, 97]

/-- The schema blob of a single type `Foo` whose only field record carries the
type index 1. -/
def blobTypeRange : List Nat :=
  [1, 0, 0, 0, 40, 0, 0, 0, 36, 0, 0, 0, 2, 0, 0, 0, 0, 0, 3, 0, 0, 0, 70, 111, 111,
   19, 0, 0, 0, 15, 0, 0, 0, 4, 0, 0, 0, 1, 0, 4, 0, 2, 0, 1, 0, 0, 0, 97]

/-- The schema blob of a type `Foo` with the integer fields `a` and `b`, both
of tag 2. -/
def blobNotAscending : List Nat :=
  [1, 0, 0, 0, 59, 0, 0, 0, 55, 0, 0, 0, 2, 0, 0, 0, 0, 0, 3, 0, 0, 0, 70, 111, 111,
   38, 0, 0, 0, 15, 0, 0, 0, 4, 0, 0, 0, 2, 0, 1, 0, 6, 0, 1, 0, 0, 0, 97,
   15, 0, 0, 0, 4, 0, 0, 0, 2, 0, 1, 0, 6, 0, 1, 0, 0, 0, 98]

/-- The bundle of `blobNoTag` with a second entry, an array of protocols of 4
bytes that are the item length `0xFFFFFFFC`. -/
def blobNoTagLongItem : List Nat :=
  [2, 0, 0, 0, 0, 0, 36, 0, 0, 0, 32, 0, 0, 0, 2, 0, 0, 0, 0, 0, 3, 0, 0, 0, 70, 111, 111,
   15, 0, 0, 0, 11, 0, 0, 0, 2, 0, 0, 0, 2, 0, 1, 0, 0, 0, 97,
   4, 0, 0, 0, 252, 255, 255, 255]


/-! ## Bounds of the encoder -/

/-- The memory `m'` has the bytes of `m` at every offset from `lim` on. -/
def withinFrame (lim : Nat) (m m' : Mem) : Prop := ∀ q : Nat, lim ≤ q → m' q = m q

/-- The kinds whose value the callback stores into the buffer: not an integer,
a double or a boolean, which it stores into a local variable of the encoder. -/
def storesBytes (a : sproto_arg) : Prop :=
  a.type ≠ SPROTO_TINTEGER ∧ a.type ≠ SPROTO_TDOUBLE ∧ a.type ≠ SPROTO_TBOOLEAN

/-- A callback that, in the calls where it stores into the buffer, stores and
reports no more bytes than the length it was offered. -/
def cbWithinLength {σ : Type} (cb : sproto_callback σ) : Prop :=
  ∀ (u : σ) (a : sproto_arg), 0 ≤ a.length → storesBytes a →
    ((cb u a).1.bytes.length : Int) ≤ a.length ∧ (cb u a).1.sz ≤ a.length

/-- The part of the buffer left to `sproto_encode`: `data` and `size` end at
the capacity `lim`, and `data` is not before the end of the header area. -/
def EncInv {σ : Type} (lim maxn : Nat) (s : EncState σ) : Prop :=
  (s.data : Int) + s.size = lim ∧ 0 ≤ s.size ∧ SIZEOF_HEADER + maxn * SIZEOF_FIELD ≤ s.data

/-- The header slots left to `sproto_encode` before the fields `fs`, `P` being
the tag of the field before them: the slots written, one more when the last
field was left out, and the slots of `fs` fit in `maxn`. -/
def SlotInv {σ : Type} (maxn : Nat) (P : Int) (fs : List field) (s : EncState σ) : Prop :=
  s.lasttag ≤ P ∧ s.index + (if s.lasttag < P then 1 else 0) + slotsOf P fs ≤ maxn

/-- What holds after a field of `sproto_encode`: the loop goes on within the
bounds, or the function returns -1 or 0; no byte from `lim` on has changed. -/
def fieldExitSafe {σ : Type} (lim maxn : Nat) (P : Int) (fs : List field) (m0 : Mem) :
    FieldExit σ → Prop
  | .next s1 => EncInv lim maxn s1 ∧ SlotInv maxn P fs s1 ∧ withinFrame lim m0 s1.mem
  | .retn r m _ => (r = -1 ∨ r = 0) ∧ withinFrame lim m0 m

/-- The message `s = "hi"` for the type `Foo { s 0 : string }`. -/
def msgHi : Int → Option HostValue := fun t => if t = 0 then some (.str [104, 105]) else none


/-! ## Protocol lookup -/

/-- The loop `while(begin<end)` of `query_proto`; `end - begin` shrinks in every
iteration, so with `fuel ≥ end - begin` the loop has ended when the fuel is
used up, and the function returns `NULL`. -/
def query_proto_loop (ps : List protocol) (tag : Int) : Nat → Nat → Nat → Option protocol
  | 0, _, _ => none
  | fuel + 1, b, e =>
    if b < e then
      let mid := (b + e) / 2
      match ps[mid]? with
      | none => none
      | some pr =>
        if pr.tag = tag then some pr
        else if tag > pr.tag then query_proto_loop ps tag fuel (mid + 1) e
        else query_proto_loop ps tag fuel b mid
    else none

/-- The function `query_proto`. -/
def query_proto (sp : sproto) (tag : Int) : Option protocol :=
  query_proto_loop sp.proto tag sp.proto.length 0 sp.proto.length

/-- The function `sproto_protoname`. -/
def sproto_protoname (sp : sproto) (proto : Int) : Option String :=
  (query_proto sp proto).map (fun p => p.name)

/-- A linear search over the fields for the tag `t`: the first field, from
the front, whose tag is `t`. -/
def findtagLinear (fs : List field) (t : Int) : Option field :=
  fs.find? (fun f => decide (f.tag = t))

/-- The tags of the fields ascend strictly. -/
def tagsAscending (fs : List field) : Prop := List.Chain' (fun a b : field => a.tag < b.tag) fs

/-- The dense invariant of `base`: for a type with fields, `base` is the tag of
the first field when the tags are consecutive (the last tag minus the first
plus 1 is the number of fields), and -1 otherwise. -/
def baseDense (st : sproto_type) : Prop :=
  ∀ f0 fl, st.f.head? = some f0 → st.f.getLast? = some fl →
    st.base = if fl.tag - f0.tag + 1 = st.f.length then f0.tag else -1

/-! ## The header of an encoding, walked as the decoder walks it -/

/-- The decoder's rule over the header slots `vs`, the running tag being `tag`:
the tag grows by 1 at every slot; a slot with low bit 1 adds `slot / 2` more
and carries no value; any other slot is a value slot, listed with the tag. -/
def walkSlots : List Nat → Int → List (Int × Nat)
  | [], _ => []
  | v :: vs, tag =>
    if v &&& 1 ≠ 0 then walkSlots vs (tag + 1 + (v / 2 : Nat))
    else (tag + 1, v) :: walkSlots vs (tag + 1)

/-- The fields of `fs` that the message assigns, each with its tag and the
header slot of its value, in the order of the fields. -/
def emittedSlots (msg : Int → Option HostValue) (fs : List field) : List (Int × Nat) :=
  fs.filterMap (fun f => (msg f.tag).map (fun v => (f.tag, hostSlot v)))

/-- The number of skip slots before the tags `ts`, `last` being the tag
before: one for every tag that is more than one above the tag before it. -/
def skipCount : Int → List Int → Nat
  | _, [] => 0
  | last, t :: ts => (if t - last - 1 > 0 then 1 else 0) + skipCount t ts

/-! ## Schemas of the protocol scenarios -/

/-- The schema blob of two protocols and no type: `b` with the tag 2, then `a`
with the tag 1. -/
def blobProtoDescending : List Nat :=
  [2, 0, 0, 0, 0, 0, 0, 0, 0, 0, 30, 0, 0, 0,
   11, 0, 0, 0, 2, 0, 0, 0, 6, 0, 1, 0, 0, 0, 98,
   11, 0, 0, 0, 2, 0, 0, 0, 4, 0, 1, 0, 0, 0, 97]

/-- The schema blob of two protocols and no type: `a` with the tag 1, then `b`
with the tag 2. -/
def blobProtoAscending : List Nat :=
  [2, 0, 0, 0, 0, 0, 0, 0, 0, 0, 30, 0, 0, 0,
   11, 0, 0, 0, 2, 0, 0, 0, 4, 0, 1, 0, 0, 0, 97,
   11, 0, 0, 0, 2, 0, 0, 0, 6, 0, 1, 0, 0, 0, 98]

/-- The schema blob of two protocols and no type, `a` and `b`, both with the
tag 1. -/
def blobProtoSameTag : List Nat :=
  [2, 0, 0, 0, 0, 0, 0, 0, 0, 0, 30, 0, 0, 0,
   11, 0, 0, 0, 2, 0, 0, 0, 4, 0, 1, 0, 0, 0, 97,
   11, 0, 0, 0, 2, 0, 0, 0, 4, 0, 1, 0, 0, 0, 98]

/-- The schema blob of the types `Foo` and `Bar` (no fields) and the protocol
`p` whose record has the header slots 0 (name), 4 (tag 1), 3 (skip of the tags
2 and 3) and 4 (confirm 1). -/
def blobConfirmTwoTypes : List Nat :=
  [2, 0, 0, 0, 0, 0, 30, 0, 0, 0,
   11, 0, 0, 0, 1, 0, 0, 0, 3, 0, 0, 0, 70, 111, 111,
   11, 0, 0, 0, 1, 0, 0, 0, 3, 0, 0, 0, 66, 97, 114,
   19, 0, 0, 0, 15, 0, 0, 0, 4, 0, 0, 0, 4, 0, 3, 0, 4, 0, 1, 0, 0, 0, 112]

/-- The schema blob of no type and the protocol `p` whose record has the
header slots 0 (name), 4 (tag 1), 3 (skip of the tags 2 and 3) and 4
(confirm 1). -/
def blobConfirmNoType : List Nat :=
  [2, 0, 0, 0, 0, 0, 0, 0, 0, 0,
   19, 0, 0, 0, 15, 0, 0, 0, 4, 0, 0, 0, 4, 0, 3, 0, 4, 0, 1, 0, 0, 0, 112]

/-- The stream of an array of 4 bytes whose item declares the length
`0xFFFFFFFC`. -/
def streamLongItem : List Nat := [4, 0, 0, 0, 0xfc, 0xff, 0xff, 0xff]


/-! ## Memory lemmas -/

@[simp] theorem wr_same (m : Mem) (p v : Nat) : wr m p v p = v := by simp [wr]

theorem wr_other (m : Mem) (p v q : Nat) (h : q ≠ p) : wr m p v q = m q := by simp [wr, h]

theorem memcpy_lt (bs : List Nat) : ∀ (m : Mem) (dst q : Nat), q < dst → memcpy m dst bs q = m q := by
  induction bs with
  | nil => intro m dst q _; rfl
  | cons b bs ih =>
    intro m dst q h
    rw [memcpy, ih _ _ _ (by omega), wr_other _ _ _ _ (by omega)]

theorem memcpy_ge (bs : List Nat) :
    ∀ (m : Mem) (dst q : Nat), dst + bs.length ≤ q → memcpy m dst bs q = m q := by
  induction bs with
  | nil => intro m dst q _; rfl
  | cons b bs ih =>
    intro m dst q h
    simp only [List.length_cons] at h
    rw [memcpy, ih _ _ _ (by omega), wr_other _ _ _ _ (by omega)]

theorem memcpy_at (bs : List Nat) :
    ∀ (m : Mem) (dst k : Nat) (h : k < bs.length), memcpy m dst bs (dst + k) = bs[k] := by
  induction bs with
  | nil => intro m dst k h; simp at h
  | cons b bs ih =>
    intro m dst k h
    cases k with
    | zero => rw [memcpy, memcpy_lt _ _ _ _ (by omega)]; simp
    | succ k =>
      simp only [List.length_cons] at h
      rw [memcpy, show dst + (k + 1) = dst + 1 + k by omega, ih _ _ _ (by omega)]
      rfl

theorem memcpy_append (a b : List Nat) :
    ∀ (m : Mem) (dst : Nat), memcpy m dst (a ++ b) = memcpy (memcpy m dst a) (dst + a.length) b := by
  induction a with
  | nil => intro m dst; simp [memcpy]
  | cons x a ih =>
    intro m dst
    have := ih (wr m dst x) (dst + 1)
    rw [show dst + 1 + a.length = dst + (a.length + 1) by omega] at this
    simpa [memcpy] using this

@[simp] theorem readN_length (m : Mem) (p n : Nat) : (readN m p n).length = n := by simp [readN]

theorem readN_getElem (m : Mem) (p n k : Nat) (h : k < (readN m p n).length) :
    (readN m p n)[k] = m (p + k) := by
  simp [readN]

theorem readN_congr (m m2 : Mem) (p n : Nat) (h : ∀ k, k < n → m (p + k) = m2 (p + k)) :
    readN m p n = readN m2 p n := by
  apply List.ext_getElem (by simp)
  intro k h1 _
  rw [readN_getElem, readN_getElem]
  exact h k (by simpa using h1)

theorem readN_add (m : Mem) (p a b : Nat) : readN m p (a + b) = readN m p a ++ readN m (p + a) b := by
  simp [readN, List.range_add, Nat.add_assoc]

theorem readN_eq_iff (m : Mem) (p : Nat) (l : List Nat) :
    readN m p l.length = l ↔ ∀ k (h : k < l.length), m (p + k) = l[k] := by
  constructor
  · intro h k hk
    have := readN_getElem m p l.length k (by simpa using hk)
    rw [← this]; simp only [h]
  · intro h
    apply List.ext_getElem (by simp)
    intro k h1 h2
    rw [readN_getElem]; exact h k h2

theorem readN_memcpy (m : Mem) (dst : Nat) (bs : List Nat) : readN (memcpy m dst bs) dst bs.length = bs := by
  rw [readN_eq_iff]; intro k h; exact memcpy_at bs m dst k h

theorem readN_zero (m : Mem) (p : Nat) : readN m p 0 = [] := rfl

theorem readN_succ (m : Mem) (p n : Nat) : readN m p (n + 1) = m p :: readN m (p + 1) n := by
  rw [Nat.add_comm n 1, readN_add]
  rfl


/-! ## `pack_seg` -/

theorem pack_seg_loop_notzero (bs : List Nat) : ∀ (i : Nat) (s : SegState),
    (pack_seg_loop bs i s).notzero = s.notzero + (nzBytes bs).length := by
  induction bs with
  | nil => intro i s; simp [pack_seg_loop, nzBytes]
  | cons b bs ih =>
    intro i s
    rw [pack_seg_loop, ih]
    by_cases hb : b = 0
    · simp [pack_seg_step, hb, nzBytes]
    · have : (nzBytes (b :: bs)).length = (nzBytes bs).length + 1 := by simp [nzBytes, hb]
      rw [this]
      simp only [pack_seg_step, hb, ne_eq, not_false_eq_true, if_true]
      split <;> simp <;> omega

theorem pack_seg_loop_header (bs : List Nat) : ∀ (i : Nat) (s : SegState),
    (pack_seg_loop bs i s).header = maskOf bs i s.header := by
  induction bs with
  | nil => intro i s; simp [pack_seg_loop, maskOf]
  | cons b bs ih =>
    intro i s
    rw [pack_seg_loop, ih, maskOf]
    by_cases hb : b = 0
    · simp [pack_seg_step, hb]
    · simp only [pack_seg_step, hb, ne_eq, not_false_eq_true, if_true]
      split <;> rfl

theorem pack_seg_loop_frame (bs : List Nat) : ∀ (i : Nat) (s : SegState) (q : Nat),
    q < s.buffer → (pack_seg_loop bs i s).mem q = s.mem q := by
  induction bs with
  | nil => intro i s q _; rfl
  | cons b bs ih =>
    intro i s q h
    rw [pack_seg_loop]
    by_cases hb : b = 0
    · simp only [pack_seg_step, hb, ne_eq, not_true_eq_false, if_false]; exact ih _ _ _ h
    · simp only [pack_seg_step, hb, ne_eq, not_false_eq_true, if_true]
      split
      · rw [ih _ _ _ (by simp; omega)]; simp [wr_other _ _ _ _ (Nat.ne_of_lt h)]
      · rw [ih _ _ _ (by simpa using h)]

theorem pack_seg_loop_mem (bs : List Nat) : ∀ (i : Nat) (s : SegState),
    ((nzBytes bs).length : Int) ≤ s.sz →
    (pack_seg_loop bs i s).mem = memcpy s.mem s.buffer (nzBytes bs) := by
  induction bs with
  | nil => intro i s _; rfl
  | cons b bs ih =>
    intro i s h
    rw [pack_seg_loop]
    by_cases hb : b = 0
    · have e : nzBytes (b :: bs) = nzBytes bs := by simp [nzBytes, hb]
      rw [e] at h ⊢
      simp only [pack_seg_step, hb, ne_eq, not_true_eq_false, if_false]; exact ih _ _ h
    · have e : nzBytes (b :: bs) = b :: nzBytes bs := by simp [nzBytes, hb]
      rw [e] at h ⊢
      simp only [List.length_cons, Nat.cast_add, Nat.cast_one] at h
      simp only [pack_seg_step, hb, ne_eq, not_false_eq_true, if_true]
      rw [if_pos (by omega), ih _ _ (by simp; omega)]
      rfl

theorem pack_seg_ret (b : List Nat) (m : Mem) (p : Nat) (sz : Int) (n : Nat) :
    (pack_seg b m p sz n).2 = segRet (nzBytes b).length n := by
  simp only [pack_seg, segRet, pack_seg_loop_notzero, Nat.zero_add]
  split_ifs <;> rfl

theorem pack_seg_frame (b : List Nat) (m : Mem) (p : Nat) (sz : Int) (n q : Nat) (h : q < p) :
    (pack_seg b m p sz n).1 q = m q := by
  have hl := pack_seg_loop_frame b 0
    { mem := m, buffer := p + 1, sz := sz - 1, notzero := 0, header := 0 } q (by simp; omega)
  simp only [pack_seg]
  split_ifs <;> first | exact hl | (simp only []; rw [wr_other _ _ _ _ (Nat.ne_of_lt h)]; exact hl)

theorem pack_seg_mask (b : List Nat) (m : Mem) (p : Nat) (sz : Int) (n : Nat)
    (hr : segRet (nzBytes b).length n ≠ 10) (hr8 : ¬(segRet (nzBytes b).length n = 8 ∧ n > 0))
    (hsz : ((nzBytes b).length : Int) + 1 ≤ sz) :
    (pack_seg b m p sz n).1 = wr (memcpy m (p + 1) (nzBytes b)) p (maskOf b 0 0) := by
  have hm := pack_seg_loop_mem b 0
    { mem := m, buffer := p + 1, sz := sz - 1, notzero := 0, header := 0 } (by simp; omega)
  simp only [segRet] at hr hr8
  simp only [pack_seg, pack_seg_loop_notzero, Nat.zero_add, pack_seg_loop_header, hm]
  split_ifs at hr hr8 ⊢ <;> first | omega | rfl | simp_all

theorem segRet_mask (nz n : Nat) (hr : segRet nz n ≠ 10) (hr8 : ¬(segRet nz n = 8 ∧ n > 0)) :
    segRet nz n = nz + 1 := by
  simp only [segRet] at hr hr8 ⊢
  split_ifs at hr hr8 ⊢ <;> first | omega | rfl | simp_all


/-! ## Blocks of the padded source -/

theorem padded_length (srcv : List Nat) : (padded srcv).length = (srcv.length + 7) / 8 * 8 := by
  simp only [padded, List.length_append, List.length_replicate]; omega

theorem srcBlock_eq (srcv : List Nat) (j : Nat) (h : j < (srcv.length + 7) / 8) :
    srcBlock srcv (8 * j) = ((padded srcv).drop (8 * j)).take 8 := by
  have h1 : 8 * j < srcv.length := by omega
  unfold srcBlock padded
  rw [List.drop_append_eq_append_drop, List.take_append_eq_append_take]
  have e0 : 8 * j - srcv.length = 0 := by omega
  rw [e0, List.drop_zero, List.length_drop, List.take_replicate]
  split
  · rename_i h2
    simp only []
    have e1 : List.take 8 (List.drop (8 * j) srcv) = List.drop (8 * j) srcv :=
      List.take_of_length_le (by simp; omega)
    have e2 : List.take (8 - (8 * j + 8 - srcv.length)) (List.drop (8 * j) srcv)
        = List.drop (8 * j) srcv := List.take_of_length_le (by simp; omega)
    have e3 : min (8 - (srcv.length - 8 * j)) ((srcv.length + 7) / 8 * 8 - srcv.length)
        = 8 * j + 8 - srcv.length := by
      rw [Nat.min_def]; split_ifs <;> omega
    rw [e1, e2, e3]
  · rename_i h2
    have : 8 - (srcv.length - 8 * j) = 0 := by omega
    rw [this, Nat.zero_min, List.replicate_zero, List.append_nil]

theorem take_drop_succ (P : List Nat) (a n : Nat) (h : n ≤ a) :
    (P.drop (8 * (a - n))).take (8 * n) ++ (P.drop (8 * a)).take 8
      = (P.drop (8 * (a + 1 - (n + 1)))).take (8 * (n + 1)) := by
  rw [show a + 1 - (n + 1) = a - n by omega, show 8 * (n + 1) = 8 * n + 8 by ring, List.take_add,
    List.drop_drop]
  congr 3; omega

theorem write_ff_eq (srcv : List Nat) (src : Nat) (m : Mem) (des n : Nat)
    (h : src + 8 * n ≤ (padded srcv).length) (h0 : src ≤ srcv.length) :
    write_ff srcv src m des n
      = memcpy m des (0xff :: ((n - 1) % 256) :: ((padded srcv).drop src).take (8 * n)) := by
  have hp := padded_length srcv
  unfold write_ff
  simp only [memcpy]
  rw [show des + 1 + 1 = des + 2 by rfl]
  have hd : (padded srcv).drop src = srcv.drop src ++
      List.replicate ((srcv.length + 7) / 8 * 8 - srcv.length) 0 := by
    unfold padded
    rw [List.drop_append_eq_append_drop, show src - srcv.length = 0 by omega, List.drop_zero]
  rw [hd, List.take_append_eq_append_take, List.length_drop, List.take_replicate]
  split
  · rename_i h2
    rw [show 8 * n - (srcv.length - src) = 0 by omega, Nat.zero_min, List.replicate_zero,
      List.append_nil, Nat.mul_comm]
  · rename_i h2
    have e1 : List.take (srcv.length - src) (List.drop src srcv) = List.drop src srcv :=
      List.take_of_length_le (by simp)
    have e2 : List.take (8 * n) (List.drop src srcv) = List.drop src srcv :=
      List.take_of_length_le (by simp; omega)
    have e3 : min (8 * n - (srcv.length - src)) ((srcv.length + 7) / 8 * 8 - srcv.length)
        = n * 8 - (srcv.length - src) := by
      rw [Nat.min_def]; split_ifs <;> omega
    rw [memset, memcpy_append, e1, e2, e3, List.length_drop]

theorem wr_memcpy_comm (bs : List Nat) : ∀ (m : Mem) (dst p v : Nat), p < dst →
    wr (memcpy m dst bs) p v = memcpy (wr m p v) dst bs := by
  induction bs with
  | nil => intro m dst p v _; rfl
  | cons b bs ih =>
    intro m dst p v h
    simp only [memcpy]
    rw [ih _ _ _ _ (by omega)]
    have e : wr (wr m dst b) p v = wr (wr m p v) dst b := by
      funext q
      unfold wr
      split_ifs <;> first | rfl | omega
    rw [e]

theorem readN_memcpy_app (m : Mem) (pre rec : List Nat) (h : readN m 0 pre.length = pre) :
    readN (memcpy m pre.length rec) 0 (pre.length + rec.length) = pre ++ rec := by
  rw [readN_add, Nat.zero_add, readN_memcpy]
  congr 1
  rw [← h, readN_length]
  apply readN_congr
  intro k hk
  rw [memcpy_lt _ _ _ _ (by omega)]


/-! ## The loop of `sproto_pack` produces `packFrom` -/

theorem pack_step_first (srcv : List Nat) (i : Nat) (s : PackState)
    (h : segRet (nzBytes (srcBlock srcv i)).length s.ff_n = 10) :
    pack_step srcv i s =
      { mem := (pack_seg (srcBlock srcv i) s.mem s.buffer s.bufsz s.ff_n).1,
        buffer := s.buffer + 10, bufsz := s.bufsz - 10, ff_srcstart := i,
        ff_desstart := s.buffer, ff_n := 1, size := s.size + 10 } := by
  simp [pack_step, pack_seg_ret, h]

theorem pack_step_close (srcv : List Nat) (i : Nat) (s : PackState)
    (h : segRet (nzBytes (srcBlock srcv i)).length s.ff_n = 8) (hn : s.ff_n > 0)
    (h256 : s.ff_n + 1 = 256) :
    pack_step srcv i s =
      { mem := if s.bufsz - 8 ≥ 0 then
                 write_ff srcv s.ff_srcstart
                   (pack_seg (srcBlock srcv i) s.mem s.buffer s.bufsz s.ff_n).1 s.ff_desstart 256
               else (pack_seg (srcBlock srcv i) s.mem s.buffer s.bufsz s.ff_n).1,
        buffer := s.buffer + 8, bufsz := s.bufsz - 8, ff_srcstart := s.ff_srcstart,
        ff_desstart := s.ff_desstart, ff_n := 0, size := s.size + 8 } := by
  simp [pack_step, pack_seg_ret, h, hn, h256]

theorem pack_step_cont (srcv : List Nat) (i : Nat) (s : PackState)
    (h : segRet (nzBytes (srcBlock srcv i)).length s.ff_n = 8) (hn : s.ff_n > 0)
    (h256 : s.ff_n + 1 ≠ 256) :
    pack_step srcv i s =
      { mem := (pack_seg (srcBlock srcv i) s.mem s.buffer s.bufsz s.ff_n).1,
        buffer := s.buffer + 8, bufsz := s.bufsz - 8, ff_srcstart := s.ff_srcstart,
        ff_desstart := s.ff_desstart, ff_n := s.ff_n + 1, size := s.size + 8 } := by
  simp [pack_step, pack_seg_ret, h, hn, h256]

theorem pack_step_mask (srcv : List Nat) (i : Nat) (s : PackState)
    (h : segRet (nzBytes (srcBlock srcv i)).length s.ff_n ≠ 10)
    (h8 : ¬(segRet (nzBytes (srcBlock srcv i)).length s.ff_n = 8 ∧ s.ff_n > 0)) :
    pack_step srcv i s =
      { mem := if s.ff_n > 0 then
                 (if s.bufsz - ((nzBytes (srcBlock srcv i)).length + 1 : Nat) ≥ 0 then
                   write_ff srcv s.ff_srcstart
                     (pack_seg (srcBlock srcv i) s.mem s.buffer s.bufsz s.ff_n).1 s.ff_desstart s.ff_n
                 else (pack_seg (srcBlock srcv i) s.mem s.buffer s.bufsz s.ff_n).1)
               else (pack_seg (srcBlock srcv i) s.mem s.buffer s.bufsz s.ff_n).1,
        buffer := s.buffer + ((nzBytes (srcBlock srcv i)).length + 1),
        bufsz := s.bufsz - ((nzBytes (srcBlock srcv i)).length + 1 : Nat),
        ff_srcstart := s.ff_srcstart,
        ff_desstart := s.ff_desstart, ff_n := 0,
        size := s.size + ((nzBytes (srcBlock srcv i)).length + 1) } := by
  have e := segRet_mask _ _ h h8
  rw [e] at h h8
  simp only [pack_step, pack_seg_ret, e]
  rw [if_neg h, if_neg h8]
  by_cases hn : s.ff_n > 0
  · simp [hn]
  · have : s.ff_n = 0 := by omega
    simp [hn, this]


theorem segRet_ten (nz n : Nat) (hnz : nz ≤ 8) (h : segRet nz n = 10) : n = 0 ∧ nz = 8 := by
  unfold segRet at h
  by_cases h1 : (nz = 7 ∨ nz = 6) ∧ n > 0
  · simp [h1] at h
  · by_cases h2 : nz = 8
    · by_cases h3 : n > 0
      · simp [h1, h2, h3] at h
      · exact ⟨by omega, h2⟩
    · simp [h1, h2] at h
      omega

theorem pack_loop_sim (srcv : List Nat) (B : Int) :
    ∀ (k j : Nat) (s : PackState) (pre run : List Nat),
      j + k = (srcv.length + 7) / 8 →
      s.buffer = s.size → s.bufsz = B - s.size → s.ff_n ≤ j → s.ff_n < 256 →
      (s.ff_n > 0 → s.ff_desstart = pre.length ∧ s.ff_srcstart = 8 * (j - s.ff_n)) →
      s.size = pre.length + (if s.ff_n = 0 then 0 else 2 + 8 * s.ff_n) →
      readN s.mem 0 pre.length = pre →
      run = ((padded srcv).drop (8 * (j - s.ff_n))).take (8 * s.ff_n) →
      ((pre ++ packFrom s.ff_n run (blocksFrom srcv k j)).length : Int) ≤ B →
      (pack_loop srcv k (8 * j) s).size
          = (pre ++ packFrom s.ff_n run (blocksFrom srcv k j)).length ∧
      readN (pack_finish srcv (pack_loop srcv k (8 * j) s)) 0
          (pre ++ packFrom s.ff_n run (blocksFrom srcv k j)).length
        = pre ++ packFrom s.ff_n run (blocksFrom srcv k j) := by
  have hP := padded_length srcv
  intro k
  induction k with
  | zero =>
    intro j s pre run hj hbuf hsz hnj hn256 hff hsize hmem hrun hB
    have hrl : run.length = 8 * s.ff_n := by
      rw [hrun, List.length_take, List.length_drop, hP]; omega
    simp only [blocksFrom, packFrom, pack_loop, pack_finish] at hB ⊢
    by_cases h0 : s.ff_n = 0
    · simp only [h0, flushFF, if_true, List.append_nil] at hB hsize ⊢
      simp [hsize, hmem]
    · have hpos : s.ff_n > 0 := by omega
      obtain ⟨hd, hs⟩ := hff hpos
      simp only [flushFF, h0, if_false, List.length_append, List.length_cons] at hB hsize ⊢
      refine ⟨by omega, ?_⟩
      rw [if_pos ⟨by push_cast at hB; omega, hpos⟩, hs,
        write_ff_eq _ _ _ _ _ (by omega) (by omega), ← hrun, hd]
      have := readN_memcpy_app s.mem pre (0xff :: ((s.ff_n - 1) % 256) :: run) hmem
      simpa using this
  | succ k ih =>
    intro j s pre run hj hbuf hsz hnj hn256 hff hsize hmem hrun hB
    have hjlt : j < (srcv.length + 7) / 8 := by omega
    have hrl : run.length = 8 * s.ff_n := by
      rw [hrun, List.length_take, List.length_drop, hP]; omega
    have hblk := srcBlock_eq srcv j hjlt
    have hbl : (srcBlock srcv (8 * j)).length = 8 := by
      rw [hblk, List.length_take, List.length_drop, hP]; omega
    have hnext : 8 * j + 8 = 8 * (j + 1) := by ring
    simp only [blocksFrom, packFrom, pack_loop] at hB ⊢
    rw [hnext]
    by_cases h10 : segRet (nzBytes (srcBlock srcv (8 * j))).length s.ff_n = 10
    · -- the block starts a run
      obtain ⟨hn0, _⟩ := segRet_ten _ _ (le_of_le_of_eq (List.length_filter_le _ _) hbl) h10
      rw [if_pos h10] at hB ⊢
      rw [pack_step_first _ _ _ h10]
      simp only [hn0, if_true, Nat.add_zero] at hsize
      have := ih (j + 1)
        { mem := (pack_seg (srcBlock srcv (8 * j)) s.mem s.buffer s.bufsz s.ff_n).1,
          buffer := s.buffer + 10, bufsz := s.bufsz - 10, ff_srcstart := 8 * j,
          ff_desstart := s.buffer, ff_n := 1, size := s.size + 10 } pre (srcBlock srcv (8 * j))
        (by omega) (by simp; omega) (by simp; omega) (by simp) (by simp)
        (by intro _; simp; omega) (by simp; omega)
        (by
          simp only []
          rw [← hmem, readN_length]
          apply readN_congr
          intro q hq
          rw [pack_seg_frame _ _ _ _ _ _ (by omega)])
        (by simp [hblk]) hB
      exact this
    · rw [if_neg h10] at hB ⊢
      by_cases h8 : segRet (nzBytes (srcBlock srcv (8 * j))).length s.ff_n = 8 ∧ s.ff_n > 0
      · rw [if_pos h8] at hB ⊢
        obtain ⟨h8a, hpos⟩ := h8
        obtain ⟨hd, hs⟩ := hff hpos
        have hne : s.ff_n ≠ 0 := by omega
        simp only [hne, if_false] at hsize
        have hrun2 : run ++ srcBlock srcv (8 * j)
            = ((padded srcv).drop (8 * (j + 1 - (s.ff_n + 1)))).take (8 * (s.ff_n + 1)) := by
          rw [hrun, hblk]; exact take_drop_succ _ _ _ hnj
        have hframe : readN (pack_seg (srcBlock srcv (8 * j)) s.mem s.buffer s.bufsz s.ff_n).1 0
            pre.length = pre := by
          rw [← hmem, readN_length]
          apply readN_congr
          intro q hq
          rw [pack_seg_frame _ _ _ _ _ _ (by omega)]
        by_cases h256 : s.ff_n + 1 = 256
        · -- the run reaches 256 blocks and is written
          rw [if_pos h256] at hB ⊢
          rw [pack_step_close _ _ _ h8a hpos h256]
          have hfl : (flushFF 256 (run ++ srcBlock srcv (8 * j))).length = 2 + 8 * 256 := by
            simp [flushFF, hrl, hbl]; omega
          have hB2 : s.bufsz - 8 ≥ 0 := by
            simp only [List.length_append, hfl] at hB
            push_cast at hB; omega
          have := ih (j + 1)
            { mem := if s.bufsz - 8 ≥ 0 then
                 write_ff srcv s.ff_srcstart
                   (pack_seg (srcBlock srcv (8 * j)) s.mem s.buffer s.bufsz s.ff_n).1 s.ff_desstart 256
               else (pack_seg (srcBlock srcv (8 * j)) s.mem s.buffer s.bufsz s.ff_n).1,
              buffer := s.buffer + 8, bufsz := s.bufsz - 8, ff_srcstart := s.ff_srcstart,
              ff_desstart := s.ff_desstart, ff_n := 0, size := s.size + 8 }
            (pre ++ flushFF 256 (run ++ srcBlock srcv (8 * j))) []
            (by omega) (by simp; omega) (by simp; omega) (by simp) (by simp)
            (by simp) (by simp [hfl]; omega)
            (by
              simp only []
              rw [if_pos hB2, hs, write_ff_eq _ _ _ _ _ (by omega) (by omega), hd]
              have hrun3 : run ++ srcBlock srcv (8 * j)
                  = ((padded srcv).drop (8 * (j - s.ff_n))).take (8 * 256) := by
                rw [hrun2]; congr 2 <;> omega
              rw [← hrun3]
              have := readN_memcpy_app _ pre
                (0xff :: ((256 - 1) % 256) :: (run ++ srcBlock srcv (8 * j))) hframe
              simp only [flushFF, List.length_append]
              first | exact this | (rw [if_neg (by omega)]; exact this))
            (by simp) (by simpa [List.append_assoc] using hB)
          simpa [List.append_assoc] using this
        · -- the run goes on
          rw [if_neg h256] at hB ⊢
          rw [pack_step_cont _ _ _ h8a hpos h256]
          have := ih (j + 1)
            { mem := (pack_seg (srcBlock srcv (8 * j)) s.mem s.buffer s.bufsz s.ff_n).1,
              buffer := s.buffer + 8, bufsz := s.bufsz - 8, ff_srcstart := s.ff_srcstart,
              ff_desstart := s.ff_desstart, ff_n := s.ff_n + 1, size := s.size + 8 }
            pre (run ++ srcBlock srcv (8 * j))
            (by omega) (by simp; omega) (by simp; omega) (by simp; omega) (by simp; omega)
            (by intro _; simp; omega) (by simp; omega) hframe hrun2 hB
          exact this
      · -- a mask record, after the pending run if there is one
        rw [if_neg h8] at hB ⊢
        rw [pack_step_mask _ _ _ h10 h8]
        have hlen : ((pre ++ (flushFF s.ff_n run ++ maskOf (srcBlock srcv (8 * j)) 0 0 ::
            nzBytes (srcBlock srcv (8 * j)) ++ packFrom 0 [] (blocksFrom srcv k (j + 1)))).length : Int)
            ≥ s.size + ((nzBytes (srcBlock srcv (8 * j))).length + 1) := by
          have : (flushFF s.ff_n run).length = if s.ff_n = 0 then 0 else 2 + 8 * s.ff_n := by
            unfold flushFF; split <;> simp [hrl]; omega
          simp only [List.length_append, List.length_cons, this, hsize]
          push_cast; omega
        have hseg := pack_seg_mask (srcBlock srcv (8 * j)) s.mem s.buffer s.bufsz s.ff_n h10 h8
          (by omega)
        rw [wr_memcpy_comm _ _ _ _ _ (by omega)] at hseg
        have hB2 : s.bufsz - ((nzBytes (srcBlock srcv (8 * j))).length + 1 : Nat) ≥ 0 := by
          push_cast; omega
        have := ih (j + 1)
          { mem := if s.ff_n > 0 then
                 (if s.bufsz - ((nzBytes (srcBlock srcv (8 * j))).length + 1 : Nat) ≥ 0 then
                   write_ff srcv s.ff_srcstart
                     (pack_seg (srcBlock srcv (8 * j)) s.mem s.buffer s.bufsz s.ff_n).1 s.ff_desstart s.ff_n
                 else (pack_seg (srcBlock srcv (8 * j)) s.mem s.buffer s.bufsz s.ff_n).1)
               else (pack_seg (srcBlock srcv (8 * j)) s.mem s.buffer s.bufsz s.ff_n).1,
            buffer := s.buffer + ((nzBytes (srcBlock srcv (8 * j))).length + 1),
            bufsz := s.bufsz - ((nzBytes (srcBlock srcv (8 * j))).length + 1 : Nat),
            ff_srcstart := s.ff_srcstart,
            ff_desstart := s.ff_desstart, ff_n := 0,
            size := s.size + ((nzBytes (srcBlock srcv (8 * j))).length + 1) }
          (pre ++ flushFF s.ff_n run ++
            maskOf (srcBlock srcv (8 * j)) 0 0 :: nzBytes (srcBlock srcv (8 * j))) []
          (by omega) (by simp; omega) (by simp; omega) (by simp) (by simp)
          (by simp)
          (by
            simp only [if_true, Nat.add_zero, List.length_append, List.length_cons, hsize]
            unfold flushFF; split <;> simp [hrl] <;> omega)
          (by
            simp only []
            by_cases hpos : s.ff_n > 0
            · obtain ⟨hd, hs⟩ := hff hpos
              have hne : s.ff_n ≠ 0 := by omega
              simp only [hne, if_false] at hsize
              rw [if_pos hpos, if_pos hB2, hs, write_ff_eq _ _ _ _ _ (by omega) (by omega), ← hrun,
                hseg, hd]
              simp only [flushFF, hne, if_false]
              rw [List.length_append, readN_add, Nat.zero_add]
              congr 1
              · have := readN_memcpy_app
                  (memcpy s.mem s.buffer (maskOf (srcBlock srcv (8 * j)) 0 0 ::
                    nzBytes (srcBlock srcv (8 * j)))) pre
                  (0xff :: ((s.ff_n - 1) % 256) :: run)
                  (by
                    rw [← hmem, readN_length]
                    apply readN_congr
                    intro q hq
                    rw [memcpy_lt _ _ _ _ (by omega)])
                simpa using this
              · have e : (pre ++ 0xff :: ((s.ff_n - 1) % 256) :: run).length = s.buffer := by
                  simp [hrl]; omega
                rw [e]
                have := readN_memcpy s.mem s.buffer
                  (maskOf (srcBlock srcv (8 * j)) 0 0 :: nzBytes (srcBlock srcv (8 * j)))
                rw [← this]
                simp only [readN_length, List.length_cons]
                apply readN_congr
                intro q hq
                rw [memcpy_ge _ _ _ _ (by simp [hrl]; omega)]
                rfl
            · have hne : s.ff_n = 0 := by omega
              simp only [hne, if_true, Nat.add_zero] at hsize
              rw [if_neg hpos, hseg]
              simp only [flushFF, hne, if_true, List.append_nil]
              have := readN_memcpy_app s.mem pre
                (maskOf (srcBlock srcv (8 * j)) 0 0 :: nzBytes (srcBlock srcv (8 * j))) hmem
              rw [show s.buffer = pre.length by omega]
              simpa using this)
          (by simp) (by simpa [List.append_assoc] using hB)
        simpa [List.append_assoc] using this


/-! ## The mask byte -/

theorem maskOf_testBit (b : List Nat) : ∀ (i h j : Nat),
    (maskOf b i h).testBit j
      = (h.testBit j || decide (i ≤ j ∧ ∃ hk : j - i < b.length, b[j - i] ≠ 0)) := by
  induction b with
  | nil => intro i h j; simp [maskOf]
  | cons x xs ih =>
    intro i h j
    rw [maskOf, ih]
    by_cases hx : x = 0
    · simp only [hx, ne_eq, not_true_eq_false, if_false]
      congr 1
      by_cases hij : i + 1 ≤ j
      · have e : j - i = (j - (i + 1)) + 1 := by omega
        simp only [hij, true_and, show i ≤ j by omega, e, List.length_cons, List.getElem_cons_succ,
          Nat.add_lt_add_iff_right]
      · simp only [hij, false_and, decide_False]
        by_cases h2 : i ≤ j
        · have e : j - i = 0 := by omega
          simp [h2, e]
        · simp [h2]
    · simp only [hx, ne_eq, not_false_eq_true, if_true, Nat.testBit_or, Nat.one_shiftLeft,
        Nat.testBit_two_pow, Bool.or_assoc]
      congr 1
      by_cases hij : i + 1 ≤ j
      · have e : j - i = (j - (i + 1)) + 1 := by omega
        have hne : i ≠ j := by omega
        simp only [hij, true_and, show i ≤ j by omega, e, List.length_cons, List.getElem_cons_succ,
          Nat.add_lt_add_iff_right, hne, decide_False, Bool.false_or]
      · simp only [hij, false_and, decide_False, Bool.or_false]
        by_cases h2 : i = j
        · subst h2; simp [hx]
        · have h3 : ¬ i ≤ j := by omega
          simp [h2, h3]

theorem maskOf_bit (b : List Nat) (j : Nat) (hj : j < b.length) :
    (maskOf b 0 0).testBit j = decide (b[j] ≠ 0) := by
  rw [maskOf_testBit]
  simp [hj]

theorem maskOf_bit_high (b : List Nat) (j : Nat) (hj : b.length ≤ j) :
    (maskOf b 0 0).testBit j = false := by
  rw [maskOf_testBit]
  simp; omega

theorem maskOf_lt (b : List Nat) (h : b.length ≤ 8) : maskOf b 0 0 < 256 := by
  apply Nat.lt_pow_two_of_testBit (n := 8)
  intro i hi
  exact maskOf_bit_high b i (by omega)

theorem nzBytes_length_eq (b : List Nat) (h : (nzBytes b).length = b.length) :
    ∀ j (hj : j < b.length), b[j] ≠ 0 := by
  intro j hj
  have : nzBytes b = b := by
    unfold nzBytes at h ⊢
    exact List.filter_eq_self.mpr (List.filter_length_eq_length.mp h)
  have hm : b[j] ∈ nzBytes b := by rw [this]; exact List.getElem_mem _
  simpa [nzBytes] using hm

theorem maskOf_ne_ff (b : List Nat) (hb : b.length = 8) (h : (nzBytes b).length < 8) :
    maskOf b 0 0 ≠ 0xff := by
  intro hm
  have hall : ∀ j (hj : j < b.length), b[j] ≠ 0 := by
    intro j hj
    have := maskOf_bit b j hj
    rw [hm] at this
    have h255 : Nat.testBit 255 j = true := by
      have : j < 8 := by omega
      interval_cases j <;> rfl
    rw [h255] at this
    simpa using this.symm
  have : nzBytes b = b := by
    unfold nzBytes
    apply List.filter_eq_self.mpr
    intro x hx
    obtain ⟨j, hj, rfl⟩ := List.getElem_of_mem hx
    simpa using hall j hj
  rw [this] at h
  omega

theorem bit_test (h i : Nat) : ((h >>> i) &&& 1 ≠ 0) ↔ h.testBit i = true := by
  unfold Nat.testBit
  rw [Nat.and_comm]
  simp


/-! ## `sproto_unpack` on the records `sproto_pack` writes -/

theorem unpack_bits_block (h : Nat) : ∀ (bs : List Nat) (i : Nat) (s : UnpackState) (rest : List Nat),
    (∀ k (hk : k < bs.length), h.testBit (i + k) = decide (bs[k] ≠ 0)) →
    s.src = nzBytes bs ++ rest → (bs.length : Int) ≤ s.bufsz →
    unpack_bits h bs.length i s = .ok
      { src := rest, mem := memcpy s.mem s.buffer bs, buffer := s.buffer + bs.length,
        bufsz := s.bufsz - bs.length, size := s.size + bs.length } := by
  intro bs
  induction bs with
  | nil =>
    intro i s rest _ hsrc _
    simp only [nzBytes, List.filter_nil, List.nil_append] at hsrc
    simp [unpack_bits, memcpy, ← hsrc]
  | cons x xs ih =>
    intro i s rest hbit hsrc hbuf
    simp only [List.length_cons, Nat.cast_add, Nat.cast_one] at hbuf
    have h0 := hbit 0 (by simp)
    simp only [Nat.add_zero, List.getElem_cons_zero] at h0
    have hrest : ∀ k (hk : k < xs.length), h.testBit (i + 1 + k) = decide (xs[k] ≠ 0) := by
      intro k hk
      have := hbit (k + 1) (by simp; omega)
      simpa [Nat.add_assoc, Nat.add_comm 1 k] using this
    simp only [List.length_cons, unpack_bits]
    by_cases hx : x = 0
    · have hb : ¬ ((h >>> i) &&& 1 ≠ 0) := by rw [bit_test, h0]; simp [hx]
      rw [if_neg hb]
      have e : nzBytes (x :: xs) = nzBytes xs := by simp [nzBytes, hx]
      rw [e] at hsrc
      simp only [unpack_put, if_pos (show s.bufsz > 0 by omega)]
      rw [ih (i + 1) _ rest hrest (by simpa using hsrc) (by simp; omega)]
      simp only [memcpy, hx, Except.ok.injEq, UnpackState.mk.injEq, true_and]
      refine ⟨by omega, by omega, by omega⟩
    · have hb : (h >>> i) &&& 1 ≠ 0 := by rw [bit_test, h0]; simp [hx]
      rw [if_pos hb]
      have e : nzBytes (x :: xs) = x :: nzBytes xs := by simp [nzBytes, hx]
      rw [e] at hsrc
      simp only [hsrc, List.cons_append, unpack_put, if_pos (show s.bufsz > 0 by omega)]
      rw [ih (i + 1) _ rest hrest (by simp) (by simp; omega)]
      simp only [memcpy, Except.ok.injEq, UnpackState.mk.injEq, true_and]
      refine ⟨by omega, by omega, by omega⟩

theorem unpack_loop_mask (fuel : Nat) (s : UnpackState) (b rest : List Nat)
    (hb : b.length = 8) (hnz : (nzBytes b).length < 8)
    (hsrc : s.src = maskOf b 0 0 :: nzBytes b ++ rest) (hbuf : 8 ≤ s.bufsz) :
    unpack_loop (fuel + 1) s = unpack_loop fuel
      { src := rest, mem := memcpy s.mem s.buffer b, buffer := s.buffer + 8,
        bufsz := s.bufsz - 8, size := s.size + 8 } := by
  have hne := maskOf_ne_ff b hb hnz
  have hbits := unpack_bits_block (maskOf b 0 0) b 0 { s with src := nzBytes b ++ rest } rest
    (by intro k hk; rw [Nat.zero_add]; exact maskOf_bit b k hk) rfl (by simp [hb]; omega)
  rw [hb] at hbits
  simp only [unpack_loop, hsrc, List.cons_append]
  rw [if_neg hne, hbits]
  rfl

theorem unpack_loop_ff (fuel : Nat) (s : UnpackState) (c : Nat) (data rest : List Nat)
    (hlen : data.length = (c + 1) * 8)
    (hsrc : s.src = 0xff :: c :: (data ++ rest)) (hbuf : ((c + 1) * 8 : Nat) ≤ s.bufsz) :
    unpack_loop (fuel + 1) s = unpack_loop fuel
      { src := rest, mem := memcpy s.mem s.buffer data, buffer := s.buffer + (c + 1) * 8,
        bufsz := s.bufsz - ((c + 1) * 8 : Nat), size := s.size + (c + 1) * 8 } := by
  simp only [unpack_loop, hsrc, if_true]
  rw [if_neg (by simp [hlen]), if_pos (by omega)]
  rw [List.take_append_of_le_length (by omega), List.take_of_length_le (by omega),
    List.drop_append_of_le_length (by omega), List.drop_of_length_le (by omega), List.nil_append]

theorem unpack_packFrom : ∀ (bs : List (List Nat)) (n : Nat) (run : List Nat) (s : UnpackState)
    (fuel : Nat), (∀ b ∈ bs, b.length = 8) → run.length = 8 * n → n < 256 →
    s.src = packFrom n run bs → s.src.length < fuel →
    ((8 * n + 8 * bs.length : Nat) : Int) ≤ s.bufsz →
    unpack_loop fuel s
      = some (((s.size + 8 * n + 8 * bs.length : Nat) : Int),
              memcpy s.mem s.buffer (run ++ bs.flatten)) := by
  intro bs
  induction bs with
  | nil =>
    intro n run s fuel _ hrun hn hsrc hfuel hbuf
    simp only [packFrom, flushFF] at hsrc
    obtain ⟨f, rfl⟩ : ∃ f, fuel = f + 1 := ⟨fuel - 1, by omega⟩
    by_cases h0 : n = 0
    · subst h0
      have : run = [] := List.length_eq_zero.mp (by omega)
      simp only [if_true] at hsrc
      simp [unpack_loop, hsrc, this, memcpy]
    · simp only [h0, if_false] at hsrc
      have hc : (n - 1) % 256 = n - 1 := Nat.mod_eq_of_lt (by omega)
      rw [hc] at hsrc
      have hlen : run.length = (n - 1 + 1) * 8 := by omega
      have hsrc2 : s.src = 0xff :: (n - 1) :: (run ++ []) := by simpa using hsrc
      obtain ⟨f2, rfl⟩ : ∃ f2, f = f2 + 1 := ⟨f - 1, by
        have : s.src.length ≥ 2 := by rw [hsrc]; simp
        omega⟩
      rw [unpack_loop_ff _ s (n - 1) run [] hlen hsrc2
        (by simp only [List.length_nil, Nat.mul_zero, Nat.add_zero] at hbuf; omega)]
      simp only [unpack_loop, List.flatten_nil, List.append_nil, List.length_nil, Nat.mul_zero,
        Nat.add_zero, Option.some.injEq, Prod.mk.injEq, and_true]
      congr 1; omega
  | cons b bs ih =>
    intro n run s fuel hall hrun hn hsrc hfuel hbuf
    have hb : b.length = 8 := hall b (List.mem_cons_self _ _)
    have hall2 : ∀ b ∈ bs, b.length = 8 := fun x hx => hall x (List.mem_cons_of_mem _ hx)
    simp only [List.length_cons] at hbuf
    simp only [packFrom] at hsrc
    by_cases h10 : segRet (nzBytes b).length n = 10
    · obtain ⟨hn0, _⟩ := segRet_ten _ _ (le_of_le_of_eq (List.length_filter_le _ _) hb) h10
      subst hn0
      have hr0 : run = [] := List.length_eq_zero.mp (by omega)
      rw [if_pos h10] at hsrc
      have := ih 1 b s fuel hall2 (by omega) (by omega) hsrc hfuel (by omega)
      rw [this, hr0]
      simp only [List.flatten_cons, List.nil_append, List.length_cons, Option.some.injEq,
        Prod.mk.injEq, and_true]
      congr 1; omega
    · rw [if_neg h10] at hsrc
      by_cases h8 : segRet (nzBytes b).length n = 8 ∧ n > 0
      · rw [if_pos h8] at hsrc
        by_cases h256 : n + 1 = 256
        · rw [if_pos h256] at hsrc
          simp only [flushFF, show (256 : Nat) ≠ 0 by omega, if_false, List.cons_append] at hsrc
          obtain ⟨f, rfl⟩ : ∃ f, fuel = f + 1 := ⟨fuel - 1, by omega⟩
          have hlen : (run ++ b).length = (255 + 1) * 8 := by simp [hrun, hb]; omega
          rw [unpack_loop_ff f s 255 (run ++ b) (packFrom 0 [] bs) hlen (by simpa using hsrc)
            (by omega)]
          have := ih 0 []
            { src := packFrom 0 [] bs, mem := memcpy s.mem s.buffer (run ++ b),
              buffer := s.buffer + (255 + 1) * 8, bufsz := s.bufsz - ((255 + 1) * 8 : Nat),
              size := s.size + (255 + 1) * 8 } f hall2 (by simp) (by omega) rfl
            (by
              have : s.src.length = 2 + (run ++ b).length + (packFrom 0 [] bs).length := by
                rw [hsrc]; simp; omega
              simp only []; omega)
            (by simp only []; omega)
          rw [this]
          simp only [List.nil_append, List.flatten_cons, Option.some.injEq, Prod.mk.injEq]
          constructor
          · simp only [List.length_cons]; congr 1; omega
          · simp only [memcpy_append, List.length_append, hrun, hb]
            rw [show s.buffer + (255 + 1) * 8 = s.buffer + 8 * n + 8 by omega]
        · rw [if_neg h256] at hsrc
          have := ih (n + 1) (run ++ b) s fuel hall2 (by simp [hrun, hb]; omega) (by omega) hsrc
            hfuel (by omega)
          rw [this]
          simp only [List.flatten_cons, List.append_assoc, Option.some.injEq, Prod.mk.injEq,
            and_true, List.length_cons]
          congr 1; omega
      · rw [if_neg h8] at hsrc
        have hnz : (nzBytes b).length < 8 := by
          have hle : (nzBytes b).length ≤ 8 := le_of_le_of_eq (List.length_filter_le _ _) hb
          have := segRet_mask _ _ h10 h8
          by_contra hcon
          have h88 : (nzBytes b).length = 8 := by omega
          rw [h88] at this h10 h8
          simp only [segRet] at this
          split_ifs at this <;> omega
        obtain ⟨f, rfl⟩ : ∃ f, fuel = f + 1 := ⟨fuel - 1, by omega⟩
        by_cases h0 : n = 0
        · subst h0
          have hr0 : run = [] := List.length_eq_zero.mp (by omega)
          simp only [flushFF, if_true, List.nil_append, List.cons_append] at hsrc
          rw [unpack_loop_mask f s b (packFrom 0 [] bs) hb hnz (by simpa using hsrc) (by omega)]
          have := ih 0 []
            { src := packFrom 0 [] bs, mem := memcpy s.mem s.buffer b,
              buffer := s.buffer + 8, bufsz := s.bufsz - 8, size := s.size + 8 } f hall2 (by simp)
            (by omega) rfl
            (by
              have : s.src.length = 1 + (nzBytes b).length + (packFrom 0 [] bs).length := by
                rw [hsrc]; simp; omega
              simp only []; omega)
            (by simp only []; omega)
          rw [this, hr0]
          simp only [List.nil_append, List.flatten_cons, Option.some.injEq, Prod.mk.injEq]
          constructor
          · simp only [List.length_cons]; congr 1; omega
          · simp only [memcpy_append, List.length_append, hb]
        · simp only [flushFF, h0, if_false, List.cons_append, List.append_assoc] at hsrc
          have hc : (n - 1) % 256 = n - 1 := Nat.mod_eq_of_lt (by omega)
          rw [hc] at hsrc
          have hlen : run.length = (n - 1 + 1) * 8 := by omega
          obtain ⟨f2, rfl⟩ : ∃ f2, f = f2 + 1 := ⟨f - 1, by
            have : s.src.length ≥ 2 := by rw [hsrc]; simp
            omega⟩
          rw [unpack_loop_ff _ s (n - 1) run _ hlen hsrc (by omega)]
          rw [unpack_loop_mask f2 _ b (packFrom 0 [] bs) hb hnz (by simp) (by simp only []; omega)]
          have := ih 0 []
            { src := packFrom 0 [] bs,
              mem := memcpy (memcpy s.mem s.buffer run) (s.buffer + (n - 1 + 1) * 8) b,
              buffer := s.buffer + (n - 1 + 1) * 8 + 8,
              bufsz := s.bufsz - ((n - 1 + 1) * 8 : Nat) - 8,
              size := s.size + (n - 1 + 1) * 8 + 8 } f2 hall2 (by simp)
            (by omega) rfl
            (by
              have : s.src.length = 2 + run.length + (1 + (nzBytes b).length
                  + (packFrom 0 [] bs).length) := by
                rw [hsrc]; simp; omega
              simp only []; omega)
            (by simp only []; omega)
          rw [this]
          simp only [List.nil_append, List.flatten_cons, Option.some.injEq, Prod.mk.injEq]
          constructor
          · simp only [List.length_cons]; congr 1; omega
          · simp only [memcpy_append, List.length_append, hb, hlen]


/-! ## Size returned by `sproto_pack` -/

theorem pack_step_size (srcv : List Nat) (i : Nat) (s : PackState) :
    (pack_step srcv i s).size = s.size + segRet (nzBytes (srcBlock srcv i)).length s.ff_n := by
  simp only [pack_step, pack_seg_ret]
  split_ifs <;> rfl

theorem pack_step_ff_n (srcv : List Nat) (i : Nat) (s : PackState) :
    (pack_step srcv i s).ff_n =
      if segRet (nzBytes (srcBlock srcv i)).length s.ff_n = 10 then 1
      else if segRet (nzBytes (srcBlock srcv i)).length s.ff_n = 8 ∧ s.ff_n > 0 then
        (if s.ff_n + 1 = 256 then 0 else s.ff_n + 1)
      else 0 := by
  simp only [pack_step, pack_seg_ret]
  split_ifs <;> first | rfl | (simp only []; omega)

theorem pack_loop_size_congr (srcv : List Nat) : ∀ (k i : Nat) (s t : PackState),
    s.ff_n = t.ff_n → s.size = t.size →
    (pack_loop srcv k i s).size = (pack_loop srcv k i t).size := by
  intro k
  induction k with
  | zero => intro i s t _ h; exact h
  | succ k ih =>
    intro i s t hn hs
    simp only [pack_loop]
    apply ih
    · rw [pack_step_ff_n, pack_step_ff_n, hn]
    · rw [pack_step_size, pack_step_size, hn, hs]

theorem sproto_pack_size_congr (srcv : List Nat) (m m2 : Mem) (B B2 : Int) :
    (sproto_pack srcv m B).1 = (sproto_pack srcv m2 B2).1 := by
  simp only [sproto_pack]
  exact pack_loop_size_congr srcv _ _ _ _ rfl rfl

theorem sproto_pack_spec (srcv : List Nat) (m : Mem) (B : Int)
    (hB : ((packFrom 0 [] (blocks srcv)).length : Int) ≤ B) :
    (sproto_pack srcv m B).1 = (packFrom 0 [] (blocks srcv)).length ∧
    readN (sproto_pack srcv m B).2 0 (packFrom 0 [] (blocks srcv)).length
      = packFrom 0 [] (blocks srcv) := by
  have := pack_loop_sim srcv B ((srcv.length + 7) / 8) 0 (pack_init m B)
    [] [] (by omega) rfl (by simp [pack_init]) (by simp [pack_init]) (by simp [pack_init])
    (by simp [pack_init]) (by simp [pack_init]) (by simp [readN])
    (by simp [pack_init]) (by simpa [blocks, pack_init] using hB)
  simpa [sproto_pack, blocks, pack_init] using this

theorem sproto_pack_size (srcv : List Nat) (m : Mem) (B : Int) :
    (sproto_pack srcv m B).1 = (packFrom 0 [] (blocks srcv)).length := by
  rw [sproto_pack_size_congr srcv m m B ((packFrom 0 [] (blocks srcv)).length : Int)]
  exact (sproto_pack_spec srcv m _ (le_refl _)).1

/-! ## The blocks of a source -/

theorem blocksFrom_length (srcv : List Nat) : ∀ (k j : Nat), (blocksFrom srcv k j).length = k := by
  intro k
  induction k with
  | zero => intro j; rfl
  | succ k ih => intro j; simp [blocksFrom, ih]

theorem blocksFrom_len8 (srcv : List Nat) : ∀ (k j : Nat), j + k ≤ (srcv.length + 7) / 8 →
    ∀ b ∈ blocksFrom srcv k j, b.length = 8 := by
  have hP := padded_length srcv
  intro k
  induction k with
  | zero => intro j _ b hb; simp [blocksFrom] at hb
  | succ k ih =>
    intro j hj b hb
    simp only [blocksFrom, List.mem_cons] at hb
    rcases hb with rfl | hb
    · rw [srcBlock_eq srcv j (by omega), List.length_take, List.length_drop, hP]; omega
    · exact ih (j + 1) (by omega) b hb

theorem blocksFrom_flatten (srcv : List Nat) : ∀ (k j : Nat), j + k = (srcv.length + 7) / 8 →
    (blocksFrom srcv k j).flatten = (padded srcv).drop (8 * j) := by
  have hP := padded_length srcv
  intro k
  induction k with
  | zero =>
    intro j hj
    simp only [blocksFrom, List.flatten_nil]
    rw [List.drop_of_length_le (by omega)]
  | succ k ih =>
    intro j hj
    simp only [blocksFrom, List.flatten_cons]
    rw [ih (j + 1) (by omega), srcBlock_eq srcv j (by omega),
      show 8 * (j + 1) = 8 * j + 8 by ring, ← List.drop_drop, List.take_append_drop]

theorem blocks_flatten (srcv : List Nat) : (blocks srcv).flatten = padded srcv := by
  rw [blocks, blocksFrom_flatten srcv _ 0 (by omega)]; rfl

/-! ## Round trip -/

theorem pack_unpack (x : List Nat) (m1 m2 : Mem) (B1 B2 : Int)
    (h1 : ((sproto_pack x m1 B1).1 : Int) ≤ B1)
    (h2 : ((8 * ((x.length + 7) / 8) : Nat) : Int) ≤ B2) :
    sproto_unpack (readN (sproto_pack x m1 B1).2 0 (sproto_pack x m1 B1).1) m2 B2
      = some (((8 * ((x.length + 7) / 8) : Nat) : Int), memcpy m2 0 (padded x)) := by
  have hsz := sproto_pack_size x m1 B1
  rw [hsz] at h1
  have hspec := sproto_pack_spec x m1 B1 h1
  rw [hsz, hspec.2]
  have hbl : (blocks x).length = (x.length + 7) / 8 := blocksFrom_length x _ _
  have := unpack_packFrom (blocks x) 0 []
    { src := packFrom 0 [] (blocks x), mem := m2, buffer := 0, bufsz := B2, size := 0 }
    ((packFrom 0 [] (blocks x)).length + 1)
    (blocksFrom_len8 x _ 0 (by omega)) rfl (by omega) rfl (by simp) (by simp only [hbl]; omega)
  rw [sproto_unpack, this, blocks_flatten, hbl]
  simp


/-! ## `sproto_unpack`: termination, returned size, writes -/

theorem unpack_put_src (s : UnpackState) (b : Nat) : (unpack_put s b).src = s.src := by
  unfold unpack_put; split <;> rfl

theorem unpack_put_size (s : UnpackState) (b : Nat) : (unpack_put s b).size = s.size := by
  unfold unpack_put; split <;> rfl

theorem unpack_bits_src_le (h : Nat) : ∀ (k i : Nat) (s s1 : UnpackState),
    unpack_bits h k i s = .ok s1 → s1.src.length ≤ s.src.length := by
  intro k
  induction k with
  | zero => intro i s s1 hs; simp only [unpack_bits, Except.ok.injEq] at hs; rw [hs]
  | succ k ih =>
    intro i s s1 hs
    simp only [unpack_bits] at hs
    split_ifs at hs with hb
    · cases hsrc : s.src with
      | nil => simp [hsrc] at hs
      | cons b rest =>
        simp only [hsrc] at hs
        have := ih _ _ _ hs
        simp only [List.length_cons] at this ⊢
        omega
    · have := ih _ _ _ hs
      simpa [unpack_put_src] using this

theorem unpack_loop_total : ∀ (fuel : Nat) (s : UnpackState), s.src.length < fuel →
    ∃ r, unpack_loop fuel s = some r := by
  intro fuel
  induction fuel with
  | zero => intro s h; omega
  | succ fuel ih =>
    intro s h
    simp only [unpack_loop]
    cases hsrc : s.src with
    | nil => exact ⟨_, rfl⟩
    | cons hd src =>
      rw [hsrc] at h
      simp only [List.length_cons] at h
      simp only []
      split_ifs with hff
      · cases src with
        | nil => exact ⟨_, rfl⟩
        | cons c src1 =>
          simp only []
          split_ifs with hlen
          · exact ⟨_, rfl⟩
          all_goals
            apply ih
            simp only [List.length_drop, List.length_cons] at h ⊢
            omega
      · cases hb : unpack_bits hd 8 0 { s with src := src } with
        | error m => exact ⟨_, rfl⟩
        | ok s1 =>
          simp only []
          apply ih
          have := unpack_bits_src_le _ _ _ _ _ hb
          simp only [] at this
          omega

theorem sproto_unpack_total (srcv : List Nat) (m : Mem) (B : Int) :
    ∃ r, sproto_unpack srcv m B = some r :=
  unpack_loop_total _ _ (by simp)

/-- What `unpack_bits` does to the source and the size does not depend on the
destination. -/
theorem unpack_bits_congr (h : Nat) : ∀ (k i : Nat) (s t : UnpackState),
    s.src = t.src → s.size = t.size →
    (unpack_bits h k i s).toOption.map (fun u => (u.src, u.size))
      = (unpack_bits h k i t).toOption.map (fun u => (u.src, u.size)) := by
  intro k
  induction k with
  | zero => intro i s t h1 h2; simp [unpack_bits, Except.toOption, h1, h2]
  | succ k ih =>
    intro i s t h1 h2
    simp only [unpack_bits]
    split_ifs with hb
    · rw [← h1]
      cases s.src with
      | nil => rfl
      | cons b rest =>
        simp only []
        apply ih
        · rfl
        · simp [unpack_put_size, h2]
    · apply ih
      · simp [unpack_put_src, h1]
      · simp [unpack_put_size, h2]

theorem unpack_loop_congr : ∀ (fuel : Nat) (s t : UnpackState),
    s.src = t.src → s.size = t.size →
    (unpack_loop fuel s).map Prod.fst = (unpack_loop fuel t).map Prod.fst := by
  intro fuel
  induction fuel with
  | zero => intro s t _ _; rfl
  | succ fuel ih =>
    intro s t h1 h2
    simp only [unpack_loop]
    rw [← h1]
    cases s.src with
    | nil => simp [h2]
    | cons hd src =>
      simp only []
      split_ifs with hff
      · cases src with
        | nil => rfl
        | cons c src1 =>
          simp only []
          split_ifs with hlen
          · rfl
          all_goals
            apply ih
            · rfl
            · simp [h2]
      · have := unpack_bits_congr hd 8 0 { s with src := src } { t with src := src } rfl h2
        cases hs : unpack_bits hd 8 0 { s with src := src } with
        | error m =>
          rw [hs] at this
          cases ht : unpack_bits hd 8 0 { t with src := src } with
          | error m1 => rfl
          | ok t1 => rw [ht] at this; simp [Except.toOption] at this
        | ok s1 =>
          rw [hs] at this
          cases ht : unpack_bits hd 8 0 { t with src := src } with
          | error m1 => rw [ht] at this; simp [Except.toOption] at this
          | ok t1 =>
            rw [ht] at this
            simp only [Except.toOption, Option.map_some', Option.some.injEq,
              Prod.mk.injEq] at this
            exact ih _ _ this.1 this.2

theorem unpack_put_frame (D : Int) (s : UnpackState) (b : Nat) (hinv : unpackInv D s) :
    unpackInv D (unpack_put s b) ∧ ∀ p : Nat, D ≤ (p : Int) → (unpack_put s b).mem p = s.mem p := by
  unfold unpack_put unpackInv at *
  split
  · rename_i hpos
    have := hinv hpos
    refine ⟨fun h => by simp only [] at h ⊢; push_cast; omega, fun p hp => ?_⟩
    simp only []
    rw [wr_other _ _ _ _ (by omega)]
  · exact ⟨hinv, fun p _ => rfl⟩

theorem unpack_bits_frame (D : Int) (h : Nat) : ∀ (k i : Nat) (s s1 : UnpackState),
    unpackInv D s → unpack_bits h k i s = .ok s1 →
    unpackInv D s1 ∧ ∀ p : Nat, D ≤ (p : Int) → s1.mem p = s.mem p := by
  intro k
  induction k with
  | zero =>
    intro i s s1 hinv hs
    simp only [unpack_bits, Except.ok.injEq] at hs
    subst hs
    exact ⟨hinv, fun p _ => rfl⟩
  | succ k ih =>
    intro i s s1 hinv hs
    simp only [unpack_bits] at hs
    split_ifs at hs with hb
    · cases hsrc : s.src with
      | nil => simp [hsrc] at hs
      | cons b rest =>
        simp only [hsrc] at hs
        obtain ⟨hi1, hf1⟩ := unpack_put_frame D s b hinv
        obtain ⟨hi2, hf2⟩ := ih _ _ _ (by simpa [unpackInv] using hi1) hs
        exact ⟨hi2, fun p hp => by rw [hf2 p hp]; exact hf1 p hp⟩
    · obtain ⟨hi1, hf1⟩ := unpack_put_frame D s 0 hinv
      obtain ⟨hi2, hf2⟩ := ih _ _ _ (by simpa [unpackInv] using hi1) hs
      exact ⟨hi2, fun p hp => by rw [hf2 p hp]; exact hf1 p hp⟩

/-- The stores of a mask block that ends in `return -1` stay below the
capacity as well. -/
theorem unpack_bits_frame_error (D : Int) (h : Nat) : ∀ (k i : Nat) (s : UnpackState) (m : Mem),
    unpackInv D s → unpack_bits h k i s = .error m →
    ∀ p : Nat, D ≤ (p : Int) → m p = s.mem p := by
  intro k
  induction k with
  | zero =>
    intro i s m _ hs
    simp only [unpack_bits] at hs
    cases hs
  | succ k ih =>
    intro i s m hinv hs
    simp only [unpack_bits] at hs
    split_ifs at hs with hb
    · cases hsrc : s.src with
      | nil =>
        simp only [hsrc, Except.error.injEq] at hs
        intro p _
        rw [← hs]
      | cons b rest =>
        simp only [hsrc] at hs
        obtain ⟨hi1, hf1⟩ := unpack_put_frame D s b hinv
        have hf2 := ih _ _ _ (by simpa [unpackInv] using hi1) hs
        exact fun p hp => by rw [hf2 p hp]; exact hf1 p hp
    · obtain ⟨hi1, hf1⟩ := unpack_put_frame D s 0 hinv
      have hf2 := ih _ _ _ (by simpa [unpackInv] using hi1) hs
      exact fun p hp => by rw [hf2 p hp]; exact hf1 p hp

theorem unpack_loop_frame (D : Int) : ∀ (fuel : Nat) (s : UnpackState) (r : Int × Mem),
    unpackInv D s → unpack_loop fuel s = some r →
    ∀ p : Nat, D ≤ (p : Int) → r.2 p = s.mem p := by
  intro fuel
  induction fuel with
  | zero => intro s r _ h; simp [unpack_loop] at h
  | succ fuel ih =>
    intro s r hinv hr p hp
    simp only [unpack_loop] at hr
    cases hsrc : s.src with
    | nil => simp only [hsrc, Option.some.injEq] at hr; rw [← hr]
    | cons hd src =>
      simp only [hsrc] at hr
      split_ifs at hr with hff
      · cases src with
        | nil => simp only [Option.some.injEq] at hr; rw [← hr]
        | cons c src1 =>
          simp only [] at hr
          split_ifs at hr with hlen hbuf
          · simp only [Option.some.injEq] at hr; rw [← hr]
          · have hpos : s.bufsz > 0 := by push_cast at hbuf; omega
            have hle := hinv hpos
            rw [ih _ r (by
              unfold unpackInv; simp only []; intro _; push_cast; omega) hr p hp]
            simp only []
            rw [memcpy_ge _ _ _ _ (by
              simp only [List.length_take]; push_cast at hbuf; omega)]
          · rw [ih _ r (by
              unfold unpackInv; simp only []; intro h1; push_cast at hbuf h1 ⊢
              have := hinv (by omega); omega) hr p hp]
      · cases hb : unpack_bits hd 8 0 { s with src := src } with
        | error m =>
          simp only [hb, Option.some.injEq] at hr
          rw [← hr]
          exact unpack_bits_frame_error D hd 8 0 { s with src := src } m
            (by simpa [unpackInv] using hinv) hb p hp
        | ok s1 =>
          simp only [hb] at hr
          obtain ⟨hi1, hf1⟩ := unpack_bits_frame D hd 8 0 { s with src := src } s1
            (by simpa [unpackInv] using hinv) hb
          rw [ih _ r hi1 hr p hp, hf1 p hp]


/-! ## Sparse blocks and literal runs -/

theorem packFrom_sparse : ∀ (bs : List (List Nat)), (∀ b ∈ bs, (nzBytes b).length ≤ 5) →
    packFrom 0 [] bs = bs.flatMap (fun b => maskOf b 0 0 :: nzBytes b) := by
  intro bs
  induction bs with
  | nil => intro _; rfl
  | cons b bs ih =>
    intro h
    have hb : (nzBytes b).length ≤ 5 := h b (List.mem_cons_self _ _)
    have hr : segRet (nzBytes b).length 0 = (nzBytes b).length + 1 := by
      unfold segRet
      simp only [gt_iff_lt, Nat.lt_irrefl, and_false, if_false]
      rw [if_neg (by omega)]
    simp only [packFrom, hr, List.flatMap_cons]
    rw [if_neg (by omega), if_neg (by omega), ih (fun x hx => h x (List.mem_cons_of_mem _ hx))]
    simp [flushFF]

theorem popcount_mask_aux (l : List Nat) :
    ((List.range l.length).filter (fun i => decide (l.getD i 0 ≠ 0))).length
      = (nzBytes l).length := by
  induction l with
  | nil => rfl
  | cons x xs ih =>
    have e : (fun i => decide ((x :: xs).getD i 0 ≠ 0)) ∘ Nat.succ
        = fun i => decide (xs.getD i 0 ≠ 0) := by
      funext i; simp
    rw [List.length_cons, List.range_succ_eq_map, List.filter_cons, List.filter_map, e]
    by_cases hx : x = 0
    · have e2 : nzBytes (x :: xs) = nzBytes xs := by simp [nzBytes, hx]
      rw [e2, ← ih]
      simp [hx]
    · have e2 : nzBytes (x :: xs) = x :: nzBytes xs := by simp [nzBytes, hx]
      rw [e2, List.length_cons, ← ih]
      simp [hx]

theorem popcount_mask (b : List Nat) (hb : b.length = 8) :
    ((List.range 8).filter (fun i => (maskOf b 0 0).testBit i)).length = (nzBytes b).length := by
  rw [← popcount_mask_aux b, hb]
  congr 1
  apply List.filter_congr
  intro i hi
  have hi8 : i < b.length := by rw [hb]; simpa using hi
  rw [maskOf_bit b i hi8]
  simp [List.getD_eq_getElem?_getD, List.getElem?_eq_getElem hi8]

theorem packFrom_dense : ∀ (bs : List (List Nat)) (n : Nat) (run : List Nat),
    (∀ b ∈ bs, b.length = 8 ∧ (nzBytes b).length = 8) → run.length = 8 * n → n < 256 →
    packFrom n run bs = ffRecords ((n + bs.length + 255) / 256) (run ++ bs.flatten) := by
  intro bs
  induction bs with
  | nil =>
    intro n run _ hrun hn
    simp only [packFrom, flushFF, List.length_nil, Nat.add_zero, List.flatten_nil, List.append_nil]
    by_cases h0 : n = 0
    · subst h0; rfl
    · rw [if_neg h0, show (n + 255) / 256 = 0 + 1 by omega, ffRecords, ffRecords,
        List.take_of_length_le (by omega), hrun, List.append_nil]
      congr 2
      rw [Nat.mod_eq_of_lt (by omega)]
      omega
  | cons b bs ih =>
    intro n run hall hrun hn
    obtain ⟨hb8, hbnz⟩ := hall b (List.mem_cons_self _ _)
    have hall2 : ∀ b ∈ bs, b.length = 8 ∧ (nzBytes b).length = 8 :=
      fun x hx => hall x (List.mem_cons_of_mem _ hx)
    simp only [packFrom, hbnz, List.flatten_cons, List.length_cons]
    by_cases h0 : n = 0
    · subst h0
      have hr0 : run = [] := List.length_eq_zero.mp (by omega)
      have hr : segRet 8 0 = 10 := by decide
      rw [hr, if_pos rfl, ih 1 b hall2 (by omega) (by omega), hr0, List.nil_append]
      congr 1; omega
    · have hr : segRet 8 n = 8 := by
        unfold segRet
        simp only [show ¬((8 : Nat) = 7 ∨ (8 : Nat) = 6) by omega, false_and, if_false, if_true]
        rw [if_pos (by omega)]
      rw [hr, if_neg (by omega), if_pos ⟨rfl, by omega⟩]
      by_cases h256 : n + 1 = 256
      · rw [if_pos h256, ih 0 [] hall2 rfl (by omega),
          show (n + (bs.length + 1) + 255) / 256 = (0 + bs.length + 255) / 256 + 1 by omega,
          ffRecords]
        have hlen : (run ++ b).length = 2048 := by simp [hrun, hb8]; omega
        rw [← List.append_assoc, List.take_append_of_le_length (by omega),
          List.take_of_length_le (by omega), List.drop_append_of_le_length (by omega),
          List.drop_of_length_le (by omega)]
        simp only [flushFF, List.length_append, hlen, List.nil_append, List.cons_append,
          List.append_assoc]
        have : bs.flatten.length = 8 * bs.length := by
          clear ih hall
          induction bs with
          | nil => rfl
          | cons c cs ihc =>
            simp only [List.flatten_cons, List.length_append, List.length_cons]
            rw [ihc (fun x hx => hall2 x (List.mem_cons_of_mem _ hx)),
              (hall2 c (List.mem_cons_self _ _)).1]
            ring
        rw [if_neg (by omega)]
        have e : min 256 ((run.length + (b.length + bs.flatten.length)) / 8) - 1
            = (256 - 1) % 256 := by
          rw [hrun, hb8, this, Nat.min_def]; split_ifs <;> omega
        rw [e]
        simp
      · rw [if_neg h256, ih (n + 1) (run ++ b) hall2 (by simp [hrun, hb8]; omega) (by omega),
          List.append_assoc]
        congr 1; omega


/-! ## The record a block ends up in -/

theorem packFrom_foldl : ∀ (bs1 : List (List Nat)) (st : List Nat × Nat × List Nat)
    (bs2 : List (List Nat)),
    st.1 ++ packFrom st.2.1 st.2.2 (bs1 ++ bs2)
      = (bs1.foldl packStep st).1 ++
          packFrom (bs1.foldl packStep st).2.1 (bs1.foldl packStep st).2.2 bs2 := by
  intro bs1
  induction bs1 with
  | nil => intro st bs2; rfl
  | cons b bs ih =>
    intro st bs2
    rw [List.cons_append, List.foldl_cons, ← ih]
    simp only [packFrom, packStep]
    split_ifs <;> simp [List.append_assoc]

theorem packFrom_prefix (bs1 bs2 : List (List Nat)) :
    packFrom 0 [] (bs1 ++ bs2)
      = (packPrefix bs1).1 ++ packFrom (packPrefix bs1).2.1 (packPrefix bs1).2.2 bs2 := by
  have := packFrom_foldl bs1 ([], 0, []) bs2
  simpa [packPrefix] using this

theorem packFrom_closed (bs : List (List Nat)) (h : (packPrefix bs).2.1 = 0) :
    packFrom 0 [] bs = (packPrefix bs).1 := by
  have := packFrom_prefix bs []
  rw [List.append_nil] at this
  rw [this, h]
  simp [packFrom, flushFF]

theorem packPrefix_snoc (bs : List (List Nat)) (b : List Nat) :
    packPrefix (bs ++ [b]) = packStep (packPrefix bs) b := by
  simp [packPrefix, List.foldl_append]

/-- History of the pending run: it is made of the last `ff_n` blocks, and no
run was pending when its first block was reached. -/
theorem packPrefix_inv : ∀ (bs : List (List Nat)), (∀ b ∈ bs, b.length = 8) →
    (packPrefix bs).2.1 ≤ bs.length ∧ (packPrefix bs).2.1 < 256 ∧
    (packPrefix bs).2.2 = (bs.drop (bs.length - (packPrefix bs).2.1)).flatten ∧
    packPrefix (bs.take (bs.length - (packPrefix bs).2.1)) = ((packPrefix bs).1, 0, []) := by
  intro bs
  induction bs using List.reverseRecOn with
  | nil => intro _; simp [packPrefix]
  | append_singleton bs b ih =>
    intro hall
    have hb : b.length = 8 := hall b (by simp)
    obtain ⟨h1, h2, h3, h4⟩ := ih (fun x hx => hall x (by simp [hx]))
    rw [packPrefix_snoc]
    simp only [List.length_append, List.length_singleton]
    by_cases h10 : segRet (nzBytes b).length (packPrefix bs).2.1 = 10
    · obtain ⟨hn0, _⟩ := segRet_ten _ _ (le_of_le_of_eq (List.length_filter_le _ _) hb) h10
      have e : packStep (packPrefix bs) b = ((packPrefix bs).1, 1, b) := by
        simp only [packStep]; rw [if_pos h10]
      rw [e]
      rw [hn0] at h3 h4
      simp only [Nat.sub_zero, List.drop_length, List.flatten_nil, List.take_length] at h3 h4
      refine ⟨by simp, by simp, by simp, ?_⟩
      simp only [Nat.add_sub_cancel, List.take_left']
      rw [h4]
    · by_cases h8 : segRet (nzBytes b).length (packPrefix bs).2.1 = 8 ∧ (packPrefix bs).2.1 > 0
      · by_cases h256 : (packPrefix bs).2.1 + 1 = 256
        · have e : packStep (packPrefix bs) b
              = ((packPrefix bs).1 ++ flushFF 256 ((packPrefix bs).2.2 ++ b), 0, []) := by
            simp only [packStep]; rw [if_neg h10, if_pos h8, if_pos h256]
          rw [e]
          refine ⟨by simp, by simp, by simp, ?_⟩
          simp only [Nat.sub_zero]
          rw [show bs.length + 1 = (bs ++ [b]).length by simp, List.take_length, packPrefix_snoc, e]
        · have e : packStep (packPrefix bs) b
              = ((packPrefix bs).1, (packPrefix bs).2.1 + 1, (packPrefix bs).2.2 ++ b) := by
            simp only [packStep]; rw [if_neg h10, if_pos h8, if_neg h256]
          rw [e]
          simp only []
          refine ⟨by omega, by omega, ?_, ?_⟩
          · rw [h3, show bs.length + 1 - ((packPrefix bs).2.1 + 1)
                = bs.length - (packPrefix bs).2.1 by omega,
              List.drop_append_of_le_length (by omega)]
            simp
          · rw [show bs.length + 1 - ((packPrefix bs).2.1 + 1)
                = bs.length - (packPrefix bs).2.1 by omega,
              List.take_append_of_le_length (by omega), h4]
      · have e : packStep (packPrefix bs) b
            = ((packPrefix bs).1 ++ flushFF (packPrefix bs).2.1 (packPrefix bs).2.2
                ++ (maskOf b 0 0 :: nzBytes b), 0, []) := by
          simp only [packStep]; rw [if_neg h10, if_neg h8]
        rw [e]
        refine ⟨by simp, by simp, by simp, ?_⟩
        simp only [Nat.sub_zero]
        rw [show bs.length + 1 = (bs ++ [b]).length by simp, List.take_length, packPrefix_snoc, e]

/-- A pending run ends up as the head of one record. -/
theorem packFrom_run : ∀ (bs : List (List Nat)) (n : Nat) (run : List Nat),
    (∀ b ∈ bs, b.length = 8) → run.length = 8 * n → 0 < n → n < 256 →
    ∃ c extra post, packFrom n run bs = 0xff :: c :: (run ++ extra) ++ post ∧
      (run ++ extra).length = 8 * (c + 1) ∧ n ≤ c + 1 ∧ c < 256 := by
  intro bs
  induction bs with
  | nil =>
    intro n run _ hrun hpos hn
    refine ⟨n - 1, [], [], ?_, by simp [hrun]; omega, by omega, by omega⟩
    simp [packFrom, flushFF, Nat.mod_eq_of_lt (show n - 1 < 256 by omega)]
    omega
  | cons b bs ih =>
    intro n run hall hrun hpos hn
    have hb : b.length = 8 := hall b (List.mem_cons_self _ _)
    have hall2 : ∀ b ∈ bs, b.length = 8 := fun x hx => hall x (List.mem_cons_of_mem _ hx)
    simp only [packFrom]
    by_cases h10 : segRet (nzBytes b).length n = 10
    · obtain ⟨hn0, _⟩ := segRet_ten _ _ (le_of_le_of_eq (List.length_filter_le _ _) hb) h10
      omega
    · rw [if_neg h10]
      by_cases h8 : segRet (nzBytes b).length n = 8 ∧ n > 0
      · rw [if_pos h8]
        by_cases h256 : n + 1 = 256
        · rw [if_pos h256]
          refine ⟨255, b, packFrom 0 [] bs, by simp [flushFF], by simp [hrun, hb]; omega, by omega,
            by omega⟩
        · rw [if_neg h256]
          obtain ⟨c, extra, post, he, hl, hc, hc2⟩ :=
            ih (n + 1) (run ++ b) hall2 (by simp [hrun, hb]; omega) (by omega) (by omega)
          exact ⟨c, b ++ extra, post, by simpa [List.append_assoc] using he,
            by simpa [List.append_assoc] using hl, by omega, hc2⟩
      · rw [if_neg h8]
        refine ⟨n - 1, [], (maskOf b 0 0 :: nzBytes b) ++ packFrom 0 [] bs, ?_,
          by simp [hrun]; omega, by omega, by omega⟩
        rw [flushFF, if_neg (by omega), Nat.mod_eq_of_lt (show n - 1 < 256 by omega)]
        simp


theorem blocksFrom_append (srcv : List Nat) : ∀ (a b j : Nat),
    blocksFrom srcv (a + b) j = blocksFrom srcv a j ++ blocksFrom srcv b (j + a) := by
  intro a
  induction a with
  | zero => intro b j; simp [blocksFrom]
  | succ a ih =>
    intro b j
    rw [show a + 1 + b = (a + b) + 1 by omega]
    simp only [blocksFrom, List.cons_append]
    rw [ih b (j + 1), show j + 1 + a = j + (a + 1) by omega]

theorem packStep_ff_n (st : List Nat × Nat × List Nat) (b : List Nat) :
    (packStep st b).2.1 =
      if segRet (nzBytes b).length st.2.1 = 10 then 1
      else if segRet (nzBytes b).length st.2.1 = 8 ∧ st.2.1 > 0 then
        (if st.2.1 + 1 = 256 then 0 else st.2.1 + 1)
      else 0 := by
  simp only [packStep]
  split_ifs <;> rfl

theorem pack_loop_ff_n (srcv : List Nat) : ∀ (k j : Nat) (s : PackState)
    (st : List Nat × Nat × List Nat), st.2.1 = s.ff_n →
    (pack_loop srcv k (8 * j) s).ff_n = ((blocksFrom srcv k j).foldl packStep st).2.1 := by
  intro k
  induction k with
  | zero => intro j s st h; simp [pack_loop, blocksFrom, h]
  | succ k ih =>
    intro j s st h
    simp only [pack_loop, blocksFrom, List.foldl_cons]
    rw [show 8 * j + 8 = 8 * (j + 1) by ring]
    apply ih
    rw [packStep_ff_n, pack_step_ff_n, h]

theorem srcBlock_take (x : List Nat) (i j : Nat) (hij : i < j) (hj : 8 * j ≤ x.length) :
    srcBlock (x.take (8 * j)) (8 * i) = srcBlock x (8 * i) := by
  unfold srcBlock
  rw [if_neg (by simp; omega), if_neg (by omega), List.drop_take, List.take_take]
  congr 1
  omega

theorem blocksFrom_take (x : List Nat) (j : Nat) (hj : 8 * j ≤ x.length) : ∀ (k i : Nat),
    i + k ≤ j → blocksFrom (x.take (8 * j)) k i = blocksFrom x k i := by
  intro k
  induction k with
  | zero => intro i _; rfl
  | succ k ih =>
    intro i hi
    simp only [blocksFrom]
    rw [srcBlock_take x i j (by omega) hj, ih (i + 1) (by omega)]

theorem blocks_take (x : List Nat) (j : Nat) (hj : 8 * j ≤ x.length) :
    blocks (x.take (8 * j)) = blocksFrom x j 0 := by
  unfold blocks
  rw [List.length_take, Nat.min_eq_left hj, show (8 * j + 7) / 8 = j by omega]
  exact blocksFrom_take x j hj j 0 (by omega)

theorem flatten_length8 : ∀ (bs : List (List Nat)), (∀ b ∈ bs, b.length = 8) →
    bs.flatten.length = 8 * bs.length := by
  intro bs
  induction bs with
  | nil => intro _; rfl
  | cons c cs ih =>
    intro h
    simp only [List.flatten_cons, List.length_append, List.length_cons]
    rw [ih (fun x hx => h x (List.mem_cons_of_mem _ hx)), h c (List.mem_cons_self _ _)]
    ring

theorem segRet_lit (nz n : Nat) (h6 : 6 ≤ nz) (h8 : nz ≤ 8) (hn : 0 < n) : segRet nz n = 8 := by
  unfold segRet
  by_cases h : nz = 8
  · subst h
    simp only [show ¬((8 : Nat) = 7 ∨ (8 : Nat) = 6) by omega, false_and, if_false, if_true]
    rw [if_pos hn]
  · have hc : (nz = 7 ∨ nz = 6) ∧ n > 0 := ⟨by omega, hn⟩
    simp [hc, hn]

/-- Decomposition of the packed stream at block `k`. -/
theorem pack_at_block (x : List Nat) (k : Nat) (hk : k < (x.length + 7) / 8) :
    packFrom 0 [] (blocks x)
      = (packPrefix (blocksFrom x k 0)).1 ++
          packFrom (packPrefix (blocksFrom x k 0)).2.1 (packPrefix (blocksFrom x k 0)).2.2
            (srcBlock x (8 * k) :: blocksFrom x ((x.length + 7) / 8 - (k + 1)) (k + 1)) := by
  have e : blocks x = blocksFrom x k 0 ++
      (srcBlock x (8 * k) :: blocksFrom x ((x.length + 7) / 8 - (k + 1)) (k + 1)) := by
    unfold blocks
    rw [show (x.length + 7) / 8 = k + (((x.length + 7) / 8 - (k + 1)) + 1) by omega,
      blocksFrom_append]
    simp only [blocksFrom, Nat.zero_add]
    congr 3 <;> omega
  rw [e, packFrom_prefix]


/-- A block that `sproto_pack` zero-padded in `tmp` has at most 7 non-zero
bytes, so `pack_seg` does not return 10 for it and `ff_srcstart` is never set
to `tmp`. -/
theorem pack_seg_padded (srcv : List Nat) (i : Nat) (m : Mem) (p : Nat) (sz : Int) (n : Nat)
    (h : i + 8 > srcv.length) : (pack_seg (srcBlock srcv i) m p sz n).2 ≠ 10 := by
  rw [pack_seg_ret]
  have hnz : (nzBytes (srcBlock srcv i)).length ≤ 7 := by
    unfold srcBlock nzBytes
    rw [if_pos h]
    simp only [List.filter_append, List.length_append]
    have h1 : (List.filter (fun x => decide (x ≠ 0)) (List.replicate (i + 8 - srcv.length) 0))
        = [] := by
      rw [List.filter_eq_nil_iff]
      intro a ha
      rw [List.eq_of_mem_replicate ha]
      simp
    have h2 := List.length_filter_le (fun x => decide (x ≠ 0))
      (List.take (8 - (i + 8 - srcv.length)) (List.drop i srcv))
    have h3 := List.length_take_le (8 - (i + 8 - srcv.length)) (List.drop i srcv)
    rw [h1, List.length_nil]
    omega
  intro hcon
  have := segRet_ten _ n (by omega) hcon
  omega


theorem mem_blocksFrom (x : List Nat) : ∀ (k j : Nat), j + k = (x.length + 7) / 8 →
    ∀ b ∈ blocksFrom x k j, ∀ v ∈ b, v ∈ padded x := by
  intro k
  induction k with
  | zero => intro j _ b hb; simp [blocksFrom] at hb
  | succ k ih =>
    intro j hj b hb v hv
    simp only [blocksFrom, List.mem_cons] at hb
    rcases hb with rfl | hb
    · rw [srcBlock_eq x j (by omega)] at hv
      exact List.mem_of_mem_drop (List.mem_of_mem_take hv)
    · exact ih (j + 1) (by omega) b hb v hv

theorem ffRecords_length : ∀ (g : Nat) (x : List Nat), (x.length + 2047) / 2048 = g →
    (ffRecords g x).length = x.length + 2 * g := by
  intro g
  induction g with
  | zero => intro x h; simp [ffRecords]; omega
  | succ g ih =>
    intro x h
    simp only [ffRecords, List.length_cons, List.length_append, List.length_take]
    rw [ih (x.drop 2048) (by simp only [List.length_drop]; omega), List.length_drop,
      Nat.min_def]
    split_ifs <;> omega

/-- C1. For every byte sequence `x` (empty or of any length), when both
destination buffers are large enough, `sproto_unpack` applied to the bytes
`sproto_pack` wrote succeeds, returns `8 * ceil(len x / 8)`, and its output is
`x` followed by zero bytes up to that length; nothing is written beyond. -/
theorem sproto_unpack_pack_roundtrip (x : List Nat) (m1 m2 : Mem) (B1 B2 : Int)
    (h1 : ((sproto_pack x m1 B1).1 : Int) ≤ B1)
    (h2 : ((8 * ((x.length + 7) / 8) : Nat) : Int) ≤ B2) :
    ∃ out : Mem,
      sproto_unpack (readN (sproto_pack x m1 B1).2 0 (sproto_pack x m1 B1).1) m2 B2
        = some (((8 * ((x.length + 7) / 8) : Nat) : Int), out) ∧
      readN out 0 (8 * ((x.length + 7) / 8))
        = x ++ List.replicate (8 * ((x.length + 7) / 8) - x.length) 0 ∧
      ∀ p, 8 * ((x.length + 7) / 8) ≤ p → out p = m2 p := by
  refine ⟨memcpy m2 0 (padded x), pack_unpack x m1 m2 B1 B2 h1 h2, ?_, ?_⟩
  · have hl : (padded x).length = 8 * ((x.length + 7) / 8) := by rw [padded_length]; ring
    rw [← hl, readN_memcpy]
    unfold padded
    rw [List.length_append, List.length_replicate]
    congr 2
    omega
  · intro p hp
    rw [memcpy_ge _ _ _ _ (by rw [padded_length]; omega)]

theorem sproto_unpack_pack_roundtrip_witness :
    (((sproto_pack [7, 0, 0, 9, 1, 2, 3, 4, 5, 6, 7, 8, 9] zeroMem 32).1 : Int) ≤ 32) ∧
    (((8 * (([7, 0, 0, 9, 1, 2, 3, 4, 5, 6, 7, 8, 9].length + 7) / 8) : Nat) : Int) ≤ 16) ∧
    ∃ out : Mem,
      sproto_unpack (readN (sproto_pack [7, 0, 0, 9, 1, 2, 3, 4, 5, 6, 7, 8, 9] zeroMem 32).2 0
          (sproto_pack [7, 0, 0, 9, 1, 2, 3, 4, 5, 6, 7, 8, 9] zeroMem 32).1) zeroMem 16
        = some (((8 * (([7, 0, 0, 9, 1, 2, 3, 4, 5, 6, 7, 8, 9].length + 7) / 8) : Nat) : Int), out) ∧
      readN out 0 (8 * (([7, 0, 0, 9, 1, 2, 3, 4, 5, 6, 7, 8, 9].length + 7) / 8))
        = [7, 0, 0, 9, 1, 2, 3, 4, 5, 6, 7, 8, 9] ++
            List.replicate (8 * (([7, 0, 0, 9, 1, 2, 3, 4, 5, 6, 7, 8, 9].length + 7) / 8)
              - [7, 0, 0, 9, 1, 2, 3, 4, 5, 6, 7, 8, 9].length) 0 ∧
      ∀ p, 8 * (([7, 0, 0, 9, 1, 2, 3, 4, 5, 6, 7, 8, 9].length + 7) / 8) ≤ p → out p = zeroMem p :=
  ⟨by decide, by decide,
    sproto_unpack_pack_roundtrip [7, 0, 0, 9, 1, 2, 3, 4, 5, 6, 7, 8, 9] zeroMem zeroMem 32 16
      (by decide) (by decide)⟩

/-- C7. When every 8-byte block of the input (the last one zero-padded) has at
most 5 non-zero bytes, the output of `sproto_pack` is, block by block, one mask
byte whose bit `i` is set iff byte `i` of the block is non-zero, followed by the
non-zero bytes of the block in order, `1 + popcount(mask)` bytes per block; the
16 bytes `01 00.. 02 00..` pack to `01 01 01 02`. -/
theorem sproto_pack_sparse_blocks (x : List Nat) (m : Mem) (B : Int)
    (hsparse : ∀ b ∈ blocks x, (nzBytes b).length ≤ 5)
    (hB : ((sproto_pack x m B).1 : Int) ≤ B) :
    readN (sproto_pack x m B).2 0 (sproto_pack x m B).1
        = (blocks x).flatMap (fun b => maskOf b 0 0 :: nzBytes b) ∧
    (∀ b ∈ blocks x, maskOf b 0 0 < 256 ∧
      (∀ i, i < 8 → ((maskOf b 0 0).testBit i = true ↔ b.getD i 0 ≠ 0)) ∧
      (maskOf b 0 0 :: nzBytes b).length
        = 1 + ((List.range 8).filter (fun i => (maskOf b 0 0).testBit i)).length) ∧
    (sproto_pack [1, 0, 0, 0, 0, 0, 0, 0, 2, 0, 0, 0, 0, 0, 0, 0] zeroMem 4).1 = 4 ∧
    readN (sproto_pack [1, 0, 0, 0, 0, 0, 0, 0, 2, 0, 0, 0, 0, 0, 0, 0] zeroMem 4).2 0 4
        = [1, 1, 1, 2] := by
  have hsz := sproto_pack_size x m B
  rw [hsz] at hB
  have hspec := sproto_pack_spec x m B hB
  refine ⟨?_, ?_, by decide, by decide⟩
  · rw [hsz, hspec.2, packFrom_sparse _ hsparse]
  · intro b hb
    have hb8 : b.length = 8 := blocksFrom_len8 x _ 0 (by omega) b hb
    refine ⟨maskOf_lt b (by omega), ?_, ?_⟩
    · intro i hi
      rw [maskOf_bit b i (by omega)]
      simp [List.getD_eq_getElem?_getD, List.getElem?_eq_getElem (show i < b.length by omega)]
    · rw [popcount_mask b hb8, List.length_cons]; omega

theorem sproto_pack_sparse_blocks_witness :
    (∀ b ∈ blocks [0, 3, 0, 0, 4, 0, 5, 0, 0, 0, 6], (nzBytes b).length ≤ 5) ∧
    (((sproto_pack [0, 3, 0, 0, 4, 0, 5, 0, 0, 0, 6] zeroMem 6).1 : Int) ≤ 6) ∧
    readN (sproto_pack [0, 3, 0, 0, 4, 0, 5, 0, 0, 0, 6] zeroMem 6).2 0
        (sproto_pack [0, 3, 0, 0, 4, 0, 5, 0, 0, 0, 6] zeroMem 6).1
      = (blocks [0, 3, 0, 0, 4, 0, 5, 0, 0, 0, 6]).flatMap (fun b => maskOf b 0 0 :: nzBytes b) :=
  ⟨by decide, by decide,
    (sproto_pack_sparse_blocks [0, 3, 0, 0, 4, 0, 5, 0, 0, 0, 6] zeroMem 6 (by decide)
      (by decide)).1⟩

theorem pack_dense_spec (x : List Nat) (m : Mem) (B : Int) (n : Nat)
    (hn : 1 ≤ n) (hlen : x.length = 8 * n) (hnz : ∀ v ∈ x, v ≠ 0)
    (hB : ((sproto_pack x m B).1 : Int) ≤ B) :
    (sproto_pack x m B).1 = 8 * n + 2 * ((n + 255) / 256) ∧
    readN (sproto_pack x m B).2 0 (sproto_pack x m B).1 = ffRecords ((n + 255) / 256) x ∧
    (n = 257 → readN (sproto_pack x m B).2 0 (sproto_pack x m B).1
        = 0xff :: 0xff :: x.take 2048 ++ 0xff :: 0 :: x.drop 2048) := by
  have hsz := sproto_pack_size x m B
  rw [hsz] at hB
  have hspec := sproto_pack_spec x m B hB
  have hnb : (x.length + 7) / 8 = n := by omega
  have hpad : padded x = x := by
    unfold padded
    rw [show (x.length + 7) / 8 * 8 - x.length = 0 by omega]
    simp
  have hall : ∀ b ∈ blocks x, b.length = 8 ∧ (nzBytes b).length = 8 := by
    intro b hb
    have hb8 : b.length = 8 := blocksFrom_len8 x _ 0 (by omega) b hb
    refine ⟨hb8, ?_⟩
    have : nzBytes b = b := by
      unfold nzBytes
      apply List.filter_eq_self.mpr
      intro v hv
      have := mem_blocksFrom x _ 0 (by omega) b hb v hv
      rw [hpad] at this
      simpa using hnz v this
    rw [this, hb8]
  have hbl : (blocks x).length = n := by rw [← hnb]; exact blocksFrom_length x _ _
  have hpf : packFrom 0 [] (blocks x) = ffRecords ((n + 255) / 256) x := by
    rw [packFrom_dense (blocks x) 0 [] hall rfl (by omega), hbl, blocks_flatten, hpad]
    simp
  have hl := ffRecords_length ((n + 255) / 256) x (by omega)
  refine ⟨by rw [hsz, hpf, hl]; omega, by rw [hsz, hspec.2, hpf], ?_⟩
  intro h257
  rw [hsz, hspec.2, hpf, h257]
  have e1 : (257 + 255) / 256 = 1 + 1 := by norm_num
  have e2 : min 256 (x.length / 8) - 1 = 0xff := by
    rw [hlen, h257]; decide
  have e3 : min 256 ((x.drop 2048).length / 8) - 1 = 0 := by
    rw [List.length_drop, hlen, h257]; decide
  rw [e1, ffRecords, ffRecords, ffRecords, e2, e3,
    List.take_of_length_le (l := x.drop 2048) (by rw [List.length_drop, hlen, h257]; decide)]
  simp

/-- C9. For an input of `n ≥ 1` blocks of 8 bytes that are all non-zero,
`sproto_pack` writes the blocks in consecutive groups of at most 256: a group of
`k` blocks is the record `FF, k-1` followed by its `8*k` source bytes, and after
a group of 256 blocks a new record begins; the returned size is
`8*n + 2*ceil(n/256)`, and `n = 257` gives `FF FF` + 2048 bytes + `FF 00` + 8
bytes. -/
theorem sproto_pack_ff_runs (x : List Nat) (m : Mem) (B : Int) (n : Nat)
    (hn : 1 ≤ n) (hlen : x.length = 8 * n) (hnz : ∀ v ∈ x, v ≠ 0)
    (hB : ((sproto_pack x m B).1 : Int) ≤ B) :
    (sproto_pack x m B).1 = 8 * n + 2 * ((n + 255) / 256) ∧
    readN (sproto_pack x m B).2 0 (sproto_pack x m B).1 = ffRecords ((n + 255) / 256) x ∧
    (n = 257 → readN (sproto_pack x m B).2 0 (sproto_pack x m B).1
        = 0xff :: 0xff :: x.take 2048 ++ 0xff :: 0 :: x.drop 2048) :=
  pack_dense_spec x m B n hn hlen hnz hB

theorem sproto_pack_ff_runs_witness :
    (1 ≤ 2) ∧ ([1, 2, 3, 4, 5, 6, 7, 8, 9, 10, 11, 12, 13, 14, 15, 16].length = 8 * 2) ∧
    (∀ v ∈ [1, 2, 3, 4, 5, 6, 7, 8, 9, 10, 11, 12, 13, 14, 15, 16], v ≠ 0) ∧
    (((sproto_pack [1, 2, 3, 4, 5, 6, 7, 8, 9, 10, 11, 12, 13, 14, 15, 16] zeroMem 18).1 : Int)
      ≤ 18) ∧
    (sproto_pack [1, 2, 3, 4, 5, 6, 7, 8, 9, 10, 11, 12, 13, 14, 15, 16] zeroMem 18).1
      = 8 * 2 + 2 * ((2 + 255) / 256) :=
  ⟨by decide, by decide, by decide, by decide,
    (sproto_pack_ff_runs [1, 2, 3, 4, 5, 6, 7, 8, 9, 10, 11, 12, 13, 14, 15, 16] zeroMem 18 2
      (by decide) (by decide) (by decide) (by decide)).1⟩

/-- A truncated mask record: the header `05` announces the bytes 0 and 2 of a
block and only one byte follows. `sproto_unpack` returns -1 at the bit 2, after
it has stored the bytes 0 and 1 of the block, which stay in the destination. -/
theorem sproto_unpack_truncated_keeps_stores :
    (sproto_unpack [5, 9] (memcpy zeroMem 0 [7, 7, 7]) 8).map (fun r => (r.1, readN r.2 0 3))
      = some (-1, [9, 0, 7]) ∧
    (sproto_unpack [5, 9] (memcpy zeroMem 0 [7, 7, 7]) 1).map (fun r => (r.1, readN r.2 0 3))
      = some (-1, [9, 7, 7]) := by
  decide

/-- C10. For every source buffer the value `sproto_pack` returns is the same for
every destination capacity and every destination content; `sproto_unpack`
returns, and the value it returns is the same for every destination capacity
(so it is the size returned with an unlimited buffer), and it leaves every
destination byte at an offset `>= dst_size` as it was. -/
theorem sproto_unpack_size_independent_of_capacity (srcv : List Nat) :
    (∀ (m m2 : Mem) (B B2 : Int), (sproto_pack srcv m B).1 = (sproto_pack srcv m2 B2).1) ∧
    ∃ r : Int, ∀ (m : Mem) (B : Int), ∃ out : Mem,
      sproto_unpack srcv m B = some (r, out) ∧ ∀ p : Nat, B ≤ (p : Int) → out p = m p := by
  refine ⟨sproto_pack_size_congr srcv, ?_⟩
  obtain ⟨r0, hr0⟩ := sproto_unpack_total srcv zeroMem 0
  refine ⟨r0.1, fun m B => ?_⟩
  obtain ⟨r, hr⟩ := sproto_unpack_total srcv m B
  have hc := unpack_loop_congr (srcv.length + 1)
    { src := srcv, mem := m, buffer := 0, bufsz := B, size := 0 }
    { src := srcv, mem := zeroMem, buffer := 0, bufsz := 0, size := 0 } rfl rfl
  unfold sproto_unpack at hr hr0
  rw [hr, hr0] at hc
  simp only [Option.map_some', Option.some.injEq] at hc
  refine ⟨r.2, ?_, ?_⟩
  · unfold sproto_unpack
    rw [hr, ← hc]
  · intro p hp
    exact unpack_loop_frame B _ _ r (by unfold unpackInv; simp only []; intro h; omega) hr p hp


/-- C8, as stated, fails: the 8-byte input `01 02 03 04 05 06 00 00` has 6
non-zero bytes, yet `sproto_pack` returns 7 and writes the mask record
`3F 01 02 03 04 05 06`, not the 10 bytes `FF 00` + source. -/
theorem sproto_pack_six_nonzero_not_literal :
    (nzBytes [1, 2, 3, 4, 5, 6, 0, 0]).length = 6 ∧
    (sproto_pack [1, 2, 3, 4, 5, 6, 0, 0] zeroMem 100).1 = 7 ∧
    readN (sproto_pack [1, 2, 3, 4, 5, 6, 0, 0] zeroMem 100).2 0 7 = [0x3f, 1, 2, 3, 4, 5, 6] ∧
    ¬ ((sproto_pack [1, 2, 3, 4, 5, 6, 0, 0] zeroMem 100).1 = 10 ∧
       readN (sproto_pack [1, 2, 3, 4, 5, 6, 0, 0] zeroMem 100).2 0 10
         = [0xff, 0, 1, 2, 3, 4, 5, 6, 0, 0]) := by
  decide

/-- C8, amended. A source block with 8 non-zero bytes, or with 6 or 7 non-zero
bytes when it is reached while a run is open (`ff_n > 0`), is written with all
its 8 bytes inside an `FF` record: that record follows the packed form of the
blocks before the run, and the block sits at block offset `ff_n` in its body. A
block with 6 or 7 non-zero bytes reached with no run open is written as mask
byte and non-zero bytes. An 8-byte input with 8 non-zero bytes packs to `FF 00`
and the 8 source bytes. -/
theorem sproto_pack_literal_block (x : List Nat) (m : Mem) (B : Int) (k : Nat)
    (hB : ((sproto_pack x m B).1 : Int) ≤ B) (hk : k < (x.length + 7) / 8) :
    ((nzBytes (srcBlock x (8 * k))).length = 8 ∨
      (6 ≤ (nzBytes (srcBlock x (8 * k))).length ∧
        0 < (pack_loop x k 0 (pack_init m B)).ff_n) →
      ∃ c body post,
        readN (sproto_pack x m B).2 0 (sproto_pack x m B).1
          = readN (sproto_pack (x.take (8 * (k - (pack_loop x k 0 (pack_init m B)).ff_n))) m B).2 0
              (sproto_pack (x.take (8 * (k - (pack_loop x k 0 (pack_init m B)).ff_n))) m B).1
            ++ 0xff :: c :: body ++ post ∧
        body.length = 8 * (c + 1) ∧ c < 256 ∧ (pack_loop x k 0 (pack_init m B)).ff_n ≤ c ∧
        (body.drop (8 * (pack_loop x k 0 (pack_init m B)).ff_n)).take 8 = srcBlock x (8 * k)) ∧
    (((nzBytes (srcBlock x (8 * k))).length = 6 ∨ (nzBytes (srcBlock x (8 * k))).length = 7) ∧
        (pack_loop x k 0 (pack_init m B)).ff_n = 0 →
      ∃ post,
        readN (sproto_pack x m B).2 0 (sproto_pack x m B).1
          = readN (sproto_pack (x.take (8 * k)) m B).2 0 (sproto_pack (x.take (8 * k)) m B).1
            ++ maskOf (srcBlock x (8 * k)) 0 0 :: nzBytes (srcBlock x (8 * k)) ++ post) ∧
    (x.length = 8 → (∀ v ∈ x, v ≠ 0) →
      (sproto_pack x m B).1 = 10 ∧ readN (sproto_pack x m B).2 0 10 = 0xff :: 0 :: x) := by
  have hsz := sproto_pack_size x m B
  have hB0 := hB
  rw [hsz] at hB
  have hspec := sproto_pack_spec x m B hB
  have hdec := pack_at_block x k hk
  have hn : (pack_loop x k 0 (pack_init m B)).ff_n = (packPrefix (blocksFrom x k 0)).2.1 := by
    have := pack_loop_ff_n x k 0 (pack_init m B) ([], 0, []) rfl
    simpa [packPrefix] using this
  have hall : ∀ b ∈ blocksFrom x k 0, b.length = 8 := by
    exact blocksFrom_len8 x k 0 (by omega)
  have hall2 : ∀ b ∈ blocksFrom x ((x.length + 7) / 8 - (k + 1)) (k + 1), b.length = 8 :=
    blocksFrom_len8 x _ _ (by omega)
  have hb8 : (srcBlock x (8 * k)).length = 8 := by
    rw [srcBlock_eq x k hk, List.length_take, List.length_drop, padded_length]; omega
  have hnz8 : (nzBytes (srcBlock x (8 * k))).length ≤ 8 :=
    le_of_le_of_eq (List.length_filter_le _ _) hb8
  obtain ⟨i1, i2, i3, i4⟩ := packPrefix_inv (blocksFrom x k 0) hall
  rw [blocksFrom_length] at i1 i3 i4
  have hrl : (packPrefix (blocksFrom x k 0)).2.2.length = 8 * (packPrefix (blocksFrom x k 0)).2.1 := by
    rw [i3, flatten_length8 _ (fun b hb => hall b (List.mem_of_mem_drop hb)), List.length_drop,
      blocksFrom_length]
    omega
  -- the closed records are the packed form of the blocks before the run
  have hpre : ∀ j, j = k - (packPrefix (blocksFrom x k 0)).2.1 →
      readN (sproto_pack (x.take (8 * j)) m B).2 0 (sproto_pack (x.take (8 * j)) m B).1
        = (packPrefix (blocksFrom x k 0)).1 := by
    intro j hj
    have hjk : j ≤ k := by omega
    have hbt : blocks (x.take (8 * j)) = (blocksFrom x k 0).take j := by
      rw [blocks_take x j (by omega), show k = j + (k - j) by omega, blocksFrom_append,
        List.take_left' (blocksFrom_length x _ _)]
    have hcl : packFrom 0 [] (blocks (x.take (8 * j))) = (packPrefix (blocksFrom x k 0)).1 := by
      rw [hbt, hj, packFrom_closed _ (by rw [i4]), i4]
    have hs2 := sproto_pack_size (x.take (8 * j)) m B
    have hle : ((packFrom 0 [] (blocks (x.take (8 * j)))).length : Int) ≤ B := by
      rw [hcl]
      have : (packPrefix (blocksFrom x k 0)).1.length ≤ (packFrom 0 [] (blocks x)).length := by
        rw [hdec, List.length_append]; omega
      omega
    rw [hs2, (sproto_pack_spec (x.take (8 * j)) m B hle).2, hcl]
  refine ⟨?_, ?_, ?_⟩
  · intro hlit
    rw [hn, hpre _ rfl, hsz, hspec.2, hdec]
    by_cases h0 : (packPrefix (blocksFrom x k 0)).2.1 = 0
    · have h88 : (nzBytes (srcBlock x (8 * k))).length = 8 := by
        rcases hlit with h | ⟨_, h⟩
        · exact h
        · rw [hn] at h; omega
      have hr : segRet (nzBytes (srcBlock x (8 * k))).length (packPrefix (blocksFrom x k 0)).2.1
          = 10 := by rw [h88, h0]; decide
      simp only [packFrom]
      rw [if_pos hr]
      obtain ⟨c, extra, post, he, hl, hc, hc256⟩ := packFrom_run
        (blocksFrom x ((x.length + 7) / 8 - (k + 1)) (k + 1)) 1 (srcBlock x (8 * k)) hall2
        (by omega) (by omega) (by omega)
      refine ⟨c, srcBlock x (8 * k) ++ extra, post, by rw [he]; simp [List.append_assoc], hl,
        hc256, by omega, ?_⟩
      rw [h0, Nat.mul_zero, List.drop_zero, List.take_left' hb8]
    · have h6 : 6 ≤ (nzBytes (srcBlock x (8 * k))).length := by
        rcases hlit with h | ⟨h, _⟩ <;> omega
      have hr := segRet_lit _ (packPrefix (blocksFrom x k 0)).2.1 h6 hnz8 (by omega)
      simp only [packFrom]
      rw [if_neg (by omega), if_pos ⟨hr, by omega⟩]
      by_cases h256 : (packPrefix (blocksFrom x k 0)).2.1 + 1 = 256
      · rw [if_pos h256]
        refine ⟨255, (packPrefix (blocksFrom x k 0)).2.2 ++ srcBlock x (8 * k),
          packFrom 0 [] (blocksFrom x ((x.length + 7) / 8 - (k + 1)) (k + 1)),
          by simp [flushFF, List.append_assoc], by simp [hrl, hb8]; omega, by omega, by omega, ?_⟩
        rw [List.drop_left' hrl, List.take_of_length_le (by omega)]
      · rw [if_neg h256]
        obtain ⟨c, extra, post, he, hl, hc, hc256⟩ := packFrom_run
          (blocksFrom x ((x.length + 7) / 8 - (k + 1)) (k + 1))
          ((packPrefix (blocksFrom x k 0)).2.1 + 1)
          ((packPrefix (blocksFrom x k 0)).2.2 ++ srcBlock x (8 * k)) hall2
          (by simp [hrl, hb8]; omega) (by omega) (by omega)
        refine ⟨c, (packPrefix (blocksFrom x k 0)).2.2 ++ srcBlock x (8 * k) ++ extra, post,
          by rw [he]; simp [List.append_assoc], hl, hc256, by omega, ?_⟩
        rw [List.append_assoc, List.drop_left' hrl, List.take_left' hb8]
  · rintro ⟨h67, hn0⟩
    rw [hn] at hn0
    have hk0 := hpre k (by omega)
    rw [hk0, hsz, hspec.2, hdec, hn0]
    have hr : segRet (nzBytes (srcBlock x (8 * k))).length 0
        = (nzBytes (srcBlock x (8 * k))).length + 1 := by
      rcases h67 with h | h <;> rw [h] <;> decide
    simp only [packFrom]
    rw [hr, if_neg (by omega), if_neg (by omega)]
    exact ⟨packFrom 0 [] (blocksFrom x ((x.length + 7) / 8 - (k + 1)) (k + 1)),
      by simp [flushFF, List.append_assoc]⟩
  · intro hlen hnz
    have := pack_dense_spec x m B 1 (by omega) (by omega) hnz hB0
    obtain ⟨h1, h2, _⟩ := this
    rw [h1] at h2
    refine ⟨h1, ?_⟩
    rw [show 8 * 1 + 2 * ((1 + 255) / 256) = 10 by decide] at h2
    rw [h2]
    simp only [show (1 + 255) / 256 = 0 + 1 by decide, ffRecords, hlen,
      List.take_of_length_le (show x.length ≤ 2048 by omega), List.append_nil]
    rfl

theorem sproto_pack_literal_block_witness :
    (((sproto_pack [1, 2, 3, 4, 5, 6, 7, 8, 9, 9, 9, 9, 9, 9, 0, 0] zeroMem 18).1 : Int) ≤ 18) ∧
    (1 < ([1, 2, 3, 4, 5, 6, 7, 8, 9, 9, 9, 9, 9, 9, 0, 0].length + 7) / 8) ∧
    (6 ≤ (nzBytes (srcBlock [1, 2, 3, 4, 5, 6, 7, 8, 9, 9, 9, 9, 9, 9, 0, 0] (8 * 1))).length ∧
      0 < (pack_loop [1, 2, 3, 4, 5, 6, 7, 8, 9, 9, 9, 9, 9, 9, 0, 0] 1 0
            (pack_init zeroMem 18)).ff_n) ∧
    ∃ c body post,
      readN (sproto_pack [1, 2, 3, 4, 5, 6, 7, 8, 9, 9, 9, 9, 9, 9, 0, 0] zeroMem 18).2 0
          (sproto_pack [1, 2, 3, 4, 5, 6, 7, 8, 9, 9, 9, 9, 9, 9, 0, 0] zeroMem 18).1
        = readN (sproto_pack ([1, 2, 3, 4, 5, 6, 7, 8, 9, 9, 9, 9, 9, 9, 0, 0].take
              (8 * (1 - (pack_loop [1, 2, 3, 4, 5, 6, 7, 8, 9, 9, 9, 9, 9, 9, 0, 0] 1 0
                (pack_init zeroMem 18)).ff_n))) zeroMem 18).2 0
            (sproto_pack ([1, 2, 3, 4, 5, 6, 7, 8, 9, 9, 9, 9, 9, 9, 0, 0].take
              (8 * (1 - (pack_loop [1, 2, 3, 4, 5, 6, 7, 8, 9, 9, 9, 9, 9, 9, 0, 0] 1 0
                (pack_init zeroMem 18)).ff_n))) zeroMem 18).1
          ++ 0xff :: c :: body ++ post ∧
      body.length = 8 * (c + 1) ∧ c < 256 ∧
      (pack_loop [1, 2, 3, 4, 5, 6, 7, 8, 9, 9, 9, 9, 9, 9, 0, 0] 1 0
        (pack_init zeroMem 18)).ff_n ≤ c ∧
      (body.drop (8 * (pack_loop [1, 2, 3, 4, 5, 6, 7, 8, 9, 9, 9, 9, 9, 9, 0, 0] 1 0
        (pack_init zeroMem 18)).ff_n)).take 8
        = srcBlock [1, 2, 3, 4, 5, 6, 7, 8, 9, 9, 9, 9, 9, 9, 0, 0] (8 * 1) :=
  ⟨by decide, by decide, by decide,
    (sproto_pack_literal_block [1, 2, 3, 4, 5, 6, 7, 8, 9, 9, 9, 9, 9, 9, 0, 0] zeroMem 18 1
      (by decide) (by decide)).1 (Or.inr (by decide))⟩


/-! ## One field of `sproto_encode` -/

theorem readN_two (m : Mem) (p : Nat) : readN m p 2 = [m p, m (p + 1)] := rfl

/-- For a readable array field the reads of the subtype's field names do not
stop `sproto_encode` or `sproto_decode`. -/
theorem mapReadable_guard {types : List sproto_type} {f : field} (h : mapReadable types f)
    (hand : f.type &&& SPROTO_TARRAY ≠ 0) :
    ¬ (f.map > 0 ∧ subfieldsReadable types f.st = false) := by
  rintro ⟨h1, h2⟩
  rw [h hand h1] at h2
  cases h2

/-- The tag slot of a field that is emitted, with the skip slot before it when
tags were skipped. -/
theorem encode_tag_emit {σ : Type} (f : field) (value : Nat) (sz : Int) (s : EncState σ)
    (hsz : 0 < sz) (hgap : f.tag - s.lasttag ≤ 32769) :
    ∃ s', encode_tag f value sz s = .next s' ∧ s'.ud = s.ud ∧ s'.lasttag = f.tag ∧
      s'.data = (if value = 0 then s.data + sz.toNat else s.data) ∧
      s'.size = (if value = 0 then s.size - sz else s.size) ∧
      s'.index = s.index + (if f.tag - s.lasttag - 1 > 0 then 2 else 1) ∧
      readN s'.mem (SIZEOF_HEADER + SIZEOF_FIELD * (s'.index - 1)) 2
        = [value % 256, value / 2 ^ 8 % 256] ∧
      (f.tag - s.lasttag - 1 > 0 →
        readN s'.mem (SIZEOF_HEADER + SIZEOF_FIELD * s.index) 2
          = [(((f.tag - s.lasttag - 1 - 1) * 2 + 1).toNat) % 256,
             (((f.tag - s.lasttag - 1 - 1) * 2 + 1).toNat) / 2 ^ 8 % 256]) ∧
      (∀ q, (q < SIZEOF_HEADER + SIZEOF_FIELD * s.index ∨
             SIZEOF_HEADER + SIZEOF_FIELD * s'.index ≤ q) → s'.mem q = s.mem q) := by
  unfold encode_tag
  rw [if_neg (by omega), if_pos hsz]
  simp only [SIZEOF_HEADER, SIZEOF_FIELD]
  by_cases hg : f.tag - s.lasttag - 1 > 0
  · rw [if_pos hg, if_neg (by omega)]
    refine ⟨_, rfl, rfl, rfl, rfl, rfl, by simp [hg], ?_, ?_, ?_⟩
    · simp only [hg, if_true, readN_two, wr]
      rw [List.cons.injEq, List.cons.injEq]
      refine ⟨?_, ?_, rfl⟩ <;> (split_ifs <;> first | rfl | omega)
    · intro _
      simp only [readN_two, wr]
      rw [List.cons.injEq, List.cons.injEq]
      refine ⟨?_, ?_, rfl⟩ <;> (split_ifs <;> first | rfl | omega)
    · intro q hq
      simp only [hg, if_true] at hq
      simp only [wr]
      split_ifs <;> first | rfl | omega
  · rw [if_neg hg]
    refine ⟨_, rfl, rfl, rfl, rfl, rfl, by simp [hg], ?_, ?_, ?_⟩
    · simp only [hg, if_false, readN_two, wr]
      rw [List.cons.injEq, List.cons.injEq]
      refine ⟨?_, ?_, rfl⟩ <;> (split_ifs <;> first | rfl | omega)
    · intro h; exact absurd h hg
    · intro q hq
      simp only [hg, if_false] at hq
      simp only [wr]
      split_ifs <;> first | rfl | omega


theorem encode_tag_zero {σ : Type} (f : field) (value : Nat) (s : EncState σ) :
    encode_tag f value 0 s = .next s := by
  unfold encode_tag
  rw [if_neg (by omega), if_neg (by omega)]

theorem encode_tag_next {σ : Type} (f : field) (value : Nat) (sz : Int) (s s' : EncState σ)
    (h : encode_tag f value sz s = .next s') :
    (sz = 0 ∧ s' = s) ∨
    (0 < sz ∧ f.tag - s.lasttag ≤ 32769 ∧ f.tag - s.lasttag - 1 ≤ 32768) := by
  unfold encode_tag at h
  simp only [] at h
  by_cases h1 : sz < 0
  · rw [if_pos h1] at h; simp at h
  · rw [if_neg h1] at h
    by_cases h2 : sz > 0
    · rw [if_pos h2] at h
      right
      by_cases hg : f.tag - s.lasttag - 1 > 0
      · rw [if_pos hg] at h
        by_cases hbig : (f.tag - s.lasttag - 1 - 1) * 2 + 1 > 0xffff
        · rw [if_pos hbig] at h; simp at h
        · exact ⟨h2, by omega, by omega⟩
      · exact ⟨h2, by omega, by omega⟩
    · rw [if_neg h2] at h
      left
      simp only [FieldExit.next.injEq] at h
      exact ⟨by omega, h.symm⟩

/-- A field that `encode_field` goes on from was either left out (the state
changes in memory and user data only) or emitted through `encode_tag`. -/
theorem encode_field_next {σ : Type} (types : List sproto_type) (cb : sproto_callback σ)
    (f : field) (s s' : EncState σ) (h : encode_field types cb f s = .ret (.next s')) :
    (s'.index = s.index ∧ s'.lasttag = s.lasttag ∧ s'.data = s.data ∧ s'.size = s.size) ∨
    ∃ (value : Nat) (sz : Int) (s1 : EncState σ),
      0 < sz ∧ encode_tag f value sz s1 = .next s' ∧ s1.index = s.index ∧
      s1.lasttag = s.lasttag ∧ s1.data = s.data ∧ s1.size = s.size := by
  have key : ∀ (value : Nat) (sz : Int) (s1 : EncState σ),
      encode_tag f value sz s1 = .next s' → s1.index = s.index → s1.lasttag = s.lasttag →
      s1.data = s.data → s1.size = s.size →
      (s'.index = s.index ∧ s'.lasttag = s.lasttag ∧ s'.data = s.data ∧ s'.size = s.size) ∨
      ∃ (value : Nat) (sz : Int) (s1 : EncState σ),
        0 < sz ∧ encode_tag f value sz s1 = .next s' ∧ s1.index = s.index ∧
        s1.lasttag = s.lasttag ∧ s1.data = s.data ∧ s1.size = s.size := by
    intro value sz s1 ht h1 h2 h3 h4
    rcases encode_tag_next f value sz s1 s' ht with ⟨_, he⟩ | ⟨hpos, _, _⟩
    · left; rw [he]; exact ⟨h1, h2, h3, h4⟩
    · right; exact ⟨value, sz, s1, hpos, ht, h1, h2, h3, h4⟩
  unfold encode_field at h
  simp only [] at h
  split_ifs at h
  all_goals try split at h
  all_goals first
    | (simp at h; done)
    | (simp only [Outcome.ret.injEq, FieldExit.next.injEq] at h
       left; rw [← h]; exact ⟨rfl, rfl, rfl, rfl⟩)
    | (simp only [Outcome.ret.injEq] at h
       exact key _ _ _ h rfl rfl rfl rfl)


theorem scalar_not_array (t : Nat)
    (hk : t = SPROTO_TDOUBLE ∨ t = SPROTO_TINTEGER ∨ t = SPROTO_TBOOLEAN) :
    ¬ (t &&& SPROTO_TARRAY ≠ 0) := by
  rcases hk with h | h | h <;> rw [h] <;> decide

theorem encode_field_inline {σ : Type} (types : List sproto_type) (cb : sproto_callback σ)
    (f : field) (s : EncState σ)
    (hk : f.type = SPROTO_TDOUBLE ∨ f.type = SPROTO_TINTEGER ∨ f.type = SPROTO_TBOOLEAN)
    (hsz : (cb s.ud { fieldArgs f with length := 8 }).1.sz = 4)
    (hv : (cb s.ud { fieldArgs f with length := 8 }).1.u % 2 ^ 32 < 0x7fff) :
    encode_field types cb f s
      = .ret (encode_tag f (((cb s.ud { fieldArgs f with length := 8 }).1.u % 2 ^ 32 + 1) * 2) 2
          { s with ud := (cb s.ud { fieldArgs f with length := 8 }).2 }) := by
  unfold encode_field
  simp only []
  rw [if_neg (scalar_not_array _ hk), if_pos hk, hsz]
  simp only [SIZEOF_INT32, SPROTO_CB_NIL]
  rw [if_neg (by decide), if_pos (by rfl), if_pos hv]

theorem encode_field_int32 {σ : Type} (types : List sproto_type) (cb : sproto_callback σ)
    (f : field) (s : EncState σ)
    (hk : f.type = SPROTO_TDOUBLE ∨ f.type = SPROTO_TINTEGER ∨ f.type = SPROTO_TBOOLEAN)
    (hsz : (cb s.ud { fieldArgs f with length := 8 }).1.sz = 4)
    (hv : ¬ (cb s.ud { fieldArgs f with length := 8 }).1.u % 2 ^ 32 < 0x7fff) :
    encode_field types cb f s
      = .ret (encode_tag f 0
          (encode_integer ((cb s.ud { fieldArgs f with length := 8 }).1.u % 2 ^ 32)
            s.mem s.data s.size).2
          { s with ud := (cb s.ud { fieldArgs f with length := 8 }).2,
                   mem := (encode_integer ((cb s.ud { fieldArgs f with length := 8 }).1.u % 2 ^ 32)
                     s.mem s.data s.size).1 }) := by
  unfold encode_field
  simp only []
  rw [if_neg (scalar_not_array _ hk), if_pos hk, hsz]
  simp only [SIZEOF_INT32, SPROTO_CB_NIL]
  rw [if_neg (by decide), if_pos (by rfl), if_neg hv]

theorem encode_field_int64 {σ : Type} (types : List sproto_type) (cb : sproto_callback σ)
    (f : field) (s : EncState σ)
    (hk : f.type = SPROTO_TDOUBLE ∨ f.type = SPROTO_TINTEGER ∨ f.type = SPROTO_TBOOLEAN)
    (hsz : (cb s.ud { fieldArgs f with length := 8 }).1.sz = 8) :
    encode_field types cb f s
      = .ret (encode_tag f 0
          (encode_uint64 ((cb s.ud { fieldArgs f with length := 8 }).1.u % 2 ^ 64)
            s.mem s.data s.size).2
          { s with ud := (cb s.ud { fieldArgs f with length := 8 }).2,
                   mem := (encode_uint64 ((cb s.ud { fieldArgs f with length := 8 }).1.u % 2 ^ 64)
                     s.mem s.data s.size).1 }) := by
  unfold encode_field
  simp only []
  rw [if_neg (scalar_not_array _ hk), if_pos hk, hsz]
  simp only [SIZEOF_INT32, SIZEOF_INT64, SPROTO_CB_NIL]
  rw [if_neg (by decide), if_neg (by decide), if_pos (by rfl)]

theorem encode_field_nil {σ : Type} (types : List sproto_type) (cb : sproto_callback σ)
    (f : field) (s : EncState σ)
    (hk : f.type = SPROTO_TDOUBLE ∨ f.type = SPROTO_TINTEGER ∨ f.type = SPROTO_TBOOLEAN)
    (hsz : (cb s.ud { fieldArgs f with length := 8 }).1.sz = SPROTO_CB_NIL) :
    encode_field types cb f s
      = .ret (.next { s with ud := (cb s.ud { fieldArgs f with length := 8 }).2 }) := by
  unfold encode_field
  simp only []
  rw [if_neg (scalar_not_array _ hk), if_pos hk, hsz]
  rw [if_pos (show SPROTO_CB_NIL < 0 by decide), if_pos rfl]

theorem memcpy_comm (xs ys : List Nat) (m : Mem) (a b : Nat) (h : b + ys.length ≤ a) :
    memcpy (memcpy m a xs) b ys = memcpy (memcpy m b ys) a xs := by
  funext q
  by_cases h1 : q < b
  · rw [memcpy_lt _ _ _ _ h1, memcpy_lt _ _ _ _ (by omega), memcpy_lt _ _ _ _ (by omega),
      memcpy_lt _ _ _ _ h1]
  · by_cases h2 : q < b + ys.length
    · obtain ⟨k, rfl⟩ : ∃ k, q = b + k := ⟨q - b, by omega⟩
      rw [memcpy_at _ _ _ _ (by omega), memcpy_lt _ _ _ _ (by omega),
        memcpy_at _ _ _ _ (by omega)]
    · by_cases h3 : q < a
      · rw [memcpy_ge _ _ _ _ (by omega), memcpy_lt _ _ _ _ h3, memcpy_lt _ _ _ _ h3,
          memcpy_ge _ _ _ _ (by omega)]
      · by_cases h4 : q < a + xs.length
        · obtain ⟨k, rfl⟩ : ∃ k, q = a + k := ⟨q - a, by omega⟩
          rw [memcpy_ge _ _ _ _ (by omega), memcpy_at _ _ _ _ (by omega),
            memcpy_at _ _ _ _ (by omega)]
        · rw [memcpy_ge _ _ _ _ (by omega), memcpy_ge _ _ _ _ (by omega),
            memcpy_ge _ _ _ _ (by omega), memcpy_ge _ _ _ _ (by omega)]

theorem memcpy_prefix4 (m : Mem) (data : Nat) (hd xs : List Nat) (h : hd.length = 4) :
    memcpy (memcpy m (data + 4) xs) data hd = memcpy m data (hd ++ xs) := by
  rw [memcpy_comm xs hd m (data + 4) data (by omega), memcpy_append, h]

theorem toSizeT_of_nonneg (x : Int) (h0 : 0 ≤ x) (h1 : x < 2 ^ 31) : toSizeT x = x := by
  unfold toSizeT
  exact Int.emod_eq_of_lt h0 (by omega)

theorem toU32_of_nonneg (x : Int) (h0 : 0 ≤ x) (h1 : x < 2 ^ 32) : toU32 x = x.toNat := by
  unfold toU32
  rw [Int.emod_eq_of_lt h0 (by omega)]

theorem encode_integer_ok (v : Nat) (m : Mem) (data : Nat) (size : Int)
    (h : 8 ≤ size) (h31 : size < 2 ^ 31) :
    encode_integer v m data size = (memcpy m data (le32 4 ++ le32 v), 8) := by
  unfold encode_integer
  rw [toSizeT_of_nonneg _ (by omega) h31, if_neg (by simp [SIZEOF_LENGTH]; omega)]
  unfold fill_size
  rw [toU32_of_nonneg 4 (by omega) (by norm_num)]
  rw [show (4 : Int).toNat = 4 by rfl, memcpy_prefix4 m data (le32 4) (le32 v) rfl]
  rfl

theorem encode_uint64_ok (v : Nat) (m : Mem) (data : Nat) (size : Int)
    (h : 12 ≤ size) (h31 : size < 2 ^ 31) :
    encode_uint64 v m data size = (memcpy m data (le32 8 ++ le64 v), 12) := by
  unfold encode_uint64
  rw [toSizeT_of_nonneg _ (by omega) h31, if_neg (by simp [SIZEOF_LENGTH]; omega)]
  unfold fill_size
  rw [toU32_of_nonneg 8 (by omega) (by norm_num)]
  rw [show (8 : Int).toNat = 8 by rfl, memcpy_prefix4 m data (le32 8) (le64 v) rfl]
  rfl


/-! ## Little-endian bytes -/

@[simp] theorem le32_length (v : Nat) : (le32 v).length = 4 := rfl

@[simp] theorem le64_length (v : Nat) : (le64 v).length = 8 := rfl

theorem rd_append_right (pre l : List Nat) (k : Nat) : rd (pre ++ l) (pre.length + k) = rd l k := by
  unfold rd
  rw [List.getD_eq_getElem?_getD, List.getD_eq_getElem?_getD,
    List.getElem?_append_right (by omega)]
  congr 2
  omega

theorem rd_append_left (l post : List Nat) (k : Nat) (h : k < l.length) :
    rd (l ++ post) k = rd l k := by
  unfold rd
  rw [List.getD_eq_getElem?_getD, List.getD_eq_getElem?_getD, List.getElem?_append_left h]

theorem todword_append_right (pre l : List Nat) (k : Nat) :
    todword (pre ++ l) (pre.length + k) = todword l k := by
  unfold todword
  rw [show pre.length + k + 1 = pre.length + (k + 1) by omega,
    show pre.length + k + 2 = pre.length + (k + 2) by omega,
    show pre.length + k + 3 = pre.length + (k + 3) by omega,
    rd_append_right, rd_append_right, rd_append_right, rd_append_right]

theorem todword_append_left (l post : List Nat) (k : Nat) (h : k + 4 ≤ l.length) :
    todword (l ++ post) k = todword l k := by
  unfold todword
  rw [rd_append_left _ _ _ (by omega), rd_append_left _ _ _ (by omega),
    rd_append_left _ _ _ (by omega), rd_append_left _ _ _ (by omega)]

theorem todword_le32 (v : Nat) (h : v < 2 ^ 32) : todword (le32 v) 0 = v := by
  simp only [todword, rd, le32, List.getD_cons_zero, List.getD_cons_succ]
  omega

theorem todword_le64_low (v : Nat) : todword (le64 v) 0 = v % 2 ^ 32 := by
  simp only [todword, rd, le64, List.getD_cons_zero, List.getD_cons_succ]
  omega

theorem todword_le64_high (v : Nat) (h : v < 2 ^ 64) : todword (le64 v) 4 = v / 2 ^ 32 := by
  simp only [todword, rd, le64, List.getD_cons_zero, List.getD_cons_succ]
  omega

theorem or_shift32 (lo hi : Nat) (h : lo < 2 ^ 32) : lo ||| (hi <<< 32) = lo + hi * 2 ^ 32 := by
  rw [Nat.shiftLeft_eq, Nat.or_comm, Nat.mul_comm hi, ← Nat.mul_add_lt_is_or h, Nat.add_comm]

theorem and_bit31 (v : Nat) (h : v < 2 ^ 32) : (v &&& 0x80000000 ≠ 0) ↔ 2 ^ 31 ≤ v := by
  rw [show (0x80000000 : Nat) = 2 ^ 31 by norm_num, Nat.and_two_pow, Nat.testBit_to_div_mod]
  by_cases hb : v / 2 ^ 31 % 2 = 1
  · simp only [hb, decide_True, Bool.toNat_true, Nat.one_mul]
    constructor
    · intro _; omega
    · intro _; norm_num
  · simp only [hb, decide_False, Bool.toNat_false, Nat.zero_mul, ne_eq, not_true_eq_false,
      false_iff]
    omega

theorem and_bit7 (b : Nat) (h : b < 256) : (b &&& 0x80 ≠ 0) ↔ 128 ≤ b := by
  rw [show (0x80 : Nat) = 2 ^ 7 by norm_num, Nat.and_two_pow, Nat.testBit_to_div_mod]
  by_cases hb : b / 2 ^ 7 % 2 = 1
  · simp only [hb, decide_True, Bool.toNat_true, Nat.one_mul]
    constructor
    · intro _; omega
    · intro _; norm_num
  · simp only [hb, decide_False, Bool.toNat_false, Nat.zero_mul, ne_eq, not_true_eq_false,
      false_iff]
    omega

/-- The 4 bytes of a signed 32-bit value followed by its sign extension are the 8
bytes of the 64-bit value. -/
theorem le32_sign_ext (x : Int) (hlo : -2 ^ 31 ≤ x) (hhi : x < 2 ^ 31) :
    le32 (x % 2 ^ 32).toNat ++
      (if 2 ^ 31 ≤ (x % 2 ^ 32).toNat then [0xff, 0xff, 0xff, 0xff] else [0, 0, 0, 0])
      = le64 (x % 2 ^ 64).toNat := by
  by_cases hneg : x < 0
  · have e : (x % 2 ^ 64).toNat = (x % 2 ^ 32).toNat + (2 ^ 64 - 2 ^ 32) := by omega
    have hv : 2 ^ 31 ≤ (x % 2 ^ 32).toNat := by omega
    have hv2 : (x % 2 ^ 32).toNat < 2 ^ 32 := by omega
    rw [if_pos hv, e]
    generalize (x % 2 ^ 32).toNat = v at hv hv2
    simp only [le32, le64, List.cons_append, List.nil_append, List.cons.injEq, and_true]
    refine ⟨?_, ?_, ?_, ?_, ?_, ?_, ?_, ?_⟩ <;> omega
  · have e : (x % 2 ^ 64).toNat = (x % 2 ^ 32).toNat := by omega
    have hv : ¬ 2 ^ 31 ≤ (x % 2 ^ 32).toNat := by omega
    rw [if_neg hv, e]
    generalize (x % 2 ^ 32).toNat = v at hv
    simp only [le32, le64, List.cons_append, List.nil_append, List.cons.injEq, and_true]
    refine ⟨trivial, trivial, trivial, trivial, ?_, ?_, ?_, ?_⟩ <;> omega

theorem expand64_eq (x : Int) (hlo : -2 ^ 31 ≤ x) (hhi : x < 2 ^ 31) :
    expand64 (x % 2 ^ 32).toNat = (x % 2 ^ 64).toNat := by
  unfold expand64
  have hv2 : (x % 2 ^ 32).toNat < 2 ^ 32 := by omega
  by_cases hneg : x < 0
  · rw [if_pos ((and_bit31 _ hv2).mpr (by omega)), or_shift32 _ _ hv2]
    omega
  · rw [if_neg (fun h => by have := (and_bit31 _ hv2).mp h; omega)]
    omega

/-! ## The decoder's element loops with the recording callback -/

theorem decode_array_each_record (args : sproto_arg) (val : Nat → Nat) :
    ∀ (xs : List Int) (i : Nat) (ud : List sproto_arg),
      (∀ j (hj : j < xs.length), val (i + j) = (xs[j] % 2 ^ 64).toNat) →
      decode_array_each recordCb args val xs.length i ud = ud ++ arrayEvents args i xs := by
  intro xs
  induction xs with
  | nil => intro i ud _; simp [decode_array_each, arrayEvents]
  | cons x xs ih =>
    intro i ud h
    simp only [List.length_cons, decode_array_each, callcb, recordCb]
    rw [ih (i + 1) _ (fun j hj => by
      have := h (j + 1) (by simp; omega)
      simpa [Nat.add_assoc, Nat.add_comm 1 j] using this)]
    have h0 := h 0 (by simp)
    simp only [Nat.add_zero, List.getElem_cons_zero] at h0
    simp [arrayEvents, h0]


/-! ## `encode_integer_array` -/

theorem flatMap_int32_length (xs : List Int) : (xs.flatMap int32Bytes).length = 4 * xs.length := by
  induction xs with
  | nil => rfl
  | cons x xs ih => simp only [List.flatMap_cons, List.length_append, ih, List.length_cons,
      int32Bytes, le32_length]; omega

theorem flatMap_int64_length (xs : List Int) : (xs.flatMap int64Bytes).length = 8 * xs.length := by
  induction xs with
  | nil => rfl
  | cons x xs ih => simp only [List.flatMap_cons, List.length_append, ih, List.length_cons,
      int64Bytes, le64_length]; omega

theorem readN_append_split (m : Mem) (p : Nat) (a b : List Nat)
    (h : readN m p (a.length + b.length) = a ++ b) :
    readN m p a.length = a ∧ readN m (p + a.length) b.length = b := by
  rw [readN_add] at h
  exact List.append_inj h (by simp)

theorem readN_frame (m m2 : Mem) (p n : Nat) (h : ∀ q, p ≤ q → q < p + n → m2 q = m q) :
    readN m2 p n = readN m p n :=
  readN_congr _ _ _ _ (fun k hk => h (p + k) (by omega) (by omega))

/-- One element widened in place: 4 bytes copied and sign-extended. -/
theorem widen_one (M : Mem) (src dst : Nat) (x : Int) (hx : fits32 x)
    (hsrc : readN M src 4 = int32Bytes x) :
    uint32_to_uint64 ((memcpy M dst (readN M src 4)) (dst + 3) &&& 0x80)
        (memcpy M dst (readN M src 4)) dst
      = memcpy M dst (int64Bytes x) := by
  have hv2 : (x % 2 ^ 32).toNat < 2 ^ 32 := by omega
  rw [hsrc]
  have hb3 : memcpy M dst (int32Bytes x) (dst + 3) = (x % 2 ^ 32).toNat / 2 ^ 24 % 256 := by
    rw [memcpy_at _ _ _ 3 (by simp [int32Bytes])]
    rfl
  rw [hb3]
  unfold uint32_to_uint64
  have hext := le32_sign_ext x hx.1 hx.2
  by_cases hneg : 2 ^ 31 ≤ (x % 2 ^ 32).toNat
  · rw [if_pos ((and_bit7 _ (by omega)).mpr (by omega))]
    rw [if_pos hneg] at hext
    rw [int64Bytes, ← hext, memcpy_append]
    rfl
  · rw [if_neg (fun h => by have := (and_bit7 _ (by omega)).mp h; omega)]
    rw [if_neg hneg] at hext
    rw [int64Bytes, ← hext, memcpy_append]
    rfl

theorem rearrange_spec (h : Nat) : ∀ (done : List Int) (M : Mem), (∀ x ∈ done, fits32 x) →
    readN M (h + 1) (4 * done.length) = done.flatMap int32Bytes →
    readN (rearrange h done.length M) (h + 1) (8 * done.length) = done.flatMap int64Bytes ∧
    ∀ q, (q < h + 1 ∨ h + 1 + 8 * done.length ≤ q) → rearrange h done.length M q = M q := by
  intro done
  induction done using List.reverseRecOn with
  | nil => intro M _ _; exact ⟨rfl, fun q _ => rfl⟩
  | append_singleton init x ih =>
    intro M hfit hrd
    have hx : fits32 x := hfit x (by simp)
    have hinit : ∀ y ∈ init, fits32 y := fun y hy => hfit y (by simp [hy])
    rw [List.length_append, List.length_singleton] at hrd ⊢
    rw [List.flatMap_append] at hrd ⊢
    simp only [List.flatMap_cons, List.flatMap_nil, List.append_nil] at hrd ⊢
    have hsplit := readN_append_split M (h + 1) (init.flatMap int32Bytes) (int32Bytes x)
      (by rw [flatMap_int32_length, show (int32Bytes x).length = 4 from rfl,
            show 4 * init.length + 4 = 4 * (init.length + 1) by ring]; exact hrd)
    rw [flatMap_int32_length, show (int32Bytes x).length = 4 from rfl] at hsplit
    simp only [rearrange, SIZEOF_INT64, SIZEOF_INT32]
    rw [show h + 1 + init.length * 4 = h + 1 + 4 * init.length by ring,
      show h + 1 + init.length * 8 = h + 1 + 8 * init.length by ring,
      widen_one M _ _ x hx hsplit.2]
    obtain ⟨ih1, ih2⟩ := ih (memcpy M (h + 1 + 8 * init.length) (int64Bytes x)) hinit (by
      rw [← hsplit.1]
      apply readN_frame
      intro q _ hq2
      rw [memcpy_lt _ _ _ _ (by omega)])
    constructor
    · rw [show 8 * (init.length + 1) = 8 * init.length + 8 by ring, readN_add, ih1]
      congr 1
      rw [readN_frame (memcpy M (h + 1 + 8 * init.length) (int64Bytes x)) _ _ 8
        (fun q hq1 _ => ih2 q (Or.inr hq1))]
      exact readN_memcpy _ _ _
    · intro q hq
      rw [ih2 q (by omega)]
      rcases hq with hq | hq
      · rw [memcpy_lt _ _ _ _ (by omega)]
      · rw [memcpy_ge _ _ _ _ (by simp [int64Bytes]; omega)]

theorem listEncode_at (xs : List Int) (args : sproto_arg) (k : Nat) (x : Int)
    (hx : xs[k]? = some x) :
    listEncode xs () { args with value := .null, length := 8, index := ((k + 1 : Nat) : Int) }
      = (hostValueOut (.int x) 8, ()) := by
  simp only [listEncode]
  rw [show (((k + 1 : Nat) : Int) - 1).toNat = k by omega, hx]
  simp only []
  rw [if_neg (by omega)]

theorem listEncode_end (xs : List Int) (args : sproto_arg) (k : Nat) (hx : xs[k]? = none) :
    listEncode xs () { args with value := .null, length := 8, index := ((k + 1 : Nat) : Int) }
      = ({ sz := SPROTO_CB_NIL, u := 0, bytes := [] }, ()) := by
  simp only [listEncode]
  rw [show (((k + 1 : Nat) : Int) - 1).toNat = k by omega, hx]

theorem getElem?_mid (done rest : List Int) (x : Int) :
    (done ++ x :: rest)[done.length]? = some x := by
  rw [List.getElem?_append_right (by omega)]
  simp


theorem hostValueOut_fit (x : Int) (len : Int) (h : fits32 x) :
    hostValueOut (.int x) len = { sz := 4, u := (x % 2 ^ 32).toNat, bytes := [] } := by
  unfold fits32 at h
  simp only [hostValueOut]
  rw [if_pos h]

theorem hostValueOut_wide (x : Int) (len : Int) (h : ¬ fits32 x) :
    hostValueOut (.int x) len = { sz := 8, u := (x % 2 ^ 64).toNat, bytes := [] } := by
  unfold fits32 at h
  simp only [hostValueOut]
  rw [if_neg h]

/-- One iteration of the loop of `encode_integer_array` for an element that fits
in 32 bits. -/
theorem ia_loop_fit (xs : List Int) (args : sproto_arg) (h fuel : Nat) (s : IntArrayState Unit)
    (k : Nat) (x : Int) (hidx : s.index = k + 1) (hx : xs[k]? = some x) (hfit : fits32 x)
    (hroom : 8 ≤ s.size) :
    encode_integer_array_loop (listEncode xs) args h (fuel + 1) s
      = encode_integer_array_loop (listEncode xs) args h fuel
          { s with mem := if s.intlen = 8 then memcpy s.mem s.buffer (int64Bytes x)
                          else memcpy s.mem s.buffer (int32Bytes x),
                   size := s.size - s.intlen, buffer := s.buffer + s.intlen,
                   index := s.index + 1 } := by
  have hv2 : (x % 2 ^ 32).toNat < 2 ^ 32 := by unfold fits32 at hfit; omega
  rw [encode_integer_array_loop]
  simp only [hidx, listEncode_at xs args k x hx, hostValueOut_fit x 8 hfit]
  rw [if_neg (show ¬ ((4 : Int) ≤ 0) by decide),
    if_neg (show ¬ (s.size < ((SIZEOF_INT64 : Nat) : Int)) by simp only [SIZEOF_INT64]; omega),
    if_pos (show (4 : Int) = ((SIZEOF_INT32 : Nat) : Int) by rfl), Nat.mod_eq_of_lt hv2]
  simp only [SIZEOF_INT64]
  congr 2
  by_cases h8 : s.intlen = 8
  · rw [if_pos h8, if_pos h8]
    unfold uint32_to_uint64
    have hext := le32_sign_ext x hfit.1 hfit.2
    by_cases hneg : 2 ^ 31 ≤ (x % 2 ^ 32).toNat
    · rw [if_pos ((and_bit31 _ hv2).mpr hneg)]
      rw [if_pos hneg] at hext
      rw [int64Bytes, ← hext, memcpy_append]
      rfl
    · rw [if_neg (fun h => hneg ((and_bit31 _ hv2).mp h))]
      rw [if_neg hneg] at hext
      rw [int64Bytes, ← hext, memcpy_append]
      rfl
  · rw [if_neg h8, if_neg h8]
    rfl

/-- One iteration at width 8 for an element that needs 8 bytes. -/
theorem ia_loop_wide8 (xs : List Int) (args : sproto_arg) (h fuel : Nat) (s : IntArrayState Unit)
    (k : Nat) (x : Int) (hidx : s.index = k + 1) (hx : xs[k]? = some x) (hfit : ¬ fits32 x)
    (hlen : s.intlen = 8) (hroom : 8 ≤ s.size) :
    encode_integer_array_loop (listEncode xs) args h (fuel + 1) s
      = encode_integer_array_loop (listEncode xs) args h fuel
          { s with mem := memcpy s.mem s.buffer (int64Bytes x),
                   size := s.size - 8, buffer := s.buffer + 8, index := s.index + 1 } := by
  have hv2 : (x % 2 ^ 64).toNat < 2 ^ 64 := by omega
  rw [encode_integer_array_loop]
  simp only [hidx, listEncode_at xs args k x hx, hostValueOut_wide x 8 hfit]
  rw [if_neg (show ¬ ((8 : Int) ≤ 0) by decide),
    if_neg (show ¬ (s.size < ((SIZEOF_INT64 : Nat) : Int)) by simp only [SIZEOF_INT64]; omega),
    if_neg (show ¬ ((8 : Int) = ((SIZEOF_INT32 : Nat) : Int)) by decide),
    if_neg (show ¬ ((8 : Int) ≠ ((SIZEOF_INT64 : Nat) : Int)) by decide),
    if_neg (show ¬ (s.intlen = SIZEOF_INT32) by rw [hlen]; decide), Nat.mod_eq_of_lt hv2, hlen]
  rfl

/-- The iteration that switches from width 4 to width 8. -/
theorem ia_loop_promote (xs : List Int) (args : sproto_arg) (h fuel : Nat)
    (s : IntArrayState Unit) (k : Nat) (x : Int) (hidx : s.index = k + 1)
    (hx : xs[k]? = some x) (hfit : ¬ fits32 x)
    (hlen : s.intlen = 4) (hroom : 8 + 4 * (k : Int) ≤ s.size) :
    encode_integer_array_loop (listEncode xs) args h (fuel + 1) s
      = encode_integer_array_loop (listEncode xs) args h fuel
          { s with mem := memcpy (rearrange h k s.mem) (s.buffer + 4 * k) (int64Bytes x),
                   size := s.size - 4 * k - 8, buffer := s.buffer + 4 * k + 8, intlen := 8,
                   index := s.index + 1 } := by
  have hv2 : (x % 2 ^ 64).toNat < 2 ^ 64 := by omega
  rw [encode_integer_array_loop]
  simp only [hidx, listEncode_at xs args k x hx, hostValueOut_wide x 8 hfit, Nat.add_sub_cancel]
  rw [if_neg (show ¬ ((8 : Int) ≤ 0) by decide),
    if_neg (show ¬ (s.size < ((SIZEOF_INT64 : Nat) : Int)) by simp only [SIZEOF_INT64]; omega),
    if_neg (show ¬ ((8 : Int) = ((SIZEOF_INT32 : Nat) : Int)) by decide),
    if_neg (show ¬ ((8 : Int) ≠ ((SIZEOF_INT64 : Nat) : Int)) by decide),
    if_pos (show s.intlen = SIZEOF_INT32 by rw [hlen]; rfl),
    if_neg (show ¬ (s.size - (k : Int) * ((SIZEOF_INT32 : Nat) : Int)
      < ((SIZEOF_INT64 : Nat) : Int)) by simp only [SIZEOF_INT64, SIZEOF_INT32]; omega),
    Nat.mod_eq_of_lt hv2]
  simp only [SIZEOF_INT64, SIZEOF_INT32]
  congr 2
  · rw [Nat.mul_comm k 4]; rfl
  · push_cast; ring
  · ring

theorem ia_loop_end (xs : List Int) (args : sproto_arg) (h fuel : Nat) (s : IntArrayState Unit)
    (k : Nat) (hidx : s.index = k + 1) (hx : xs[k]? = none) :
    encode_integer_array_loop (listEncode xs) args h (fuel + 1) s = .ret (.brk false, s) := by
  rw [encode_integer_array_loop]
  simp only [hidx, listEncode_end xs args k hx]
  rw [if_pos (show SPROTO_CB_NIL ≤ 0 by decide), if_pos trivial]
  cases s
  simp only at hidx
  subst hidx
  rfl


theorem readN_snoc_memcpy (m : Mem) (p n : Nat) (l bs : List Nat) (h : readN m p n = l) :
    readN (memcpy m (p + n) bs) p (n + bs.length) = l ++ bs := by
  rw [readN_add, readN_memcpy, readN_frame m _ p n (fun q _ hq => memcpy_lt _ _ _ _ hq), h]

/-- The loop of `encode_integer_array` at width 8: the remaining elements are
appended as 8 bytes each and the loop ends at the end of the list. -/
theorem int_array_loop_wide (xs : List Int) (args : sproto_arg) (h : Nat) :
    ∀ (rest done : List Int) (fuel : Nat) (s : IntArrayState Unit),
      xs = done ++ rest → s.intlen = 8 → s.index = done.length + 1 →
      s.buffer = h + 1 + 8 * done.length → (8 * rest.length : Int) ≤ s.size →
      rest.length < fuel →
      readN s.mem (h + 1) (8 * done.length) = done.flatMap int64Bytes →
      ∃ s', encode_integer_array_loop (listEncode xs) args h fuel s = .ret (.brk false, s') ∧
        s'.intlen = 8 ∧ s'.buffer = h + 1 + 8 * xs.length ∧
        readN s'.mem (h + 1) (8 * xs.length) = xs.flatMap int64Bytes ∧
        ∀ q, q < h + 1 → s'.mem q = s.mem q := by
  intro rest
  induction rest with
  | nil =>
    intro done fuel s hxs hlen hidx hbuf _ hfuel hrd
    obtain ⟨f, rfl⟩ : ∃ f, fuel = f + 1 := ⟨fuel - 1, by omega⟩
    rw [List.append_nil] at hxs
    subst hxs
    refine ⟨s, ia_loop_end _ args h f s _ hidx ?_, hlen, hbuf, hrd, fun _ _ => rfl⟩
    exact List.getElem?_eq_none (le_refl _)
  | cons x rest ih =>
    intro done fuel s hxs hlen hidx hbuf hsz hfuel hrd
    obtain ⟨f, rfl⟩ : ∃ f, fuel = f + 1 := ⟨fuel - 1, by omega⟩
    have hx : xs[done.length]? = some x := by rw [hxs]; exact getElem?_mid done rest x
    simp only [List.length_cons] at hsz hfuel
    have hstep : encode_integer_array_loop (listEncode xs) args h (f + 1) s
        = encode_integer_array_loop (listEncode xs) args h f
          { s with mem := memcpy s.mem s.buffer (int64Bytes x),
                   size := s.size - 8, buffer := s.buffer + 8, index := s.index + 1 } := by
      by_cases hfit : fits32 x
      · rw [ia_loop_fit xs args h f s _ x hidx hx hfit (by push_cast at hsz; omega), if_pos hlen,
          hlen]
        rfl
      · exact ia_loop_wide8 xs args h f s _ x hidx hx hfit hlen (by push_cast at hsz; omega)
    obtain ⟨s', h1, h2, h3, h4, h5⟩ := ih (done ++ [x]) f
      { s with mem := memcpy s.mem s.buffer (int64Bytes x),
               size := s.size - 8, buffer := s.buffer + 8, index := s.index + 1 }
      (by rw [hxs]; simp) hlen (by simp only [List.length_append, List.length_singleton]; omega)
      (by simp only [List.length_append, List.length_singleton]; omega)
      (by simp only []; push_cast at hsz ⊢; omega) (by omega)
      (by
        simp only [List.length_append, List.length_singleton, List.flatMap_append,
          List.flatMap_singleton, List.flatMap_nil, List.append_nil]
        rw [hbuf, Nat.mul_add, Nat.mul_one,
          show 8 = (int64Bytes x).length by simp [int64Bytes, le64_length]]
        exact readN_snoc_memcpy _ _ _ _ _ hrd)
    refine ⟨s', hstep.trans h1, h2, h3, h4, fun q hq => ?_⟩
    rw [h5 q hq]
    exact memcpy_lt _ _ _ _ (by omega)

/-- The loop of `encode_integer_array` from width 4: the result is at width 4
when every element fits in 32 bits, and at width 8 with every element widened
otherwise. -/
theorem int_array_loop_narrow (xs : List Int) (args : sproto_arg) (h : Nat) :
    ∀ (rest done : List Int) (fuel : Nat) (s : IntArrayState Unit),
      xs = done ++ rest → (∀ x ∈ done, fits32 x) → s.intlen = 4 → s.index = done.length + 1 →
      s.buffer = h + 1 + 4 * done.length →
      (8 * rest.length + 4 * done.length : Int) ≤ s.size → rest.length < fuel →
      readN s.mem (h + 1) (4 * done.length) = done.flatMap int32Bytes →
      ∃ s', encode_integer_array_loop (listEncode xs) args h fuel s = .ret (.brk false, s') ∧
        (((∀ x ∈ xs, fits32 x) ∧ s'.intlen = 4 ∧ s'.buffer = h + 1 + 4 * xs.length ∧
            readN s'.mem (h + 1) (4 * xs.length) = xs.flatMap int32Bytes) ∨
         ((¬ ∀ x ∈ xs, fits32 x) ∧ s'.intlen = 8 ∧ s'.buffer = h + 1 + 8 * xs.length ∧
            readN s'.mem (h + 1) (8 * xs.length) = xs.flatMap int64Bytes)) ∧
        ∀ q, q < h + 1 → s'.mem q = s.mem q := by
  intro rest
  induction rest with
  | nil =>
    intro done fuel s hxs hall hlen hidx hbuf _ hfuel hrd
    obtain ⟨f, rfl⟩ : ∃ f, fuel = f + 1 := ⟨fuel - 1, by omega⟩
    rw [List.append_nil] at hxs
    subst hxs
    refine ⟨s, ia_loop_end _ args h f s _ hidx ?_, Or.inl ⟨hall, hlen, hbuf, hrd⟩,
      fun _ _ => rfl⟩
    exact List.getElem?_eq_none (le_refl _)
  | cons x rest ih =>
    intro done fuel s hxs hall hlen hidx hbuf hsz hfuel hrd
    obtain ⟨f, rfl⟩ : ∃ f, fuel = f + 1 := ⟨fuel - 1, by omega⟩
    have hx : xs[done.length]? = some x := by rw [hxs]; exact getElem?_mid done rest x
    simp only [List.length_cons] at hsz hfuel
    by_cases hfit : fits32 x
    · have hstep := ia_loop_fit xs args h f s _ x hidx hx hfit (by push_cast at hsz; omega)
      rw [if_neg (by rw [hlen]; decide), hlen] at hstep
      obtain ⟨s', h1, h2, h5⟩ := ih (done ++ [x]) f
        { s with mem := memcpy s.mem s.buffer (int32Bytes x),
                 size := s.size - ((4 : Nat) : Int), buffer := s.buffer + 4, intlen := 4,
                 index := s.index + 1 }
        (by rw [hxs]; simp)
        (by
          intro y hy
          rcases List.mem_append.mp hy with hy | hy
          · exact hall y hy
          · rw [List.mem_singleton.mp hy]; exact hfit)
        rfl (by simp only [List.length_append, List.length_singleton]; omega)
        (by simp only [List.length_append, List.length_singleton]; omega)
        (by simp only [List.length_append, List.length_singleton]; push_cast at hsz ⊢; omega)
        (by omega)
        (by
          simp only [List.length_append, List.length_singleton, List.flatMap_append,
            List.flatMap_singleton, List.flatMap_nil, List.append_nil]
          rw [hbuf, Nat.mul_add, Nat.mul_one,
            show 4 = (int32Bytes x).length by simp [int32Bytes, le32_length]]
          exact readN_snoc_memcpy _ _ _ _ _ hrd)
      refine ⟨s', hstep.trans h1, h2, fun q hq => ?_⟩
      rw [h5 q hq]
      exact memcpy_lt _ _ _ _ (by omega)
    · have hstep := ia_loop_promote xs args h f s _ x hidx hx hfit hlen
        (by push_cast at hsz; omega)
      obtain ⟨hr1, hr2⟩ := rearrange_spec h done s.mem hall hrd
      obtain ⟨s', h1, h2, h3, h4, h5⟩ := int_array_loop_wide xs args h rest (done ++ [x]) f
        { s with mem := memcpy (rearrange h done.length s.mem) (s.buffer + 4 * done.length)
                   (int64Bytes x),
                 size := s.size - 4 * done.length - 8, buffer := s.buffer + 4 * done.length + 8,
                 intlen := 8, index := s.index + 1 }
        (by rw [hxs]; simp) rfl
        (by simp only [List.length_append, List.length_singleton]; omega)
        (by simp only [List.length_append, List.length_singleton]; omega)
        (by simp only []; push_cast at hsz ⊢; omega) (by omega)
        (by
          simp only [List.length_append, List.length_singleton, List.flatMap_append,
            List.flatMap_singleton, List.flatMap_nil, List.append_nil]
          rw [hbuf, show h + 1 + 4 * done.length + 4 * done.length = h + 1 + 8 * done.length by
            omega, Nat.mul_add, Nat.mul_one,
            show 8 = (int64Bytes x).length by simp [int64Bytes, le64_length]]
          exact readN_snoc_memcpy _ _ _ _ _ hr1)
      refine ⟨s', hstep.trans h1, Or.inr ⟨?_, h2, h3, h4⟩, fun q hq => ?_⟩
      · intro hcon
        exact hfit (hcon x (by rw [hxs]; simp))
      · rw [h5 q hq]
        show memcpy (rearrange h done.length s.mem) (s.buffer + 4 * done.length) (int64Bytes x) q
          = s.mem q
        rw [memcpy_lt _ _ _ _ (by omega)]
        exact hr2 q (Or.inl hq)


theorem intArrayBody_length_le (xs : List Int) : (intArrayBody xs).length ≤ 1 + 8 * xs.length := by
  unfold intArrayBody
  split_ifs
  · rw [List.length_cons, flatMap_int32_length]; omega
  · rw [List.length_cons, flatMap_int64_length]; omega

theorem intArrayBody_length_pos (xs : List Int) : 1 ≤ (intArrayBody xs).length := by
  unfold intArrayBody
  split_ifs <;> simp

/-- The function `encode_integer_array` on a non-empty list: the width byte and
the elements are at `buffer`, and the returned pointer is right after them. -/
theorem encode_integer_array_list (xs : List Int) (args : sproto_arg) (m : Mem) (buffer : Nat)
    (size : Int) (hne : xs ≠ []) (hsize : 1 + 8 * (xs.length : Int) ≤ size) :
    ∃ m', encode_integer_array (listEncode xs) () args m buffer size
        = .ret (some (buffer + (intArrayBody xs).length), false, m', ()) ∧
      readN m' buffer (intArrayBody xs).length = intArrayBody xs ∧
      ∀ q, q < buffer → m' q = m q := by
  have hpos : 0 < xs.length := List.length_pos.mpr hne
  obtain ⟨s', h1, h2, h5⟩ := int_array_loop_narrow xs args buffer xs [] (size.toNat + 1)
    { mem := m, ud := (), buffer := buffer + 1, size := size - 1, intlen := SIZEOF_INT32,
      index := 1 }
    rfl (fun _ hx => absurd hx (List.not_mem_nil _)) rfl rfl rfl
    (by simp only [List.length_nil]; push_cast; omega) (by omega) rfl
  unfold encode_integer_array
  rw [if_neg (by omega), h1]
  simp only []
  rcases h2 with ⟨hall, hlen, hbuf, hrd⟩ | ⟨hall, hlen, hbuf, hrd⟩
  · have hb : intArrayBody xs = 4 :: xs.flatMap int32Bytes := by unfold intArrayBody; rw [if_pos hall]
    have hl : (intArrayBody xs).length = 1 + 4 * xs.length := by
      rw [hb, List.length_cons, flatMap_int32_length]; omega
    rw [if_neg (by omega), hbuf, hlen]
    refine ⟨_, by rw [hl, Nat.add_assoc], ?_, fun q hq => ?_⟩
    · rw [hl, readN_add, hb]
      show [wr s'.mem buffer 4 buffer] ++ _ = _
      rw [wr_same, readN_frame s'.mem _ (buffer + 1) _ (fun q hq _ => wr_other _ _ _ _ (by omega)),
        hrd]
      rfl
    · rw [wr_other _ _ _ _ (by omega)]
      exact h5 q (by omega)
  · have hb : intArrayBody xs = 8 :: xs.flatMap int64Bytes := by unfold intArrayBody; rw [if_neg hall]
    have hl : (intArrayBody xs).length = 1 + 8 * xs.length := by
      rw [hb, List.length_cons, flatMap_int64_length]; omega
    rw [if_neg (by omega), hbuf, hlen]
    refine ⟨_, by rw [hl, Nat.add_assoc], ?_, fun q hq => ?_⟩
    · rw [hl, readN_add, hb]
      show [wr s'.mem buffer 8 buffer] ++ _ = _
      rw [wr_same, readN_frame s'.mem _ (buffer + 1) _ (fun q hq _ => wr_other _ _ _ _ (by omega)),
        hrd]
      rfl
    · rw [wr_other _ _ _ _ (by omega)]
      exact h5 q (by omega)

/-- The function `encode_array` on a non-empty list of integers: the length
prefix and the body are at `data`, and their size is returned. -/
theorem encode_array_list (xs : List Int) (args : sproto_arg) (m : Mem) (data : Nat)
    (size : Int) (hne : xs ≠ []) (hty : args.type = SPROTO_TINTEGER)
    (hsize : 5 + 8 * (xs.length : Int) ≤ size) (hmax : size < 2 ^ 31) :
    ∃ m', encode_array (listEncode xs) () args m data size
        = .ret (4 + ((intArrayBody xs).length : Int), m', ()) ∧
      readN m' data (4 + (intArrayBody xs).length)
        = le32 (intArrayBody xs).length ++ intArrayBody xs ∧
      ∀ q, q < data → m' q = m q := by
  obtain ⟨m1, h1, h2, h3⟩ := encode_integer_array_list xs args m (data + SIZEOF_LENGTH)
    (size - SIZEOF_LENGTH) hne (by simp only [SIZEOF_LENGTH]; push_cast; omega)
  have hle := intArrayBody_length_le xs
  unfold encode_array
  rw [if_neg (by simp only [SIZEOF_LENGTH]; push_cast; omega)]
  simp only []
  rw [if_pos (Or.inr hty), h1]
  simp only [fill_size, Bool.false_eq_true, if_false]
  have e1 : ((data + SIZEOF_LENGTH + (intArrayBody xs).length : Nat) : Int)
      - ((data + SIZEOF_LENGTH : Nat) : Int) = ((intArrayBody xs).length : Int) := by
    push_cast; ring
  rw [e1]
  have e2 : toU32 ((intArrayBody xs).length : Int) = (intArrayBody xs).length := by
    unfold toU32; omega
  rw [e2]
  refine ⟨memcpy m1 data (le32 (intArrayBody xs).length),
    by rw [show ((SIZEOF_LENGTH : Nat) : Int) = 4 by rfl, Int.add_comm], ?_, fun q hq => ?_⟩
  · rw [show 4 = (le32 (intArrayBody xs).length).length by rw [le32_length], readN_add,
      readN_memcpy, le32_length]
    rw [readN_frame m1 _ (data + 4) _ (fun q hq _ => memcpy_ge _ _ _ _ (by rw [le32_length]; omega))]
    exact congrArg _ h2
  · rw [memcpy_lt _ _ _ _ hq]
    exact h3 q (by omega)


theorem todword_flatMap32 : ∀ (xs : List Int) (i : Nat) (hi : i < xs.length),
    todword (xs.flatMap int32Bytes) (i * 4) = (xs[i] % 2 ^ 32).toNat := by
  intro xs
  induction xs with
  | nil => intro i hi; simp at hi
  | cons x xs ih =>
    intro i hi
    rw [List.flatMap_cons]
    cases i with
    | zero =>
      rw [Nat.zero_mul, todword_append_left _ _ _ (by simp [int32Bytes, le32_length])]
      exact todword_le32 _ (by omega)
    | succ i =>
      have e : (i + 1) * 4 = (int32Bytes x).length + i * 4 := by
        simp [int32Bytes, le32_length]; omega
      rw [e, todword_append_right]
      exact ih i (by simpa using hi)

theorem todword_flatMap64 : ∀ (xs : List Int) (i : Nat) (hi : i < xs.length),
    todword (xs.flatMap int64Bytes) (i * 8) = (xs[i] % 2 ^ 64).toNat % 2 ^ 32 ∧
    todword (xs.flatMap int64Bytes) (i * 8 + 4) = (xs[i] % 2 ^ 64).toNat / 2 ^ 32 := by
  intro xs
  induction xs with
  | nil => intro i hi; simp at hi
  | cons x xs ih =>
    intro i hi
    rw [List.flatMap_cons]
    cases i with
    | zero =>
      rw [Nat.zero_mul, Nat.zero_add,
        todword_append_left _ _ _ (by simp [int64Bytes, le64_length]),
        todword_append_left _ _ _ (by simp [int64Bytes, le64_length])]
      exact ⟨todword_le64_low _, todword_le64_high _ (by omega)⟩
    | succ i =>
      have e : (i + 1) * 8 = (int64Bytes x).length + i * 8 := by
        simp [int64Bytes, le64_length]; omega
      rw [e, Nat.add_assoc, todword_append_right, todword_append_right]
      exact ih i (by simpa using hi)

/-- The function `decode_array` on the length prefix and the body of a
non-empty integer array: one call per element, with indices from 1. -/
theorem decode_array_list (xs : List Int) (args : sproto_arg) (ud : List sproto_arg)
    (hne : xs ≠ []) (hty : args.type = SPROTO_TINTEGER) (hmax : 8 * xs.length + 1 < 2 ^ 32) :
    decode_array recordCb ud args (le32 (intArrayBody xs).length ++ intArrayBody xs) 0
      = .ret (0, ud ++ arrayEvents args 0 xs) := by
  have hpos : 0 < xs.length := List.length_pos.mpr hne
  have hle := intArrayBody_length_le xs
  have hsz : todword (le32 (intArrayBody xs).length ++ intArrayBody xs) 0
      = (intArrayBody xs).length := by
    rw [todword_append_left _ _ _ (by rw [le32_length]), todword_le32 _ (by omega)]
  unfold decode_array
  simp only [hsz, hty]
  rw [if_neg (show ¬ ((intArrayBody xs).length = 0) by
      have := intArrayBody_length_pos xs; omega),
    if_pos (show SPROTO_TINTEGER = SPROTO_TDOUBLE ∨ True from Or.inr trivial)]
  by_cases hall : ∀ x ∈ xs, fits32 x
  · have hb : intArrayBody xs = 4 :: xs.flatMap int32Bytes := by unfold intArrayBody; rw [if_pos hall]
    have hl : (intArrayBody xs).length = 1 + 4 * xs.length := by
      rw [hb, List.length_cons, flatMap_int32_length]; omega
    have hp : le32 (intArrayBody xs).length ++ intArrayBody xs
        = (le32 (intArrayBody xs).length ++ [4]) ++ xs.flatMap int32Bytes := by
      rw [hb]; simp
    have hlen5 : (le32 (intArrayBody xs).length ++ [4]).length = 5 := by simp [le32_length]
    have hw : rd (le32 (intArrayBody xs).length ++ intArrayBody xs) (0 + SIZEOF_LENGTH) = 4 := by
      rw [hb]; rfl
    rw [if_neg (show ¬ ((intArrayBody xs).length - 1 = 0) by omega), hw,
      if_pos (show 4 = SIZEOF_INT32 from rfl),
      if_neg (show ¬ (((intArrayBody xs).length - 1) % SIZEOF_INT32 ≠ 0) by
        simp only [SIZEOF_INT32]; omega)]
    have hcnt : ((intArrayBody xs).length - 1) / SIZEOF_INT32 = xs.length := by
      simp only [SIZEOF_INT32]; omega
    rw [hcnt, decode_array_each_record args _ xs 0 ud]
    intro j hj
    show expand64 (todword _ (0 + SIZEOF_LENGTH + 1 + (0 + j) * SIZEOF_INT32)) = _
    rw [hp, show 0 + SIZEOF_LENGTH + 1 + (0 + j) * SIZEOF_INT32
        = (le32 (intArrayBody xs).length ++ [4]).length + j * 4 by
      rw [hlen5]; simp only [SIZEOF_LENGTH, SIZEOF_INT32]; omega,
      todword_append_right, todword_flatMap32 xs j hj]
    exact expand64_eq _ (hall _ (List.getElem_mem _)).1 (hall _ (List.getElem_mem _)).2
  · have hb : intArrayBody xs = 8 :: xs.flatMap int64Bytes := by unfold intArrayBody; rw [if_neg hall]
    have hl : (intArrayBody xs).length = 1 + 8 * xs.length := by
      rw [hb, List.length_cons, flatMap_int64_length]; omega
    have hp : le32 (intArrayBody xs).length ++ intArrayBody xs
        = (le32 (intArrayBody xs).length ++ [8]) ++ xs.flatMap int64Bytes := by
      rw [hb]; simp
    have hlen5 : (le32 (intArrayBody xs).length ++ [8]).length = 5 := by simp [le32_length]
    have hw : rd (le32 (intArrayBody xs).length ++ intArrayBody xs) (0 + SIZEOF_LENGTH) = 8 := by
      rw [hb]; rfl
    rw [if_neg (show ¬ ((intArrayBody xs).length - 1 = 0) by omega), hw,
      if_neg (show ¬ (8 = SIZEOF_INT32) by decide), if_pos (show 8 = SIZEOF_INT64 from rfl),
      if_neg (show ¬ (((intArrayBody xs).length - 1) % SIZEOF_INT64 ≠ 0) by
        simp only [SIZEOF_INT64]; omega)]
    have hcnt : ((intArrayBody xs).length - 1) / SIZEOF_INT64 = xs.length := by
      simp only [SIZEOF_INT64]; omega
    rw [hcnt, decode_array_each_record args _ xs 0 ud]
    intro j hj
    show todword _ (0 + SIZEOF_LENGTH + 1 + (0 + j) * SIZEOF_INT64)
      ||| (todword _ (0 + SIZEOF_LENGTH + 1 + (0 + j) * SIZEOF_INT64 + SIZEOF_INT32) <<< 32) = _
    rw [hp, show 0 + SIZEOF_LENGTH + 1 + (0 + j) * SIZEOF_INT64
        = (le32 (intArrayBody xs).length ++ [8]).length + j * 8 by
      rw [hlen5]; simp only [SIZEOF_LENGTH, SIZEOF_INT64]; omega,
      show SIZEOF_INT32 = 4 by rfl, Nat.add_assoc,
      todword_append_right, todword_append_right, (todword_flatMap64 xs j hj).1,
      (todword_flatMap64 xs j hj).2, or_shift32 _ _ (Nat.mod_lt _ (by norm_num))]
    exact Nat.mod_add_div' _ _


theorem tags_ok_cons (f : field) (fs : List field) (last : Int) :
    import_tags_ok (f :: fs) last = true ↔ f.tag > last ∧ import_tags_ok fs f.tag = true := by
  simp [import_tags_ok]

theorem tags_ok_lower : ∀ (fs : List field) (last : Int), import_tags_ok fs last = true →
    ∀ (i : Nat) (a : field), fs[i]? = some a → a.tag ≥ last + 1 + i := by
  intro fs
  induction fs with
  | nil => intro last _ i a h; simp at h
  | cons f fs ih =>
    intro last hok i a h
    obtain ⟨h1, h2⟩ := (tags_ok_cons f fs last).mp hok
    cases i with
    | zero =>
      simp only [List.getElem?_cons_zero, Option.some.injEq] at h
      subst h
      simp only [Nat.cast_zero]; omega
    | succ i =>
      rw [List.getElem?_cons_succ] at h
      have := ih f.tag h2 i a h
      push_cast; omega

theorem tags_ok_mem (fs : List field) (last : Int) (hok : import_tags_ok fs last = true)
    (a : field) (ha : a ∈ fs) : a.tag > last := by
  obtain ⟨i, hi⟩ := List.mem_iff_getElem?.mp ha
  have := tags_ok_lower fs last hok i a hi
  omega

theorem tags_ok_step : ∀ (fs : List field) (last : Int), import_tags_ok fs last = true →
    ∀ (i j : Nat) (a b : field), i ≤ j → fs[i]? = some a → fs[j]? = some b →
      b.tag ≥ a.tag + (j - i : Nat) := by
  intro fs
  induction fs with
  | nil => intro last _ i j a b _ h; simp at h
  | cons f fs ih =>
    intro last hok i j a b hij ha hb
    obtain ⟨h1, h2⟩ := (tags_ok_cons f fs last).mp hok
    cases i with
    | zero =>
      simp only [List.getElem?_cons_zero, Option.some.injEq] at ha
      cases j with
      | zero =>
        simp only [List.getElem?_cons_zero, Option.some.injEq] at hb
        rw [← ha, ← hb]
        simp
      | succ j =>
        rw [List.getElem?_cons_succ] at hb
        have := tags_ok_lower fs f.tag h2 j b hb
        rw [← ha]
        push_cast; omega
    | succ i =>
      cases j with
      | zero => omega
      | succ j =>
        rw [List.getElem?_cons_succ] at ha hb
        have := ih f.tag h2 i j a b (by omega) ha hb
        rw [show j + 1 - (i + 1) = j - i by omega]
        exact this

/-- Two entries of an ascending array of fields with the same tag are the same
entry. -/
theorem tags_ok_inj (fs : List field) (last : Int) (hok : import_tags_ok fs last = true)
    (i j : Nat) (a b : field) (ha : fs[i]? = some a) (hb : fs[j]? = some b)
    (ht : a.tag = b.tag) : i = j := by
  rcases Nat.lt_trichotomy i j with h | h | h
  · have := tags_ok_step fs last hok i j a b (by omega) ha hb
    have : ((j - i : Nat) : Int) ≥ 1 := by omega
    omega
  · exact h
  · have := tags_ok_step fs last hok j i b a (by omega) hb ha
    have : ((i - j : Nat) : Int) ≥ 1 := by omega
    omega

theorem tags_ok_lt (fs : List field) (last : Int) (hok : import_tags_ok fs last = true)
    (i j : Nat) (a b : field) (ha : fs[i]? = some a) (hb : fs[j]? = some b)
    (ht : a.tag < b.tag) : i < j := by
  by_contra hcon
  have := tags_ok_step fs last hok j i b a (by omega) hb ha
  omega

/-- The binary search of `findtag` finds the entry that has the tag. -/
theorem findtag_loop_spec (fs : List field) (last : Int) (hok : import_tags_ok fs last = true)
    (i : Nat) (f : field) (hf : fs[i]? = some f) :
    ∀ (fuel b e : Nat), b ≤ i → i < e → e ≤ fs.length → e - b ≤ fuel →
      findtag_loop fs f.tag fuel b e = some f := by
  intro fuel
  induction fuel with
  | zero => intro b e h1 h2 _ h4; omega
  | succ fuel ih =>
    intro b e h1 h2 h3 h4
    unfold findtag_loop
    rw [if_pos (by omega)]
    simp only []
    have hmid : (b + e) / 2 < fs.length := by omega
    rw [List.getElem?_eq_getElem hmid]
    simp only []
    have hm : fs[(b + e) / 2]? = some fs[(b + e) / 2] := List.getElem?_eq_getElem hmid
    by_cases heq : fs[(b + e) / 2].tag = f.tag
    · rw [if_pos heq]
      have := tags_ok_inj fs last hok _ _ _ _ hm hf heq
      have hm2 : fs[i]? = some fs[(b + e) / 2] := by
        rw [← this]; exact List.getElem?_eq_getElem hmid
      rw [hf] at hm2
      exact hm2.symm
    · rw [if_neg heq]
      by_cases hgt : f.tag > fs[(b + e) / 2].tag
      · rw [if_pos hgt]
        have := tags_ok_lt fs last hok _ _ _ _ hm hf hgt
        exact ih _ _ (by omega) h2 h3 (by omega)
      · rw [if_neg hgt]
        have := tags_ok_lt fs last hok _ _ _ _ hf hm (by omega)
        exact ih _ _ h1 this (by omega) (by omega)

/-- The function `findtag` on a type as `import_type` builds it finds every
field of the type by its tag. -/
theorem findtag_spec (st : sproto_type) (hst : LoadedType st) (f : field) (hf : f ∈ st.f) :
    findtag st f.tag = some f := by
  obtain ⟨i, hi⟩ := List.mem_iff_getElem?.mp hf
  have hok := hst.ascending
  have hilt : i < st.f.length := by
    by_contra hcon
    rw [List.getElem?_eq_none (by omega)] at hi
    exact Option.noConfusion hi
  unfold findtag
  by_cases hb : st.base ≥ 0
  · rw [if_pos hb]
    simp only []
    have hbase := hst.base_eq
    obtain ⟨f0, h0⟩ : ∃ f0, st.f[0]? = some f0 := ⟨st.f[0], List.getElem?_eq_getElem (by omega)⟩
    obtain ⟨fl, hl⟩ : ∃ fl, st.f[st.f.length - 1]? = some fl :=
      ⟨st.f[st.f.length - 1], List.getElem?_eq_getElem (by omega)⟩
    have hhead : st.f.head? = some f0 := by rw [← h0]; exact (List.head?_eq_getElem? _)
    have hlast : st.f.getLast? = some fl := by rw [← hl]; exact List.getLast?_eq_getElem? _
    rw [hhead, hlast] at hbase
    simp only [import_base] at hbase
    by_cases hd : fl.tag - f0.tag + 1 ≠ st.f.length
    · rw [if_pos hd] at hbase; omega
    · rw [if_neg hd] at hbase
      have e1 := tags_ok_step st.f (-1) hok 0 i f0 f (by omega) h0 hi
      have e2 := tags_ok_step st.f (-1) hok i (st.f.length - 1) f fl (by omega) hi hl
      have e3 : ((st.f.length - 1 - i : Nat) : Int) = (st.f.length : Int) - 1 - i := by omega
      have e4 : ((i - 0 : Nat) : Int) = i := by simp
      have ht : f.tag - st.base = i := by omega
      rw [ht]
      unfold sproto_type.n
      rw [if_neg (by omega)]
      simpa using hi
  · rw [if_neg hb]
    exact findtag_loop_spec st.f (-1) hok i f hi _ 0 _ (by omega) hilt (le_refl _) (by
      unfold sproto_type.n; omega)


theorem tagSlots_length (f : field) (last : Int) (value : Nat) :
    (tagSlots f last value).length = if f.tag - last - 1 > 0 then 2 else 1 := by
  unfold tagSlots
  split_ifs <;> rfl

/-- The slots `encode_tag` writes for a field that is emitted, as a list. -/
theorem encode_tag_wire {σ : Type} (f : field) (value : Nat) (sz : Int) (s : EncState σ)
    (hsz : 0 < sz) (hgap : f.tag - s.lasttag ≤ 32769) :
    ∃ s', encode_tag f value sz s = .next s' ∧ s'.ud = s.ud ∧ s'.lasttag = f.tag ∧
      s'.data = (if value = 0 then s.data + sz.toNat else s.data) ∧
      s'.size = (if value = 0 then s.size - sz else s.size) ∧
      s'.index = s.index + (tagSlots f s.lasttag value).length ∧
      readN s'.mem (2 + 2 * s.index) (2 * (tagSlots f s.lasttag value).length)
        = slotBytes (tagSlots f s.lasttag value) ∧
      (∀ q, (q < 2 + 2 * s.index ∨ 2 + 2 * s'.index ≤ q) → s'.mem q = s.mem q) := by
  obtain ⟨s', h1, h2, h3, h4, h5, h6, h7, h8, h9⟩ := encode_tag_emit f value sz s hsz hgap
  simp only [SIZEOF_HEADER, SIZEOF_FIELD] at h7 h8 h9
  refine ⟨s', h1, h2, h3, h4, h5, by rw [h6, tagSlots_length], ?_, h9⟩
  by_cases hg : f.tag - s.lasttag - 1 > 0
  · rw [if_pos hg] at h6
    have h8' := h8 hg
    rw [h6, show s.index + 2 - 1 = s.index + 1 by omega] at h7
    unfold tagSlots
    rw [if_pos hg]
    show readN s'.mem (2 + 2 * s.index) (2 + 2) = _
    rw [readN_add, h8', show 2 + 2 * s.index + 2 = 2 + 2 * (s.index + 1) by omega, h7]
    rfl
  · rw [if_neg hg] at h6
    rw [h6, show s.index + 1 - 1 = s.index by omega] at h7
    unfold tagSlots
    rw [if_neg hg]
    show readN s'.mem (2 + 2 * s.index) 2 = _
    rw [h7]
    rfl


/-- A field emitted after its body bytes were stored at `data`: the state after
`encode_tag`. -/
theorem field_emit {σ : Type} (f : field) (value : Nat) (sz : Int) (s : EncState σ) (ud1 : σ)
    (body : List Nat) (hsz : 0 < sz) (hgap : f.tag - s.lasttag ≤ 32769)
    (hbody : (value = 0 ∧ sz = body.length) ∨ (value ≠ 0 ∧ body = []))
    (hlay : 2 + 2 * (s.index + (tagSlots f s.lasttag value).length) ≤ s.data) :
    ∃ s', encode_tag f value sz { s with mem := memcpy s.mem s.data body, ud := ud1 } = .next s' ∧
      s'.ud = ud1 ∧ s'.lasttag = f.tag ∧ s'.data = s.data + body.length ∧
      s'.size = s.size - body.length ∧
      s'.index = s.index + (tagSlots f s.lasttag value).length ∧
      readN s'.mem (2 + 2 * s.index) (2 * (tagSlots f s.lasttag value).length)
        = slotBytes (tagSlots f s.lasttag value) ∧
      readN s'.mem s.data body.length = body ∧
      (∀ q, (q < 2 + 2 * s.index ∨ (2 + 2 * s'.index ≤ q ∧ q < s.data)) → s'.mem q = s.mem q) := by
  obtain ⟨s', h1, h2, h3, h4, h5, h6, h7, h8⟩ :=
    encode_tag_wire f value sz { s with mem := memcpy s.mem s.data body, ud := ud1 } hsz hgap
  simp only [] at h2 h3 h4 h5 h6 h7 h8
  have hd : s'.data = s.data + body.length ∧ s'.size = s.size - body.length := by
    rcases hbody with ⟨hv, hb⟩ | ⟨hv, hb⟩
    · rw [if_pos hv] at h4 h5
      rw [h4, h5, hb]
      exact ⟨by simp, rfl⟩
    · rw [if_neg hv] at h4 h5
      rw [h4, h5, hb]
      exact ⟨by simp, by simp⟩
  refine ⟨s', h1, h2, h3, hd.1, hd.2, h6, h7, ?_, fun q hq => ?_⟩
  · rw [readN_frame (memcpy s.mem s.data body) s'.mem s.data body.length
      (fun q hq1 _ => h8 q (Or.inr (by rw [h6]; omega)))]
    exact readN_memcpy _ _ _
  · rcases hq with hq | ⟨hq1, hq2⟩
    · rw [h8 q (Or.inl hq)]
      exact memcpy_lt _ _ _ _ (by omega)
    · rw [h8 q (Or.inr hq1)]
      exact memcpy_lt _ _ _ _ hq2

theorem hostEncode_present (msg : Int → Option HostValue) (f : field) (v : HostValue)
    (len : Int) (hm : msg f.tag = some v) :
    hostEncode msg () { fieldArgs f with length := len } = (hostValueOut v len, ()) := by
  simp only [hostEncode, fieldArgs]
  rw [if_neg (by decide), hm]

theorem hostEncode_absent (msg : Int → Option HostValue) (f : field)
    (len : Int) (hm : msg f.tag = none) :
    hostEncode msg () { fieldArgs f with length := len }
      = ({ sz := SPROTO_CB_NIL, u := 0, bytes := [] }, ()) := by
  simp only [hostEncode, fieldArgs]
  rw [if_neg (by decide), hm]

theorem memcpy_nil (m : Mem) (p : Nat) : memcpy m p [] = m := rfl

/-- A present field: its slots are appended to the header and its body bytes
to the body. -/
theorem encode_field_present (types : List sproto_type) (msg : Int → Option HostValue)
    (f : field) (v : HostValue) (s : EncState Unit) (hm : msg f.tag = some v)
    (hfit : hostFits f v) (hgap : f.tag - s.lasttag ≤ 32769)
    (hroom : ((hostBody v).length : Int) ≤ s.size) (hmax : s.size < 2 ^ 31)
    (hlay : 2 + 2 * (s.index + (tagSlots f s.lasttag (hostSlot v)).length) ≤ s.data) :
    ∃ s', encode_field types (hostEncode msg) f s = .ret (.next s') ∧
      s'.lasttag = f.tag ∧ s'.data = s.data + (hostBody v).length ∧
      s'.size = s.size - (hostBody v).length ∧
      s'.index = s.index + (tagSlots f s.lasttag (hostSlot v)).length ∧
      readN s'.mem (2 + 2 * s.index) (2 * (tagSlots f s.lasttag (hostSlot v)).length)
        = slotBytes (tagSlots f s.lasttag (hostSlot v)) ∧
      readN s'.mem s.data (hostBody v).length = hostBody v ∧
      (∀ q, (q < 2 + 2 * s.index ∨ (2 + 2 * s'.index ≤ q ∧ q < s.data)) → s'.mem q = s.mem q) := by
  have fin : ∀ (value : Nat) (sz : Int) (body : List Nat),
      value = hostSlot v → body = hostBody v → 0 < sz →
      ((value = 0 ∧ sz = body.length) ∨ (value ≠ 0 ∧ body = [])) →
      encode_field types (hostEncode msg) f s
        = .ret (encode_tag f value sz { s with mem := memcpy s.mem s.data body, ud := () }) →
      ∃ s', encode_field types (hostEncode msg) f s = .ret (.next s') ∧
        s'.lasttag = f.tag ∧ s'.data = s.data + (hostBody v).length ∧
        s'.size = s.size - (hostBody v).length ∧
        s'.index = s.index + (tagSlots f s.lasttag (hostSlot v)).length ∧
        readN s'.mem (2 + 2 * s.index) (2 * (tagSlots f s.lasttag (hostSlot v)).length)
          = slotBytes (tagSlots f s.lasttag (hostSlot v)) ∧
        readN s'.mem s.data (hostBody v).length = hostBody v ∧
        (∀ q, (q < 2 + 2 * s.index ∨ (2 + 2 * s'.index ≤ q ∧ q < s.data)) →
          s'.mem q = s.mem q) := by
    intro value sz body hv hb hsz hbody he
    subst hv hb
    obtain ⟨s', h1, _, h3, h4, h5, h6, h7, h8, h9⟩ :=
      field_emit f (hostSlot v) sz s () (hostBody v) hsz hgap hbody hlay
    exact ⟨s', by rw [he, h1], h3, h4, h5, h6, h7, h8, h9⟩
  cases v with
  | int x =>
    obtain ⟨hty, _, _⟩ := hfit
    have hk : f.type = SPROTO_TDOUBLE ∨ f.type = SPROTO_TINTEGER ∨ f.type = SPROTO_TBOOLEAN :=
      Or.inr (Or.inl hty)
    have hcb := hostEncode_present msg f (.int x) 8 hm
    by_cases h32 : -2 ^ 31 ≤ x ∧ x < 2 ^ 31
    · have hout : hostValueOut (.int x) 8 = { sz := 4, u := (x % 2 ^ 32).toNat, bytes := [] } := by
        simp only [hostValueOut]; rw [if_pos h32]
      have hu : (x % 2 ^ 32).toNat % 2 ^ 32 = (x % 2 ^ 32).toNat := Nat.mod_eq_of_lt (by omega)
      by_cases hin : (x % 2 ^ 32).toNat < 0x7fff
      · have e := encode_field_inline types (hostEncode msg) f s hk (by rw [hcb, hout])
          (by rw [hcb, hout]; simp only []; rw [hu]; exact hin)
        rw [hcb, hout] at e
        simp only [] at e
        rw [hu] at e
        refine fin (((x % 2 ^ 32).toNat + 1) * 2) 2 [] ?_ ?_ (by decide) (Or.inr ⟨by omega, rfl⟩) e
        · simp only [hostSlot]; rw [if_pos h32, if_pos hin]
        · simp only [hostBody]; rw [if_pos h32, if_pos hin]
      · have e := encode_field_int32 types (hostEncode msg) f s hk (by rw [hcb, hout])
          (by rw [hcb, hout]; simp only []; rw [hu]; exact hin)
        have hbd : hostBody (.int x) = le32 4 ++ le32 (x % 2 ^ 32).toNat := by
          simp only [hostBody]; rw [if_pos h32, if_neg hin]
        rw [hbd] at hroom
        rw [hcb, hout] at e
        simp only [] at e
        rw [hu, encode_integer_ok _ _ _ _ (by simpa [le32_length] using hroom) hmax] at e
        refine fin 0 8 _ ?_ hbd.symm (by decide) (Or.inl ⟨rfl, rfl⟩) ?_
        · simp only [hostSlot]; rw [if_pos h32, if_neg hin]
        · exact e
    · have hout : hostValueOut (.int x) 8 = { sz := 8, u := (x % 2 ^ 64).toNat, bytes := [] } := by
        simp only [hostValueOut]; rw [if_neg h32]
      have hu : (x % 2 ^ 64).toNat % 2 ^ 64 = (x % 2 ^ 64).toNat := Nat.mod_eq_of_lt (by omega)
      have e := encode_field_int64 types (hostEncode msg) f s hk (by rw [hcb, hout])
      have hbd : hostBody (.int x) = le32 8 ++ le64 (x % 2 ^ 64).toNat := by
        simp only [hostBody]; rw [if_neg h32]
      rw [hbd] at hroom
      rw [hcb, hout] at e
      simp only [] at e
      rw [hu, encode_uint64_ok _ _ _ _ (by simpa [le32_length, le64_length] using hroom) hmax] at e
      refine fin 0 12 _ ?_ hbd.symm (by decide) (Or.inl ⟨rfl, rfl⟩) ?_
      · simp only [hostSlot]; rw [if_neg h32]
      · exact e
  | bool b =>
    have hk : f.type = SPROTO_TDOUBLE ∨ f.type = SPROTO_TINTEGER ∨ f.type = SPROTO_TBOOLEAN :=
      Or.inr (Or.inr hfit)
    have hcb := hostEncode_present msg f (.bool b) 8 hm
    have hout : hostValueOut (.bool b) 8 = { sz := 4, u := if b then 1 else 0, bytes := [] } := rfl
    have hu : (if b then 1 else 0) % 2 ^ 32 = (if b then 1 else 0 : Nat) := by cases b <;> rfl
    have e := encode_field_inline types (hostEncode msg) f s hk (by rw [hcb, hout])
      (by rw [hcb, hout]; simp only []; rw [hu]; cases b <;> decide)
    rw [hcb, hout] at e
    simp only [] at e
    rw [hu] at e
    exact fin _ 2 [] rfl rfl (by decide) (Or.inr ⟨by cases b <;> decide, rfl⟩) e
  | str b =>
    have hty : f.type = SPROTO_TSTRING := hfit
    have hbd : hostBody (.str b) = le32 b.length ++ b := rfl
    rw [hbd, List.length_append, le32_length] at hroom
    have hcb := hostEncode_present msg f (.str b) (s.size - SIZEOF_LENGTH) hm
    have hout : hostValueOut (.str b) (s.size - SIZEOF_LENGTH)
        = { sz := b.length, u := 0, bytes := b } := by
      simp only [hostValueOut]
      rw [if_pos (by simp only [SIZEOF_LENGTH]; push_cast at hroom ⊢; omega)]
    have e : encode_field types (hostEncode msg) f s
        = .ret (encode_tag f 0 ((b.length : Int) + 4)
            { s with mem := memcpy s.mem s.data (le32 b.length ++ b), ud := () }) := by
      unfold encode_field
      simp only []
      rw [hty, if_neg (by decide), if_neg (by decide), if_pos (by decide)]
      unfold encode_object
      rw [if_neg (by simp only [SIZEOF_LENGTH]; push_cast at hroom ⊢; omega)]
      simp only []
      have hargs : ({ fieldArgs f with value := ArgValue.null, length := s.size - SIZEOF_LENGTH }
          : sproto_arg) = { fieldArgs f with length := s.size - SIZEOF_LENGTH } := rfl
      rw [hargs, hcb, hout]
      simp only []
      rw [if_neg (by omega), if_neg (by
        simp only [SIZEOF_LENGTH]; push_cast at hroom ⊢; omega)]
      simp only [fill_size]
      rw [toU32_of_nonneg _ (by omega) (by push_cast at hroom; omega), Int.toNat_ofNat,
        show s.data + SIZEOF_LENGTH = s.data + 4 from rfl,
        memcpy_prefix4 _ _ _ _ (le32_length _)]
      rfl
    refine fin 0 ((b.length : Int) + 4) _ rfl hbd.symm (by omega)
      (Or.inl ⟨rfl, by rw [List.length_append, le32_length]; push_cast; ring⟩) ?_
    exact e


theorem hostEncode_element (msg : Int → Option HostValue) (args : sproto_arg)
    (h : args.index > 0) :
    hostEncode msg () args = ({ sz := SPROTO_CB_NOARRAY, u := 0, bytes := [] }, ()) := by
  simp only [hostEncode]
  rw [if_pos h]

/-- The function `encode_array` for an array the host does not have: nothing
is written and 0 is returned, given room for the length prefix and one more
length prefix. -/
theorem encode_array_noarray (msg : Int → Option HostValue) (args : sproto_arg) (m : Mem)
    (data : Nat) (size : Int) (h : 8 ≤ size) :
    encode_array (hostEncode msg) () args m data size = .ret (0, m, ()) := by
  unfold encode_array
  rw [if_neg (by simp only [SIZEOF_LENGTH]; push_cast; omega)]
  simp only []
  obtain ⟨fuel, hfuel⟩ : ∃ fuel, (size - ((SIZEOF_LENGTH : Nat) : Int)).toNat + 1 = fuel + 1 :=
    ⟨_, rfl⟩
  by_cases h1 : args.type = SPROTO_TDOUBLE ∨ args.type = SPROTO_TINTEGER
  · rw [if_pos h1]
    unfold encode_integer_array
    rw [if_neg (by simp only [SIZEOF_LENGTH]; push_cast; omega), hfuel]
    unfold encode_integer_array_loop
    simp only []
    rw [hostEncode_element msg _ (by simp)]
    simp only []
    rw [if_pos (by decide), if_neg (by decide), if_pos trivial]
    simp only []
    rw [if_pos trivial]
    rfl
  · rw [if_neg h1]
    by_cases h2 : args.type = SPROTO_TBOOLEAN
    · rw [if_pos h2, hfuel]
      unfold encode_array_bool_loop
      simp only []
      rw [hostEncode_element msg _ (by simp)]
      simp only []
      rw [if_pos (by decide), if_neg (by decide), if_pos trivial]
    · rw [if_neg h2]
      unfold encode_array_object
      rw [hfuel]
      unfold encode_array_object_loop
      simp only []
      rw [if_neg (by simp only [SIZEOF_LENGTH]; push_cast; omega)]
      rw [hostEncode_element msg _ (by simp)]
      simp only []
      rw [if_pos (by decide), if_neg (by decide), if_pos trivial]
      rfl

/-- A field the message does not assign: the encoder state is unchanged. -/
theorem encode_field_absent (types : List sproto_type) (msg : Int → Option HostValue)
    (f : field) (s : EncState Unit) (hm : msg f.tag = none) (hk : validKind f.type)
    (hroom : 8 ≤ s.size) (hmap : mapReadable types f) :
    encode_field types (hostEncode msg) f s = .ret (.next s) := by
  have harr : ∀ k, f.type = k + SPROTO_TARRAY → k < SPROTO_TARRAY →
      encode_field types (hostEncode msg) f s = .ret (.next s) := by
    intro k hty hlt
    have hand : f.type &&& SPROTO_TARRAY ≠ 0 := by
      rw [hty]
      simp only [SPROTO_TARRAY] at hlt ⊢
      interval_cases k <;> decide
    unfold encode_field
    simp only []
    rw [if_pos hand, if_neg (mapReadable_guard hmap hand), encode_array_noarray msg _ _ _ _ hroom]
    simp only []
    exact congrArg _ (encode_tag_zero f 0 _)
  have hscalar : (f.type = SPROTO_TDOUBLE ∨ f.type = SPROTO_TINTEGER ∨ f.type = SPROTO_TBOOLEAN) →
      encode_field types (hostEncode msg) f s = .ret (.next s) := by
    intro hk2
    rw [encode_field_nil types (hostEncode msg) f s hk2 (by rw [hostEncode_absent msg f 8 hm])]
  have hobj : (f.type = SPROTO_TSTRUCT ∨ f.type = SPROTO_TSTRING) →
      encode_field types (hostEncode msg) f s = .ret (.next s) := by
    intro hk2
    unfold encode_field
    simp only []
    rw [if_neg (by rcases hk2 with h | h <;> rw [h] <;> decide),
      if_neg (by rcases hk2 with h | h <;> rw [h] <;> decide), if_pos hk2]
    unfold encode_object
    rw [if_neg (by simp only [SIZEOF_LENGTH]; push_cast; omega)]
    simp only []
    have hargs : ({ fieldArgs f with value := ArgValue.null, length := s.size - SIZEOF_LENGTH }
        : sproto_arg) = { fieldArgs f with length := s.size - SIZEOF_LENGTH } := rfl
    rw [hargs, hostEncode_absent msg f _ hm]
    simp only []
    rw [if_pos (by decide), if_pos trivial]
    simp only []
    exact congrArg _ (encode_tag_zero f 0 _)
  rcases hk with h | h | h | h | h | h | h | h | h | h
  · exact hscalar (Or.inr (Or.inl h))
  · exact hscalar (Or.inr (Or.inr h))
  · exact hobj (Or.inr h)
  · exact hscalar (Or.inl h)
  · exact hobj (Or.inl h)
  · exact harr _ h (by decide)
  · exact harr _ h (by decide)
  · exact harr _ h (by decide)
  · exact harr _ h (by decide)
  · exact harr _ h (by decide)


theorem slotBytes_length (vs : List Nat) : (slotBytes vs).length = 2 * vs.length := by
  induction vs with
  | nil => rfl
  | cons v vs ih =>
    simp only [slotBytes, List.flatMap_cons, List.length_append, List.length_cons,
      List.length_nil] at ih ⊢
    omega

theorem slotBytes_append (a b : List Nat) : slotBytes (a ++ b) = slotBytes a ++ slotBytes b := by
  simp only [slotBytes, List.flatMap_append]

theorem hostBytes_cons_none (msg : Int → Option HostValue) (f : field) (fs : List field)
    (hm : msg f.tag = none) : hostBytes msg (f :: fs) = hostBytes msg fs := by
  simp only [hostBytes, List.flatMap_cons, hm, List.nil_append]

theorem hostBytes_cons_some (msg : Int → Option HostValue) (f : field) (fs : List field)
    (v : HostValue) (hm : msg f.tag = some v) :
    hostBytes msg (f :: fs) = hostBody v ++ hostBytes msg fs := by
  simp only [hostBytes, List.flatMap_cons, hm]

theorem hostSlots_cons_none (msg : Int → Option HostValue) (last : Int) (f : field)
    (fs : List field) (hm : msg f.tag = none) :
    hostSlots msg last (f :: fs) = hostSlots msg last fs := by
  simp only [hostSlots, hm]

theorem hostSlots_cons_some (msg : Int → Option HostValue) (last : Int) (f : field)
    (fs : List field) (v : HostValue) (hm : msg f.tag = some v) :
    hostSlots msg last (f :: fs) = tagSlots f last (hostSlot v) ++ hostSlots msg f.tag fs := by
  simp only [hostSlots, hm]

/-- The loop of `sproto_encode` over the fields: the slots of the present
fields are appended to the header and their body bytes to the body. -/
theorem encode_fields_wire (types : List sproto_type) (msg : Int → Option HostValue) :
    ∀ (fs : List field) (s : EncState Unit) (last : Int) (cap : Nat),
      import_tags_ok fs last = true → (∀ f ∈ fs, f.tag ≤ 32766) → (∀ f ∈ fs, validKind f.type) →
      (∀ f ∈ fs, ∀ v, msg f.tag = some v → hostFits f v) → mapFieldsReadable types fs →
      -1 ≤ s.lasttag → s.lasttag ≤ last →
      s.index + (if s.lasttag < last then 1 else 0) + slotsOf last fs ≤ cap →
      2 + 2 * cap ≤ s.data →
      ((hostBytes msg fs).length : Int) + 8 ≤ s.size → s.size < 2 ^ 31 →
      ∃ s', encode_fields types (hostEncode msg) fs s = .ret (.next s') ∧
        s'.index = s.index + (hostSlots msg s.lasttag fs).length ∧ s'.index ≤ cap ∧
        s'.data = s.data + (hostBytes msg fs).length ∧
        readN s'.mem (2 + 2 * s.index) (2 * (hostSlots msg s.lasttag fs).length)
          = slotBytes (hostSlots msg s.lasttag fs) ∧
        readN s'.mem s.data (hostBytes msg fs).length = hostBytes msg fs ∧
        (∀ q, (q < 2 + 2 * s.index ∨ (2 + 2 * cap ≤ q ∧ q < s.data)) → s'.mem q = s.mem q) := by
  intro fs
  induction fs with
  | nil =>
    intro s last cap _ _ _ _ _ _ _ hcap _ _ _
    exact ⟨s, rfl, rfl, by omega, rfl, rfl, rfl, fun _ _ => rfl⟩
  | cons f fs ih =>
    intro s last cap hok htag hkind hfit hmapf hl0 hl1 hcap hlay hroom hmax
    obtain ⟨hgt, hok2⟩ := (tags_ok_cons f fs last).mp hok
    have hf32 := htag f (List.mem_cons_self _ _)
    have hslots : slotsOf last (f :: fs) = (if f.tag > last + 1 then 2 else 1) + slotsOf f.tag fs :=
      rfl
    rw [hslots] at hcap
    cases hm : msg f.tag with
    | none =>
      rw [hostBytes_cons_none msg f fs hm] at hroom ⊢
      rw [hostSlots_cons_none msg _ f fs hm]
      have e1 := encode_field_absent types msg f s hm (hkind f (List.mem_cons_self _ _))
        (by omega) (hmapf f (List.mem_cons_self _ _))
      obtain ⟨s', h1, h2, h3, h4, h5, h6, h7⟩ := ih s f.tag cap hok2
        (fun g hg => htag g (List.mem_cons_of_mem _ hg))
        (fun g hg => hkind g (List.mem_cons_of_mem _ hg))
        (fun g hg => hfit g (List.mem_cons_of_mem _ hg))
        (fun g hg => hmapf g (List.mem_cons_of_mem _ hg)) hl0 (by omega)
        (by rw [if_pos (by omega)]; split_ifs at hcap <;> omega) hlay hroom hmax
      refine ⟨s', ?_, h2, h3, h4, h5, h6, h7⟩
      rw [encode_fields, e1]
      exact h1
    | some v =>
      rw [hostBytes_cons_some msg f fs v hm] at hroom ⊢
      rw [hostSlots_cons_some msg _ f fs v hm]
      rw [List.length_append] at hroom
      have hlen := tagSlots_length f s.lasttag (hostSlot v)
      have hidx : s.index + (tagSlots f s.lasttag (hostSlot v)).length + slotsOf f.tag fs ≤ cap := by
        rw [hlen]
        split_ifs at hcap ⊢ <;> omega
      obtain ⟨s1, e1, a1, a2, a3, a4, a5, a6, a7⟩ := encode_field_present types msg f v s hm
        (hfit f (List.mem_cons_self _ _) v hm) (by omega) (by push_cast at hroom; omega) hmax
        (by omega)
      obtain ⟨s', h1, h2, h3, h4, h5, h6, h7⟩ := ih s1 f.tag cap hok2
        (fun g hg => htag g (List.mem_cons_of_mem _ hg))
        (fun g hg => hkind g (List.mem_cons_of_mem _ hg))
        (fun g hg => hfit g (List.mem_cons_of_mem _ hg))
        (fun g hg => hmapf g (List.mem_cons_of_mem _ hg)) (by omega) (by omega)
        (by rw [a1, if_neg (by omega), a4]; omega) (by omega)
        (by rw [a3]; push_cast at hroom ⊢; omega) (by rw [a3]; omega)
      rw [a1] at h2 h5
      refine ⟨s', ?_, ?_, h3, ?_, ?_, ?_, fun q hq => ?_⟩
      · rw [encode_fields, e1]
        exact h1
      · rw [h2, a4, List.length_append]; omega
      · rw [h4, a2, List.length_append]; omega
      · rw [List.length_append, Nat.mul_add, readN_add, slotBytes_append]
        congr 1
        · rw [readN_frame s1.mem s'.mem _ _ (fun q _ hq2 => h7 q (Or.inl (by omega)))]
          exact a5
        · rw [show 2 + 2 * s.index + 2 * (tagSlots f s.lasttag (hostSlot v)).length
            = 2 + 2 * s1.index by omega]
          exact h5
      · rw [List.length_append, readN_add]
        congr 1
        · rw [readN_frame s1.mem s'.mem _ _ (fun q hq1 hq2 => h7 q (Or.inr ⟨by omega, by omega⟩))]
          exact a6
        · rw [← a2]
          exact h6
      · rw [h7 q (by
          rcases hq with hq | ⟨hq1, hq2⟩
          · exact Or.inl (by omega)
          · exact Or.inr ⟨hq1, by omega⟩)]
        apply a7
        rcases hq with hq | ⟨hq1, hq2⟩
        · exact Or.inl hq
        · exact Or.inr ⟨by omega, hq2⟩


theorem import_maxn_slotsOf : ∀ (fs : List field) (last : Int) (acc : Nat),
    import_maxn fs last (acc + fs.length) = acc + slotsOf last fs := by
  intro fs
  induction fs with
  | nil => intro last acc; rfl
  | cons f fs ih =>
    intro last acc
    simp only [import_maxn, slotsOf, List.length_cons]
    by_cases h : f.tag > last + 1
    · rw [if_pos h, if_pos h, show acc + (fs.length + 1) + 1 = (acc + 2) + fs.length by omega, ih]
      omega
    · rw [if_neg h, if_neg h, show acc + (fs.length + 1) = (acc + 1) + fs.length by omega, ih]
      omega

theorem loaded_maxn (st : sproto_type) (hst : LoadedType st) : st.maxn = slotsOf (-1) st.f := by
  have := import_maxn_slotsOf st.f (-1) 0
  rw [Nat.zero_add, Nat.zero_add] at this
  rw [hst.maxn_eq, this]

theorem hostWire_length (msg : Int → Option HostValue) (fs : List field) :
    (hostWire msg fs).length
      = 2 + 2 * (hostSlots msg (-1) fs).length + (hostBytes msg fs).length := by
  simp only [hostWire, List.length_append, List.length_cons, List.length_nil, slotBytes_length]

/-- The function `sproto_encode` on a message of scalar values: it returns the
length of the encoding `hostWire` and leaves it at the start of the buffer. -/
theorem sproto_encode_wire (types : List sproto_type) (st : sproto_type)
    (msg : Int → Option HostValue) (buffer : Mem) (size : Int) (hst : LoadedType st)
    (hfit : ∀ f ∈ st.f, ∀ v, msg f.tag = some v → hostFits f v)
    (hmap : mapFieldsReadable types st.f)
    (hsize : (2 + 2 * st.maxn + (hostBytes msg st.f).length + 8 : Nat) ≤ size)
    (hmax : size < 2 ^ 31) :
    ∃ m', sproto_encode types st buffer size (hostEncode msg) ()
        = .ret (((hostWire msg st.f).length : Nat), m', ()) ∧
      readN m' 0 (hostWire msg st.f).length = hostWire msg st.f ∧
      (hostSlots msg (-1) st.f).length ≤ st.maxn := by
  have hmaxn := loaded_maxn st hst
  obtain ⟨s', h1, h2, h3, h4, h5, h6, h7⟩ := encode_fields_wire types msg st.f
    { mem := buffer, ud := (), data := SIZEOF_HEADER + st.maxn * SIZEOF_FIELD,
      size := size - ((SIZEOF_HEADER + st.maxn * SIZEOF_FIELD : Nat) : Int), index := 0,
      lasttag := -1 }
    (-1) st.maxn hst.ascending hst.tag_le hst.kind hfit hmap (le_refl _) (le_refl _)
    (by simp only [lt_self_iff_false, if_false]; omega)
    (by simp only [SIZEOF_HEADER, SIZEOF_FIELD]; omega)
    (by simp only [SIZEOF_HEADER, SIZEOF_FIELD]; push_cast at hsize ⊢; omega)
    (by simp only [SIZEOF_HEADER, SIZEOF_FIELD]; push_cast; omega)
  simp only [SIZEOF_HEADER, SIZEOF_FIELD, Nat.zero_add, Nat.mul_zero, Nat.add_zero] at h1 h2 h4 h5 h6 h7
  unfold sproto_encode
  simp only [SIZEOF_HEADER, SIZEOF_FIELD]
  rw [if_neg (by push_cast at hsize ⊢; omega), h1]
  simp only []
  have hlen := hostWire_length msg st.f
  have hds : s'.data - (2 + st.maxn * 2) = (hostBytes msg st.f).length := by omega
  rw [hds]
  refine ⟨_, by rw [hlen, ← h2]; congr 3; omega, ?_, by omega⟩
  rw [hlen, Nat.add_assoc, readN_add, readN_add]
  have hw0 : ∀ (m : Mem) (a b q : Nat), 2 ≤ q → wr (wr m 0 a) 1 b q = m q := by
    intro m a b q hq
    rw [wr_other _ _ _ _ (by omega), wr_other _ _ _ _ (by omega)]
  have hhead : ∀ (m : Mem) (a b : Nat), readN (wr (wr m 0 a) 1 b) 0 2 = [a, b] := by
    intro m a b
    rw [readN_two, wr_other _ _ _ _ (by omega), wr_same, wr_same]
  by_cases hk : s'.index ≠ st.maxn
  · rw [if_pos hk]
    rw [readN_frame _ _ 0 2 (fun q _ hq => memcpy_lt _ _ _ _ (by omega)), hhead,
      readN_frame _ _ (0 + 2) _ (fun q _ hq => memcpy_lt _ _ _ _ (by rw [h2]; omega)),
      readN_frame s'.mem _ (0 + 2) _ (fun q hq1 _ => hw0 _ _ _ q (by omega)), Nat.zero_add, h5]
    have hb : readN (wr (wr s'.mem 0 (s'.index % 256)) 1 (s'.index / 2 ^ 8 % 256))
        (2 + st.maxn * 2) (hostBytes msg st.f).length = hostBytes msg st.f := by
      rw [readN_frame s'.mem _ _ _ (fun q hq1 _ => hw0 _ _ _ q (by omega))]
      exact h6
    rw [hb, show 0 + 2 + 2 * (hostSlots msg (-1) st.f).length = 2 + s'.index * 2 by omega]
    have := readN_memcpy (wr (wr s'.mem 0 (s'.index % 256)) 1 (s'.index / 2 ^ 8 % 256))
      (2 + s'.index * 2) (hostBytes msg st.f)
    rw [this, h2]
    rfl
  · rw [if_neg hk]
    have hk2 : s'.index = st.maxn := by omega
    rw [hhead, readN_frame s'.mem _ (0 + 2) _ (fun q hq1 _ => hw0 _ _ _ q (by omega)),
      Nat.zero_add, h5,
      readN_frame s'.mem _ _ _ (fun q hq1 _ => hw0 _ _ _ q (by omega)),
      show 2 + 2 * (hostSlots msg (-1) st.f).length = 2 + st.maxn * 2 by omega, h6, h2]
    rfl


/-- An array field with `map > 0` whose subtype names cannot be read stops
`sproto_encode` before it calls the callback. -/
theorem encode_field_unreadable {σ : Type} (types : List sproto_type) (cb : sproto_callback σ)
    (f : field) (s : EncState σ) (h : ¬ mapReadable types f) :
    encode_field types cb f s = .invalidRead := by
  unfold mapReadable at h
  push_neg at h
  obtain ⟨hand, hm, hr⟩ := h
  unfold encode_field
  simp only []
  rw [if_pos hand, if_pos ⟨hm, by simpa using hr⟩]

/-- The loop of `sproto_encode` over fields of which one cannot have its
subtype names read: the fields before it are encoded or left out, and the loop
stops at it. -/
theorem encode_fields_unreadable (types : List sproto_type) (msg : Int → Option HostValue) :
    ∀ (fs : List field) (s : EncState Unit) (last : Int) (cap : Nat),
      import_tags_ok fs last = true → (∀ f ∈ fs, f.tag ≤ 32766) → (∀ f ∈ fs, validKind f.type) →
      (∀ f ∈ fs, ∀ v, msg f.tag = some v → hostFits f v) → ¬ mapFieldsReadable types fs →
      -1 ≤ s.lasttag → s.lasttag ≤ last →
      s.index + (if s.lasttag < last then 1 else 0) + slotsOf last fs ≤ cap →
      2 + 2 * cap ≤ s.data →
      ((hostBytes msg fs).length : Int) + 8 ≤ s.size → s.size < 2 ^ 31 →
      encode_fields types (hostEncode msg) fs s = .invalidRead := by
  intro fs
  induction fs with
  | nil =>
    intro s last cap _ _ _ _ hbad _ _ _ _ _ _
    exact absurd (fun f hf => absurd hf (List.not_mem_nil f)) hbad
  | cons f fs ih =>
    intro s last cap hok htag hkind hfit hbad hl0 hl1 hcap hlay hroom hmax
    by_cases hr : mapReadable types f
    · have hrest : ¬ mapFieldsReadable types fs := fun h => hbad (fun g hg => by
        rcases List.mem_cons.mp hg with hg | hg
        · rw [hg]; exact hr
        · exact h g hg)
      obtain ⟨hgt, hok2⟩ := (tags_ok_cons f fs last).mp hok
      have hf32 := htag f (List.mem_cons_self _ _)
      have hslots : slotsOf last (f :: fs)
          = (if f.tag > last + 1 then 2 else 1) + slotsOf f.tag fs := rfl
      rw [hslots] at hcap
      cases hm : msg f.tag with
      | none =>
        rw [hostBytes_cons_none msg f fs hm] at hroom
        have e1 := encode_field_absent types msg f s hm (hkind f (List.mem_cons_self _ _))
          (by omega) hr
        rw [encode_fields, e1]
        exact ih s f.tag cap hok2
          (fun g hg => htag g (List.mem_cons_of_mem _ hg))
          (fun g hg => hkind g (List.mem_cons_of_mem _ hg))
          (fun g hg => hfit g (List.mem_cons_of_mem _ hg)) hrest hl0 (by omega)
          (by rw [if_pos (by omega)]; split_ifs at hcap <;> omega) hlay hroom hmax
      | some v =>
        rw [hostBytes_cons_some msg f fs v hm, List.length_append] at hroom
        have hlen := tagSlots_length f s.lasttag (hostSlot v)
        have hidx : s.index + (tagSlots f s.lasttag (hostSlot v)).length + slotsOf f.tag fs
            ≤ cap := by
          rw [hlen]
          split_ifs at hcap ⊢ <;> omega
        obtain ⟨s1, e1, a1, a2, a3, a4, _, _, _⟩ := encode_field_present types msg f v s hm
          (hfit f (List.mem_cons_self _ _) v hm) (by omega) (by push_cast at hroom; omega) hmax
          (by omega)
        rw [encode_fields, e1]
        exact ih s1 f.tag cap hok2
          (fun g hg => htag g (List.mem_cons_of_mem _ hg))
          (fun g hg => hkind g (List.mem_cons_of_mem _ hg))
          (fun g hg => hfit g (List.mem_cons_of_mem _ hg)) hrest (by omega) (by omega)
          (by rw [a1, if_neg (by omega), a4]; omega) (by omega)
          (by rw [a3]; push_cast at hroom ⊢; omega) (by rw [a3]; omega)
    · rw [encode_fields, encode_field_unreadable types _ f s hr]

/-- The function `sproto_encode` on a type with an array field with `map > 0`
whose subtype names cannot be read: with room for the message it gets to that
field and stops there. -/
theorem sproto_encode_unreadable (types : List sproto_type) (st : sproto_type)
    (msg : Int → Option HostValue) (buffer : Mem) (size : Int) (hst : LoadedType st)
    (hfit : ∀ f ∈ st.f, ∀ v, msg f.tag = some v → hostFits f v)
    (hbad : ¬ mapFieldsReadable types st.f)
    (hsize : (2 + 2 * st.maxn + (hostBytes msg st.f).length + 8 : Nat) ≤ size)
    (hmax : size < 2 ^ 31) :
    sproto_encode types st buffer size (hostEncode msg) () = .invalidRead := by
  have hmaxn := loaded_maxn st hst
  have h1 := encode_fields_unreadable types msg st.f
    { mem := buffer, ud := (), data := SIZEOF_HEADER + st.maxn * SIZEOF_FIELD,
      size := size - ((SIZEOF_HEADER + st.maxn * SIZEOF_FIELD : Nat) : Int), index := 0,
      lasttag := -1 }
    (-1) st.maxn hst.ascending hst.tag_le hst.kind hfit hbad (le_refl _) (le_refl _)
    (by simp only [lt_self_iff_false, if_false]; omega)
    (by simp only [SIZEOF_HEADER, SIZEOF_FIELD]; omega)
    (by simp only [SIZEOF_HEADER, SIZEOF_FIELD]; push_cast at hsize ⊢; omega)
    (by simp only [SIZEOF_HEADER, SIZEOF_FIELD]; push_cast; omega)
  simp only [SIZEOF_HEADER, SIZEOF_FIELD] at h1
  unfold sproto_encode
  simp only [SIZEOF_HEADER, SIZEOF_FIELD]
  rw [if_neg (by push_cast at hsize ⊢; omega), h1]


theorem rd_drop (p : List Nat) (d k : Nat) : rd p (d + k) = rd (p.drop d) k := by
  unfold rd
  rw [List.getD_eq_getElem?_getD, List.getD_eq_getElem?_getD, List.getElem?_drop]

theorem todword_drop (p : List Nat) (d k : Nat) : todword p (d + k) = todword (p.drop d) k := by
  unfold todword
  rw [show d + k + 1 = d + (k + 1) by omega, show d + k + 2 = d + (k + 2) by omega,
    show d + k + 3 = d + (k + 3) by omega, rd_drop p d k, rd_drop p d (k + 1),
    rd_drop p d (k + 2), rd_drop p d (k + 3)]

theorem toword_drop (p : List Nat) (d k : Nat) : toword p (d + k) = toword (p.drop d) k := by
  unfold toword
  rw [show d + k + 1 = d + (k + 1) by omega, rd_drop p d k, rd_drop p d (k + 1)]

theorem recordCb_call (ud : List sproto_arg) (args : sproto_arg) :
    callcb recordCb ud args = (0, ud ++ [args]) := rfl

/-- The slot of a value encoded inline: the decoder hands the value to the
callback and leaves the data stream where it is. -/
theorem decode_slot_inline (types : List sproto_type) (st : sproto_type) (p : List Nat)
    (f : field) (u : Nat) (s : DecState (List sproto_arg))
    (htag : s.tag + 1 = f.tag) (hfind : findtag st f.tag = some f)
    (hty : f.type = SPROTO_TINTEGER ∨ f.type = SPROTO_TBOOLEAN) (hu : u < 2 ^ 64) :
    decode_slot types st p recordCb ((u + 1) * 2) s
      = .ret (.next { ud := s.ud ++ [{ fieldArgs f with value := .u64 u, length := 8 }],
                      datastream := s.datastream, size := s.size, tag := f.tag }) := by
  unfold decode_slot
  have hodd : ¬ ((u + 1) * 2 &&& 1 ≠ 0) := by
    rw [Nat.and_one_is_mod]; omega
  have hval : (((((u + 1) * 2 / 2 : Nat) : Int) - 1) % 2 ^ 64).toNat = u := by
    rw [show (u + 1) * 2 / 2 = u + 1 by omega]
    push_cast
    omega
  have hnn : ¬ ((((u + 1) * 2 / 2 : Nat) : Int) - 1 < 0) := by
    rw [show (u + 1) * 2 / 2 = u + 1 by omega]
    push_cast
    omega
  simp only []
  rw [if_neg hodd, if_neg hnn, htag, hfind]
  simp only []
  rw [if_neg hnn, if_neg (by
    intro hc
    rcases hty with h | h
    · exact hc.1 h
    · exact hc.2 h), recordCb_call, hval]


theorem adv_size (size : Int) (L : Nat) (h1 : (L : Int) + 4 ≤ size) (h2 : size < 2 ^ 31) :
    ¬ (toU32 size < (L + SIZEOF_LENGTH) % 2 ^ 32) ∧ (L + SIZEOF_LENGTH) % 2 ^ 32 = L + 4 ∧
    u32ToInt ((toU32 size + 2 ^ 32 - (L + SIZEOF_LENGTH) % 2 ^ 32) % 2 ^ 32) = size - (L + 4) := by
  have e1 : (L + SIZEOF_LENGTH) % 2 ^ 32 = L + 4 := by
    simp only [SIZEOF_LENGTH]; omega
  have e2 : toU32 size = size.toNat := toU32_of_nonneg size (by omega) (by omega)
  refine ⟨by rw [e1, e2]; omega, e1, ?_⟩
  rw [e1, e2]
  unfold u32ToInt
  rw [if_pos (by omega)]
  omega

/-- The first part of `decode_slot` for a slot 0 whose body has `L` bytes after
its length prefix: the data stream moves past the body. -/
theorem decode_slot_body (types : List sproto_type) (st : sproto_type) (p : List Nat)
    (f : field) (L : Nat) (s : DecState (List sproto_arg))
    (htag : s.tag + 1 = f.tag) (hfind : findtag st f.tag = some f)
    (hL : todword p s.datastream = L) (hsz : (L : Int) + 4 ≤ s.size) (hmax : s.size < 2 ^ 31)
    (hna : ¬ (f.type &&& SPROTO_TARRAY ≠ 0)) :
    decode_slot types st p recordCb 0 s
      = (if f.type = SPROTO_TDOUBLE ∨ f.type = SPROTO_TINTEGER then
          if L = SIZEOF_INT32 then
            .ret (.next { ud := s.ud ++ [{ fieldArgs f with
                            value := .u64 (expand64 (todword p (s.datastream + SIZEOF_LENGTH))),
                            length := 8 }],
                          datastream := s.datastream + (L + 4), size := s.size - (L + 4),
                          tag := f.tag })
          else if L ≠ SIZEOF_INT64 then .ret (.retn (-1) s.ud)
          else
            .ret (.next { ud := s.ud ++ [{ fieldArgs f with
                            value := .u64 (todword p (s.datastream + SIZEOF_LENGTH)
                              ||| (todword p (s.datastream + SIZEOF_LENGTH + SIZEOF_INT32) <<< 32)),
                            length := 8 }],
                          datastream := s.datastream + (L + 4), size := s.size - (L + 4),
                          tag := f.tag })
        else if f.type = SPROTO_TSTRING ∨ f.type = SPROTO_TSTRUCT then
          .ret (.next { ud := s.ud ++ [{ fieldArgs f with
                          value := .bytes ((p.drop (s.datastream + SIZEOF_LENGTH)).take L),
                          length := L }],
                        datastream := s.datastream + (L + 4), size := s.size - (L + 4),
                        tag := f.tag })
        else .ret (.retn (-1) s.ud)) := by
  obtain ⟨a1, a2, a3⟩ := adv_size s.size L hsz hmax
  unfold decode_slot
  simp only []
  have hneg : (((0 / 2 : Nat) : Int) - 1 < 0) := by decide
  rw [if_neg (show ¬ (0 &&& 1 ≠ 0) by decide), if_pos hneg,
    if_neg (show ¬ (s.size < ((SIZEOF_LENGTH : Nat) : Int)) by
      simp only [SIZEOF_LENGTH]; push_cast; omega), hL, if_neg a1, a3, a2, htag, hfind]
  simp only []
  rw [if_pos hneg, if_neg hna]
  have hconv : u32ToInt L = (L : Int) := by
    unfold u32ToInt
    rw [if_pos (by omega)]
  simp only [recordCb_call, hconv]
  split_ifs <;> first | rfl | (exfalso; simp at *; done)


theorem todword_at (p : List Nat) (d : Nat) (pre w post : List Nat) (v : Nat)
    (hp : p.drop d = pre ++ w ++ post) (hw : w = le32 v) (hv : v < 2 ^ 32) :
    todword p (d + pre.length) = v := by
  rw [todword_drop, hp, List.append_assoc, ← Nat.add_zero pre.length, todword_append_right,
    todword_append_left _ _ _ (by rw [hw, le32_length]), hw, todword_le32 v hv]

/-- The slot of a present value: the decoder hands the value to the callback
and moves past its body bytes. -/
theorem decode_slot_value (types : List sproto_type) (st : sproto_type) (p : List Nat)
    (f : field) (v : HostValue) (s : DecState (List sproto_arg)) (rest : List Nat)
    (htag : s.tag + 1 = f.tag) (hfind : findtag st f.tag = some f) (hfit : hostFits f v)
    (hp : p.drop s.datastream = hostBody v ++ rest)
    (hsz : s.size = ((hostBody v).length + rest.length : Nat)) (hmax : s.size < 2 ^ 31) :
    decode_slot types st p recordCb (hostSlot v) s
      = .ret (.next { ud := s.ud ++ [hostEvent f v],
                      datastream := s.datastream + (hostBody v).length,
                      size := rest.length, tag := f.tag }) := by
  cases v with
  | int x =>
    obtain ⟨hty, _, _⟩ := hfit
    by_cases h32 : -2 ^ 31 ≤ x ∧ x < 2 ^ 31
    · by_cases hin : (x % 2 ^ 32).toNat < 0x7fff
      · have hs : hostSlot (.int x) = ((x % 2 ^ 32).toNat + 1) * 2 := by
          simp only [hostSlot]; rw [if_pos h32, if_pos hin]
        have hb : hostBody (.int x) = [] := by
          simp only [hostBody]; rw [if_pos h32, if_pos hin]
        rw [hb] at hsz
        rw [hs, hb, decode_slot_inline types st p f _ s htag hfind (Or.inl hty) (by omega), hsz]
        have hu : (x % 2 ^ 32).toNat = (x % 2 ^ 64).toNat := by omega
        rw [hu]
        simp only [List.length_nil, Nat.zero_add, Nat.add_zero]
        rfl
      · have hs : hostSlot (.int x) = 0 := by
          simp only [hostSlot]; rw [if_pos h32, if_neg hin]
        have hb : hostBody (.int x) = le32 4 ++ le32 (x % 2 ^ 32).toNat := by
          simp only [hostBody]; rw [if_pos h32, if_neg hin]
        rw [hb] at hp hsz
        rw [hs, hb]
        have hL : todword p s.datastream = 4 := by
          have := todword_at p s.datastream [] (le32 4) (le32 (x % 2 ^ 32).toNat ++ rest) 4
            (by rw [hp]; simp) rfl (by norm_num)
          simpa using this
        have hv : todword p (s.datastream + SIZEOF_LENGTH) = (x % 2 ^ 32).toNat :=
          todword_at p s.datastream (le32 4) (le32 (x % 2 ^ 32).toNat) rest _ hp rfl (by omega)
        simp only [List.length_append, le32_length] at hsz ⊢
        rw [decode_slot_body types st p f 4 s htag hfind hL (by rw [hsz]; push_cast; omega) hmax
          (by rw [hty]; decide), if_pos (Or.inr hty), if_pos (show 4 = SIZEOF_INT32 from rfl), hv,
          expand64_eq x h32.1 h32.2, hsz]
        simp only [hostEvent]
        congr 3
        push_cast; omega
    · have hs : hostSlot (.int x) = 0 := by
        simp only [hostSlot]; rw [if_neg h32]
      have hb : hostBody (.int x) = le32 8 ++ le64 (x % 2 ^ 64).toNat := by
        simp only [hostBody]; rw [if_neg h32]
      rw [hb] at hp hsz
      rw [hs, hb]
      have hL : todword p s.datastream = 8 := by
        have := todword_at p s.datastream [] (le32 8) (le64 (x % 2 ^ 64).toNat ++ rest) 8
          (by rw [hp]; simp) rfl (by norm_num)
        simpa using this
      have hlo : todword p (s.datastream + SIZEOF_LENGTH) = (x % 2 ^ 64).toNat % 2 ^ 32 := by
        rw [todword_drop, hp, List.append_assoc, show SIZEOF_LENGTH = (le32 8).length + 0 from rfl,
          todword_append_right, todword_append_left _ _ _ (by rw [le64_length]; omega),
          todword_le64_low]
      have hhi : todword p (s.datastream + SIZEOF_LENGTH + SIZEOF_INT32)
          = (x % 2 ^ 64).toNat / 2 ^ 32 := by
        rw [Nat.add_assoc, todword_drop, hp, List.append_assoc,
          show SIZEOF_LENGTH + SIZEOF_INT32 = (le32 8).length + 4 from rfl,
          todword_append_right, todword_append_left _ _ _ (by rw [le64_length]),
          todword_le64_high _ (by omega)]
      simp only [List.length_append, le32_length, le64_length] at hsz ⊢
      rw [decode_slot_body types st p f 8 s htag hfind hL (by rw [hsz]; push_cast; omega) hmax
        (by rw [hty]; decide), if_pos (Or.inr hty),
        if_neg (show ¬ (8 = SIZEOF_INT32) by decide),
        if_neg (show ¬ (8 ≠ SIZEOF_INT64) by decide), hlo, hhi, or_shift32 _ _ (Nat.mod_lt _ (by norm_num)), Nat.mod_add_div', hsz]
      simp only [hostEvent]
      congr 3
      push_cast; omega
  | bool b =>
    have hty : f.type = SPROTO_TBOOLEAN := hfit
    have hb : hostBody (.bool b) = [] := rfl
    rw [hb] at hsz
    rw [hb, show hostSlot (.bool b) = ((if b then 1 else 0) + 1) * 2 from rfl,
      decode_slot_inline types st p f _ s htag hfind (Or.inr hty) (by cases b <;> decide), hsz]
    simp only [List.length_nil, Nat.zero_add, Nat.add_zero]
    rfl
  | str b =>
    have hty : f.type = SPROTO_TSTRING := hfit
    have hb : hostBody (.str b) = le32 b.length ++ b := rfl
    rw [hb] at hp hsz
    rw [hb, show hostSlot (.str b) = 0 from rfl]
    simp only [List.length_append, le32_length] at hsz ⊢
    have hlt : b.length < 2 ^ 32 := by omega
    have hL : todword p s.datastream = b.length := by
      have := todword_at p s.datastream [] (le32 b.length) (b ++ rest) b.length
        (by rw [hp]; simp) rfl hlt
      simpa using this
    have hbytes : (p.drop (s.datastream + SIZEOF_LENGTH)).take b.length = b := by
      rw [← List.drop_drop, hp, List.append_assoc,
        show SIZEOF_LENGTH = (le32 b.length).length from rfl, List.drop_left,
        List.take_left]
    rw [decode_slot_body types st p f b.length s htag hfind hL
      (by rw [hsz]; push_cast; omega) hmax (by rw [hty]; decide),
      if_neg (by rw [hty]; decide), if_pos (Or.inl hty), hbytes, hsz]
    simp only [hostEvent]
    congr 3
    · omega
    · push_cast; omega

/-- A skip slot: the decoder advances the tag. -/
theorem decode_slot_skip (types : List sproto_type) (st : sproto_type) (p : List Nat)
    (k : Nat) (s : DecState (List sproto_arg)) :
    decode_slot types st p recordCb (k * 2 + 1) s
      = .ret (.next { s with tag := s.tag + 1 + k }) := by
  unfold decode_slot
  simp only []
  rw [if_pos (by rw [Nat.and_one_is_mod]; omega), show (k * 2 + 1) / 2 = k by omega]


theorem tags_ok_weaken (fs : List field) (last last' : Int)
    (h : import_tags_ok fs last = true) (hle : last' ≤ last) :
    import_tags_ok fs last' = true := by
  cases fs with
  | nil => rfl
  | cons f fs =>
    obtain ⟨h1, h2⟩ := (tags_ok_cons f fs last).mp h
    exact (tags_ok_cons f fs last').mpr ⟨by omega, h2⟩

theorem hostEvents_cons_none (msg : Int → Option HostValue) (f : field) (fs : List field)
    (hm : msg f.tag = none) : hostEvents msg (f :: fs) = hostEvents msg fs := by
  simp only [hostEvents, List.filterMap_cons, hm, Option.map_none']

theorem hostEvents_cons_some (msg : Int → Option HostValue) (f : field) (fs : List field)
    (v : HostValue) (hm : msg f.tag = some v) :
    hostEvents msg (f :: fs) = hostEvent f v :: hostEvents msg fs := by
  simp only [hostEvents, List.filterMap_cons, hm, Option.map_some']

theorem decode_slots_step {σ : Type} (types : List sproto_type) (st : sproto_type)
    (p : List Nat) (cb : sproto_callback σ) (k i : Nat) (s s1 : DecState σ)
    (h : decode_slot types st p cb (toword p (SIZEOF_HEADER + i * SIZEOF_FIELD)) s
      = .ret (.next s1)) :
    decode_slots types st p cb (k + 1) i s = decode_slots types st p cb k (i + 1) s1 := by
  rw [decode_slots, h]

/-- The loop of `sproto_decode` over the header slots of an encoded message:
one call of the callback per present field, in the order of the fields. -/
theorem decode_slots_wire (types : List sproto_type) (st : sproto_type) (p : List Nat)
    (msg : Int → Option HostValue) :
    ∀ (fs : List field) (i : Nat) (s : DecState (List sproto_arg)),
      import_tags_ok fs s.tag = true → (∀ f ∈ fs, findtag st f.tag = some f) →
      (∀ f ∈ fs, ∀ v, msg f.tag = some v → hostFits f v) →
      (∀ j v, (hostSlots msg s.tag fs)[j]? = some v →
        toword p (SIZEOF_HEADER + (i + j) * SIZEOF_FIELD) = v) →
      p.drop s.datastream = hostBytes msg fs → s.size = ((hostBytes msg fs).length : Nat) →
      s.size < 2 ^ 31 →
      ∃ s', decode_slots types st p recordCb (hostSlots msg s.tag fs).length i s
          = .ret (.next s') ∧
        s'.ud = s.ud ++ hostEvents msg fs ∧ s'.size = 0 := by
  intro fs
  induction fs with
  | nil =>
    intro i s _ _ _ _ _ hsz _
    exact ⟨s, rfl, by simp [hostEvents], by rw [hsz]; rfl⟩
  | cons f fs ih =>
    intro i s hok hfind hfit hslots hp hsz hmax
    obtain ⟨hgt, hok2⟩ := (tags_ok_cons f fs s.tag).mp hok
    cases hm : msg f.tag with
    | none =>
      rw [hostSlots_cons_none msg _ f fs hm] at hslots ⊢
      rw [hostBytes_cons_none msg f fs hm] at hp hsz
      rw [hostEvents_cons_none msg f fs hm]
      exact ih i s (tags_ok_weaken fs _ _ hok2 (by omega))
        (fun g hg => hfind g (List.mem_cons_of_mem _ hg))
        (fun g hg => hfit g (List.mem_cons_of_mem _ hg)) hslots hp hsz hmax
    | some v =>
      rw [hostSlots_cons_some msg _ f fs v hm] at hslots ⊢
      rw [hostBytes_cons_some msg f fs v hm] at hp hsz
      rw [hostEvents_cons_some msg f fs v hm]
      have hff := hfind f (List.mem_cons_self _ _)
      have hfv := hfit f (List.mem_cons_self _ _) v hm
      rw [List.length_append] at hsz
      by_cases hg : f.tag - s.tag - 1 > 0
      · have hts : tagSlots f s.tag (hostSlot v)
            = [(f.tag - s.tag - 2).toNat * 2 + 1, hostSlot v] := by
          unfold tagSlots
          rw [if_pos hg]
          simp only [List.singleton_append, List.cons.injEq, and_true]
          omega
        rw [hts] at hslots ⊢
        have h0 := hslots 0 ((f.tag - s.tag - 2).toNat * 2 + 1) (by simp)
        have h1 := hslots 1 (hostSlot v) (by simp)
        rw [Nat.add_zero] at h0
        have e0 := decode_slot_skip types st p (f.tag - s.tag - 2).toNat s
        rw [← h0] at e0
        have e1 := decode_slot_value types st p f v
          { s with tag := s.tag + 1 + ((f.tag - s.tag - 2).toNat : Int) } (hostBytes msg fs)
          (by simp only []; omega) hff hfv hp hsz hmax
        rw [← h1] at e1
        obtain ⟨s', a1, a2, a3⟩ := ih (i + 2)
          { ud := s.ud ++ [hostEvent f v], datastream := s.datastream + (hostBody v).length,
            size := (hostBytes msg fs).length, tag := f.tag }
          hok2 (fun g hg => hfind g (List.mem_cons_of_mem _ hg))
          (fun g hg => hfit g (List.mem_cons_of_mem _ hg))
          (fun j w hj => by
            have := hslots (j + 2) w (by simpa using hj)
            rw [show i + 2 + j = i + (j + 2) by omega]
            exact this)
          (by simp only []; rw [← List.drop_drop, hp, List.drop_left])
          rfl (by simp only []; omega)
        refine ⟨s', ?_, by rw [a2]; simp, a3⟩
        show decode_slots types st p recordCb ((hostSlots msg f.tag fs).length + 1 + 1) i s = _
        rw [decode_slots_step types st p recordCb _ i s _ e0,
          decode_slots_step types st p recordCb _ (i + 1) _ _ e1]
        exact a1
      · have hts : tagSlots f s.tag (hostSlot v) = [hostSlot v] := by
          unfold tagSlots
          rw [if_neg hg]
          rfl
        rw [hts] at hslots ⊢
        have h0 := hslots 0 (hostSlot v) (by simp)
        rw [Nat.add_zero] at h0
        have e1 := decode_slot_value types st p f v s (hostBytes msg fs)
          (by omega) hff hfv hp hsz hmax
        rw [← h0] at e1
        obtain ⟨s', a1, a2, a3⟩ := ih (i + 1)
          { ud := s.ud ++ [hostEvent f v], datastream := s.datastream + (hostBody v).length,
            size := (hostBytes msg fs).length, tag := f.tag }
          hok2 (fun g hg => hfind g (List.mem_cons_of_mem _ hg))
          (fun g hg => hfit g (List.mem_cons_of_mem _ hg))
          (fun j w hj => by
            have := hslots (j + 1) w (by simpa using hj)
            rw [show i + 1 + j = i + (j + 1) by omega]
            exact this)
          (by simp only []; rw [← List.drop_drop, hp, List.drop_left])
          rfl (by simp only []; omega)
        refine ⟨s', ?_, by rw [a2]; simp, a3⟩
        show decode_slots types st p recordCb ((hostSlots msg f.tag fs).length + 1) i s = _
        rw [decode_slots_step types st p recordCb _ i s _ e1]
        exact a1


theorem hostSlot_lt (v : HostValue) : hostSlot v < 65536 := by
  cases v with
  | int x =>
    simp only [hostSlot]
    split_ifs <;> omega
  | bool b => cases b <;> decide
  | str b => simp [hostSlot]

theorem hostSlots_lt (msg : Int → Option HostValue) : ∀ (fs : List field) (last : Int),
    -1 ≤ last → import_tags_ok fs last = true → (∀ f ∈ fs, f.tag ≤ 32766) →
    ∀ v ∈ hostSlots msg last fs, v < 65536 := by
  intro fs
  induction fs with
  | nil => intro last _ _ _ v hv; simp [hostSlots] at hv
  | cons f fs ih =>
    intro last hl hok htag v hv
    obtain ⟨hgt, hok2⟩ := (tags_ok_cons f fs last).mp hok
    have hf := htag f (List.mem_cons_self _ _)
    cases hm : msg f.tag with
    | none =>
      rw [hostSlots_cons_none msg _ f fs hm] at hv
      exact ih last hl (tags_ok_weaken fs _ _ hok2 (by omega))
        (fun g hg => htag g (List.mem_cons_of_mem _ hg)) v hv
    | some w =>
      rw [hostSlots_cons_some msg _ f fs w hm] at hv
      rcases List.mem_append.mp hv with h | h
      · unfold tagSlots at h
        rcases List.mem_append.mp h with h | h
        · split_ifs at h
          · rw [List.mem_singleton.mp h]; omega
          · simp at h
        · rw [List.mem_singleton.mp h]; exact hostSlot_lt w
      · exact ih f.tag (by omega) hok2 (fun g hg => htag g (List.mem_cons_of_mem _ hg)) v h

theorem hostSlots_length_le (msg : Int → Option HostValue) : ∀ (fs : List field) (last : Int),
    (hostSlots msg last fs).length ≤ 2 * fs.length := by
  intro fs
  induction fs with
  | nil => intro last; simp [hostSlots]
  | cons f fs ih =>
    intro last
    cases hm : msg f.tag with
    | none =>
      rw [hostSlots_cons_none msg _ f fs hm, List.length_cons]
      have := ih last
      omega
    | some w =>
      rw [hostSlots_cons_some msg _ f fs w hm, List.length_append, tagSlots_length,
        List.length_cons]
      have := ih f.tag
      split_ifs <;> omega

theorem fields_length_le (fs : List field) (hok : import_tags_ok fs (-1) = true)
    (htag : ∀ f ∈ fs, f.tag ≤ 32766) : fs.length ≤ 32767 := by
  by_contra hcon
  have hlt : fs.length - 1 < fs.length := by omega
  have h1 := tags_ok_lower fs (-1) hok (fs.length - 1) fs[fs.length - 1]
    (List.getElem?_eq_getElem hlt)
  have h2 := htag _ (List.getElem_mem hlt)
  omega

theorem toword_append_right (pre l : List Nat) (k : Nat) :
    toword (pre ++ l) (pre.length + k) = toword l k := by
  unfold toword
  rw [show pre.length + k + 1 = pre.length + (k + 1) by omega, rd_append_right, rd_append_right]

theorem toword_slotBytes : ∀ (slots : List Nat) (j v : Nat) (post : List Nat),
    slots[j]? = some v → v < 65536 → toword (slotBytes slots ++ post) (j * 2) = v := by
  intro slots
  induction slots with
  | nil => intro j v post h; simp at h
  | cons w ws ih =>
    intro j v post h hv
    have e : slotBytes (w :: ws) ++ post = [w % 256, w / 2 ^ 8 % 256] ++ (slotBytes ws ++ post) := by
      simp [slotBytes]
    rw [e]
    cases j with
    | zero =>
      simp only [List.getElem?_cons_zero, Option.some.injEq] at h
      subst h
      simp only [toword, rd, Nat.zero_mul, List.cons_append, List.nil_append,
        List.getD_cons_zero, List.getD_cons_succ]
      omega
    | succ j =>
      rw [List.getElem?_cons_succ] at h
      rw [show (j + 1) * 2 = [w % 256, w / 2 ^ 8 % 256].length + j * 2 by
        simp only [List.length_cons, List.length_nil]; omega, toword_append_right]
      exact ih j v post h hv

/-- The function `sproto_decode` on the encoding `hostWire` of a message: it
returns the length of the encoding and calls the callback once per present
field, in the order of the fields. -/
theorem sproto_decode_wire (types : List sproto_type) (st : sproto_type)
    (msg : Int → Option HostValue) (hst : LoadedType st)
    (hfit : ∀ f ∈ st.f, ∀ v, msg f.tag = some v → hostFits f v)
    (hmax : (hostWire msg st.f).length < 2 ^ 31) :
    sproto_decode types st (hostWire msg st.f) ((hostWire msg st.f).length : Nat) recordCb []
      = .ret (((hostWire msg st.f).length : Nat), hostEvents msg st.f) := by
  have hlen := hostWire_length msg st.f
  have hk : (hostSlots msg (-1) st.f).length < 65536 := by
    have := hostSlots_length_le msg st.f (-1)
    have := fields_length_le st.f hst.ascending hst.tag_le
    omega
  have hfn : toword (hostWire msg st.f) 0 = (hostSlots msg (-1) st.f).length := by
    simp only [hostWire, toword, rd, List.cons_append, List.nil_append, List.getD_cons_zero,
      List.getD_cons_succ]
    omega
  have hdrop : (hostWire msg st.f).drop (2 + 2 * (hostSlots msg (-1) st.f).length)
      = hostBytes msg st.f := by
    unfold hostWire
    exact List.drop_left' (by
      simp only [List.length_append, List.length_cons, List.length_nil, slotBytes_length])
  obtain ⟨s', h1, h2, h3⟩ := decode_slots_wire types st (hostWire msg st.f) msg st.f 0
    { ud := [], datastream := 2 + 2 * (hostSlots msg (-1) st.f).length,
      size := ((hostBytes msg st.f).length : Nat), tag := -1 }
    hst.ascending (fun f hf => findtag_spec st hst f hf) hfit
    (fun j v hj => by
      have hv := hostSlots_lt msg st.f (-1) (le_refl _) hst.ascending hst.tag_le v
        (List.mem_iff_getElem?.mpr ⟨j, hj⟩)
      simp only [SIZEOF_HEADER, SIZEOF_FIELD, Nat.zero_add]
      rw [show 2 + j * 2 = ([(hostSlots msg (-1) st.f).length % 256,
          (hostSlots msg (-1) st.f).length / 2 ^ 8 % 256] : List Nat).length + j * 2 from rfl]
      unfold hostWire
      rw [List.append_assoc, toword_append_right]
      exact toword_slotBytes _ j v _ hj hv)
    hdrop rfl (by simp only []; omega)
  unfold sproto_decode
  simp only [hfn, SIZEOF_HEADER, SIZEOF_FIELD]
  rw [if_neg (by push_cast; omega), if_neg (by push_cast; omega)]
  have e1 : ((hostWire msg st.f).length : Int) - ((2 : Nat) : Int)
      - (((hostSlots msg (-1) st.f).length : Nat) : Int) * ((2 : Nat) : Int)
      = (((hostBytes msg st.f).length : Nat) : Int) := by
    rw [hlen]; push_cast; ring
  rw [e1, show 2 + (hostSlots msg (-1) st.f).length * 2
    = 2 + 2 * (hostSlots msg (-1) st.f).length by omega, h1]
  simp only []
  rw [h2, h3, List.nil_append, Int.sub_zero]


theorem toword_pair (x : Nat) (h : x < 65536) : toword [x % 256, x / 2 ^ 8 % 256] 0 = x := by
  simp only [toword, rd, List.getD_cons_zero, List.getD_cons_succ]
  omega

/-- C3. When the callback supplies a 4-byte value `v` with `0 ≤ v ≤ 32766` for a
non-array integer field, `sproto_encode` writes the 16-bit little-endian slot
`(v+1)*2` as the field's tag slot and no body bytes (the body pointer, the
remaining size and every byte from the end of the slots on stay as they were);
`Foo { a 0 : integer }` with `a = 5` encodes to exactly `01 00 0C 00`. -/
theorem sproto_encode_inline_integer {σ : Type} (types : List sproto_type)
    (cb : sproto_callback σ) (f : field) (s : EncState σ) (v : Nat)
    (hkind : f.type = SPROTO_TINTEGER)
    (hsz : (cb s.ud { fieldArgs f with length := 8 }).1.sz = 4)
    (hu : (cb s.ud { fieldArgs f with length := 8 }).1.u % 2 ^ 32 = v)
    (hv : v ≤ 32766) (hgap : f.tag - s.lasttag ≤ 32769) :
    (∃ s', encode_field types cb f s = .ret (.next s') ∧
      s'.data = s.data ∧ s'.size = s.size ∧
      s'.index = s.index + (if f.tag - s.lasttag - 1 > 0 then 2 else 1) ∧
      readN s'.mem (SIZEOF_HEADER + SIZEOF_FIELD * (s'.index - 1)) 2
        = [(v + 1) * 2 % 256, (v + 1) * 2 / 2 ^ 8 % 256] ∧
      toword (readN s'.mem (SIZEOF_HEADER + SIZEOF_FIELD * (s'.index - 1)) 2) 0 = (v + 1) * 2 ∧
      ∀ q, SIZEOF_HEADER + SIZEOF_FIELD * s'.index ≤ q → s'.mem q = s.mem q) ∧
    encoded 4 (sproto_encode [] fooA zeroMem 4 (hostEncode (msgA 5)) ())
      = .ret (4, [0x01, 0x00, 0x0c, 0x00]) := by
  refine ⟨?_, by decide⟩
  rw [encode_field_inline types cb f s (Or.inr (Or.inl hkind)) hsz (by rw [hu]; omega), hu]
  obtain ⟨s', h1, _, _, h4, h5, h6, h7, _, h9⟩ :=
    encode_tag_emit f ((v + 1) * 2) 2
      { s with ud := (cb s.ud { fieldArgs f with length := 8 }).2 } (by omega) hgap
  have hne : (v + 1) * 2 ≠ 0 := by omega
  rw [if_neg hne] at h4 h5
  refine ⟨s', by rw [h1], h4, h5, h6, h7, ?_, fun q hq => h9 q (Or.inr hq)⟩
  rw [h7]
  exact toword_pair _ (by omega)

theorem sproto_encode_inline_integer_witness :
    (integerField "a" 0).type = SPROTO_TINTEGER ∧
    (hostEncode (msgA 5) () { fieldArgs (integerField "a" 0) with length := 8 }).1.sz = 4 ∧
    (hostEncode (msgA 5) () { fieldArgs (integerField "a" 0) with length := 8 }).1.u % 2 ^ 32 = 5 ∧
    (5 : Nat) ≤ 32766 ∧ (integerField "a" 0).tag - (-1 : Int) ≤ 32769 ∧
    ∃ s' : EncState Unit,
      encode_field [] (hostEncode (msgA 5)) (integerField "a" 0)
        { mem := zeroMem, ud := (), data := 4, size := 0, index := 0, lasttag := -1 }
        = .ret (.next s') ∧ s'.data = 4 ∧ s'.size = 0 :=
  ⟨by decide, by decide, by decide, by decide, by decide,
    (sproto_encode_inline_integer [] (hostEncode (msgA 5)) (integerField "a" 0)
      { mem := zeroMem, ud := (), data := 4, size := 0, index := 0, lasttag := -1 } 5
      (by decide) (by decide) (by decide) (by decide) (by decide)).1.imp
      (fun _ h => ⟨h.1, h.2.1, h.2.2.1⟩)⟩

/-- C4. When the callback supplies, for a non-array integer field, an integer
`v` outside `[0, 32766]`, `sproto_encode` writes tag slot 0 and one body entry
at the body pointer: the little-endian length 4 and the 4 little-endian
two's-complement bytes of `v` when the callback supplied 4 bytes, the length 8
and 8 little-endian bytes when it supplied 8; `Foo { a 0 : integer }` with
`a = -1` encodes to `01 00 00 00 04 00 00 00 FF FF FF FF`. -/
theorem sproto_encode_body_integer {σ : Type} (types : List sproto_type)
    (cb : sproto_callback σ) (f : field) (s : EncState σ) (v : Int)
    (hkind : f.type = SPROTO_TINTEGER) (hv : v < 0 ∨ 32766 < v)
    (hgap : f.tag - s.lasttag ≤ 32769) (h31 : s.size < 2 ^ 31)
    (hhdr : SIZEOF_HEADER + SIZEOF_FIELD * (s.index + (tagSlots f s.lasttag 0).length)
      ≤ s.data) :
    ((cb s.ud { fieldArgs f with length := 8 }).1.sz = 4 →
      (cb s.ud { fieldArgs f with length := 8 }).1.u % 2 ^ 32 = (v % 2 ^ 32).toNat →
      -2 ^ 31 ≤ v → v < 2 ^ 31 → 8 ≤ s.size →
      ∃ s', encode_field types cb f s = .ret (.next s') ∧
        s'.data = s.data + 8 ∧ s'.size = s.size - 8 ∧
        readN s'.mem (SIZEOF_HEADER + SIZEOF_FIELD * (s'.index - 1)) 2 = [0, 0] ∧
        readN s'.mem s.data 8 = le32 4 ++ le32 (v % 2 ^ 32).toNat) ∧
    ((cb s.ud { fieldArgs f with length := 8 }).1.sz = 8 →
      (cb s.ud { fieldArgs f with length := 8 }).1.u % 2 ^ 64 = (v % 2 ^ 64).toNat →
      12 ≤ s.size →
      ∃ s', encode_field types cb f s = .ret (.next s') ∧
        s'.data = s.data + 12 ∧ s'.size = s.size - 12 ∧
        readN s'.mem (SIZEOF_HEADER + SIZEOF_FIELD * (s'.index - 1)) 2 = [0, 0] ∧
        readN s'.mem s.data 12 = le32 8 ++ le64 (v % 2 ^ 64).toNat) ∧
    encoded 12 (sproto_encode [] fooA zeroMem 12 (hostEncode (msgA (-1))) ())
      = .ret (12, [0x01, 0x00, 0x00, 0x00, 0x04, 0x00, 0x00, 0x00, 0xff, 0xff, 0xff, 0xff]) := by
  have hk : f.type = SPROTO_TDOUBLE ∨ f.type = SPROTO_TINTEGER ∨ f.type = SPROTO_TBOOLEAN :=
    Or.inr (Or.inl hkind)
  have hlen : (tagSlots f s.lasttag 0).length
      = (if f.tag - s.lasttag - 1 > 0 then 2 else 1) := by
    unfold tagSlots
    split_ifs <;> rfl
  rw [hlen] at hhdr
  simp only [SIZEOF_HEADER, SIZEOF_FIELD] at hhdr
  refine ⟨?_, ?_, by decide⟩
  · intro hsz hu hlo hhi hroom
    have hbig : ¬ (cb s.ud { fieldArgs f with length := 8 }).1.u % 2 ^ 32 < 0x7fff := by
      rw [hu]
      rcases hv with h | h <;> omega
    rw [encode_field_int32 types cb f s hk hsz hbig, hu, encode_integer_ok _ _ _ _ hroom h31]
    obtain ⟨s', h1, _, _, h4, h5, h6, h7, _, h9⟩ :=
      encode_tag_emit f 0 8
        { s with ud := (cb s.ud { fieldArgs f with length := 8 }).2,
                 mem := memcpy s.mem s.data (le32 4 ++ le32 (v % 2 ^ 32).toNat) }
        (by omega) hgap
    refine ⟨s', by rw [h1], by simpa using h4, by simpa using h5, by simpa using h7, ?_⟩
    have : readN (memcpy s.mem s.data (le32 4 ++ le32 (v % 2 ^ 32).toNat)) s.data 8
        = le32 4 ++ le32 (v % 2 ^ 32).toNat := readN_memcpy _ _ _
    rw [← this]
    apply readN_congr
    intro k hk8
    apply h9
    right
    simp only [SIZEOF_HEADER, SIZEOF_FIELD] at h6 ⊢
    rw [h6]
    clear hlen
    split_ifs at hhdr ⊢ <;> omega
  · intro hsz hu hroom
    rw [encode_field_int64 types cb f s hk hsz, hu, encode_uint64_ok _ _ _ _ hroom h31]
    obtain ⟨s', h1, _, _, h4, h5, h6, h7, _, h9⟩ :=
      encode_tag_emit f 0 12
        { s with ud := (cb s.ud { fieldArgs f with length := 8 }).2,
                 mem := memcpy s.mem s.data (le32 8 ++ le64 (v % 2 ^ 64).toNat) }
        (by omega) hgap
    refine ⟨s', by rw [h1], by simpa using h4, by simpa using h5, by simpa using h7, ?_⟩
    have : readN (memcpy s.mem s.data (le32 8 ++ le64 (v % 2 ^ 64).toNat)) s.data 12
        = le32 8 ++ le64 (v % 2 ^ 64).toNat := readN_memcpy _ _ _
    rw [← this]
    apply readN_congr
    intro k hk8
    apply h9
    right
    simp only [SIZEOF_HEADER, SIZEOF_FIELD] at h6 ⊢
    rw [h6]
    clear hlen
    split_ifs at hhdr ⊢ <;> omega

theorem sproto_encode_body_integer_witness :
    (integerField "a" 0).type = SPROTO_TINTEGER ∧ ((-1 : Int) < 0 ∨ 32766 < (-1 : Int)) ∧
    (hostEncode (msgA (-1)) () { fieldArgs (integerField "a" 0) with length := 8 }).1.sz = 4 ∧
    ∃ s' : EncState Unit,
      encode_field [] (hostEncode (msgA (-1))) (integerField "a" 0)
        { mem := zeroMem, ud := (), data := 4, size := 8, index := 0, lasttag := -1 }
        = .ret (.next s') ∧ s'.data = 4 + 8 ∧ s'.size = 8 - 8 ∧
      readN s'.mem (SIZEOF_HEADER + SIZEOF_FIELD * (s'.index - 1)) 2 = [0, 0] ∧
      readN s'.mem 4 8 = le32 4 ++ le32 ((-1 : Int) % 2 ^ 32).toNat :=
  ⟨by decide, by decide, by decide,
    (sproto_encode_body_integer [] (hostEncode (msgA (-1))) (integerField "a" 0)
      { mem := zeroMem, ud := (), data := 4, size := 8, index := 0, lasttag := -1 } (-1)
      (by decide) (by decide) (by decide) (by decide) (by decide)).1
      (by decide) (by decide) (by decide) (by decide) (by decide)⟩

/-- C5, as stated, fails: for `Foo { a 0 : integer, c 3 : integer }` with
`a = 1, c = 2` the encoder writes `03 00 04 00 03 00 06 00`; the skip slot is
`03 00`, not `05 00`. -/
theorem sproto_encode_skip_slot_not_gap_minus_one :
    encoded 8 (sproto_encode [] fooAC zeroMem 8 (hostEncode (msgAC 1 2)) ())
      = .ret (8, [0x03, 0x00, 0x04, 0x00, 0x03, 0x00, 0x06, 0x00]) ∧
    encoded 8 (sproto_encode [] fooAC zeroMem 8 (hostEncode (msgAC 1 2)) ())
      ≠ .ret (8, [0x03, 0x00, 0x04, 0x00, 0x05, 0x00, 0x06, 0x00]) := by
  decide

/-- C5, amended. When `sproto_encode` emits a field with tag `q` after the last
emitted tag `p` (`-1` before the first) and `gap = q - p > 1`, it writes two
slots, and the skip slot it inserts before the field's slot has the value
`(gap-2)*2 + 1`; for `Foo { a 0 : integer, c 3 : integer }` with `a = 1, c = 2`
the output is `03 00`, the slots `04 00`, `03 00`, `06 00`, and an empty body. -/
theorem sproto_encode_skip_slot {σ : Type} (types : List sproto_type)
    (cb : sproto_callback σ) (f : field) (s s' : EncState σ)
    (h : encode_field types cb f s = .ret (.next s')) (hemit : s'.index ≠ s.index)
    (hgap : f.tag - s.lasttag > 1) :
    s'.index = s.index + 2 ∧ s'.lasttag = f.tag ∧
    toword (readN s'.mem (SIZEOF_HEADER + SIZEOF_FIELD * s.index) 2) 0
      = ((f.tag - s.lasttag - 2) * 2 + 1).toNat ∧
    encoded 8 (sproto_encode [] fooAC zeroMem 8 (hostEncode (msgAC 1 2)) ())
      = .ret (8, [0x03, 0x00, 0x04, 0x00, 0x03, 0x00, 0x06, 0x00]) := by
  refine ⟨?_, ?_, ?_, by decide⟩ <;>
  · rcases encode_field_next types cb f s s' h with hl | ⟨value, sz, s1, hpos, ht, hi, hl, _, _⟩
    · exact absurd hl.1 hemit
    · rcases encode_tag_next f value sz s1 s' ht with ⟨h0, _⟩ | ⟨_, hb, _⟩
      · omega
      · obtain ⟨s2, e1, _, e3, _, _, e6, _, e8, _⟩ := encode_tag_emit f value sz s1 hpos hb
        rw [ht] at e1
        simp only [FieldExit.next.injEq] at e1
        subst e1
        rw [hl] at e6 e8
        rw [hi] at e6 e8
        have hg : f.tag - s.lasttag - 1 > 0 := by omega
        first
          | (rw [e6, if_pos hg])
          | exact e3
          | (rw [e8 hg, show f.tag - s.lasttag - 1 - 1 = f.tag - s.lasttag - 2 by omega]
             exact toword_pair _ (by omega))

theorem sproto_encode_skip_slot_witness :
    ∃ s' : EncState Unit,
      encode_field [] (hostEncode (msgAC 1 2)) (integerField "c" 3)
        { mem := zeroMem, ud := (), data := 8, size := 0, index := 1, lasttag := 0 }
        = .ret (.next s') ∧ s'.index ≠ 1 ∧ (integerField "c" 3).tag - (0 : Int) > 1 ∧
      s'.index = 1 + 2 ∧
      toword (readN s'.mem (SIZEOF_HEADER + SIZEOF_FIELD * 1) 2) 0
        = (((integerField "c" 3).tag - 0 - 2) * 2 + 1).toNat :=
  ⟨{ mem := wr (wr (wr (wr zeroMem 4 3) 5 0) 6 6) 7 0, ud := (), data := 8, size := 0, index := 3,
     lasttag := 3 },
    rfl, by decide, by decide,
    (sproto_encode_skip_slot [] (hostEncode (msgAC 1 2)) (integerField "c" 3)
      { mem := zeroMem, ud := (), data := 8, size := 0, index := 1, lasttag := 0 }
      { mem := wr (wr (wr (wr zeroMem 4 3) 5 0) 6 6) 7 0, ud := (), data := 8, size := 0,
        index := 3, lasttag := 3 }
      rfl (by decide) (by decide)).1,
    (sproto_encode_skip_slot [] (hostEncode (msgAC 1 2)) (integerField "c" 3)
      { mem := zeroMem, ud := (), data := 8, size := 0, index := 1, lasttag := 0 }
      { mem := wr (wr (wr (wr zeroMem 4 3) 5 0) 6 6) 7 0, ud := (), data := 8, size := 0,
        index := 3, lasttag := 3 }
      rfl (by decide) (by decide)).2.2.1⟩


/-- C6: for every non-empty list of integers handed element by element to the
integer-array encoder (`listEncode`: 4 bytes when the element fits in a signed
32-bit value, 8 bytes otherwise), with room for 5 + 8 * length bytes,
`encode_array` returns the size of the length prefix and the body and leaves
them at `data`; the body is the width byte 4 and each element as 4
little-endian bytes when every element fits in 32 bits, and otherwise the width
byte 8 and every element, those first written at width 4 included, as the 8
little-endian bytes of its 64-bit two's complement (its sign extension);
`decode_array` on these bytes returns 0 and calls the callback once per
element, in order, with indices 1..n and the element as a 64-bit value. -/
theorem encode_array_integer_width_promotion (xs : List Int) (args : sproto_arg) (m : Mem)
    (data : Nat) (size : Int) (hne : xs ≠ []) (hty : args.type = SPROTO_TINTEGER)
    (hsize : 5 + 8 * (xs.length : Int) ≤ size) (hmax : size < 2 ^ 31) :
    ∃ (m' : Mem) (body : List Nat),
      encode_array (listEncode xs) () args m data size = .ret (4 + (body.length : Int), m', ()) ∧
      readN m' data (4 + body.length) = le32 body.length ++ body ∧
      (body = if ∀ x ∈ xs, -2 ^ 31 ≤ x ∧ x < 2 ^ 31
          then 4 :: xs.flatMap (fun x => le32 (x % 2 ^ 32).toNat)
          else 8 :: xs.flatMap (fun x => le64 (x % 2 ^ 64).toNat)) ∧
      decode_array recordCb [] args (readN m' data (4 + body.length)) 0
        = .ret (0, arrayEvents args 0 xs) := by
  obtain ⟨m', h1, h2, _⟩ := encode_array_list xs args m data size hne hty hsize hmax
  refine ⟨m', intArrayBody xs, h1, h2, rfl, ?_⟩
  rw [h2, decode_array_list xs args [] hne hty (by omega)]
  rfl

/-- The list `[1, 2, 0xFFFFFFFFFF]`: the first two elements are written at
width 4 and rewritten at width 8 when the third arrives. -/
theorem encode_array_integer_width_promotion_witness :
    ([1, 2, 0xFFFFFFFFFF] : List Int) ≠ [] ∧
    (fieldArgs (integerField "a" 0)).type = SPROTO_TINTEGER ∧
    intArrayBody [1, 2, 0xFFFFFFFFFF]
      = [8, 1, 0, 0, 0, 0, 0, 0, 0, 2, 0, 0, 0, 0, 0, 0, 0,
         0xff, 0xff, 0xff, 0xff, 0xff, 0, 0, 0] ∧
    arrayEvents (fieldArgs (integerField "a" 0)) 0 [1, 2, 0xFFFFFFFFFF]
      = [{ fieldArgs (integerField "a" 0) with index := 1, value := .u64 1, length := 8 },
         { fieldArgs (integerField "a" 0) with index := 2, value := .u64 2, length := 8 },
         { fieldArgs (integerField "a" 0) with
             index := 3, value := .u64 0xFFFFFFFFFF, length := 8 }] ∧
    ∃ (m' : Mem) (body : List Nat),
      encode_array (listEncode [1, 2, 0xFFFFFFFFFF]) () (fieldArgs (integerField "a" 0))
          zeroMem 0 64 = .ret (4 + (body.length : Int), m', ()) ∧
      readN m' 0 (4 + body.length) = le32 body.length ++ body ∧
      (body = if ∀ x ∈ ([1, 2, 0xFFFFFFFFFF] : List Int), -2 ^ 31 ≤ x ∧ x < 2 ^ 31
          then 4 :: ([1, 2, 0xFFFFFFFFFF] : List Int).flatMap (fun x => le32 (x % 2 ^ 32).toNat)
          else 8 :: ([1, 2, 0xFFFFFFFFFF] : List Int).flatMap
            (fun x => le64 (x % 2 ^ 64).toNat)) ∧
      decode_array recordCb [] (fieldArgs (integerField "a" 0)) (readN m' 0 (4 + body.length)) 0
        = .ret (0, arrayEvents (fieldArgs (integerField "a" 0)) 0 [1, 2, 0xFFFFFFFFFF]) :=
  ⟨by decide, rfl, by decide, rfl,
    encode_array_integer_width_promotion [1, 2, 0xFFFFFFFFFF] (fieldArgs (integerField "a" 0))
      zeroMem 0 64 (by decide) rfl (by decide) (by decide)⟩


theorem hostBodyLen_eq (msg : Int → Option HostValue) (fs : List field) :
    hostBodyLen msg fs = (hostBytes msg fs).length := by
  induction fs with
  | nil => rfl
  | cons f fs ih =>
    cases hm : msg f.tag with
    | none => rw [hostBytes_cons_none msg f fs hm, ← ih]; simp only [hostBodyLen, hm, Nat.zero_add]
    | some v =>
      rw [hostBytes_cons_some msg f fs v hm, List.length_append, ← ih]
      simp only [hostBodyLen, hm]

theorem loaded_fooAC : LoadedType fooAC :=
  { ascending := by decide
    tag_le := by decide
    kind := by decide
    maxn_eq := by decide
    base_eq := by decide }

theorem loaded_fooArr : LoadedType fooArr :=
  { ascending := by decide
    tag_le := by decide
    kind := by decide
    maxn_eq := by decide
    base_eq := by decide }

/-- C2, as stated, fails: the type `Foo { a 0 : *integer }` is as `import_type`
builds it, with ascending tags; the message assigns no field and the encode
callback returns NIL for every call. `sproto_encode` returns 8, having encoded
the field `a` as an empty array, and `sproto_decode` on these 8 bytes returns 8
and calls the callback once, for the field `a` with index -1, although the
message has no present field. -/
theorem sproto_encode_nil_array_decodes_to_a_call :
    LoadedType fooArr ∧
    (∀ t, msgNone t = none) ∧
    encoded 8 (sproto_encode [] fooArr zeroMem 64 (hostEncodeNil msgNone) ())
      = .ret (8, [0x01, 0x00, 0x00, 0x00, 0x00, 0x00, 0x00, 0x00]) ∧
    sproto_decode [] fooArr [0x01, 0x00, 0x00, 0x00, 0x00, 0x00, 0x00, 0x00] 8 recordCb []
      = .ret (8, [{ tagname := "a", tagid := 0, type := SPROTO_TINTEGER, subtype := none,
                    value := .null, length := 0, index := -1, mainindex := -1, extra := 0,
                    ktagname := none, vtagname := none }]) ∧
    hostEvents msgNone fooArr.f = [] :=
  ⟨loaded_fooArr, fun _ => rfl, by decide, by decide, by decide⟩

/-- C2, amended: for every type as `import_type` builds it (tags strictly
ascending from 0 to at most 32766, `maxn` and `base` as computed there) whose
array fields with `map > 0` have a subtype with the two fields the encoder
reads the names of (`mapFieldsReadable`; what the encoder does on the other
types is neither promised nor denied here), and every host message that assigns values to a subset of its non-array integer,
boolean and string fields, with the encode callback `hostEncode` (an integer as
4 bytes when it fits in a signed 32-bit value and as 8 bytes otherwise, NIL for
an absent non-array field and NOARRAY for an absent array field) and a buffer
of at least `2 + 2 * maxn + body bytes + 8` bytes (below `2^31`),
`sproto_encode` returns `n ≥ 2`, and `sproto_decode` on exactly those `n` bytes
returns `n` and calls the callback exactly once per present field, in ascending
tag order, with the field's tag and the same value (integers and booleans as
64-bit values). -/
theorem sproto_decode_encode_roundtrip (types : List sproto_type) (st : sproto_type)
    (msg : Int → Option HostValue) (buffer : Mem) (size : Int) (hst : LoadedType st)
    (hfit : ∀ f ∈ st.f, ∀ v, msg f.tag = some v → hostFits f v)
    (hmap : mapFieldsReadable types st.f)
    (hsize : ((2 + 2 * st.maxn + hostBodyLen msg st.f + 8 : Nat) : Int) ≤ size)
    (hmax : size < 2 ^ 31) :
    ∃ (n : Nat) (m' : Mem),
      sproto_encode types st buffer size (hostEncode msg) () = .ret ((n : Int), m', ()) ∧
      2 ≤ n ∧
      sproto_decode types st (readN m' 0 n) (n : Int) recordCb []
        = .ret ((n : Int), hostEvents msg st.f) := by
  rw [hostBodyLen_eq] at hsize
  obtain ⟨m', h1, h2, h3⟩ := sproto_encode_wire types st msg buffer size hst hfit hmap hsize hmax
  have hlen := hostWire_length msg st.f
  refine ⟨(hostWire msg st.f).length, m', h1, by omega, ?_⟩
  rw [h2]
  exact sproto_decode_wire types st msg hst hfit (by push_cast at hsize; omega)

theorem sproto_decode_encode_roundtrip_witness :
    LoadedType fooAC ∧
    (∀ f ∈ fooAC.f, ∀ v, msgAC 5 (-7) f.tag = some v → hostFits f v) ∧
    mapFieldsReadable [] fooAC.f ∧
    ((2 + 2 * fooAC.maxn + hostBodyLen (msgAC 5 (-7)) fooAC.f + 8 : Nat) : Int) ≤ 64 ∧
    hostEvents (msgAC 5 (-7)) fooAC.f
      = [{ fieldArgs (integerField "a" 0) with value := .u64 5, length := 8 },
         { fieldArgs (integerField "c" 3) with value := .u64 (2 ^ 64 - 7), length := 8 }] ∧
    ∃ (n : Nat) (m' : Mem),
      sproto_encode [] fooAC zeroMem 64 (hostEncode (msgAC 5 (-7))) () = .ret ((n : Int), m', ()) ∧
      2 ≤ n ∧
      sproto_decode [] fooAC (readN m' 0 n) (n : Int) recordCb []
        = .ret ((n : Int), hostEvents (msgAC 5 (-7)) fooAC.f) :=
  have hfit : ∀ f ∈ fooAC.f, ∀ v, msgAC 5 (-7) f.tag = some v → hostFits f v := by
    intro f hf v hv
    simp only [fooAC, List.mem_cons, List.mem_singleton, List.not_mem_nil, or_false] at hf
    rcases hf with rfl | rfl
    · have : v = .int 5 := by simpa [msgAC, integerField] using hv.symm
      subst this
      exact ⟨rfl, by norm_num, by norm_num⟩
    · have : v = .int (-7) := by simpa [msgAC, integerField] using hv.symm
      subst this
      exact ⟨rfl, by norm_num, by norm_num⟩
  ⟨loaded_fooAC, hfit, by decide, by decide, by decide,
    sproto_decode_encode_roundtrip [] fooAC (msgAC 5 (-7)) zeroMem 64 loaded_fooAC hfit
      (by decide) (by decide) (by decide)⟩


/-- The fuel of `recordsSize` does not matter once it exceeds the length. -/
theorem recordsSize_fuel : ∀ (fuel fuel2 : Nat) (l : List Nat), l.length < fuel →
    l.length < fuel2 → recordsSize fuel l = recordsSize fuel2 l := by
  intro fuel
  induction fuel with
  | zero => intro fuel2 l h; omega
  | succ fuel ih =>
    intro fuel2 l h1 h2
    obtain ⟨f2, rfl⟩ : ∃ f, fuel2 = f + 1 := ⟨fuel2 - 1, by omega⟩
    cases l with
    | nil => rfl
    | cons hd rest =>
      simp only [List.length_cons] at h1 h2
      simp only [recordsSize]
      split_ifs with h3 h4
      · cases rest with
        | nil => rfl
        | cons m body =>
          simp only [List.length_cons] at h1 h2
          simp only []
          split_ifs with h5
          · rfl
          · rw [ih f2 _ (by simp only [List.length_drop]; omega)
              (by simp only [List.length_drop]; omega)]
      · rfl
      · rw [ih f2 _ (by simp only [List.length_drop]; omega)
          (by simp only [List.length_drop]; omega)]


theorem expand64_sext (v : Nat) (hv : v < 2 ^ 32) :
    expand64 v = if v < 2 ^ 31 then v else v + (2 ^ 64 - 2 ^ 32) := by
  unfold expand64
  by_cases h : v < 2 ^ 31
  · rw [if_pos h, if_neg (fun hc => by have := (and_bit31 v hv).mp hc; omega)]
  · rw [if_neg h, if_pos ((and_bit31 v hv).mpr (by omega)), or_shift32 _ _ hv]
    norm_num

theorem todword_lt (p : List Nat) (i : Nat) : todword p i < 2 ^ 32 := by
  unfold todword
  exact Nat.mod_lt _ (by norm_num)

/-- The iteration of `sproto_decode` for a body slot (raw value 0) of a
non-array integer or double field whose entry has `L` bytes after its length
prefix, for any callback. -/
theorem decode_slot_body_integer {σ : Type} (types : List sproto_type) (st : sproto_type)
    (p : List Nat) (cb : sproto_callback σ) (f : field) (L : Nat) (s : DecState σ)
    (hfind : findtag st (s.tag + 1) = some f)
    (hty : f.type = SPROTO_TDOUBLE ∨ f.type = SPROTO_TINTEGER)
    (hL : todword p s.datastream = L) (hsz : (L : Int) + 4 ≤ s.size) (hmax : s.size < 2 ^ 31) :
    decode_slot types st p cb 0 s
      = (if L = 4 then
          .ret (.next { ud := (cb s.ud { fieldArgs f with
                          value := .u64 (expand64 (todword p (s.datastream + 4))),
                          length := 8 }).2,
                        datastream := s.datastream + 8, size := s.size - 8, tag := s.tag + 1 })
        else if L = 8 then
          .ret (.next { ud := (cb s.ud { fieldArgs f with
                          value := .u64 (todword p (s.datastream + 4)
                            ||| (todword p (s.datastream + 4 + 4) <<< 32)),
                          length := 8 }).2,
                        datastream := s.datastream + 12, size := s.size - 12,
                        tag := s.tag + 1 })
        else .ret (.retn (-1) s.ud)) := by
  obtain ⟨a1, a2, a3⟩ := adv_size s.size L hsz hmax
  have hna : ¬ (f.type &&& SPROTO_TARRAY ≠ 0) := by
    rcases hty with h | h <;> rw [h] <;> decide
  unfold decode_slot
  simp only []
  have hneg : (((0 / 2 : Nat) : Int) - 1 < 0) := by decide
  rw [if_neg (show ¬ (0 &&& 1 ≠ 0) by decide), if_pos hneg,
    if_neg (show ¬ (s.size < ((SIZEOF_LENGTH : Nat) : Int)) by
      simp only [SIZEOF_LENGTH]; push_cast; omega), hL, if_neg a1, a3, a2, hfind]
  simp only []
  rw [if_pos hneg, if_neg hna, if_pos hty]
  simp only [SIZEOF_INT32, SIZEOF_INT64, SIZEOF_LENGTH, callcb]
  by_cases h4 : L = 4
  · subst h4
    rw [if_pos rfl, if_pos rfl]
    rfl
  · rw [if_neg h4, if_neg h4]
    by_cases h8 : L = 8
    · subst h8
      rw [if_neg (by decide), if_pos rfl]
      rfl
    · rw [if_pos h8, if_neg h8]


/-- C12. For a body slot (raw value 0) of a non-array integer field whose entry
fits in the payload, one iteration of the loop of `sproto_decode` passes to the
callback, as a 64-bit value: when the entry's length is 4, the two's-complement
sign extension of the 4 little-endian bytes `v` (`v` itself below `2^31`,
`v + 2^64 - 2^32` from `2^31` on, so `FF FF FF FF` gives `2^64 - 1`, which is
-1, and `00 00 00 80` gives `2^64 - 2^31`, which is `-2^31`); when the length
is 8, the 8 little-endian bytes unchanged; for every other length the function
returns -1. -/
theorem sproto_decode_integer_sign_extension {σ : Type} (types : List sproto_type)
    (st : sproto_type) (p : List Nat) (cb : sproto_callback σ) (f : field) (L : Nat)
    (s : DecState σ) (hfind : findtag st (s.tag + 1) = some f)
    (hty : f.type = SPROTO_TINTEGER) (hL : todword p s.datastream = L)
    (hsz : (L : Int) + 4 ≤ s.size) (hmax : s.size < 2 ^ 31) :
    decode_slot types st p cb 0 s
      = (if L = 4 then
          .ret (.next { ud := (cb s.ud { fieldArgs f with
                          value := .u64 (if todword p (s.datastream + 4) < 2 ^ 31
                            then todword p (s.datastream + 4)
                            else todword p (s.datastream + 4) + (2 ^ 64 - 2 ^ 32)),
                          length := 8 }).2,
                        datastream := s.datastream + 8, size := s.size - 8, tag := s.tag + 1 })
        else if L = 8 then
          .ret (.next { ud := (cb s.ud { fieldArgs f with
                          value := .u64 (todword p (s.datastream + 4)
                            + todword p (s.datastream + 8) * 2 ^ 32),
                          length := 8 }).2,
                        datastream := s.datastream + 12, size := s.size - 12,
                        tag := s.tag + 1 })
        else .ret (.retn (-1) s.ud)) ∧
    sproto_decode [] fooA [1, 0, 0, 0, 4, 0, 0, 0, 0xff, 0xff, 0xff, 0xff] 12 recordCb []
      = .ret (12, [{ fieldArgs (integerField "a" 0) with
                       value := .u64 (2 ^ 64 - 1), length := 8 }]) ∧
    sproto_decode [] fooA [1, 0, 0, 0, 4, 0, 0, 0, 0x00, 0x00, 0x00, 0x80] 12 recordCb []
      = .ret (12, [{ fieldArgs (integerField "a" 0) with
                       value := .u64 (2 ^ 64 - 2 ^ 31), length := 8 }]) ∧
    sproto_decode [] fooA [1, 0, 0, 0, 8, 0, 0, 0, 1, 2, 3, 4, 5, 6, 7, 8] 16 recordCb []
      = .ret (16, [{ fieldArgs (integerField "a" 0) with
                       value := .u64 0x0807060504030201, length := 8 }]) ∧
    sproto_decode [] fooA [1, 0, 0, 0, 5, 0, 0, 0, 1, 2, 3, 4, 5] 13 recordCb []
      = .ret (-1, []) := by
  refine ⟨?_, by decide, by decide, by decide, by decide⟩
  rw [decode_slot_body_integer types st p cb f L s hfind (Or.inr hty) hL hsz hmax,
    expand64_sext _ (todword_lt _ _), or_shift32 _ _ (todword_lt _ _)]

theorem sproto_decode_integer_sign_extension_witness :
    findtag fooA ((-1 : Int) + 1) = some (integerField "a" 0) ∧
    todword [1, 0, 0, 0, 4, 0, 0, 0, 0xff, 0xff, 0xff, 0xff] 4 = 4 ∧
    decode_slot [] fooA [1, 0, 0, 0, 4, 0, 0, 0, 0xff, 0xff, 0xff, 0xff] recordCb 0
        { ud := [], datastream := 4, size := 8, tag := -1 }
      = .ret (.next { ud := [{ fieldArgs (integerField "a" 0) with
                                 value := .u64 (2 ^ 64 - 1), length := 8 }],
                      datastream := 12, size := 0, tag := 0 }) :=
  ⟨by decide, by decide,
    (sproto_decode_integer_sign_extension [] fooA
      [1, 0, 0, 0, 4, 0, 0, 0, 0xff, 0xff, 0xff, 0xff] recordCb (integerField "a" 0) 4
      { ud := [], datastream := 4, size := 8, tag := -1 } (by decide) rfl (by decide)
      (by decide) (by decide)).1.trans rfl⟩


section Abort

variable {σ : Type} (cb : sproto_callback σ) (log : σ → List (sproto_arg × Int))

theorem quietLog_call (hlog : ∀ u a, log (cb u a).2 = log u ++ [(a, (cb u a).1.sz)])
    (u : σ) (a : sproto_arg) (hq : quietLog (log u))
    (h : abortsOnError a → (cb u a).1.sz = 0) : quietLog (log (cb u a).2) := by
  intro e he hab
  rw [hlog] at he
  rcases List.mem_append.mp he with he | he
  · exact hq e he hab
  · rw [List.mem_singleton.mp he] at hab ⊢
    exact h hab

theorem decode_array_each_quiet (hlog : ∀ u a, log (cb u a).2 = log u ++ [(a, (cb u a).1.sz)])
    (args : sproto_arg) (val : Nat → Nat)
    (hty : ¬ (args.type = SPROTO_TSTRING ∨ args.type = SPROTO_TSTRUCT)) :
    ∀ (k i : Nat) (ud : σ), quietLog (log ud) →
      quietLog (log (decode_array_each cb args val k i ud)) := by
  intro k
  induction k with
  | zero => intro i ud h; exact h
  | succ k ih =>
    intro i ud h
    simp only [decode_array_each, callcb]
    apply ih
    apply quietLog_call cb log hlog _ _ h
    intro hab
    exfalso
    rcases hab with h1 | h1 | h1
    · exact hty (Or.inl h1)
    · exact hty (Or.inr h1)
    · simp only [] at h1
      omega

theorem decode_array_object_loop_quiet
    (hlog : ∀ u a, log (cb u a).2 = log u ++ [(a, (cb u a).1.sz)])
    (args : sproto_arg) (p : List Nat) :
    ∀ (fuel : Nat) (ud : σ) (stream : Nat) (sz : Int) (index : Nat) (r : Int) (ud' : σ),
      decode_array_object_loop cb args p fuel ud stream sz index = .ret (r, ud') →
      quietLog (log ud) → (r = 0 ∧ quietLog (log ud')) ∨ r = -1 := by
  intro fuel
  induction fuel with
  | zero => intro ud stream sz index r ud' h; simp [decode_array_object_loop] at h
  | succ fuel ih =>
    intro ud stream sz index r ud' h hq
    simp only [decode_array_object_loop, callcb] at h
    split_ifs at h with h1 h2 h3 h4
    · simp only [Outcome.ret.injEq, Prod.mk.injEq] at h; exact Or.inr h.1.symm
    · simp only [Outcome.ret.injEq, Prod.mk.injEq] at h; exact Or.inr h.1.symm
    · simp only [Outcome.ret.injEq, Prod.mk.injEq] at h; exact Or.inr h.1.symm
    · refine ih _ _ _ _ r ud' h (quietLog_call cb log hlog _ _ hq (fun _ => ?_))
      simpa using h4
    · simp only [Outcome.ret.injEq, Prod.mk.injEq] at h
      exact Or.inl ⟨h.1.symm, h.2 ▸ hq⟩

end Abort


section Abort

variable {σ : Type} (cb : sproto_callback σ) (log : σ → List (sproto_arg × Int))

theorem decode_empty_array_quiet (hlog : ∀ u a, log (cb u a).2 = log u ++ [(a, (cb u a).1.sz)])
    (args : sproto_arg) (ud : σ) (hq : quietLog (log ud))
    (h0 : (decode_empty_array cb ud args).1 = 0) :
    quietLog (log (decode_empty_array cb ud args).2) := by
  simp only [decode_empty_array, callcb] at h0 ⊢
  exact quietLog_call cb log hlog _ _ hq (fun _ => h0)

/-- When `decode_array` returns 0, every checked event it gave was answered
by 0. -/
theorem decode_array_quiet (hlog : ∀ u a, log (cb u a).2 = log u ++ [(a, (cb u a).1.sz)])
    (args : sproto_arg) (p : List Nat) (stream : Nat) (ud : σ) (r : Int) (ud' : σ)
    (h : decode_array cb ud args p stream = .ret (r, ud')) (hq : quietLog (log ud))
    (hr : r = 0) : quietLog (log ud') := by
  subst hr
  have hempty : Outcome.ret (decode_empty_array cb ud args) = Outcome.ret ((0 : Int), ud') →
      quietLog (log ud') := by
    intro he
    simp only [Outcome.ret.injEq] at he
    have h1 : (decode_empty_array cb ud args).1 = 0 := by rw [he]
    have h2 : (decode_empty_array cb ud args).2 = ud' := by rw [he]
    rw [← h2]
    exact decode_empty_array_quiet cb log hlog args ud hq h1
  unfold decode_array at h
  simp only [] at h
  split_ifs at h with h1 h2 h3 h4 h5 h6 h7 h8 h9 h10
  · exact hempty h
  · exact hempty h
  · simp at h
  · simp only [Outcome.ret.injEq, Prod.mk.injEq, true_and] at h
    rw [← h]
    exact decode_array_each_quiet cb log hlog args _
      (by rcases h2 with h2 | h2 <;> rw [h2] <;> decide) _ _ _ hq
  · simp at h
  · simp only [Outcome.ret.injEq, Prod.mk.injEq, true_and] at h
    rw [← h]
    exact decode_array_each_quiet cb log hlog args _
      (by rcases h2 with h2 | h2 <;> rw [h2] <;> decide) _ _ _ hq
  · simp at h
  · simp only [Outcome.ret.injEq, Prod.mk.injEq, true_and] at h
    rw [← h]
    exact decode_array_each_quiet cb log hlog args _ (by rw [h8]; decide) _ _ _ hq
  · unfold decode_array_object at h
    rcases decode_array_object_loop_quiet cb log hlog args p _ _ _ _ _ _ _ h hq with hh | hh
    · exact hh.2
    · omega
  · simp at h

end Abort


section Abort

variable {σ : Type} (cb : sproto_callback σ) (log : σ → List (sproto_arg × Int))

/-- One iteration of the loop of `sproto_decode`: when the loop goes on, every
checked event so far was answered by 0; when the function returns, it returns
-1. -/
theorem decode_slot_quiet (hlog : ∀ u a, log (cb u a).2 = log u ++ [(a, (cb u a).1.sz)])
    (types : List sproto_type) (st : sproto_type) (p : List Nat) (v : Nat) (s : DecState σ)
    (hq : quietLog (log s.ud)) :
    (∀ s', decode_slot types st p cb v s = .ret (.next s') → quietLog (log s'.ud)) ∧
    (∀ r ud', decode_slot types st p cb v s = .ret (.retn r ud') → r = -1) := by
  have hnum : ∀ (f : field) (val : ArgValue),
      (f.type = SPROTO_TDOUBLE ∨ f.type = SPROTO_TINTEGER ∨ f.type = SPROTO_TBOOLEAN) →
      quietLog (log (cb s.ud { fieldArgs f with value := val, length := 8 }).2) := by
    intro f val hty
    apply quietLog_call cb log hlog _ _ hq
    intro hab
    exfalso
    rcases hab with h1 | h1 | h1
    · change f.type = SPROTO_TSTRING at h1
      rcases hty with h | h | h <;> rw [h] at h1 <;> exact absurd h1 (by decide)
    · change f.type = SPROTO_TSTRUCT at h1
      rcases hty with h | h | h <;> rw [h] at h1 <;> exact absurd h1 (by decide)
    · change (0 : Int) = -1 at h1
      omega
  constructor
  · intro s' h
    unfold decode_slot at h
    simp only [callcb] at h
    by_cases h1 : v &&& 1 ≠ 0
    · rw [if_pos h1] at h
      simp only [Outcome.ret.injEq, DecExit.next.injEq] at h
      rw [← h]; exact hq
    · rw [if_neg h1] at h
      split at h
      · simp at h
      · split at h
        · simp only [Outcome.ret.injEq, DecExit.next.injEq] at h
          rw [← h]; exact hq
        · repeat' (first | split_ifs at h | split at h)
          all_goals first
            | (simp at h; done)
            | (simp only [Outcome.ret.injEq, DecExit.next.injEq] at h
               rw [← h]
               first
               | exact hq
               | exact hnum _ _ (by tauto)
               | exact quietLog_call cb log hlog _ _ hq (fun _ => by tauto)
               | exact decode_array_quiet cb log hlog _ p _ s.ud _ _ (by assumption) hq
                   (by tauto))
  · intro r ud' h
    unfold decode_slot at h
    simp only [callcb] at h
    by_cases h1 : v &&& 1 ≠ 0
    · rw [if_pos h1] at h
      simp at h
    · rw [if_neg h1] at h
      split at h
      · simp only [Outcome.ret.injEq, DecExit.retn.injEq] at h; exact h.1.symm
      · split at h
        · simp at h
        · repeat' (first | split_ifs at h | split at h)
          all_goals first
            | (simp at h; done)
            | (simp only [Outcome.ret.injEq, DecExit.retn.injEq] at h; exact h.1.symm)

end Abort


theorem decode_slots_quiet {σ : Type} (cb : sproto_callback σ)
    (log : σ → List (sproto_arg × Int))
    (hlog : ∀ u a, log (cb u a).2 = log u ++ [(a, (cb u a).1.sz)])
    (types : List sproto_type) (st : sproto_type) (p : List Nat) :
    ∀ (k i : Nat) (s : DecState σ), quietLog (log s.ud) →
      (∀ s', decode_slots types st p cb k i s = .ret (.next s') → quietLog (log s'.ud)) ∧
      (∀ r ud', decode_slots types st p cb k i s = .ret (.retn r ud') → r = -1) := by
  intro k
  induction k with
  | zero =>
    intro i s hq
    refine ⟨fun s' h => ?_, fun r ud' h => ?_⟩
    · simp only [decode_slots, Outcome.ret.injEq, DecExit.next.injEq] at h
      rw [← h]; exact hq
    · simp [decode_slots] at h
  | succ k ih =>
    intro i s hq
    obtain ⟨a1, a2⟩ := decode_slot_quiet cb log hlog types st p
      (toword p (SIZEOF_HEADER + i * SIZEOF_FIELD)) s hq
    refine ⟨fun s' h => ?_, fun r ud' h => ?_⟩
    · simp only [decode_slots] at h
      split at h
      · simp at h
      · simp at h
      · simp at h
      · simp at h
      · rename_i s1 hs1
        exact (ih (i + 1) s1 (a1 s1 hs1)).1 s' h
    · simp only [decode_slots] at h
      split at h
      · simp at h
      · simp at h
      · simp at h
      · rename_i r1 ud1 hs1
        simp only [Outcome.ret.injEq, DecExit.retn.injEq] at h
        rw [← h.1]
        exact a2 r1 ud1 hs1
      · rename_i s1 hs1
        exact (ih (i + 1) s1 (a1 s1 hs1)).2 r ud' h

/-- C13. The callback `rejectCb` returns -1 for every event it is given, and
`sproto_decode` does not return -1 for the events of integers: for
`Foo { a 0 : integer }` and the payload `01 00 0C 00` (a = 5, inline) it
returns 4; so it does for the body integer `04 00 00 00 FF FF FF FF` (returns
12) and for the elements of the integer array `05 00 00 00 04 01 00 00 00`
(returns 13). The log is the events with the values the callback returned. -/
theorem sproto_decode_ignores_integer_callback_result :
    sproto_decode [] fooA [1, 0, 0x0c, 0] 4 rejectCb []
      = .ret (4, [({ fieldArgs (integerField "a" 0) with value := .u64 5, length := 8 }, -1)]) ∧
    sproto_decode [] fooA [1, 0, 0, 0, 4, 0, 0, 0, 0xff, 0xff, 0xff, 0xff] 12 rejectCb []
      = .ret (12, [({ fieldArgs (integerField "a" 0) with
                        value := .u64 (2 ^ 64 - 1), length := 8 }, -1)]) ∧
    sproto_decode [] fooArr [1, 0, 0, 0, 5, 0, 0, 0, 4, 1, 0, 0, 0] 13 rejectCb []
      = .ret (13, [({ fieldArgs (integerField "a" 0) with
                        value := .u64 1, length := 8, index := 1 }, -1)]) := by
  decide

/-- The events whose result `sproto_decode` looks at: for every type, payload
and callback (whose calls and returned values `log` records), if the callback
returns a non-zero value for an event of a string or struct field (a non-array
field or an element of an array) or for the event of an empty array (index
-1), then `sproto_decode` returns -1. (The value returned for the events of
integer, double and boolean fields, inline or in the body, and of the elements
of their arrays is not looked at.) -/
theorem sproto_decode_callback_abort {σ : Type} (cb : sproto_callback σ)
    (log : σ → List (sproto_arg × Int)) (types : List sproto_type) (st : sproto_type)
    (p : List Nat) (size : Int) (ud ud' : σ) (r : Int)
    (hlog : ∀ u a, log (cb u a).2 = log u ++ [(a, (cb u a).1.sz)]) (h0 : log ud = [])
    (hrun : sproto_decode types st p size cb ud = .ret (r, ud'))
    (hev : ∃ e ∈ log ud', abortsOnError e.1 ∧ e.2 ≠ 0) : r = -1 := by
  have hq0 : quietLog (log ud) := by
    rw [h0]; intro e he; exact absurd he (List.not_mem_nil _)
  by_contra hr
  obtain ⟨e, he, hab, hne⟩ := hev
  unfold sproto_decode at hrun
  simp only [] at hrun
  split_ifs at hrun with h1 h2
  · simp only [Outcome.ret.injEq, Prod.mk.injEq] at hrun; exact hr hrun.1.symm
  · simp only [Outcome.ret.injEq, Prod.mk.injEq] at hrun; exact hr hrun.1.symm
  · obtain ⟨a1, a2⟩ := decode_slots_quiet cb log hlog types st p (toword p 0) 0
      { ud := ud, datastream := SIZEOF_HEADER + toword p 0 * SIZEOF_FIELD,
        size := size - ((SIZEOF_HEADER : Nat) : Int)
          - ((toword p 0 * SIZEOF_FIELD : Nat) : Int), tag := -1 } hq0
    split at hrun
    · simp at hrun
    · simp at hrun
    · simp at hrun
    · rename_i r1 ud1 hs
      simp only [Outcome.ret.injEq, Prod.mk.injEq] at hrun
      exact hr (hrun.1 ▸ a2 r1 ud1 hs)
    · rename_i s1 hs
      simp only [Outcome.ret.injEq, Prod.mk.injEq] at hrun
      have := a1 s1 hs
      rw [hrun.2] at this
      exact hne (this e he hab)

theorem sproto_decode_callback_abort_witness :
    (∀ (u : List (sproto_arg × Int)) (a : sproto_arg),
      id (rejectCb u a).2 = id u ++ [(a, (rejectCb u a).1.sz)]) ∧
    sproto_decode [] fooS [1, 0, 0, 0, 2, 0, 0, 0, 104, 105] 10 rejectCb []
      = .ret (-1, [({ fieldArgs { integerField "s" 0 with type := SPROTO_TSTRING } with
                        value := .bytes [104, 105], length := 2 }, -1)]) ∧
    (-1 : Int) = -1 :=
  ⟨fun _ _ => rfl, by decide,
    sproto_decode_callback_abort rejectCb id [] fooS [1, 0, 0, 0, 2, 0, 0, 0, 104, 105] 10 []
      [({ fieldArgs { integerField "s" 0 with type := SPROTO_TSTRING } with
            value := .bytes [104, 105], length := 2 }, -1)] (-1)
      (fun _ _ => rfl) rfl (by decide) ⟨_, List.mem_singleton.mpr rfl, by decide, by decide⟩⟩


theorem findtag_loop_sound (fs : List field) (tag : Int) :
    ∀ (fuel b e : Nat) (f : field), findtag_loop fs tag fuel b e = some f →
      f ∈ fs ∧ f.tag = tag := by
  intro fuel
  induction fuel with
  | zero => intro b e f h; simp [findtag_loop] at h
  | succ fuel ih =>
    intro b e f h
    unfold findtag_loop at h
    split_ifs at h with h1
    simp only [] at h
    split at h
    · simp at h
    · rename_i fd hfd
      split_ifs at h with h2 h3
      · simp only [Option.some.injEq] at h
        subst h
        exact ⟨List.mem_iff_getElem?.mpr ⟨_, hfd⟩, h2⟩
      · exact ih _ _ f h
      · exact ih _ _ f h

/-- What `findtag` returns on a type as `import_type` builds it is a field of
the type that has the tag. -/
theorem findtag_sound (st : sproto_type) (hst : LoadedType st) (t : Int) (f : field)
    (h : findtag st t = some f) : f ∈ st.f ∧ f.tag = t := by
  unfold findtag at h
  by_cases hb : st.base ≥ 0
  · rw [if_pos hb] at h
    simp only [sproto_type.n] at h
    split_ifs at h with h1
    have hi : (t - st.base).toNat < st.f.length := by omega
    have hmem : f ∈ st.f := List.mem_iff_getElem?.mpr ⟨_, h⟩
    refine ⟨hmem, ?_⟩
    have hok := hst.ascending
    have hbase := hst.base_eq
    obtain ⟨f0, h0⟩ : ∃ f0, st.f[0]? = some f0 := ⟨st.f[0], List.getElem?_eq_getElem (by omega)⟩
    obtain ⟨fl, hl⟩ : ∃ fl, st.f[st.f.length - 1]? = some fl :=
      ⟨st.f[st.f.length - 1], List.getElem?_eq_getElem (by omega)⟩
    have hhead : st.f.head? = some f0 := by rw [← h0]; exact (List.head?_eq_getElem? _)
    have hlast : st.f.getLast? = some fl := by rw [← hl]; exact List.getLast?_eq_getElem? _
    rw [hhead, hlast] at hbase
    simp only [import_base] at hbase
    by_cases hd : fl.tag - f0.tag + 1 ≠ st.f.length
    · rw [if_pos hd] at hbase; omega
    · rw [if_neg hd] at hbase
      have e1 := tags_ok_step st.f (-1) hok 0 _ f0 f (by omega) h0 h
      have e2 := tags_ok_step st.f (-1) hok _ (st.f.length - 1) f fl (by omega) h hl
      have e3 : ((st.f.length - 1 - (t - st.base).toNat : Nat) : Int)
          = (st.f.length : Int) - 1 - (t - st.base).toNat := by omega
      have e4 : (((t - st.base).toNat - 0 : Nat) : Int) = (t - st.base).toNat := by simp
      omega
  · rw [if_neg hb] at h
    exact findtag_loop_sound st.f t _ _ _ f h

/-- A tag that no field of the type has is not found. -/
theorem findtag_none (st : sproto_type) (hst : LoadedType st) (t : Int)
    (h : ∀ f ∈ st.f, f.tag ≠ t) : findtag st t = none := by
  cases hf : findtag st t with
  | none => rfl
  | some f =>
    obtain ⟨h1, h2⟩ := findtag_sound st hst t f hf
    exact absurd h2 (h f h1)


/-- C14. For every type as `import_type` builds it, a header slot that carries
a value (an even raw value `v`) and whose tag is not a tag of any field of the
type makes the loop of `sproto_decode` go on with no callback and no error;
when it is a body slot (`v = 0`) whose entry fits in the payload, the data
stream moves past the length prefix and the entry and the remaining size
shrinks by as much, so later body slots read their own entries and the
returned count `total - size` includes the skipped entry. In the example, the
type has the tags 0 and 3 and the payload carries a 3-byte entry for the
unknown tag 1 between them. -/
theorem sproto_decode_unknown_tag_skipped {σ : Type} (types : List sproto_type)
    (st : sproto_type) (p : List Nat) (cb : sproto_callback σ) (v : Nat) (s : DecState σ)
    (hst : LoadedType st) (hunk : ∀ f ∈ st.f, f.tag ≠ s.tag + 1) (hev : v % 2 = 0)
    (hfit : v = 0 → (todword p s.datastream : Int) + 4 ≤ s.size) (hmax : s.size < 2 ^ 31) :
    decode_slot types st p cb v s
      = .ret (.next { ud := s.ud, tag := s.tag + 1,
                      datastream := if v = 0 then s.datastream + (todword p s.datastream + 4)
                                    else s.datastream,
                      size := if v = 0 then s.size - (todword p s.datastream + 4)
                              else s.size }) ∧
    sproto_decode [] fooAC
        [4, 0, 4, 0, 0, 0, 1, 0, 0, 0, 3, 0, 0, 0, 120, 121, 122, 4, 0, 0, 0, 255, 255, 255, 255]
        25 recordCb []
      = .ret (25, [{ fieldArgs (integerField "a" 0) with value := .u64 1, length := 8 },
                   { fieldArgs (integerField "c" 3) with
                       value := .u64 (2 ^ 64 - 1), length := 8 }]) := by
  refine ⟨?_, by decide⟩
  have hnone := findtag_none st hst (s.tag + 1) hunk
  unfold decode_slot
  simp only []
  rw [if_neg (show ¬ (v &&& 1 ≠ 0) by rw [Nat.and_one_is_mod]; omega)]
  by_cases h0 : v = 0
  · subst h0
    obtain ⟨a1, a2, a3⟩ := adv_size s.size (todword p s.datastream) (hfit rfl) hmax
    have hneg : (((0 / 2 : Nat) : Int) - 1 < 0) := by decide
    rw [if_pos hneg, if_neg (show ¬ (s.size < ((SIZEOF_LENGTH : Nat) : Int)) by
      have := hfit rfl
      simp only [SIZEOF_LENGTH]; push_cast; omega), if_neg a1, a3, a2, hnone]
    simp only [if_true]
  · have hnn : ¬ (((v / 2 : Nat) : Int) - 1 < 0) := by omega
    rw [if_neg hnn, hnone]
    simp only [if_neg h0]

theorem sproto_decode_unknown_tag_skipped_witness :
    LoadedType fooAC ∧
    (∀ f ∈ fooAC.f, f.tag ≠ (0 : Int) + 1) ∧
    decode_slot [] fooAC
        [4, 0, 4, 0, 0, 0, 1, 0, 0, 0, 3, 0, 0, 0, 120, 121, 122, 4, 0, 0, 0, 255, 255, 255, 255]
        recordCb 0 { ud := [], datastream := 10, size := 15, tag := 0 }
      = .ret (.next { ud := [], tag := 1, datastream := 17, size := 8 }) :=
  ⟨{ ascending := by decide, tag_le := by decide, kind := by decide, maxn_eq := by decide,
     base_eq := by decide },
   by decide,
   (sproto_decode_unknown_tag_skipped [] fooAC
      [4, 0, 4, 0, 0, 0, 1, 0, 0, 0, 3, 0, 0, 0, 120, 121, 122, 4, 0, 0, 0, 255, 255, 255, 255]
      recordCb 0 { ud := [], datastream := 10, size := 15, tag := 0 }
      { ascending := by decide, tag_le := by decide, kind := by decide, maxn_eq := by decide,
        base_eq := by decide }
      (by decide) (by decide) (fun _ => by decide) (by decide)).1.trans rfl⟩


/-- C15 at the failing input: the payload `01 00 00 00 FF FF FF FF` of 8 bytes
has one body slot whose entry declares the length `0xFFFFFFFF` with no byte
after the length prefix. In the check `size < sz + SIZEOF_LENGTH` the 32-bit
sum wraps to 3, so the check passes: for `Foo { s 0 : string }`,
`sproto_decode` hands the callback an entry of length -1 (`0xFFFFFFFF` as an
`int`) and returns 7 instead of -1; with the tag unknown to the type (slot for
tag 1 of `Foo { a 0, c 3 }`) it returns 9 with no callback. A declared length
of 5 with 4 bytes after the prefix is rejected. -/
theorem sproto_decode_length_plus_prefix_wraps :
    sproto_decode [] fooS [1, 0, 0, 0, 0xff, 0xff, 0xff, 0xff] 8 recordCb []
      = .ret (7, [{ fieldArgs { integerField "s" 0 with type := SPROTO_TSTRING } with
                      value := .bytes [], length := -1 }]) ∧
    sproto_decode [] fooAC [2, 0, 1, 0, 0, 0, 0xff, 0xff, 0xff, 0xff] 10 recordCb []
      = .ret (9, []) ∧
    sproto_decode [] fooS [1, 0, 0, 0, 0xfc, 0xff, 0xff, 0xff] 8 recordCb []
      = .ret (4, [{ fieldArgs { integerField "s" 0 with type := SPROTO_TSTRING } with
                      value := .bytes [], length := -4 }]) ∧
    sproto_decode [] fooS [1, 0, 0, 0, 5, 0, 0, 0, 1, 2, 3, 4] 12 recordCb []
      = .ret (-1, []) := by
  decide


/-- What `import_field` returns has a tag that is not negative, and the
returned pointer is the end of the record. -/
theorem import_field_tag (type_n : Nat) (p : List Nat) (stream : Nat) (f : field) (r : Nat)
    (h : import_field type_n p stream = some (f, r)) :
    0 ≤ f.tag ∧ r = stream + SIZEOF_LENGTH + todword p stream := by
  unfold import_field at h
  simp only [] at h
  split_ifs at h with h1
  split at h
  · simp at h
  · rename_i s hs
    split_ifs at h with h2
    simp only [Option.some.injEq, Prod.mk.injEq] at h
    obtain ⟨hf, hr⟩ := h
    subst hf
    exact ⟨by simp only []; omega, hr.symm⟩

/-- The loop of `import_type` over the field records: it imports `k` records
one after the other, their tags ascend strictly from `last`, and `maxn` grows
by one at every field whose tag is more than one above the tag before. -/
theorem import_fields_spec (type_n : Nat) (p : List Nat) :
    ∀ (k stream : Nat) (last : Int) (maxn : Nat) (fs : List field) (m : Nat),
      import_fields type_n p k stream last maxn = some (fs, m) →
      fs.length = k ∧ import_tags_ok fs last = true ∧ m = import_maxn fs last maxn ∧
      (∀ f ∈ fs, 0 ≤ f.tag) := by
  intro k
  induction k with
  | zero =>
    intro stream last maxn fs m h
    simp only [import_fields, Option.some.injEq, Prod.mk.injEq] at h
    obtain ⟨h1, h2⟩ := h
    subst h1 h2
    exact ⟨rfl, rfl, rfl, fun f hf => absurd hf (List.not_mem_nil _)⟩
  | succ k ih =>
    intro stream last maxn fs m h
    simp only [import_fields] at h
    split at h
    · simp at h
    · rename_i f next hf
      by_cases h1 : f.tag ≤ last
      · rw [if_pos h1] at h; simp at h
      · rw [if_neg h1] at h
        split at h
        · simp at h
        · rename_i fs1 m1 hrec
          simp only [Option.some.injEq, Prod.mk.injEq] at h
          obtain ⟨h2, h3⟩ := h
          subst h2 h3
          obtain ⟨a1, a2, a3, a4⟩ := ih _ _ _ _ _ hrec
          refine ⟨by rw [List.length_cons, a1], ?_, ?_, ?_⟩
          · exact (tags_ok_cons f fs1 last).mpr ⟨by omega, a2⟩
          · rw [a3]; rfl
          · intro g hg
            rcases List.mem_cons.mp hg with hg | hg
            · rw [hg]; exact (import_field_tag type_n p stream f next hf).1
            · exact a4 g hg

/-- What `import_type` builds: ascending tags that are not negative, `maxn` as
the loop counts it, and `base` from the first and the last tag. -/
theorem import_type_spec (junk : Int × Int) (type_n : Nat) (p : List Nat) (stream : Nat)
    (t : sproto_type) (r : Nat) (h : import_type junk type_n p stream = .ret (some (t, r))) :
    import_tags_ok t.f (-1) = true ∧ (∀ f ∈ t.f, 0 ≤ f.tag) ∧
    t.maxn = import_maxn t.f (-1) t.f.length ∧
    (∀ f0 fl, t.f.head? = some f0 → t.f.getLast? = some fl →
      t.base = import_base f0 fl t.f.length) ∧
    r = stream + SIZEOF_LENGTH + todword p stream := by
  unfold import_type at h
  simp only [] at h
  by_cases h1 : struct_field p (stream + SIZEOF_LENGTH) (todword p stream) ≤ 0 ∨
      struct_field p (stream + SIZEOF_LENGTH) (todword p stream) > 2
  · rw [if_pos h1] at h; simp at h
  rw [if_neg h1] at h
  by_cases h2 : type_slots_zero p (stream + SIZEOF_LENGTH)
      (struct_field p (stream + SIZEOF_LENGTH) (todword p stream)).toNat 0 = false
  · rw [if_pos h2] at h; simp at h
  rw [if_neg h2] at h
  by_cases h3 : struct_field p (stream + SIZEOF_LENGTH) (todword p stream) = 1
  · rw [if_pos h3] at h
    simp only [Outcome.ret.injEq, Option.some.injEq, Prod.mk.injEq] at h
    obtain ⟨ht, hr⟩ := h
    subst ht
    exact ⟨rfl, fun f hf => absurd hf (List.not_mem_nil _), rfl,
      fun f0 fl h0 => by simp at h0, hr.symm⟩
  · rw [if_neg h3] at h
    split at h
    · simp at h
    · simp at h
    · simp at h
    · rename_i n hn
      by_cases h4 : n < 0
      · rw [if_pos h4] at h; simp at h
      rw [if_neg h4] at h
      split at h
      · simp at h
      · rename_i fs maxn hfs
        simp only [Outcome.ret.injEq, Option.some.injEq, Prod.mk.injEq] at h
        obtain ⟨ht, hr⟩ := h
        subst ht
        obtain ⟨a1, a2, a3, a4⟩ := import_fields_spec type_n p _ _ _ _ _ _ hfs
        refine ⟨a2, a4, by simp only []; rw [a3, a1], fun f0 fl h0 hl => ?_, hr.symm⟩
        simp only [] at h0 hl ⊢
        rw [h0, hl]
        simp only [import_base]
        have hn2 : ((fs.length : Nat) : Int) = n := by rw [a1]; omega
        rw [hn2]

theorem import_types_spec (junk : Nat → Int × Int) (type_n : Nat) (p : List Nat) :
    ∀ (k i typedata : Nat) (ts : List sproto_type),
      import_types junk type_n p k i typedata = .ret (some ts) →
      ts.length = k ∧
      ∀ t ∈ ts, ∃ (j : Int × Int) (off r : Nat), import_type j type_n p off = .ret (some (t, r)) := by
  intro k
  induction k with
  | zero =>
    intro i typedata ts h
    simp only [import_types, Outcome.ret.injEq, Option.some.injEq] at h
    subst h
    exact ⟨rfl, fun t ht => absurd ht (List.not_mem_nil _)⟩
  | succ k ih =>
    intro i typedata ts h
    simp only [import_types] at h
    split at h
    · simp at h
    · simp at h
    · simp at h
    · simp at h
    · rename_i t next ht
      split at h
      · simp at h
      · simp at h
      · simp at h
      · simp at h
      · rename_i ts1 hrec
        simp only [Outcome.ret.injEq, Option.some.injEq] at h
        subst h
        obtain ⟨a1, a2⟩ := ih _ _ _ hrec
        refine ⟨by rw [List.length_cons, a1], fun u hu => ?_⟩
        rcases List.mem_cons.mp hu with hu | hu
        · rw [hu]; exact ⟨_, _, _, ht⟩
        · exact a2 u hu

/-- Every type of a schema that `sproto_create` returns was built by
`import_type`. -/
theorem sproto_create_types (junk : Nat → Int × Int) (blob : List Nat) (sz : Nat) (s : sproto)
    (h : sproto_create junk blob sz = .ret (some s)) :
    ∀ t ∈ s.type, ∃ (j : Int × Int) (type_n off r : Nat),
      import_type j type_n blob off = .ret (some (t, r)) := by
  unfold sproto_create create_from_bundle at h
  simp only [] at h
  split_ifs at h with h1
  · simp at h
  split at h
  · simp at h
  · simp at h
  · simp at h
  · simp at h
  · rename_i b hb
    split at h
    · simp at h
    · simp at h
    · simp at h
    · simp at h
    · rename_i ts hts
      split at h
      · simp at h
      · rename_i ps hps
        simp only [Outcome.ret.injEq, Option.some.injEq] at h
        subst h
        intro t ht
        obtain ⟨j, off, r, hj⟩ := (import_types_spec junk b.type_n blob _ _ _ _ hts).2 t ht
        exact ⟨j, b.type_n, off, r, hj⟩


/-- C17. For every schema blob that `sproto_create` accepts, in every loaded
type the tags of adjacent fields ascend strictly and every field tag is
non-negative. -/
theorem sproto_create_tags_ascending (junk : Nat → Int × Int) (blob : List Nat) (sz : Nat)
    (s : sproto) (h : sproto_create junk blob sz = .ret (some s)) :
    ∀ t ∈ s.type,
      (∀ (i : Nat) (a b : field), t.f[i]? = some a → t.f[i + 1]? = some b → a.tag < b.tag) ∧
      (∀ f ∈ t.f, 0 ≤ f.tag) := by
  intro t ht
  obtain ⟨j, tn, off, r, hj⟩ := sproto_create_types junk blob sz s h t ht
  obtain ⟨a1, a2, _, _, _⟩ := import_type_spec j tn blob off t r hj
  refine ⟨fun i a b ha hb => ?_, a2⟩
  have := tags_ok_step t.f (-1) a1 i (i + 1) a b (by omega) ha hb
  rw [show i + 1 - i = 1 by omega] at this
  omega

theorem sproto_create_tags_ascending_witness :
    sproto_create junk0 blobFooAC 67
      = .ret (some { type := [fooAC], proto := [] }) ∧
    ∀ t ∈ [fooAC],
      (∀ (i : Nat) (a b : field), t.f[i]? = some a → t.f[i + 1]? = some b → a.tag < b.tag) ∧
      (∀ f ∈ t.f, 0 ≤ f.tag) :=
  ⟨by decide,
    sproto_create_tags_ascending junk0 blobFooAC 67 { type := [fooAC], proto := [] }
      (by decide)⟩

/-- C18. For every type with at least one field loaded by `sproto_create`,
with first field `f0` and last field `fl`: `base >= 0` holds if and only if
`fl.tag - f0.tag + 1` is the number of fields, which holds if and only if the
tags are the consecutive integers from `f0.tag`; in that case `base` is
`f0.tag`, and otherwise `base` is -1. -/
theorem sproto_create_base_dense (junk : Nat → Int × Int) (blob : List Nat) (sz : Nat)
    (s : sproto) (h : sproto_create junk blob sz = .ret (some s)) :
    ∀ t ∈ s.type, ∀ f0 fl, t.f.head? = some f0 → t.f.getLast? = some fl →
      (0 ≤ t.base ↔ fl.tag - f0.tag + 1 = t.f.length) ∧
      (fl.tag - f0.tag + 1 = t.f.length ↔
        ∀ (i : Nat) (a : field), t.f[i]? = some a → a.tag = f0.tag + i) ∧
      (fl.tag - f0.tag + 1 = t.f.length → t.base = f0.tag) ∧
      (fl.tag - f0.tag + 1 ≠ t.f.length → t.base = -1) := by
  intro t ht f0 fl h0 hl
  obtain ⟨j, tn, off, r, hj⟩ := sproto_create_types junk blob sz s h t ht
  obtain ⟨a1, a2, _, a4, _⟩ := import_type_spec j tn blob off t r hj
  have hb := a4 f0 fl h0 hl
  simp only [import_base] at hb
  have h0' : t.f[0]? = some f0 := by rw [← h0]; exact (List.head?_eq_getElem? _).symm
  have hl' : t.f[t.f.length - 1]? = some fl := by
    rw [← hl]; exact (List.getLast?_eq_getElem? _).symm
  have hpos : 0 < t.f.length := by
    by_contra hc
    rw [List.getElem?_eq_none (by omega)] at h0'
    exact Option.noConfusion h0'
  have hf0 : 0 ≤ f0.tag := a2 f0 (List.mem_iff_getElem?.mpr ⟨0, h0'⟩)
  refine ⟨?_, ?_, ?_, ?_⟩
  · by_cases hd : fl.tag - f0.tag + 1 ≠ t.f.length
    · rw [if_pos hd] at hb
      constructor
      · intro hc; omega
      · intro hc; exact absurd hc hd
    · rw [if_neg hd] at hb
      constructor
      · intro _; omega
      · intro _; omega
  · constructor
    · intro hd i a ha
      have hi : i < t.f.length := by
        by_contra hc
        rw [List.getElem?_eq_none (by omega)] at ha
        exact Option.noConfusion ha
      have e1 := tags_ok_step t.f (-1) a1 0 i f0 a (by omega) h0' ha
      have e2 := tags_ok_step t.f (-1) a1 i (t.f.length - 1) a fl (by omega) ha hl'
      have e3 : ((t.f.length - 1 - i : Nat) : Int) = (t.f.length : Int) - 1 - i := by omega
      have e4 : ((i - 0 : Nat) : Int) = i := by simp
      omega
    · intro hall
      have := hall (t.f.length - 1) fl hl'
      have e3 : ((t.f.length - 1 : Nat) : Int) = (t.f.length : Int) - 1 := by omega
      omega
  · intro hd
    rw [if_neg (by omega)] at hb
    exact hb
  · intro hd
    rw [if_pos hd] at hb
    exact hb

theorem sproto_create_base_dense_witness :
    sproto_create junk0 blobFooAC 67 = .ret (some { type := [fooAC], proto := [] }) ∧
    fooAC.f.head? = some (integerField "a" 0) ∧
    fooAC.f.getLast? = some (integerField "c" 3) ∧
    fooAC.base = -1 ∧
    ((0 ≤ fooAC.base ↔ (integerField "c" 3).tag - (integerField "a" 0).tag + 1 = fooAC.f.length) ∧
      ((integerField "c" 3).tag - (integerField "a" 0).tag + 1 = fooAC.f.length ↔
        ∀ (i : Nat) (a : field), fooAC.f[i]? = some a → a.tag = (integerField "a" 0).tag + i) ∧
      ((integerField "c" 3).tag - (integerField "a" 0).tag + 1 = fooAC.f.length →
        fooAC.base = (integerField "a" 0).tag) ∧
      ((integerField "c" 3).tag - (integerField "a" 0).tag + 1 ≠ fooAC.f.length →
        fooAC.base = -1)) :=
  ⟨by decide, rfl, rfl, rfl,
    sproto_create_base_dense junk0 blobFooAC 67 { type := [fooAC], proto := [] } (by decide)
      fooAC (List.mem_singleton.mpr rfl) _ _ rfl rfl⟩

theorem slotsOf_adjacentGaps : ∀ (fs : List field) (f : field),
    slotsOf f.tag fs = fs.length + adjacentGaps (f :: fs) := by
  intro fs
  induction fs with
  | nil => intro f; rfl
  | cons g fs ih =>
    intro f
    simp only [slotsOf, adjacentGaps, List.length_cons]
    rw [ih g]
    split_ifs <;> omega

/-- C19, as stated, fails: the blob of the single type `Foo { b 1 : integer }`
is accepted and the type is loaded with `maxn = 2`, while the number of fields
plus the number of positions `i ≥ 1` with a tag gap is 1. -/
theorem sproto_create_maxn_counts_first_gap :
    sproto_create junk0 blobFooB 48
      = .ret (some { type := [{ name := "Foo", base := 1, maxn := 2,
                                f := [integerField "b" 1] }], proto := [] }) ∧
    [integerField "b" 1].length + adjacentGaps [integerField "b" 1] = 1 := by
  decide

/-- C19, amended: for every type loaded by `sproto_create`, `maxn` equals the
field count `n` plus the number of positions `i ≥ 1` at which the consecutive
field tags differ by more than 1, plus 1 when the tag of the first field is
greater than 0 (the gap before the first field counts too). -/
theorem sproto_create_maxn (junk : Nat → Int × Int) (blob : List Nat) (sz : Nat)
    (s : sproto) (h : sproto_create junk blob sz = .ret (some s)) :
    ∀ t ∈ s.type,
      t.maxn = t.f.length + adjacentGaps t.f
        + (match t.f.head? with
           | some f0 => if f0.tag > 0 then 1 else 0
           | none => 0) := by
  intro t ht
  obtain ⟨j, tn, off, r, hj⟩ := sproto_create_types junk blob sz s h t ht
  obtain ⟨_, _, a3, _, _⟩ := import_type_spec j tn blob off t r hj
  have e := import_maxn_slotsOf t.f (-1) 0
  rw [Nat.zero_add, Nat.zero_add] at e
  rw [a3, e]
  cases hf : t.f with
  | nil => rfl
  | cons f fs =>
    simp only [slotsOf, List.head?_cons, List.length_cons]
    rw [slotsOf_adjacentGaps]
    have e1 : ((-1 : Int) + 1) = 0 := by norm_num
    rw [e1]
    split_ifs <;> omega

theorem sproto_create_maxn_witness :
    sproto_create junk0 blobFooB 48
      = .ret (some { type := [{ name := "Foo", base := 1, maxn := 2,
                                f := [integerField "b" 1] }], proto := [] }) ∧
    ∀ t ∈ [({ name := "Foo", base := 1, maxn := 2, f := [integerField "b" 1] } : sproto_type)],
      t.maxn = t.f.length + adjacentGaps t.f
        + (match t.f.head? with
           | some f0 => if f0.tag > 0 then 1 else 0
           | none => 0) :=
  ⟨by decide,
    sproto_create_maxn junk0 blobFooB 48
      { type := [{ name := "Foo", base := 1, maxn := 2, f := [integerField "b" 1] }],
        proto := [] } (by decide)⟩


theorem rd_beyond (p : List Nat) (i : Nat) (h : p.length ≤ i) : rd p i = 0 := by
  unfold rd
  rw [List.getD_eq_getElem?_getD, List.getElem?_eq_none h]
  rfl

theorem todword_beyond (p : List Nat) (i : Nat) (h : p.length ≤ i) : todword p i = 0 := by
  unfold todword
  rw [rd_beyond p i h, rd_beyond p (i + 1) (by omega), rd_beyond p (i + 2) (by omega),
    rd_beyond p (i + 3) (by omega)]
  rfl

/-- A blob none of whose bytes starts the 32-bit length `0xFFFFFFFC` has no
such length at any offset. -/
theorem nowrap_all (p : List Nat) (h : ∀ off < p.length, todword p off ≠ 0xFFFFFFFC) :
    ∀ off, todword p off ≠ 0xFFFFFFFC := by
  intro off
  by_cases hlt : off < p.length
  · exact h off hlt
  · rw [todword_beyond p off (by omega)]
    norm_num

/-- The loop of `count_array` ends when no item length is `0xFFFFFFFC`: every
iteration takes at least one byte from `length`. -/
theorem count_array_loop_total (p : List Nat) (h : ∀ off, todword p off ≠ 0xFFFFFFFC) :
    ∀ (fuel stream length n : Nat), length < fuel →
      ∃ r, count_array_loop p fuel stream length n = .ret r := by
  intro fuel
  induction fuel with
  | zero => intro stream length n hl; omega
  | succ fuel ih =>
    intro stream length n hl
    unfold count_array_loop
    by_cases h0 : length > 0
    · rw [if_pos h0]
      by_cases h1 : length < SIZEOF_LENGTH
      · rw [if_pos h1]; exact ⟨_, rfl⟩
      · rw [if_neg h1]
        simp only []
        by_cases h2 : (todword p stream + SIZEOF_LENGTH) % 2 ^ 32 > length
        · rw [if_pos h2]; exact ⟨_, rfl⟩
        · rw [if_neg h2]
          apply ih
          have hd := todword_lt p stream
          have hne := h stream
          have hpos : 0 < (todword p stream + SIZEOF_LENGTH) % 2 ^ 32 := by
            simp only [SIZEOF_LENGTH]
            omega
          omega
    · rw [if_neg h0]; exact ⟨_, rfl⟩

theorem count_array_total (p : List Nat) (h : ∀ off, todword p off ≠ 0xFFFFFFFC)
    (stream : Nat) : ∃ r, count_array p stream = .ret r :=
  count_array_loop_total p h _ _ _ _ (Nat.lt_succ_self _)

/-- The loop of `count_array` does not end on an item of length `0xFFFFFFFC`:
it gives no result with any fuel. -/
theorem count_array_loop_stuck (p : List Nat) (stream length : Nat)
    (hl : SIZEOF_LENGTH ≤ length) (hw : todword p stream = 0xFFFFFFFC) :
    ∀ (fuel n : Nat), count_array_loop p fuel stream length n = .outOfFuel := by
  intro fuel
  induction fuel with
  | zero => intro n; rfl
  | succ fuel ih =>
    intro n
    unfold count_array_loop
    have hs : (todword p stream + SIZEOF_LENGTH) % 2 ^ 32 = 0 := by rw [hw]; rfl
    simp only [SIZEOF_LENGTH] at hl
    rw [if_pos (show length > 0 by omega), if_neg (show ¬ length < SIZEOF_LENGTH by
      simp only [SIZEOF_LENGTH]; omega)]
    simp only []
    rw [hs, if_neg (by omega)]
    exact ih _

/-! ### The header slots of a field record -/

theorem slotEntries_gt (p : List Nat) (stream : Nat) :
    ∀ (k i : Nat) (T : Int), ∀ e ∈ slotEntries p stream k i T, T < e.1 := by
  intro k
  induction k with
  | zero => intro i T e he; simp [slotEntries] at he
  | succ k ih =>
    intro i T e he
    unfold slotEntries at he
    simp only [] at he
    by_cases hodd : toword p (stream + SIZEOF_FIELD * i) &&& 1 ≠ 0
    · rw [if_pos hodd] at he
      have := ih _ _ e he
      omega
    · rw [if_neg hodd] at he
      rcases List.mem_cons.mp he with h1 | h1
      · rw [h1]; simp
      · have := ih _ _ e h1
        omega

theorem entryValue_nil (t : Int) : entryValue [] t = none := rfl

theorem entryValue_cons (t0 : Int) (w : Nat) (E : List (Int × Nat)) (t : Int) :
    entryValue ((t0, w) :: E) t
      = if t0 = t then some (((w / 2 : Nat) : Int) - 1) else entryValue E t := by
  unfold entryValue
  rw [List.find?_cons]
  by_cases h : t0 = t
  · simp [h]
  · simp [h]

theorem entryValue_none_of_le (p : List Nat) (stream k i : Nat) (T t : Int) (h : t ≤ T) :
    entryValue (slotEntries p stream k i T) t = none := by
  unfold entryValue
  rw [Option.map_eq_none', List.find?_eq_none]
  intro e he
  have := slotEntries_gt p stream k i T e he
  simp only [decide_eq_true_eq]
  omega


/-- What a header slot with a value does to the state of `import_field` when
the field is not rejected there; `t = s.tag + 1` is the wire tag of the slot. -/
theorem import_field_slot_even (type_n : Nat) (p : List Nat) (nameoff value : Nat)
    (s s1 : FieldImport) (hev : ¬ value &&& 1 ≠ 0)
    (h : import_field_slot type_n p nameoff value s = some s1) :
    s1.tag = s.tag + 1 ∧
    (s.tag + 1 ≠ 0 → s1.name = s.name) ∧
    (s.tag + 1 = 3 → s1.ftag = ((value / 2 : Nat) : Int) - 1) ∧
    (s.tag + 1 ≠ 3 → s1.ftag = s.ftag) ∧
    (s.tag + 1 = 1 → s1.ftype = ((value / 2 : Nat) : Int) - 1) ∧
    (s.tag + 1 ≠ 1 → s.tag + 1 ≠ 2 → s1.ftype = s.ftype) ∧
    (s.tag + 1 = 2 → s.ftype ≠ SPROTO_TBOOLEAN ∧ s.ftype ≠ SPROTO_TDOUBLE ∧
      (s.ftype = -1 → ((value / 2 : Nat) : Int) - 1 < type_n)) := by
  unfold import_field_slot at h
  simp only [] at h
  rw [if_neg hev] at h
  by_cases h0 : s.tag + 1 = 0
  · rw [if_pos h0] at h
    split_ifs at h
    simp only [Option.some.injEq] at h
    subst h
    exact ⟨rfl, fun hc => absurd h0 hc, fun hc => by omega, fun _ => rfl, fun hc => by omega,
      fun _ _ => rfl, fun hc => by omega⟩
  rw [if_neg h0] at h
  by_cases hv : value = 0
  · rw [if_pos hv] at h; exact Option.noConfusion h
  rw [if_neg hv] at h
  by_cases h1 : s.tag + 1 = 1
  · rw [if_pos h1] at h
    split_ifs at h
    simp only [Option.some.injEq] at h
    subst h
    exact ⟨rfl, fun _ => rfl, fun hc => by omega, fun _ => rfl, fun _ => rfl,
      fun hc => absurd h1 hc, fun hc => by omega⟩
  rw [if_neg h1] at h
  by_cases h2 : s.tag + 1 = 2
  · rw [if_pos h2] at h
    simp only [SPROTO_TBOOLEAN, SPROTO_TDOUBLE, SPROTO_TINTEGER, SPROTO_TSTRING] at h ⊢
    by_cases hi : s.ftype = ((0 : Nat) : Int)
    · rw [if_pos hi] at h
      simp only [Option.some.injEq] at h
      subst h
      have hi' : s.ftype = 0 := by simpa using hi
      exact ⟨rfl, fun _ => rfl, fun hc => by omega, fun _ => rfl, fun hc => by omega,
        fun _ hc => absurd h2 hc,
        fun _ => ⟨by push_cast; omega, by push_cast; omega, fun hc => by omega⟩⟩
    rw [if_neg hi] at h
    by_cases hs : s.ftype = ((2 : Nat) : Int)
    · rw [if_pos hs] at h
      simp only [Option.some.injEq] at h
      subst h
      have hs' : s.ftype = 2 := by simpa using hs
      exact ⟨rfl, fun _ => rfl, fun hc => by omega, fun _ => rfl, fun hc => by omega,
        fun _ hc => absurd h2 hc,
        fun _ => ⟨by push_cast; omega, by push_cast; omega, fun hc => by omega⟩⟩
    rw [if_neg hs] at h
    by_cases hr : ((value / 2 : Nat) : Int) - 1 ≥ (type_n : Int)
    · rw [if_pos hr] at h; exact Option.noConfusion h
    rw [if_neg hr] at h
    by_cases hp : s.ftype ≥ 0
    · rw [if_pos hp] at h; exact Option.noConfusion h
    rw [if_neg hp] at h
    simp only [Option.some.injEq] at h
    subst h
    exact ⟨rfl, fun _ => rfl, fun hc => by omega, fun _ => rfl, fun hc => by omega,
      fun _ hc => absurd h2 hc,
      fun _ => ⟨by push_cast; omega, by push_cast; omega, fun _ => by omega⟩⟩
  rw [if_neg h2] at h
  by_cases h3 : s.tag + 1 = 3
  · rw [if_pos h3] at h
    simp only [Option.some.injEq] at h
    subst h
    exact ⟨rfl, fun _ => rfl, fun _ => rfl, fun hc => absurd h3 hc, fun hc => by omega,
      fun _ _ => rfl, fun hc => by omega⟩
  rw [if_neg h3] at h
  split_ifs at h <;>
    (simp only [Option.some.injEq] at h
     subst h
     exact ⟨rfl, fun _ => rfl, fun hc => absurd hc h3, fun _ => rfl, fun hc => absurd hc h1,
       fun _ _ => rfl, fun hc => absurd hc h2⟩)

/-- The state `import_field` reaches over the header slots of a record, in
terms of the value slots of the record. -/
theorem import_field_loop_entries (type_n : Nat) (p : List Nat) (stream fn : Nat) :
    ∀ (k i : Nat) (s s' : FieldImport),
      import_field_loop type_n p stream fn k i s = some s' →
      (entryValue (slotEntries p stream k i s.tag) 0 = none → s'.name = s.name) ∧
      s'.ftag = (entryValue (slotEntries p stream k i s.tag) 3).getD s.ftag ∧
      (entryValue (slotEntries p stream k i s.tag) 1 = none →
        entryValue (slotEntries p stream k i s.tag) 2 = none → s'.ftype = s.ftype) ∧
      (((entryValue (slotEntries p stream k i s.tag) 1).getD s.ftype = SPROTO_TBOOLEAN ∨
        (entryValue (slotEntries p stream k i s.tag) 1).getD s.ftype = SPROTO_TDOUBLE) →
        entryValue (slotEntries p stream k i s.tag) 2 = none) ∧
      ((entryValue (slotEntries p stream k i s.tag) 1).getD s.ftype = -1 →
        ∀ v, entryValue (slotEntries p stream k i s.tag) 2 = some v → v < type_n) := by
  intro k
  induction k with
  | zero =>
    intro i s s' h
    simp only [import_field_loop, Option.some.injEq] at h
    subst h
    exact ⟨fun _ => rfl, rfl, fun _ _ => rfl, fun _ => rfl, fun _ v hv => Option.noConfusion hv⟩
  | succ k ih =>
    intro i s s' h
    unfold import_field_loop at h
    unfold slotEntries
    simp only []
    cases hslot : import_field_slot type_n p (stream + fn * SIZEOF_FIELD)
        (toword p (stream + SIZEOF_FIELD * i)) s with
    | none => rw [hslot] at h; exact Option.noConfusion h
    | some s1 =>
      rw [hslot] at h
      simp only [] at h
      have IH := ih (i + 1) s1 s' h
      by_cases hodd : toword p (stream + SIZEOF_FIELD * i) &&& 1 ≠ 0
      · rw [if_pos hodd]
        unfold import_field_slot at hslot
        simp only [] at hslot
        rw [if_pos hodd] at hslot
        simp only [Option.some.injEq] at hslot
        subst hslot
        exact IH
      · rw [if_neg hodd]
        obtain ⟨e1, e2, e3, e4, e5, e6, e7⟩ :=
          import_field_slot_even type_n p _ _ s s1 hodd hslot
        rw [e1] at IH
        obtain ⟨i0, i3, i12, iD, iR⟩ := IH
        simp only [entryValue_cons]
        have n0 := entryValue_none_of_le p stream k (i + 1) (s.tag + 1)
        refine ⟨?_, ?_, ?_, ?_, ?_⟩
        · intro hc
          by_cases ht : s.tag + 1 = 0
          · rw [if_pos ht] at hc; exact Option.noConfusion hc
          · rw [if_neg ht] at hc
            rw [i0 hc, e2 ht]
        · by_cases ht : s.tag + 1 = 3
          · rw [if_pos ht, i3, n0 3 (by omega), e3 ht]
            rfl
          · rw [if_neg ht, i3, e4 ht]
        · intro hc1 hc2
          by_cases ht1 : s.tag + 1 = 1
          · rw [if_pos ht1] at hc1; exact Option.noConfusion hc1
          by_cases ht2 : s.tag + 1 = 2
          · rw [if_pos ht2] at hc2; exact Option.noConfusion hc2
          rw [if_neg ht1] at hc1
          rw [if_neg ht2] at hc2
          rw [i12 hc1 hc2, e6 ht1 ht2]
        · intro hc
          by_cases ht1 : s.tag + 1 = 1
          · rw [if_pos ht1] at hc
            rw [if_neg (by omega)]
            apply iD
            rw [n0 1 (by omega), e5 ht1]
            exact hc
          rw [if_neg ht1] at hc
          by_cases ht2 : s.tag + 1 = 2
          · exfalso
            rw [n0 1 (by omega)] at hc
            have := e7 ht2
            rcases hc with hc | hc
            · exact this.1 hc
            · exact this.2.1 hc
          rw [if_neg ht2]
          apply iD
          rw [e6 ht1 ht2]
          exact hc
        · intro hc v hv
          by_cases ht1 : s.tag + 1 = 1
          · rw [if_pos ht1] at hc
            rw [if_neg (by omega)] at hv
            apply iR _ v hv
            rw [n0 1 (by omega), e5 ht1]
            exact hc
          rw [if_neg ht1] at hc
          by_cases ht2 : s.tag + 1 = 2
          · rw [n0 1 (by omega)] at hc
            rw [if_pos ht2] at hv
            have := (e7 ht2).2.2 hc
            simp only [Option.some.injEq] at hv
            rw [← hv]
            exact this
          rw [if_neg ht2] at hv
          apply iR _ v hv
          rw [e6 ht1 ht2]
          exact hc


theorem struct_field_eq (p : List Nat) (stream sz : Nat) (h : 0 ≤ struct_field p stream sz) :
    struct_field p stream sz = (toword p stream : Int) := by
  unfold struct_field at h ⊢
  simp only [] at h ⊢
  split_ifs at h ⊢ <;> first | rfl | omega

/-- A field record that `import_field` accepts is none of the records of the
cases (a), (b), (c), and the tag of the field is the tag the record carries. -/
theorem import_field_entries (type_n : Nat) (p : List Nat) (off : Nat) (f : field) (r : Nat)
    (h : import_field type_n p off = some (f, r)) :
    ¬ fieldDupType (recordEntries p off) ∧ ¬ fieldTypeRange type_n (recordEntries p off) ∧
    ¬ fieldIncomplete (recordEntries p off) ∧
    entryValue (recordEntries p off) 3 = some f.tag := by
  unfold import_field at h
  simp only [] at h
  by_cases hfn : struct_field p (off + SIZEOF_LENGTH) (todword p off) < 0
  · rw [if_pos hfn] at h; exact Option.noConfusion h
  rw [if_neg hfn] at h
  have hfe := struct_field_eq p _ _ (not_lt.mp hfn)
  rw [hfe] at h
  simp only [Int.toNat_ofNat] at h
  split at h
  · exact Option.noConfusion h
  · rename_i s hs
    by_cases hbad : s.ftag < 0 ∨ s.ftype < 0 ∨ s.name = none
    · rw [if_pos hbad] at h; exact Option.noConfusion h
    rw [if_neg hbad] at h
    simp only [Option.some.injEq, Prod.mk.injEq] at h
    obtain ⟨hf, _⟩ := h
    have L := import_field_loop_entries type_n p _ _ _ _ _ _ hs
    simp only [] at L
    change (entryValue (recordEntries p off) 0 = none → s.name = none) ∧
      s.ftag = (entryValue (recordEntries p off) 3).getD (-1) ∧
      (entryValue (recordEntries p off) 1 = none →
        entryValue (recordEntries p off) 2 = none → s.ftype = -1) ∧
      (((entryValue (recordEntries p off) 1).getD (-1) = SPROTO_TBOOLEAN ∨
        (entryValue (recordEntries p off) 1).getD (-1) = SPROTO_TDOUBLE) →
        entryValue (recordEntries p off) 2 = none) ∧
      ((entryValue (recordEntries p off) 1).getD (-1) = -1 →
        ∀ v, entryValue (recordEntries p off) 2 = some v → v < type_n) at L
    obtain ⟨l0, l3, l12, lD, lR⟩ := L
    push_neg at hbad
    obtain ⟨b1, b2, b3⟩ := hbad
    refine ⟨?_, ?_, ?_, ?_⟩
    · rintro ⟨hc, hc2⟩
      apply hc2
      apply lD
      rcases hc with hc | hc
      · left; rw [hc]; rfl
      · right; rw [hc]; rfl
    · rintro ⟨hc, v, hv, hge⟩
      have := lR (by rw [hc]; rfl) v hv
      omega
    · rintro (hc | hc | ⟨hc1, hc2⟩)
      · exact b3 (l0 hc)
      · rw [hc] at l3
        have : s.ftag = -1 := l3
        omega
      · have := l12 hc1 hc2
        omega
    · rw [← hf]
      show entryValue (recordEntries p off) 3 = some s.ftag
      cases he : entryValue (recordEntries p off) 3 with
      | none =>
        rw [he] at l3
        have : s.ftag = -1 := l3
        omega
      | some v =>
        rw [he] at l3
        rw [show s.ftag = v from l3]

/-- The records that `import_fields` has read when it accepts `k` fields. -/
theorem import_fields_records (type_n : Nat) (p : List Nat) :
    ∀ (k stream : Nat) (last : Int) (maxn : Nat) (fs : List field) (m : Nat),
      import_fields type_n p k stream last maxn = some (fs, m) →
      ∀ j < k, ∃ f r, import_field type_n p (recordOff p stream j) = some (f, r) ∧
        fs[j]? = some f := by
  intro k
  induction k with
  | zero => intro stream last maxn fs m _ j hj; omega
  | succ k ih =>
    intro stream last maxn fs m h j hj
    unfold import_fields at h
    cases hf : import_field type_n p stream with
    | none => rw [hf] at h; exact Option.noConfusion h
    | some fr =>
      obtain ⟨f, next⟩ := fr
      rw [hf] at h
      simp only [] at h
      by_cases hle : f.tag ≤ last
      · rw [if_pos hle] at h; exact Option.noConfusion h
      rw [if_neg hle] at h
      cases hrest : import_fields type_n p k next f.tag
          (if f.tag > last + 1 then maxn + 1 else maxn) with
      | none => rw [hrest] at h; exact Option.noConfusion h
      | some fm =>
        obtain ⟨fs1, m1⟩ := fm
        rw [hrest] at h
        simp only [Option.some.injEq, Prod.mk.injEq] at h
        obtain ⟨hfs, _⟩ := h
        have hnext := (import_field_tag type_n p stream f next hf).2
        cases j with
        | zero => exact ⟨f, next, hf, by rw [← hfs]; simp⟩
        | succ j =>
          obtain ⟨g, r, hg, hgj⟩ := ih next f.tag _ fs1 m1 hrest j (by omega)
          refine ⟨g, r, ?_, ?_⟩
          · show import_field type_n p (recordOff p (stream + SIZEOF_LENGTH + todword p stream) j)
              = some (g, r)
            rw [← hnext]; exact hg
          · rw [← hfs, List.getElem?_cons_succ]; exact hgj


/-- The loop of `import_type` over the field records rejects an array that
has one of the records of the cases (a) to (d). -/
theorem import_fields_bad (type_n : Nat) (p : List Nat) (k a : Nat) (maxn : Nat) (j : Nat)
    (hj : j < k)
    (hbad : fieldDupType (recordEntries p (recordOff p a j)) ∨
      fieldTypeRange type_n (recordEntries p (recordOff p a j)) ∨
      fieldIncomplete (recordEntries p (recordOff p a j)) ∨
      (0 < j ∧ fieldNotAscending (recordEntries p (recordOff p a (j - 1)))
        (recordEntries p (recordOff p a j)))) :
    import_fields type_n p k a (-1) maxn = none := by
  cases h : import_fields type_n p k a (-1) maxn with
  | none => rfl
  | some fm =>
    exfalso
    obtain ⟨fs, m⟩ := fm
    obtain ⟨f, r, hf, hfj⟩ := import_fields_records type_n p k a (-1) maxn fs m h j hj
    obtain ⟨na, nb, nc, ht⟩ := import_field_entries type_n p _ f r hf
    rcases hbad with hb | hb | hb | ⟨hpos, a0, b0, ha0, hb0, hle⟩
    · exact na hb
    · exact nb hb
    · exact nc hb
    · obtain ⟨g, r2, hg, hgj⟩ :=
        import_fields_records type_n p k a (-1) maxn fs m h (j - 1) (by omega)
      obtain ⟨_, _, _, htg⟩ := import_field_entries type_n p _ g r2 hg
      rw [htg] at ha0
      rw [ht] at hb0
      simp only [Option.some.injEq] at ha0 hb0
      obtain ⟨_, hok, _, _⟩ := import_fields_spec type_n p k a (-1) maxn fs m h
      have := tags_ok_step fs (-1) hok (j - 1) j g f (by omega) hgj hfj
      have e : ((j - (j - 1) : Nat) : Int) = 1 := by
        rw [show j - (j - 1) = 1 by omega]; rfl
      omega

/-- The function `import_type` returns when the loops of `count_array` end. -/
theorem import_type_total (junk : Int × Int) (type_n : Nat) (p : List Nat)
    (hnw : ∀ off, todword p off ≠ 0xFFFFFFFC) (stream : Nat) :
    ∃ r, import_type junk type_n p stream = .ret r := by
  unfold import_type
  simp only []
  split_ifs
  · exact ⟨_, rfl⟩
  · exact ⟨_, rfl⟩
  · exact ⟨_, rfl⟩
  · obtain ⟨n, hn⟩ := count_array_total p hnw
      (stream + SIZEOF_LENGTH + SIZEOF_HEADER +
          (struct_field p (stream + SIZEOF_LENGTH) (todword p stream)).toNat * SIZEOF_FIELD +
        (todword p (stream + SIZEOF_LENGTH + SIZEOF_HEADER +
          (struct_field p (stream + SIZEOF_LENGTH) (todword p stream)).toNat * SIZEOF_FIELD)
          + SIZEOF_LENGTH) % 2 ^ 32)
    rw [hn]
    simp only []
    split_ifs
    · exact ⟨_, rfl⟩
    · split
      · exact ⟨_, rfl⟩
      · exact ⟨_, rfl⟩

/-- The function `import_type` rejects the record of a type whose array of
fields has one of the records of the cases (a) to (d). -/
theorem import_type_bad (junk : Int × Int) (type_n : Nat) (p : List Nat) (toff : Nat)
    (nF j : Nat) (h2 : toword p (toff + SIZEOF_LENGTH) = 2)
    (hcount : count_array p (fieldsArr p toff) = .ret (nF : Int)) (hj : j < nF)
    (hbad : badFieldRecord type_n p toff j) :
    import_type junk type_n p toff = .ret none := by
  unfold import_type
  simp only []
  by_cases hfn : struct_field p (toff + SIZEOF_LENGTH) (todword p toff) ≤ 0 ∨
      struct_field p (toff + SIZEOF_LENGTH) (todword p toff) > 2
  · rw [if_pos hfn]
  rw [if_neg hfn]
  push_neg at hfn
  have hfe := struct_field_eq p _ _ (by omega : 0 ≤ struct_field p (toff + SIZEOF_LENGTH)
    (todword p toff))
  rw [h2] at hfe
  rw [hfe]
  split_ifs with hz h1
  · rfl
  · exact absurd h1 (by norm_num)
  · have hc : count_array p (toff + SIZEOF_LENGTH + SIZEOF_HEADER + ((2 : Nat) : Int).toNat
          * SIZEOF_FIELD + (todword p (toff + SIZEOF_LENGTH + SIZEOF_HEADER
            + ((2 : Nat) : Int).toNat * SIZEOF_FIELD) + SIZEOF_LENGTH) % 2 ^ 32)
        = .ret (nF : Int) := by
      rw [← hcount]
      unfold fieldsArr
      simp only [h2]
      rfl
    rw [hc]
    simp only []
    rw [if_neg (by omega)]
    have hb := import_fields_bad type_n p nF (fieldsArr p toff + SIZEOF_LENGTH) nF j hj hbad
    have e : (toff + SIZEOF_LENGTH + SIZEOF_HEADER + ((2 : Nat) : Int).toNat
          * SIZEOF_FIELD + (todword p (toff + SIZEOF_LENGTH + SIZEOF_HEADER
            + ((2 : Nat) : Int).toNat * SIZEOF_FIELD) + SIZEOF_LENGTH) % 2 ^ 32)
        = fieldsArr p toff := by
      unfold fieldsArr
      simp only [h2]
      rfl
    rw [e, Int.toNat_ofNat, hb]

/-- The loop of `create_from_bundle` over the types rejects the bundle when
`import_type` rejects the record of type `i`. -/
theorem import_types_bad (junk : Nat → Int × Int) (type_n : Nat) (p : List Nat)
    (hnw : ∀ off, todword p off ≠ 0xFFFFFFFC) :
    ∀ (k i0 td i : Nat), i < k →
      (∀ jk, import_type jk type_n p (recordOff p td i) = .ret none) →
      import_types junk type_n p k i0 td = .ret none := by
  intro k
  induction k with
  | zero => intro i0 td i hi; omega
  | succ k ih =>
    intro i0 td i hi hbad
    unfold import_types
    obtain ⟨r, hr⟩ := import_type_total (junk i0) type_n p hnw td
    rw [hr]
    cases r with
    | none => rfl
    | some tr =>
      obtain ⟨t, next⟩ := tr
      simp only []
      cases i with
      | zero =>
        have := hbad (junk i0)
        change import_type (junk i0) type_n p td = .ret none at this
        rw [hr] at this
        cases this
      | succ i =>
        have hnext := (import_type_spec (junk i0) type_n p td t next hr).2.2.2.2
        have := ih (i0 + 1) next i (by omega) (by
          intro jk
          have := hbad jk
          change import_type jk type_n p
            (recordOff p (td + SIZEOF_LENGTH + todword p td) i) = .ret none at this
          rw [hnext]; exact this)
        rw [this]

theorem bundle_loop_total (p : List Nat) (hnw : ∀ off, todword p off ≠ 0xFFFFFFFC)
    (stream : Nat) :
    ∀ (k i : Nat) (s : BundleState), 0 < i →
      bundle_loop p stream k i s = .ret none ∨
      ∃ b, bundle_loop p stream k i s = .ret (some b) ∧ b.type_n = s.type_n ∧
        b.typedata = s.typedata := by
  intro k
  induction k with
  | zero => intro i s _; exact Or.inr ⟨s, rfl, rfl, rfl⟩
  | succ k ih =>
    intro i s hi
    unfold bundle_loop
    by_cases hs : toword p (stream + i * SIZEOF_FIELD) ≠ 0
    · rw [if_pos hs]; exact Or.inl rfl
    rw [if_neg hs]
    obtain ⟨n, hn⟩ := count_array_total p hnw s.content
    rw [hn]
    simp only []
    by_cases hneg : n < 0
    · rw [if_pos hneg]; exact Or.inl rfl
    rw [if_neg hneg, if_neg (show ¬ i = 0 by omega)]
    exact ih (i + 1) _ (by omega)


/-- In a blob none of whose offsets holds the 32-bit length `0xFFFFFFFC`,
`sproto_create` returns `NULL` when field record `j` of type `i` is one of the
records of the cases (a) to (d): the bundle has an array of `nT` types, type
`i` has an array of `nF` field records, and `j < nF`. -/
theorem sproto_create_rejects_field (junk : Nat → Int × Int) (blob : List Nat) (sz : Nat)
    (nT i nF j : Nat)
    (hnowrap : ∀ off < blob.length, todword blob off ≠ 0xFFFFFFFC)
    (htypes : toword blob 0 ≠ 0)
    (hnT : count_array blob (typesArr blob) = .ret (nT : Int)) (hi : i < nT)
    (hfields : toword blob (typeOff blob i + SIZEOF_LENGTH) = 2)
    (hnF : count_array blob (fieldsArr blob (typeOff blob i)) = .ret (nF : Int)) (hj : j < nF)
    (hbad : badFieldRecord nT blob (typeOff blob i) j) :
    sproto_create junk blob sz = .ret none := by
  have hnw := nowrap_all blob hnowrap
  unfold sproto_create create_from_bundle
  simp only []
  by_cases hfn : struct_field blob 0 sz < 0 ∨ struct_field blob 0 sz > 2
  · rw [if_pos hfn]
  rw [if_neg hfn]
  push_neg at hfn
  have hfe := struct_field_eq blob 0 sz hfn.1
  rw [hfe, Int.toNat_ofNat]
  obtain ⟨k, hk⟩ : ∃ k, toword blob 0 = k + 1 := ⟨toword blob 0 - 1, by omega⟩
  have hloop : bundle_loop blob SIZEOF_HEADER (toword blob 0) 0
        { content := SIZEOF_HEADER + toword blob 0 * SIZEOF_FIELD, typedata := 0, type_n := 0,
          protocoldata := 0, protocol_n := 0 } = .ret none ∨
      ∃ b, bundle_loop blob SIZEOF_HEADER (toword blob 0) 0
        { content := SIZEOF_HEADER + toword blob 0 * SIZEOF_FIELD, typedata := 0, type_n := 0,
          protocoldata := 0, protocol_n := 0 } = .ret (some b) ∧ b.type_n = nT ∧
        b.typedata = typesArr blob + SIZEOF_LENGTH := by
    have hc : count_array blob (SIZEOF_HEADER + toword blob 0 * SIZEOF_FIELD)
        = .ret (nT : Int) := hnT
    rw [hk] at hc ⊢
    unfold bundle_loop
    by_cases hs : toword blob (SIZEOF_HEADER + 0 * SIZEOF_FIELD) ≠ 0
    · rw [if_pos hs]; exact Or.inl rfl
    rw [if_neg hs]
    simp only []
    rw [hc]
    simp only []
    rw [if_neg (by omega)]
    simp only [if_true]
    rcases bundle_loop_total blob hnw SIZEOF_HEADER k 1 _ (by omega) with h | ⟨b, hb, h1, h2⟩
    · exact Or.inl h
    · refine Or.inr ⟨b, hb, ?_, ?_⟩
      · rw [h1]; exact Int.toNat_ofNat nT
      · rw [h2]
        show SIZEOF_HEADER + (k + 1) * SIZEOF_FIELD + SIZEOF_LENGTH
          = typesArr blob + SIZEOF_LENGTH
        unfold typesArr
        rw [hk]
  rcases hloop with h | ⟨b, hb, h1, h2⟩
  · rw [h]
  · rw [hb]
    simp only []
    rw [h1, h2, import_types_bad junk nT blob hnw nT 0 _ i hi (fun jk =>
      import_type_bad jk nT blob (typeOff blob i) nF j hfields hnF hj hbad)]

theorem sproto_create_rejects_field_examples :
    sproto_create junk0 blobNoTag 44 = .ret none ∧
    sproto_create junk0 blobNoType 46 = .ret none ∧
    sproto_create junk0 blobBoolType 48 = .ret none ∧
    sproto_create junk0 blobDoubleType 48 = .ret none ∧
    sproto_create junk0 blobTypeRange 48 = .ret none ∧
    sproto_create junk0 blobNotAscending 67 = .ret none :=
  ⟨sproto_create_rejects_field junk0 blobNoTag 44 1 0 1 0 (by decide) (by decide) (by decide)
      (by decide) (by decide) (by decide) (by decide)
      (Or.inr (Or.inr (Or.inl (Or.inr (Or.inl (by decide)))))),
    sproto_create_rejects_field junk0 blobNoType 46 1 0 1 0 (by decide) (by decide) (by decide)
      (by decide) (by decide) (by decide) (by decide)
      (Or.inr (Or.inr (Or.inl (Or.inr (Or.inr ⟨by decide, by decide⟩))))),
    sproto_create_rejects_field junk0 blobBoolType 48 1 0 1 0 (by decide) (by decide) (by decide)
      (by decide) (by decide) (by decide) (by decide)
      (Or.inl ⟨Or.inl (by decide), by decide⟩),
    sproto_create_rejects_field junk0 blobDoubleType 48 1 0 1 0 (by decide) (by decide)
      (by decide) (by decide) (by decide) (by decide) (by decide)
      (Or.inl ⟨Or.inr (by decide), by decide⟩),
    sproto_create_rejects_field junk0 blobTypeRange 48 1 0 1 0 (by decide) (by decide)
      (by decide) (by decide) (by decide) (by decide) (by decide)
      (Or.inr (Or.inl ⟨by decide, 1, by decide, by decide⟩)),
    sproto_create_rejects_field junk0 blobNotAscending 67 1 0 2 1 (by decide) (by decide)
      (by decide) (by decide) (by decide) (by decide) (by decide)
      (Or.inr (Or.inr (Or.inr ⟨by decide, 2, 2, by decide, by decide, by decide⟩)))⟩

/-- C20. The bundle `blobNoTagLongItem` has one type, whose only field record
has no tag (case (c)), and `sproto_create` does not return `NULL` on it: the
bundle also has an array of protocols whose item declares the length
`0xFFFFFFFC`, on which the loop of `count_array` gives no result with any
fuel, before the loader reads any field record. Without that array the blob
is `blobNoTag`, which `sproto_create` rejects. -/
theorem sproto_create_field_check_not_reached :
    count_array blobNoTagLongItem (typesArr blobNoTagLongItem) = .ret 1 ∧
    toword blobNoTagLongItem (typeOff blobNoTagLongItem 0 + SIZEOF_LENGTH) = 2 ∧
    count_array blobNoTagLongItem (fieldsArr blobNoTagLongItem (typeOff blobNoTagLongItem 0))
      = .ret 1 ∧
    fieldIncomplete
      (recordEntries blobNoTagLongItem (fieldOff blobNoTagLongItem (typeOff blobNoTagLongItem 0) 0)) ∧
    sproto_create junk0 blobNoTagLongItem 54 = .outOfFuel ∧
    (∀ fuel n : Nat, count_array_loop blobNoTagLongItem fuel 50 4 n = .outOfFuel) ∧
    sproto_create junk0 blobNoTag 44 = .ret none :=
  ⟨by decide, by decide, by decide, Or.inr (Or.inl (by decide)), by decide,
    count_array_loop_stuck blobNoTagLongItem 50 4 (by decide) (by decide), by decide⟩


theorem withinFrame_refl (lim : Nat) (m : Mem) : withinFrame lim m m := fun _ _ => rfl

theorem withinFrame_trans (lim : Nat) (m0 m1 m2 : Mem) (h1 : withinFrame lim m0 m1)
    (h2 : withinFrame lim m1 m2) : withinFrame lim m0 m2 :=
  fun q hq => (h2 q hq).trans (h1 q hq)

theorem withinFrame_memcpy (lim : Nat) (m : Mem) (dst : Nat) (bs : List Nat)
    (h : dst + bs.length ≤ lim) : withinFrame lim m (memcpy m dst bs) :=
  fun q hq => memcpy_ge bs m dst q (by omega)

theorem withinFrame_wr (lim : Nat) (m : Mem) (p v : Nat) (h : p < lim) :
    withinFrame lim m (wr m p v) :=
  fun q hq => wr_other m p v q (by omega)

theorem withinFrame_fill_size (lim : Nat) (m : Mem) (data : Nat) (sz : Int)
    (h : data + 4 ≤ lim) : withinFrame lim m (fill_size m data sz).1 := by
  unfold fill_size
  exact withinFrame_memcpy lim m data _ (by rw [le32_length]; omega)

theorem fill_size_snd (m : Mem) (data : Nat) (sz : Int) :
    (fill_size m data sz).2 = sz + 4 := rfl

/-- The function `encode_integer` returns -1 or 8, and stores within `size`. -/
theorem encode_integer_safe (v : Nat) (m : Mem) (data : Nat) (size : Int) (lim : Nat)
    (h0 : 0 ≤ size) (h31 : size < 2 ^ 31) (hlim : (data : Int) + size ≤ lim) :
    ((encode_integer v m data size).2 = -1 ∨
      (0 < (encode_integer v m data size).2 ∧ (encode_integer v m data size).2 ≤ size)) ∧
    withinFrame lim m (encode_integer v m data size).1 := by
  unfold encode_integer
  rw [toSizeT_of_nonneg _ h0 h31]
  by_cases h : size < (SIZEOF_LENGTH : Int) + 4
  · rw [if_pos h]
    exact ⟨Or.inl rfl, withinFrame_refl _ _⟩
  · rw [if_neg h]
    simp only [SIZEOF_LENGTH] at h
    push_cast at h
    refine ⟨Or.inr ⟨by rw [fill_size_snd]; norm_num, by rw [fill_size_snd]; omega⟩, ?_⟩
    exact withinFrame_trans lim _ _ _
      (withinFrame_memcpy lim m (data + 4) _ (by rw [le32_length]; omega))
      (withinFrame_fill_size lim _ data 4 (by omega))

/-- The function `encode_uint64` returns -1 or 12, and stores within `size`. -/
theorem encode_uint64_safe (v : Nat) (m : Mem) (data : Nat) (size : Int) (lim : Nat)
    (h0 : 0 ≤ size) (h31 : size < 2 ^ 31) (hlim : (data : Int) + size ≤ lim) :
    ((encode_uint64 v m data size).2 = -1 ∨
      (0 < (encode_uint64 v m data size).2 ∧ (encode_uint64 v m data size).2 ≤ size)) ∧
    withinFrame lim m (encode_uint64 v m data size).1 := by
  unfold encode_uint64
  rw [toSizeT_of_nonneg _ h0 h31]
  by_cases h : size < (SIZEOF_LENGTH : Int) + 8
  · rw [if_pos h]
    exact ⟨Or.inl rfl, withinFrame_refl _ _⟩
  · rw [if_neg h]
    simp only [SIZEOF_LENGTH] at h
    push_cast at h
    refine ⟨Or.inr ⟨by rw [fill_size_snd]; norm_num, by rw [fill_size_snd]; omega⟩, ?_⟩
    exact withinFrame_trans lim _ _ _
      (withinFrame_memcpy lim m (data + 4) _ (by rw [le64_length]; omega))
      (withinFrame_fill_size lim _ data 8 (by omega))

/-- The function `encode_object` with a callback that keeps to the length it
is offered: it returns -1 or a size within `size`, and stores within `size`. -/
theorem encode_object_safe {σ : Type} (cb : sproto_callback σ) (hcb : cbWithinLength cb)
    (ud : σ) (args : sproto_arg) (ht : storesBytes args) (m : Mem) (data : Nat) (size : Int)
    (lim : Nat) (hlim : (data : Int) + size ≤ lim) :
    ∃ r m' ud', encode_object cb ud args m data size = .ret (r, m', ud') ∧
      (r = -1 ∨ (0 ≤ r ∧ r ≤ size)) ∧ withinFrame lim m m' := by
  unfold encode_object
  by_cases h : size < (SIZEOF_LENGTH : Int)
  · rw [if_pos h]
    exact ⟨_, _, _, rfl, Or.inl rfl, withinFrame_refl _ _⟩
  · rw [if_neg h]
    simp only [SIZEOF_LENGTH] at h ⊢
    push_cast at h ⊢
    obtain ⟨hb, hs⟩ := hcb ud { args with value := .null, length := size - 4 }
      (show (0 : Int) ≤ size - 4 by omega) ht
    have hb' : ((cb ud { args with value := .null, length := size - 4 }).1.bytes.length : Int)
        ≤ size - 4 := hb
    have hs' : (cb ud { args with value := .null, length := size - 4 }).1.sz ≤ size - 4 := hs
    have hf1 : withinFrame lim m
        (memcpy m (data + 4) (cb ud { args with value := .null, length := size - 4 }).1.bytes) :=
      withinFrame_memcpy lim m _ _ (by omega)
    by_cases hneg : (cb ud { args with value := .null, length := size - 4 }).1.sz < 0
    · rw [if_pos hneg]
      by_cases hnil : (cb ud { args with value := .null, length := size - 4 }).1.sz
          = SPROTO_CB_NIL
      · rw [if_pos hnil]
        exact ⟨_, _, _, rfl, Or.inr ⟨le_refl _, by omega⟩, hf1⟩
      · rw [if_neg hnil]
        exact ⟨_, _, _, rfl, Or.inl rfl, hf1⟩
    · rw [if_neg hneg, if_neg (not_not.mpr hs')]
      refine ⟨_, _, _, rfl, Or.inr ⟨?_, ?_⟩, ?_⟩
      · rw [fill_size_snd]; omega
      · rw [fill_size_snd]; omega
      · exact withinFrame_trans lim _ _ _ hf1 (withinFrame_fill_size lim _ data _ (by omega))

theorem uint32_to_uint64_frame (lim : Nat) (negative : Nat) (m : Mem) (buffer : Nat)
    (h : buffer + 8 ≤ lim) : withinFrame lim m (uint32_to_uint64 negative m buffer) := by
  unfold uint32_to_uint64
  split_ifs
  · exact withinFrame_memcpy lim m _ _ (by simp only [List.length]; omega)
  · exact withinFrame_memcpy lim m _ _ (by simp only [List.length]; omega)

/-- The loop that widens the elements of an integer array stores below the
end of the `k` widened elements. -/
theorem rearrange_frame (header : Nat) :
    ∀ (k : Nat) (m : Mem) (lim : Nat), header + 1 + k * 8 ≤ lim →
      withinFrame lim m (rearrange header k m) := by
  intro k
  induction k with
  | zero => intro m lim _; exact withinFrame_refl _ _
  | succ k ih =>
    intro m lim h
    unfold rearrange
    simp only [SIZEOF_INT64, SIZEOF_INT32]
    refine withinFrame_trans lim _ _ _ ?_ (ih _ lim (by omega))
    refine withinFrame_trans lim _ _ _ ?_ (uint32_to_uint64_frame lim _ _ _ (by omega))
    exact withinFrame_memcpy lim m _ _ (by rw [readN_length]; omega)


theorem withinFrame_mono (E lim : Nat) (m m' : Mem) (h : E ≤ lim) (hf : withinFrame E m m') :
    withinFrame lim m m' := fun q hq => hf q (by omega)

/-- The loop of `encode_integer_array` ends, stores below the end `E` of the
space it was given, and leaves `buffer` there or before; the widening of the
elements written so far stays below `E` too. -/
theorem encode_integer_array_loop_safe {σ : Type} (cb : sproto_callback σ) (args : sproto_arg)
    (header : Nat) (E : Nat) :
    ∀ (fuel : Nat) (s : IntArrayState σ), 0 ≤ s.size → (s.buffer : Int) + s.size = E →
      s.size < fuel → 1 ≤ s.index → (s.intlen = 4 ∨ s.intlen = 8) →
      (s.intlen = 4 → s.buffer = header + 1 + (s.index - 1) * 4) →
      ∃ ex s', encode_integer_array_loop cb args header fuel s = .ret (ex, s') ∧
        withinFrame E s.mem s'.mem ∧ s.buffer ≤ s'.buffer ∧ s'.buffer ≤ E ∧
        (s'.intlen = 4 ∨ s'.intlen = 8) := by
  intro fuel
  induction fuel with
  | zero => intro s h0 _ hf; omega
  | succ fuel ih =>
    intro s h0 hE hf hidx hlen hbuf
    have hbE : s.buffer ≤ E := by omega
    unfold encode_integer_array_loop
    simp only []
    by_cases c1 : (cb s.ud { args with value := .null, length := 8, index := s.index }).1.sz ≤ 0
    · rw [if_pos c1]
      split_ifs
      · exact ⟨_, _, rfl, withinFrame_refl _ _, le_refl _, hbE, hlen⟩
      · exact ⟨_, _, rfl, withinFrame_refl _ _, le_refl _, hbE, hlen⟩
      · exact ⟨_, _, rfl, withinFrame_refl _ _, le_refl _, hbE, hlen⟩
    rw [if_neg c1]
    by_cases c2 : s.size < (SIZEOF_INT64 : Int)
    · rw [if_pos c2]
      exact ⟨_, _, rfl, withinFrame_refl _ _, le_refl _, hbE, hlen⟩
    rw [if_neg c2]
    simp only [SIZEOF_INT64, SIZEOF_INT32] at c2 ⊢
    push_cast at c2
    by_cases c3 : (cb s.ud { args with value := .null, length := 8, index := s.index }).1.sz
        = ((4 : Nat) : Int)
    · rw [if_pos c3]
      have hm : withinFrame E s.mem
          (if s.intlen = 8 then
            uint32_to_uint64
              ((cb s.ud { args with value := .null, length := 8, index := s.index }).1.u % 2 ^ 32
                &&& 0x80000000)
              (memcpy s.mem s.buffer (le32
                ((cb s.ud { args with value := .null, length := 8, index := s.index }).1.u
                  % 2 ^ 32))) s.buffer
          else memcpy s.mem s.buffer (le32
            ((cb s.ud { args with value := .null, length := 8, index := s.index }).1.u
              % 2 ^ 32))) := by
        have h1 : withinFrame E s.mem (memcpy s.mem s.buffer (le32
            ((cb s.ud { args with value := .null, length := 8, index := s.index }).1.u
              % 2 ^ 32))) :=
          withinFrame_memcpy E _ _ _ (by rw [le32_length]; omega)
        split_ifs
        · exact withinFrame_trans E _ _ _ h1 (uint32_to_uint64_frame E _ _ _ (by omega))
        · exact h1
      obtain ⟨ex, s', hr, hfr, hb1, hb2, hl2⟩ := ih
        { s with ud := (cb s.ud { args with value := .null, length := 8, index := s.index }).2,
                 mem := (if s.intlen = 8 then
                    uint32_to_uint64
                      ((cb s.ud { args with value := .null, length := 8, index := s.index }).1.u
                        % 2 ^ 32 &&& 0x80000000)
                      (memcpy s.mem s.buffer (le32
                        ((cb s.ud { args with value := .null, length := 8,
                                              index := s.index }).1.u % 2 ^ 32))) s.buffer
                  else memcpy s.mem s.buffer (le32
                    ((cb s.ud { args with value := .null, length := 8, index := s.index }).1.u
                      % 2 ^ 32))),
                 size := s.size - s.intlen, buffer := s.buffer + s.intlen,
                 index := s.index + 1 }
        (by show 0 ≤ s.size - (s.intlen : Int); rcases hlen with h | h <;> rw [h] <;> omega)
        (by show ((s.buffer + s.intlen : Nat) : Int) + (s.size - (s.intlen : Int)) = E
            push_cast; omega)
        (by show s.size - (s.intlen : Int) < fuel; rcases hlen with h | h <;> rw [h] <;> omega)
        (by show 1 ≤ s.index + 1; omega) hlen
        (by intro h4
            show s.buffer + s.intlen = header + 1 + (s.index + 1 - 1) * 4
            have h4' : s.intlen = 4 := h4
            have := hbuf h4'
            rw [h4']; omega)
      refine ⟨ex, s', hr, withinFrame_trans E _ _ _ hm hfr, ?_, hb2, hl2⟩
      have : s.buffer + s.intlen ≤ s'.buffer := hb1
      omega
    rw [if_neg c3]
    by_cases c4 : (cb s.ud { args with value := .null, length := 8, index := s.index }).1.sz
        ≠ ((8 : Nat) : Int)
    · rw [if_pos c4]
      exact ⟨_, _, rfl, withinFrame_refl _ _, le_refl _, hbE, hlen⟩
    rw [if_neg c4]
    by_cases c5 : s.intlen = 4
    · rw [if_pos c5]
      have hb := hbuf c5
      by_cases c6 : s.size - (((s.index - 1 : Nat) : Int) * ((4 : Nat) : Int)) < ((8 : Nat) : Int)
      · rw [if_pos c6]
        exact ⟨_, _, rfl, withinFrame_refl _ _, le_refl _, hbE, hlen⟩
      rw [if_neg c6]
      push_cast at c6
      have hm : withinFrame E s.mem
          (memcpy (rearrange header (s.index - 1) s.mem) (s.buffer + (s.index - 1) * 4)
            (le64 ((cb s.ud { args with value := .null, length := 8,
                                        index := s.index }).1.u % 2 ^ 64))) :=
        withinFrame_trans E _ _ _ (rearrange_frame header _ _ E (by omega))
          (withinFrame_memcpy E _ _ _ (by rw [le64_length]; omega))
      obtain ⟨ex, s', hr, hfr, hb1, hb2, hl2⟩ := ih
        { s with ud := (cb s.ud { args with value := .null, length := 8, index := s.index }).2,
                 mem := memcpy (rearrange header (s.index - 1) s.mem)
                    (s.buffer + (s.index - 1) * 4)
                    (le64 ((cb s.ud { args with value := .null, length := 8,
                                                index := s.index }).1.u % 2 ^ 64)),
                 size := s.size - (((s.index - 1 : Nat) : Int) * ((4 : Nat) : Int))
                    - ((8 : Nat) : Int),
                 buffer := s.buffer + (s.index - 1) * 4 + 8,
                 intlen := 8, index := s.index + 1 }
        (by show 0 ≤ s.size - (((s.index - 1 : Nat) : Int) * ((4 : Nat) : Int))
              - ((8 : Nat) : Int)
            push_cast; omega)
        (by show ((s.buffer + (s.index - 1) * 4 + 8 : Nat) : Int)
              + (s.size - (((s.index - 1 : Nat) : Int) * ((4 : Nat) : Int))
              - ((8 : Nat) : Int)) = E
            push_cast; omega)
        (by show s.size - (((s.index - 1 : Nat) : Int) * ((4 : Nat) : Int))
              - ((8 : Nat) : Int) < fuel
            push_cast; omega)
        (by show 1 ≤ s.index + 1; omega) (Or.inr rfl)
        (by intro h4; exact absurd (show (8 : Nat) = 4 from h4) (by norm_num))
      refine ⟨ex, s', hr, withinFrame_trans E _ _ _ hm hfr, ?_, hb2, hl2⟩
      have : s.buffer + (s.index - 1) * 4 + 8 ≤ s'.buffer := hb1
      omega
    rw [if_neg c5]
    have h8 : s.intlen = 8 := by rcases hlen with h | h; exact absurd h c5; exact h
    have hm : withinFrame E s.mem (memcpy s.mem s.buffer
        (le64 ((cb s.ud { args with value := .null, length := 8,
                                    index := s.index }).1.u % 2 ^ 64))) :=
      withinFrame_memcpy E _ _ _ (by rw [le64_length]; omega)
    obtain ⟨ex, s', hr, hfr, hb1, hb2, hl2⟩ := ih
      { s with ud := (cb s.ud { args with value := .null, length := 8, index := s.index }).2,
               mem := memcpy s.mem s.buffer
                  (le64 ((cb s.ud { args with value := .null, length := 8,
                                              index := s.index }).1.u % 2 ^ 64)),
               size := s.size - s.intlen, buffer := s.buffer + s.intlen,
               index := s.index + 1 }
      (by show 0 ≤ s.size - (s.intlen : Int); rw [h8]; omega)
      (by show ((s.buffer + s.intlen : Nat) : Int) + (s.size - (s.intlen : Int)) = E
          push_cast; omega)
      (by show s.size - (s.intlen : Int) < fuel; rw [h8]; omega)
      (by show 1 ≤ s.index + 1; omega) hlen
      (by intro h4; exact absurd (show s.intlen = 4 from h4) c5)
    refine ⟨ex, s', hr, withinFrame_trans E _ _ _ hm hfr, ?_, hb2, hl2⟩
    have : s.buffer + s.intlen ≤ s'.buffer := hb1
    omega


/-- The function `encode_integer_array` returns, stores within `size`, and a
pointer it returns is within the space it was given. -/
theorem encode_integer_array_safe {σ : Type} (cb : sproto_callback σ) (ud : σ)
    (args : sproto_arg) (m : Mem) (buffer : Nat) (size : Int) (E : Nat)
    (hE : (buffer : Int) + size = E) :
    ∃ ob na m' ud', encode_integer_array cb ud args m buffer size = .ret (ob, na, m', ud') ∧
      withinFrame E m m' ∧ ∀ b, ob = some b → buffer ≤ b ∧ b ≤ E := by
  unfold encode_integer_array
  by_cases h1 : size < 1
  · rw [if_pos h1]
    exact ⟨_, _, _, _, rfl, withinFrame_refl _ _, fun b hb => Option.noConfusion hb⟩
  rw [if_neg h1]
  obtain ⟨ex, s', hr, hfr, hb1, hb2, _⟩ := encode_integer_array_loop_safe cb args buffer E
    (size.toNat + 1)
    { mem := m, ud := ud, buffer := buffer + 1, size := size - 1, intlen := SIZEOF_INT32,
      index := 1 }
    (by show 0 ≤ size - 1; omega)
    (by show ((buffer + 1 : Nat) : Int) + (size - 1) = E; push_cast; omega)
    (by show size - 1 < ((size.toNat + 1 : Nat) : Int); push_cast; omega)
    (le_refl _) (Or.inl rfl) (fun _ => rfl)
  rw [hr]
  have hb1' : buffer + 1 ≤ s'.buffer := hb1
  cases ex with
  | null => exact ⟨_, _, _, _, rfl, hfr, fun b hb => Option.noConfusion hb⟩
  | brk noarray =>
    simp only []
    split_ifs
    · refine ⟨_, _, _, _, rfl, hfr, fun b hb => ?_⟩
      simp only [Option.some.injEq] at hb
      omega
    · refine ⟨_, _, _, _, rfl, ?_, fun b hb => ?_⟩
      · exact withinFrame_trans E _ _ _ hfr (withinFrame_wr E _ _ _ (by omega))
      · simp only [Option.some.injEq] at hb
        omega

/-- The loop of `encode_array_object` with a callback that keeps to the length
it is offered ends, stores below the end `E` of the space it was given, and
leaves `buffer` there or before. -/
theorem encode_array_object_loop_safe {σ : Type} (cb : sproto_callback σ)
    (hcb : cbWithinLength cb) (args : sproto_arg) (ht : storesBytes args) (E : Nat) :
    ∀ (fuel : Nat) (s : ArrayState σ), 0 ≤ s.size → (s.buffer : Int) + s.size = E →
      s.size < fuel →
      ∃ ex s', encode_array_object_loop cb args fuel s = .ret (ex, s') ∧
        withinFrame E s.mem s'.mem ∧ s.buffer ≤ s'.buffer ∧ s'.buffer ≤ E := by
  intro fuel
  induction fuel with
  | zero => intro s h0 _ hf; omega
  | succ fuel ih =>
    intro s h0 hE hf
    have hbE : s.buffer ≤ E := by omega
    unfold encode_array_object_loop
    by_cases c1 : s.size < (SIZEOF_LENGTH : Int)
    · rw [if_pos c1]
      exact ⟨_, _, rfl, withinFrame_refl _ _, le_refl _, hbE⟩
    rw [if_neg c1]
    simp only [SIZEOF_LENGTH] at c1 ⊢
    push_cast at c1 ⊢
    obtain ⟨hb, hs⟩ := hcb s.ud
      { args with value := .null, length := s.size - 4, index := s.index }
      (show (0 : Int) ≤ s.size - 4 by omega) ht
    have hb' : ((cb s.ud { args with value := .null, length := s.size - 4, index := s.index }).1.bytes.length : Int) ≤ s.size - 4 := hb
    have hs' : (cb s.ud { args with value := .null, length := s.size - 4, index := s.index }).1.sz ≤ s.size - 4 := hs
    have hf1 : withinFrame E s.mem (memcpy s.mem (s.buffer + 4)
        (cb s.ud { args with value := .null, length := s.size - 4, index := s.index }).1.bytes) :=
      withinFrame_memcpy E _ _ _ (by omega)
    by_cases c2 : (cb s.ud { args with value := .null, length := s.size - 4, index := s.index }).1.sz < 0
    · rw [if_pos c2]
      split_ifs
      · exact ⟨_, _, rfl, hf1, le_refl _, hbE⟩
      · exact ⟨_, _, rfl, hf1, le_refl _, hbE⟩
      · exact ⟨_, _, rfl, hf1, le_refl _, hbE⟩
    rw [if_neg c2]
    obtain ⟨ex, s', hr, hfr, hb1, hb2⟩ := ih
      { s with mem := (fill_size (memcpy s.mem (s.buffer + 4)
                  (cb s.ud { args with value := .null, length := s.size - 4, index := s.index }).1.bytes) s.buffer
                  (cb s.ud { args with value := .null, length := s.size - 4, index := s.index }).1.sz).1,
               ud := (cb s.ud { args with value := .null, length := s.size - 4, index := s.index }).2,
               buffer := s.buffer + 4 + (cb s.ud { args with value := .null, length := s.size - 4, index := s.index }).1.sz.toNat,
               size := s.size - 4 - (cb s.ud { args with value := .null, length := s.size - 4, index := s.index }).1.sz,
               index := s.index + 1 }
      (by show 0 ≤ s.size - 4 - (cb s.ud { args with value := .null, length := s.size - 4, index := s.index }).1.sz
          omega)
      (by show ((s.buffer + 4 + (cb s.ud { args with value := .null, length := s.size - 4, index := s.index }).1.sz.toNat : Nat) : Int)
            + (s.size - 4 - (cb s.ud { args with value := .null, length := s.size - 4, index := s.index }).1.sz) = E
          push_cast
          rw [Int.toNat_of_nonneg (by omega)]
          omega)
      (by show s.size - 4 - (cb s.ud { args with value := .null, length := s.size - 4, index := s.index }).1.sz < fuel
          omega)
    refine ⟨ex, s', hr, ?_, ?_, hb2⟩
    · exact withinFrame_trans E _ _ _
        (withinFrame_trans E _ _ _ hf1 (withinFrame_fill_size E _ _ _ (by omega))) hfr
    · have : s.buffer + 4 + (cb s.ud { args with value := .null, length := s.size - 4, index := s.index }).1.sz.toNat ≤ s'.buffer := hb1
      omega

/-- The function `encode_array_object` with such a callback. -/
theorem encode_array_object_safe {σ : Type} (cb : sproto_callback σ) (hcb : cbWithinLength cb)
    (ud : σ) (args : sproto_arg) (ht : storesBytes args) (m : Mem) (buffer : Nat) (size : Int)
    (E : Nat) (h0 : 0 ≤ size) (hE : (buffer : Int) + size = E) :
    ∃ ob na m' ud', encode_array_object cb ud args m buffer size = .ret (ob, na, m', ud') ∧
      withinFrame E m m' ∧ ∀ b, ob = some b → buffer ≤ b ∧ b ≤ E := by
  unfold encode_array_object
  obtain ⟨ex, s', hr, hfr, hb1, hb2⟩ := encode_array_object_loop_safe cb hcb args ht E
    (size.toNat + 1) { mem := m, ud := ud, buffer := buffer, size := size, index := 1 }
    h0 hE (by show size < ((size.toNat + 1 : Nat) : Int); push_cast; omega)
  rw [hr]
  cases ex with
  | null => exact ⟨_, _, _, _, rfl, hfr, fun b hb => Option.noConfusion hb⟩
  | brk noarray =>
    refine ⟨_, _, _, _, rfl, hfr, fun b hb => ?_⟩
    simp only [Option.some.injEq] at hb
    rw [← hb]
    exact ⟨hb1, hb2⟩

/-- The boolean loop of `encode_array` ends, stores below the end `E` of the
space it was given, and returns 0 or -1 when it returns. -/
theorem encode_array_bool_loop_safe {σ : Type} (cb : sproto_callback σ) (args : sproto_arg)
    (E : Nat) :
    ∀ (fuel : Nat) (s : ArrayState σ), 0 ≤ s.size → (s.buffer : Int) + s.size = E →
      s.size < fuel →
      ∃ ex s', encode_array_bool_loop cb args fuel s = .ret (ex, s') ∧
        withinFrame E s.mem s'.mem ∧ s.buffer ≤ s'.buffer ∧ s'.buffer ≤ E ∧
        ∀ r, ex = .retn r → r = 0 ∨ r = -1 := by
  intro fuel
  induction fuel with
  | zero => intro s h0 _ hf; omega
  | succ fuel ih =>
    intro s h0 hE hf
    have hbE : s.buffer ≤ E := by omega
    unfold encode_array_bool_loop
    simp only []
    by_cases c1 : (cb s.ud { args with value := .null, length := 4, index := s.index }).1.sz < 0
    · rw [if_pos c1]
      split_ifs
      · exact ⟨_, _, rfl, withinFrame_refl _ _, le_refl _, hbE, fun r hr => by cases hr⟩
      · exact ⟨_, _, rfl, withinFrame_refl _ _, le_refl _, hbE,
          fun r hr => by cases hr; exact Or.inl rfl⟩
      · exact ⟨_, _, rfl, withinFrame_refl _ _, le_refl _, hbE,
          fun r hr => by cases hr; exact Or.inr rfl⟩
    rw [if_neg c1]
    by_cases c2 : s.size < 1
    · rw [if_pos c2]
      exact ⟨_, _, rfl, withinFrame_refl _ _, le_refl _, hbE,
        fun r hr => by cases hr; exact Or.inr rfl⟩
    rw [if_neg c2]
    obtain ⟨ex, s', hr, hfr, hb1, hb2, hret⟩ := ih
      { s with ud := (cb s.ud { args with value := .null, length := 4, index := s.index }).2,
               mem := wr s.mem s.buffer
                  (if (cb s.ud { args with value := .null, length := 4, index := s.index }).1.u % 2 ^ 32 ≠ 0 then 1 else 0),
               size := s.size - 1, buffer := s.buffer + 1, index := s.index + 1 }
      (by show 0 ≤ s.size - 1; omega)
      (by show ((s.buffer + 1 : Nat) : Int) + (s.size - 1) = E; push_cast; omega)
      (by show s.size - 1 < fuel; omega)
    refine ⟨ex, s', hr, ?_, ?_, hb2, hret⟩
    · exact withinFrame_trans E _ _ _ (withinFrame_wr E _ _ _ (by omega)) hfr
    · have : s.buffer + 1 ≤ s'.buffer := hb1
      omega

/-- The function `encode_array` with a callback that keeps to the length it is
offered: it returns -1 or a size within `size`, and stores within `size`. -/
theorem encode_array_safe {σ : Type} (cb : sproto_callback σ) (hcb : cbWithinLength cb)
    (ud : σ) (args : sproto_arg) (m : Mem) (data : Nat) (size : Int) (lim : Nat)
    (hlim : (data : Int) + size ≤ lim) :
    ∃ r m' ud', encode_array cb ud args m data size = .ret (r, m', ud') ∧
      (r = -1 ∨ (0 ≤ r ∧ r ≤ size)) ∧ withinFrame lim m m' := by
  unfold encode_array
  by_cases h : size < (SIZEOF_LENGTH : Int)
  · rw [if_pos h]
    exact ⟨_, _, _, rfl, Or.inl rfl, withinFrame_refl _ _⟩
  rw [if_neg h]
  simp only [SIZEOF_LENGTH] at h ⊢
  push_cast at h
  have hE : ((data + 4 : Nat) : Int) + (size - ((4 : Nat) : Int))
      = ((data + size.toNat : Nat) : Int) := by
    push_cast
    rw [Int.toNat_of_nonneg (by omega)]
    omega
  have hEl : data + size.toNat ≤ lim := by omega
  have hfin : ∀ (b : Nat) (m1 : Mem) (ud1 : σ), data + 4 ≤ b → b ≤ data + size.toNat →
      withinFrame lim m m1 →
      ∃ r m' ud', (Outcome.ret ((fill_size m1 data ((b : Int) - ((data + 4 : Nat) : Int))).2,
          (fill_size m1 data ((b : Int) - ((data + 4 : Nat) : Int))).1, ud1)
            : Outcome (Int × Mem × σ)) = .ret (r, m', ud') ∧
        (r = -1 ∨ (0 ≤ r ∧ r ≤ size)) ∧ withinFrame lim m m' := by
    intro b m1 ud1 hb1 hb2 hfr
    refine ⟨_, _, _, rfl, Or.inr ⟨?_, ?_⟩, ?_⟩
    · rw [fill_size_snd]; push_cast; omega
    · rw [fill_size_snd]; push_cast; omega
    · exact withinFrame_trans lim _ _ _ hfr (withinFrame_fill_size lim _ _ _ (by omega))
  by_cases t1 : args.type = SPROTO_TDOUBLE ∨ args.type = SPROTO_TINTEGER
  · rw [if_pos t1]
    obtain ⟨ob, na, m1, ud1, hr, hfr, hb⟩ :=
      encode_integer_array_safe cb ud args m (data + 4) (size - ((4 : Nat) : Int))
        (data + size.toNat) hE
    rw [hr]
    cases ob with
    | none => exact ⟨_, _, _, rfl, Or.inl rfl, withinFrame_mono _ _ _ _ hEl hfr⟩
    | some b =>
      simp only []
      cases na with
      | true =>
        exact ⟨_, _, _, rfl, Or.inr ⟨le_refl _, by omega⟩, withinFrame_mono _ _ _ _ hEl hfr⟩
      | false =>
        obtain ⟨hb1, hb2⟩ := hb b rfl
        exact hfin b m1 ud1 hb1 hb2 (withinFrame_mono _ _ _ _ hEl hfr)
  rw [if_neg t1]
  by_cases t2 : args.type = SPROTO_TBOOLEAN
  · rw [if_pos t2]
    obtain ⟨ex, s', hr, hfr, hb1, hb2, hret⟩ := encode_array_bool_loop_safe cb args
      (data + size.toNat) ((size - ((4 : Nat) : Int)).toNat + 1)
      { mem := m, ud := ud, buffer := data + 4, size := size - ((4 : Nat) : Int), index := 1 }
      (by show 0 ≤ size - ((4 : Nat) : Int); push_cast; omega) hE
      (by show size - ((4 : Nat) : Int) < (((size - ((4 : Nat) : Int)).toNat + 1 : Nat) : Int)
          push_cast; omega)
    rw [hr]
    cases ex with
    | retn r =>
      refine ⟨_, _, _, rfl, ?_, withinFrame_mono _ _ _ _ hEl hfr⟩
      rcases hret r rfl with h0 | h1
      · exact Or.inr ⟨by omega, by omega⟩
      · exact Or.inl h1
    | brk => exact hfin s'.buffer s'.mem s'.ud hb1 hb2 (withinFrame_mono _ _ _ _ hEl hfr)
  rw [if_neg t2]
  obtain ⟨ob, na, m1, ud1, hr, hfr, hb⟩ :=
    encode_array_object_safe cb hcb ud args ⟨fun h => t1 (Or.inr h), fun h => t1 (Or.inl h), t2⟩
      m (data + 4) (size - ((4 : Nat) : Int))
      (data + size.toNat) (by push_cast; omega) hE
  rw [hr]
  cases ob with
  | none => exact ⟨_, _, _, rfl, Or.inl rfl, withinFrame_mono _ _ _ _ hEl hfr⟩
  | some b =>
    simp only []
    cases na with
    | true =>
      exact ⟨_, _, _, rfl, Or.inr ⟨le_refl _, by omega⟩, withinFrame_mono _ _ _ _ hEl hfr⟩
    | false =>
      obtain ⟨hb1, hb2⟩ := hb b rfl
      exact hfin b m1 ud1 hb1 hb2 (withinFrame_mono _ _ _ _ hEl hfr)


theorem fieldExitSafe_trans {σ : Type} (lim maxn : Nat) (P : Int) (fs : List field)
    (m0 m1 : Mem) (x : FieldExit σ) (h01 : withinFrame lim m0 m1)
    (hx : fieldExitSafe lim maxn P fs m1 x) : fieldExitSafe lim maxn P fs m0 x := by
  cases x with
  | next s1 => exact ⟨hx.1, hx.2.1, withinFrame_trans lim _ _ _ h01 hx.2.2⟩
  | retn r m ud => exact ⟨hx.1, withinFrame_trans lim _ _ _ h01 hx.2⟩

/-- A field that is left out leaves the header slots within `maxn`. -/
theorem slotInv_skip {σ : Type} (maxn : Nat) (P : Int) (f : field) (fs : List field)
    (s s1 : EncState σ) (hP : P < f.tag) (hS : SlotInv maxn P (f :: fs) s)
    (hi : s1.index = s.index) (hl : s1.lasttag = s.lasttag) : SlotInv maxn f.tag fs s1 := by
  obtain ⟨h1, h2⟩ := hS
  unfold SlotInv
  rw [hi, hl]
  simp only [slotsOf] at h2
  refine ⟨by omega, ?_⟩
  rw [if_pos (by omega)]
  split_ifs at h2 <;> omega

/-- The tag slots of a field are within the header area, and the part of the
buffer left after the field is within the capacity. -/
theorem encode_tag_safe {σ : Type} (lim maxn : Nat) (P : Int) (f : field) (fs : List field)
    (value : Nat) (sz : Int) (s : EncState σ) (hP : P < f.tag)
    (hI : EncInv lim maxn s) (hS : SlotInv maxn P (f :: fs) s)
    (hsz : value = 0 → sz ≤ s.size) :
    fieldExitSafe lim maxn f.tag fs s.mem (encode_tag f value sz s) := by
  obtain ⟨i1, i2, i3⟩ := hI
  have hS' := hS
  obtain ⟨s1, s2⟩ := hS
  simp only [slotsOf] at s2
  simp only [SIZEOF_HEADER, SIZEOF_FIELD] at i3
  unfold encode_tag
  by_cases c1 : sz < 0
  · rw [if_pos c1]
    exact ⟨Or.inl rfl, withinFrame_refl _ _⟩
  rw [if_neg c1]
  by_cases c2 : sz > 0
  · rw [if_pos c2]
    simp only [SIZEOF_HEADER, SIZEOF_FIELD]
    have hdata : ((if value = 0 then s.data + sz.toNat else s.data : Nat) : Int)
        + (if value = 0 then s.size - sz else s.size) = lim ∧
        0 ≤ (if value = 0 then s.size - sz else s.size) ∧
        2 + maxn * 2 ≤ (if value = 0 then s.data + sz.toNat else s.data) := by
      by_cases hv : value = 0
      · have := hsz hv
        rw [if_pos hv, if_pos hv]
        refine ⟨?_, by omega, by omega⟩
        push_cast
        rw [Int.toNat_of_nonneg (by omega)]
        omega
      · rw [if_neg hv, if_neg hv]
        exact ⟨i1, i2, i3⟩
    have hlim : 2 + maxn * 2 ≤ lim := by omega
    by_cases c3 : f.tag - s.lasttag - 1 > 0
    · rw [if_pos c3]
      have hidx : s.index + 2 + slotsOf f.tag fs ≤ maxn := by
        by_cases hl : s.lasttag < P
        · rw [if_pos hl] at s2
          split_ifs at s2 <;> omega
        · rw [if_neg hl] at s2
          rw [if_pos (by omega)] at s2
          omega
      by_cases c4 : (f.tag - s.lasttag - 1 - 1) * 2 + 1 > 0xffff
      · rw [if_pos c4]
        exact ⟨Or.inl rfl, withinFrame_refl _ _⟩
      · rw [if_neg c4]
        refine ⟨⟨hdata.1, hdata.2.1, ?_⟩, ⟨le_refl _, ?_⟩, ?_⟩
        · simp only [SIZEOF_HEADER, SIZEOF_FIELD]
          exact hdata.2.2
        · show s.index + 2 + (if f.tag < f.tag then 1 else 0) + slotsOf f.tag fs ≤ maxn
          rw [if_neg (lt_irrefl _)]
          omega
        · refine withinFrame_trans lim _ _ _ (withinFrame_trans lim _ _ _
            (withinFrame_trans lim _ _ _ (withinFrame_wr lim _ _ _ (by omega))
              (withinFrame_wr lim _ _ _ (by omega)))
            (withinFrame_wr lim _ _ _ (by omega))) (withinFrame_wr lim _ _ _ (by omega))
    · rw [if_neg c3]
      have hidx : s.index + 1 + slotsOf f.tag fs ≤ maxn := by
        split_ifs at s2 <;> omega
      refine ⟨⟨hdata.1, hdata.2.1, ?_⟩, ⟨le_refl _, ?_⟩, ?_⟩
      · simp only [SIZEOF_HEADER, SIZEOF_FIELD]
        exact hdata.2.2
      · show s.index + 1 + (if f.tag < f.tag then 1 else 0) + slotsOf f.tag fs ≤ maxn
        rw [if_neg (lt_irrefl _)]
        omega
      · exact withinFrame_trans lim _ _ _ (withinFrame_wr lim _ _ _ (by omega))
          (withinFrame_wr lim _ _ _ (by omega))
  · rw [if_neg c2]
    refine ⟨⟨i1, i2, ?_⟩, slotInv_skip maxn P f fs s s hP hS' rfl rfl, withinFrame_refl _ _⟩
    simp only [SIZEOF_HEADER, SIZEOF_FIELD]
    exact i3


/-- One field of `sproto_encode`, with a callback that keeps to the length it
is offered and a field whose subtype names can be read when it is a map: the
iteration ends, within the bounds. -/
theorem encode_field_safe {σ : Type} (types : List sproto_type) (cb : sproto_callback σ)
    (hcb : cbWithinLength cb) (lim maxn : Nat) (hlim : lim < 2 ^ 31) (P : Int) (f : field)
    (fs : List field) (s : EncState σ) (hP : P < f.tag)
    (hI : EncInv lim maxn s) (hS : SlotInv maxn P (f :: fs) s) (hmap : mapReadable types f) :
    ∃ x, encode_field types cb f s = .ret x ∧ fieldExitSafe lim maxn f.tag fs s.mem x := by
  have hI' := hI
  obtain ⟨i1, i2, i3⟩ := hI'
  have h31 : s.size < 2 ^ 31 := by
    have : (lim : Int) < 2 ^ 31 := by exact_mod_cast hlim
    omega
  have hdl : (s.data : Int) + s.size ≤ lim := le_of_eq i1
  unfold encode_field
  simp only []
  by_cases t1 : f.type &&& SPROTO_TARRAY ≠ 0
  · rw [if_pos t1, if_neg (mapReadable_guard hmap t1)]
    obtain ⟨r, m1, ud1, hr, hrr, hfr⟩ := encode_array_safe cb hcb s.ud
      (if f.map > 0 then
        { ({ fieldArgs f with type := f.type ^^^ (f.type &&& SPROTO_TARRAY) } : sproto_arg) with
          ktagname := subfieldName types f.st 0, vtagname := subfieldName types f.st 1 }
      else { fieldArgs f with type := f.type ^^^ (f.type &&& SPROTO_TARRAY) })
      s.mem s.data s.size lim hdl
    rw [hr]
    refine ⟨_, rfl, ?_⟩
    refine fieldExitSafe_trans lim maxn f.tag fs s.mem m1 _ hfr ?_
    exact encode_tag_safe lim maxn P f fs 0 r { s with mem := m1, ud := ud1 } hP hI hS
      (fun _ => by rcases hrr with h | h; show r ≤ s.size; omega; exact h.2)
  rw [if_neg t1]
  by_cases t2 : f.type = SPROTO_TDOUBLE ∨ f.type = SPROTO_TINTEGER ∨ f.type = SPROTO_TBOOLEAN
  · rw [if_pos t2]
    generalize cb s.ud { fieldArgs f with length := 8 } = r0
    by_cases c1 : r0.1.sz < 0
    · rw [if_pos c1]
      split_ifs
      · exact ⟨_, rfl, hI, slotInv_skip maxn P f fs s _ hP hS rfl rfl, withinFrame_refl _ _⟩
      · exact ⟨_, rfl, Or.inr rfl, withinFrame_refl _ _⟩
      · exact ⟨_, rfl, Or.inl rfl, withinFrame_refl _ _⟩
    rw [if_neg c1]
    by_cases c2 : r0.1.sz = (SIZEOF_INT32 : Int)
    · rw [if_pos c2]
      by_cases c3 : r0.1.u % 2 ^ 32 < 0x7fff
      · rw [if_pos c3]
        refine ⟨_, rfl, ?_⟩
        exact encode_tag_safe lim maxn P f fs _ 2 { s with ud := r0.2 } hP hI hS
          (fun hv => by omega)
      · rw [if_neg c3]
        refine ⟨_, rfl, ?_⟩
        obtain ⟨e1, e2⟩ := encode_integer_safe (r0.1.u % 2 ^ 32) s.mem s.data s.size lim i2 h31 hdl
        refine fieldExitSafe_trans lim maxn f.tag fs s.mem _ _ e2 ?_
        exact encode_tag_safe lim maxn P f fs 0 _
          { s with ud := r0.2, mem := (encode_integer (r0.1.u % 2 ^ 32) s.mem s.data s.size).1 }
          hP hI hS
          (fun _ => by
            rcases e1 with h | h
            · rw [h]; show (-1 : Int) ≤ s.size; omega
            · exact h.2)
    rw [if_neg c2]
    by_cases c4 : r0.1.sz = (SIZEOF_INT64 : Int)
    · rw [if_pos c4]
      refine ⟨_, rfl, ?_⟩
      obtain ⟨e1, e2⟩ := encode_uint64_safe (r0.1.u % 2 ^ 64) s.mem s.data s.size lim i2 h31 hdl
      refine fieldExitSafe_trans lim maxn f.tag fs s.mem _ _ e2 ?_
      exact encode_tag_safe lim maxn P f fs 0 _
        { s with ud := r0.2, mem := (encode_uint64 (r0.1.u % 2 ^ 64) s.mem s.data s.size).1 }
        hP hI hS
        (fun _ => by
          rcases e1 with h | h
          · rw [h]; show (-1 : Int) ≤ s.size; omega
          · exact h.2)
    · rw [if_neg c4]
      exact ⟨_, rfl, Or.inl rfl, withinFrame_refl _ _⟩
  rw [if_neg t2]
  by_cases t3 : f.type = SPROTO_TSTRUCT ∨ f.type = SPROTO_TSTRING
  · rw [if_pos t3]
    have ht : storesBytes (fieldArgs f) := by
      show f.type ≠ SPROTO_TINTEGER ∧ f.type ≠ SPROTO_TDOUBLE ∧ f.type ≠ SPROTO_TBOOLEAN
      rcases t3 with h | h <;> rw [h] <;> decide
    obtain ⟨r, m1, ud1, hr, hrr, hfr⟩ := encode_object_safe cb hcb s.ud (fieldArgs f) ht
      s.mem s.data s.size lim hdl
    rw [hr]
    refine ⟨_, rfl, ?_⟩
    refine fieldExitSafe_trans lim maxn f.tag fs s.mem m1 _ hfr ?_
    exact encode_tag_safe lim maxn P f fs 0 r { s with mem := m1, ud := ud1 } hP hI hS
      (fun _ => by rcases hrr with h | h; show r ≤ s.size; omega; exact h.2)
  · rw [if_neg t3]
    refine ⟨_, rfl, ?_⟩
    exact encode_tag_safe lim maxn P f fs 0 (-1) s hP hI hS (fun _ => by omega)

/-- The loop of `sproto_encode` over fields whose subtype names can be read
where they are maps ends, within the bounds. -/
theorem encode_fields_safe {σ : Type} (types : List sproto_type) (cb : sproto_callback σ)
    (hcb : cbWithinLength cb) (lim maxn : Nat) (hlim : lim < 2 ^ 31) :
    ∀ (fs : List field) (P : Int) (s : EncState σ), import_tags_ok fs P = true →
      EncInv lim maxn s → SlotInv maxn P fs s → mapFieldsReadable types fs →
      ∃ x P', encode_fields types cb fs s = .ret x ∧ fieldExitSafe lim maxn P' [] s.mem x := by
  intro fs
  induction fs with
  | nil =>
    intro P s _ hI hS _
    exact ⟨_, P, rfl, hI, hS, withinFrame_refl _ _⟩
  | cons f fs ih =>
    intro P s hok hI hS hmap
    obtain ⟨hP, hok'⟩ := (tags_ok_cons f fs P).mp hok
    obtain ⟨x, hx, hsafe⟩ := encode_field_safe types cb hcb lim maxn hlim P f fs s hP hI hS
      (hmap f (List.mem_cons_self _ _))
    unfold encode_fields
    rw [hx]
    cases x with
    | retn r m ud => exact ⟨_, P, rfl, hsafe.1, hsafe.2⟩
    | next s1 =>
      obtain ⟨x2, P2, hx2, hsafe2⟩ := ih f.tag s1 hok' hsafe.1 hsafe.2.1
        (fun g hg => hmap g (List.mem_cons_of_mem _ hg))
      exact ⟨x2, P2, hx2, fieldExitSafe_trans lim maxn P2 [] s.mem s1.mem x2 hsafe.2.2 hsafe2⟩


theorem hostEncode_msgHi_within : cbWithinLength (hostEncode msgHi) := by
  intro u a h0 _
  unfold hostEncode
  by_cases hi : a.index > 0
  · rw [if_pos hi]
    exact ⟨by simpa using h0, by show SPROTO_CB_NOARRAY ≤ a.length; unfold SPROTO_CB_NOARRAY; omega⟩
  rw [if_neg hi]
  unfold msgHi
  by_cases ht : a.tagid = 0
  · rw [if_pos ht]
    simp only [hostValueOut]
    by_cases hl : (([104, 105] : List Nat).length : Int) ≤ a.length
    · rw [if_pos hl]
      exact ⟨hl, hl⟩
    · rw [if_neg hl]
      exact ⟨by simpa using h0, by show SPROTO_CB_ERROR ≤ a.length; unfold SPROTO_CB_ERROR; omega⟩
  · rw [if_neg ht]
    exact ⟨by simpa using h0, by show SPROTO_CB_NIL ≤ a.length; unfold SPROTO_CB_NIL; omega⟩

theorem loaded_fooS : LoadedType fooS :=
  { ascending := by decide
    tag_le := by decide
    kind := by decide
    maxn_eq := by decide
    base_eq := by decide }

/-- The bounds of `sproto_encode` where it reads no name through a missing
subtype: for every type as `import_type` builds it whose array fields with
`map > 0` have a subtype with two fields, every buffer capacity `size` (an
`int`) and every callback that, where it stores into the buffer, stores and
reports no more bytes than the length it was offered, `sproto_encode` returns,
with -1 or with `r` such that `0 ≤ r ≤ size`, and the buffer is unchanged at
every offset from `size` on: neither the header slots, nor the entries, nor
the widening of the elements of an integer array store at or after `size`. -/
theorem sproto_encode_within_buffer {σ : Type} (types : List sproto_type) (st : sproto_type)
    (hst : LoadedType st) (hmap : mapFieldsReadable types st.f) (buffer : Mem) (size : Int)
    (hsize : size < 2 ^ 31) (cb : sproto_callback σ) (hcb : cbWithinLength cb) (ud : σ) :
    ∃ r m' ud', sproto_encode types st buffer size cb ud = .ret (r, m', ud') ∧
      (r = -1 ∨ (0 ≤ r ∧ r ≤ size)) ∧ ∀ q : Nat, size ≤ (q : Int) → m' q = buffer q := by
  unfold sproto_encode
  simp only [SIZEOF_HEADER, SIZEOF_FIELD]
  by_cases h : size < ((2 + st.maxn * 2 : Nat) : Int)
  · rw [if_pos h]
    exact ⟨_, _, _, rfl, Or.inl rfl, fun _ _ => rfl⟩
  rw [if_neg h]
  push_cast at h
  have hlim : size.toNat < 2 ^ 31 := by omega
  have hmax : slotsOf (-1) st.f = st.maxn := by
    have := import_maxn_slotsOf st.f (-1) 0
    rw [Nat.zero_add, Nat.zero_add] at this
    rw [hst.maxn_eq, this]
  obtain ⟨x, P', hx, hsafe⟩ := encode_fields_safe types cb hcb size.toNat st.maxn hlim st.f (-1)
    { mem := buffer, ud := ud, data := 2 + st.maxn * 2,
      size := size - ((2 + st.maxn * 2 : Nat) : Int), index := 0, lasttag := -1 }
    hst.ascending
    ⟨by show ((2 + st.maxn * 2 : Nat) : Int) + (size - ((2 + st.maxn * 2 : Nat) : Int))
          = (size.toNat : Int)
        rw [Int.toNat_of_nonneg (by omega)]; omega,
      by show 0 ≤ size - ((2 + st.maxn * 2 : Nat) : Int); push_cast; omega,
      by show SIZEOF_HEADER + st.maxn * SIZEOF_FIELD ≤ 2 + st.maxn * 2
         simp only [SIZEOF_HEADER, SIZEOF_FIELD]; exact le_refl _⟩
    ⟨le_refl _, by
      show 0 + (if (-1 : Int) < -1 then 1 else 0) + slotsOf (-1) st.f ≤ st.maxn
      rw [if_neg (lt_irrefl _), hmax]; omega⟩
    hmap
  rw [hx]
  cases x with
  | retn r m ud1 =>
    obtain ⟨hr, hfr⟩ := hsafe
    refine ⟨_, _, _, rfl, ?_, fun q hq => hfr q (by omega)⟩
    rcases hr with hr | hr
    · exact Or.inl hr
    · exact Or.inr ⟨by omega, by omega⟩
  | next s =>
    obtain ⟨⟨i1, i2, i3⟩, ⟨_, j2⟩, hfr⟩ := hsafe
    simp only [SIZEOF_HEADER, SIZEOF_FIELD] at i3
    simp only [slotsOf] at j2
    have hidx : s.index ≤ st.maxn := by omega
    have hdata : (s.data : Int) ≤ size.toNat := by omega
    have hdata' : s.data ≤ size.toNat := by exact_mod_cast hdata
    have h1 : withinFrame size.toNat s.mem
        (wr (wr s.mem 0 (s.index % 256)) 1 (s.index / 2 ^ 8 % 256)) :=
      withinFrame_trans _ _ _ _ (withinFrame_wr _ _ _ _ (by omega))
        (withinFrame_wr _ _ _ _ (by omega))
    have h2 : withinFrame size.toNat s.mem
        (if s.index ≠ st.maxn then
          memcpy (wr (wr s.mem 0 (s.index % 256)) 1 (s.index / 2 ^ 8 % 256))
            (2 + s.index * 2)
            (readN (wr (wr s.mem 0 (s.index % 256)) 1 (s.index / 2 ^ 8 % 256))
              (2 + st.maxn * 2) (s.data - (2 + st.maxn * 2)))
        else wr (wr s.mem 0 (s.index % 256)) 1 (s.index / 2 ^ 8 % 256)) := by
      split_ifs
      · exact withinFrame_trans _ _ _ _ h1
          (withinFrame_memcpy _ _ _ _ (by rw [readN_length]; omega))
      · exact h1
    refine ⟨_, _, _, rfl, Or.inr ⟨by positivity, ?_⟩, fun q hq => ?_⟩
    · have : ((2 + s.index * 2 + (s.data - (2 + st.maxn * 2)) : Nat) : Int) ≤ s.data := by
        push_cast; omega
      omega
    · exact ((withinFrame_trans _ _ _ _ hfr h2) q (by omega))

theorem sproto_encode_within_buffer_witness :
    LoadedType fooS ∧ mapFieldsReadable [] fooS.f ∧ cbWithinLength (hostEncode msgHi) ∧
    ∃ r m' ud', sproto_encode [] fooS zeroMem 10 (hostEncode msgHi) () = .ret (r, m', ud') ∧
      (r = -1 ∨ (0 ≤ r ∧ r ≤ 10)) ∧ ∀ q : Nat, (10 : Int) ≤ (q : Int) → m' q = zeroMem q :=
  ⟨loaded_fooS, by decide, hostEncode_msgHi_within,
    sproto_encode_within_buffer [] fooS loaded_fooS (by decide) zeroMem 10 (by norm_num)
      (hostEncode msgHi) hostEncode_msgHi_within ()⟩

/-- The capacities at which `sproto_encode` gives up: the array `[1, 2^40]` of
`Foo { a 0 : *integer }` takes 25 bytes, the two elements widened to 8 bytes,
and is encoded at the capacity 25 and not at 24; the string `"hi"` of
`Foo { s 0 : string }` takes 10 bytes. -/
theorem sproto_encode_capacity_examples :
    (sproto_encode [] fooArr zeroMem 25 (listEncode [1, 2 ^ 40]) ()).map (fun x => x.1)
      = .ret 25 ∧
    (sproto_encode [] fooArr zeroMem 24 (listEncode [1, 2 ^ 40]) ()).map (fun x => x.1)
      = .ret (-1) ∧
    (sproto_encode [] fooS zeroMem 10 (hostEncode msgHi) ()).map (fun x => x.1) = .ret 10 ∧
    (sproto_encode [] fooS zeroMem 9 (hostEncode msgHi) ()).map (fun x => x.1) = .ret (-1) := by
  refine ⟨by decide, by decide, by decide, by decide⟩

theorem loaded_fooMapArr : LoadedType fooMapArr :=
  { ascending := by decide
    tag_le := by decide
    kind := by decide
    maxn_eq := by decide
    base_eq := by decide }

/-- C16. The schema blob `blobMapArr` declares `Foo { a 0 : *integer }` with the
map flag on `a`; `sproto_create` accepts it and builds the type `fooMapArr`, a
type as `import_type` builds it, in which `a` has `map = 1` and `st = NULL`. On
this type `sproto_encode`, with a capacity that holds the header, neither
returns -1 nor a length, whatever the callback, the user data and the buffer:
at the field `a` it reads `f->st->f[0].name` through the `NULL` pointer before
it calls the callback. The same holds for `sproto_decode` on the encoding of an
empty array. Without the map flag (`fooArr`) the encoder returns 2 for the
empty message. -/
theorem sproto_encode_map_array_reads_null_subtype :
    sproto_create junk0 blobMapArr 54 = .ret (some { type := [fooMapArr], proto := [] }) ∧
    LoadedType fooMapArr ∧
    (∀ (σ : Type) (cb : sproto_callback σ) (ud : σ) (buffer : Mem),
      sproto_encode [fooMapArr] fooMapArr buffer 64 cb ud = .invalidRead) ∧
    (∀ (σ : Type) (cb : sproto_callback σ) (ud : σ) (buffer : Mem),
      sproto_encode [fooMapArr] fooMapArr buffer 4 cb ud = .invalidRead) ∧
    sproto_decode [fooMapArr] fooMapArr [1, 0, 0, 0, 0, 0, 0, 0] 8 recordCb [] = .invalidRead ∧
    encoded 2 (sproto_encode [fooArr] fooArr zeroMem 64 (hostEncode msgNone) ())
      = .ret (2, [0, 0]) :=
  ⟨by decide, loaded_fooMapArr, fun _ _ _ _ => rfl, fun _ _ _ _ => rfl, by decide, by decide⟩


/-- The header slots `encode_tag` writes for a field: the slots from `index`
up to the new `index`, which stays within `maxn`; no other byte changes. -/
theorem encode_tag_slots {σ : Type} (maxn : Nat) (P : Int) (f : field) (fs : List field)
    (value : Nat) (sz : Int) (s s1 : EncState σ) (hP : P < f.tag)
    (hS : SlotInv maxn P (f :: fs) s) (h : encode_tag f value sz s = .next s1) :
    SlotInv maxn f.tag fs s1 ∧ s.index ≤ s1.index ∧ s1.index ≤ maxn ∧
    ∀ q, (q < SIZEOF_HEADER + SIZEOF_FIELD * s.index ∨
        SIZEOF_HEADER + SIZEOF_FIELD * s1.index ≤ q) → s1.mem q = s.mem q := by
  have hS' := hS
  obtain ⟨s1', s2⟩ := hS
  simp only [slotsOf] at s2
  unfold encode_tag at h
  by_cases c1 : sz < 0
  · rw [if_pos c1] at h; cases h
  rw [if_neg c1] at h
  by_cases c2 : sz > 0
  · rw [if_pos c2] at h
    simp only [SIZEOF_HEADER, SIZEOF_FIELD] at h ⊢
    by_cases c3 : f.tag - s.lasttag - 1 > 0
    · rw [if_pos c3] at h
      have hidx : s.index + 2 + slotsOf f.tag fs ≤ maxn := by
        by_cases hl : s.lasttag < P
        · rw [if_pos hl] at s2
          split_ifs at s2 <;> omega
        · rw [if_neg hl] at s2
          rw [if_pos (by omega)] at s2
          omega
      by_cases c4 : (f.tag - s.lasttag - 1 - 1) * 2 + 1 > 0xffff
      · rw [if_pos c4] at h; cases h
      · rw [if_neg c4] at h
        simp only [FieldExit.next.injEq] at h
        subst h
        refine ⟨⟨le_refl _, ?_⟩, by show s.index ≤ s.index + 2; omega,
          by show s.index + 2 ≤ maxn; omega, ?_⟩
        · show s.index + 2 + (if f.tag < f.tag then 1 else 0) + slotsOf f.tag fs ≤ maxn
          rw [if_neg (lt_irrefl _)]
          omega
        · intro q hq
          have hq' : q < 2 + 2 * s.index ∨ 2 + 2 * (s.index + 2) ≤ q := hq
          show wr (wr (wr (wr s.mem _ _) _ _) _ _) _ _ q = s.mem q
          rw [wr_other _ _ _ _ (by omega), wr_other _ _ _ _ (by omega),
            wr_other _ _ _ _ (by omega), wr_other _ _ _ _ (by omega)]
    · rw [if_neg c3] at h
      simp only [FieldExit.next.injEq] at h
      subst h
      have hidx : s.index + 1 + slotsOf f.tag fs ≤ maxn := by
        split_ifs at s2 <;> omega
      refine ⟨⟨le_refl _, ?_⟩, by show s.index ≤ s.index + 1; omega,
        by show s.index + 1 ≤ maxn; omega, ?_⟩
      · show s.index + 1 + (if f.tag < f.tag then 1 else 0) + slotsOf f.tag fs ≤ maxn
        rw [if_neg (lt_irrefl _)]
        omega
      · intro q hq
        have hq' : q < 2 + 2 * s.index ∨ 2 + 2 * (s.index + 1) ≤ q := hq
        show wr (wr s.mem _ _) _ _ q = s.mem q
        rw [wr_other _ _ _ _ (by omega), wr_other _ _ _ _ (by omega)]
  · rw [if_neg c2] at h
    simp only [FieldExit.next.injEq] at h
    subst h
    have hsk := slotInv_skip maxn P f fs s s hP hS' rfl rfl
    refine ⟨hsk, le_refl _, ?_, fun _ _ => rfl⟩
    have := hsk.2
    omega

/-- One field of `sproto_encode`, for any callback: when the loop goes on, the
header slots written and those the fields to come can take fit in `maxn`. -/
theorem encode_field_slots {σ : Type} (types : List sproto_type) (cb : sproto_callback σ)
    (maxn : Nat) (P : Int) (f : field) (fs : List field) (s s1 : EncState σ) (hP : P < f.tag)
    (hS : SlotInv maxn P (f :: fs) s) (h : encode_field types cb f s = .ret (.next s1)) :
    SlotInv maxn f.tag fs s1 := by
  unfold encode_field at h
  simp only [] at h
  by_cases t1 : f.type &&& SPROTO_TARRAY ≠ 0
  · rw [if_pos t1] at h
    by_cases tm : f.map > 0 ∧ subfieldsReadable types f.st = false
    · rw [if_pos tm] at h
      cases h
    rw [if_neg tm] at h
    split at h
    · cases h
    · cases h
    · cases h
    · rename_i sz m1 ud1 _
      simp only [Outcome.ret.injEq] at h
      exact (encode_tag_slots maxn P f fs 0 sz { s with mem := m1, ud := ud1 } s1 hP hS h).1
  rw [if_neg t1] at h
  by_cases t2 : f.type = SPROTO_TDOUBLE ∨ f.type = SPROTO_TINTEGER ∨ f.type = SPROTO_TBOOLEAN
  · rw [if_pos t2] at h
    generalize cb s.ud { fieldArgs f with length := 8 } = r0 at h
    by_cases c1 : r0.1.sz < 0
    · rw [if_pos c1] at h
      split_ifs at h
      · simp only [Outcome.ret.injEq, FieldExit.next.injEq] at h
        subst h
        exact slotInv_skip maxn P f fs s _ hP hS rfl rfl
      · cases h
      · cases h
    rw [if_neg c1] at h
    by_cases c2 : r0.1.sz = (SIZEOF_INT32 : Int)
    · rw [if_pos c2] at h
      by_cases c3 : r0.1.u % 2 ^ 32 < 0x7fff
      · rw [if_pos c3] at h
        simp only [Outcome.ret.injEq] at h
        exact (encode_tag_slots maxn P f fs _ 2 { s with ud := r0.2 } s1 hP hS h).1
      · rw [if_neg c3] at h
        simp only [Outcome.ret.injEq] at h
        exact (encode_tag_slots maxn P f fs 0 _
          { s with ud := r0.2, mem := (encode_integer (r0.1.u % 2 ^ 32) s.mem s.data s.size).1 }
          s1 hP hS h).1
    rw [if_neg c2] at h
    by_cases c4 : r0.1.sz = (SIZEOF_INT64 : Int)
    · rw [if_pos c4] at h
      simp only [Outcome.ret.injEq] at h
      exact (encode_tag_slots maxn P f fs 0 _
        { s with ud := r0.2, mem := (encode_uint64 (r0.1.u % 2 ^ 64) s.mem s.data s.size).1 }
        s1 hP hS h).1
    · rw [if_neg c4] at h
      cases h
  rw [if_neg t2] at h
  by_cases t3 : f.type = SPROTO_TSTRUCT ∨ f.type = SPROTO_TSTRING
  · rw [if_pos t3] at h
    split at h
    · cases h
    · cases h
    · cases h
    · rename_i sz m1 ud1 _
      simp only [Outcome.ret.injEq] at h
      exact (encode_tag_slots maxn P f fs 0 sz { s with mem := m1, ud := ud1 } s1 hP hS h).1
  · rw [if_neg t3] at h
    simp only [Outcome.ret.injEq] at h
    exact (encode_tag_slots maxn P f fs 0 (-1) s s1 hP hS h).1

/-- The loop of `sproto_encode` over a first part `fs` of the fields, for any
callback: when it gets through `fs`, the header slots written and those the
other fields `rest` can take fit in `maxn`. -/
theorem encode_fields_slots {σ : Type} (types : List sproto_type) (cb : sproto_callback σ)
    (maxn : Nat) (rest : List field) :
    ∀ (fs : List field) (P : Int) (s s1 : EncState σ),
      import_tags_ok (fs ++ rest) P = true → SlotInv maxn P (fs ++ rest) s →
      encode_fields types cb fs s = .ret (.next s1) →
      ∃ P', import_tags_ok rest P' = true ∧ SlotInv maxn P' rest s1 := by
  intro fs
  induction fs with
  | nil =>
    intro P s s1 hok hS h
    simp only [encode_fields, Outcome.ret.injEq, FieldExit.next.injEq] at h
    subst h
    exact ⟨P, hok, hS⟩
  | cons f fs ih =>
    intro P s s1 hok hS h
    rw [List.cons_append] at hok hS
    obtain ⟨hP, hok'⟩ := (tags_ok_cons f (fs ++ rest) P).mp hok
    unfold encode_fields at h
    cases hf : encode_field types cb f s with
    | outOfFuel => rw [hf] at h; cases h
    | assertFailed => rw [hf] at h; cases h
    | invalidRead => rw [hf] at h; cases h
    | ret x =>
      rw [hf] at h
      cases x with
      | retn r m ud => cases h
      | next s2 =>
        simp only [] at h
        exact ih f.tag s2 s1 hok' (encode_field_slots types cb maxn P f (fs ++ rest) s s2 hP hS hf) h


/-- C21. The blob `blobProtoDescending` lists the protocol `b` (tag 2) before
the protocol `a` (tag 1); `sproto_create` accepts it and stores the protocols
in that order, and then `query_proto`, a binary search over the stored array,
does not find the tag 2. The blob with both protocols at the tag 1 is accepted
too. With the protocols in ascending order both tags are found. -/
theorem sproto_create_accepts_unsorted_protocols :
    sproto_create junk0 blobProtoDescending 44
      = .ret (some { type := [],
                     proto := [{ name := "b", tag := 2, confirm := 0, request := none,
                                 response := none },
                               { name := "a", tag := 1, confirm := 0, request := none,
                                 response := none }] }) ∧
    query_proto { type := [],
                  proto := [{ name := "b", tag := 2, confirm := 0, request := none,
                              response := none },
                            { name := "a", tag := 1, confirm := 0, request := none,
                              response := none }] } 2 = none ∧
    sproto_create junk0 blobProtoSameTag 44
      = .ret (some { type := [],
                     proto := [{ name := "a", tag := 1, confirm := 0, request := none,
                                 response := none },
                               { name := "b", tag := 1, confirm := 0, request := none,
                                 response := none }] }) ∧
    sproto_create junk0 blobProtoAscending 44
      = .ret (some { type := [],
                     proto := [{ name := "a", tag := 1, confirm := 0, request := none,
                                 response := none },
                               { name := "b", tag := 2, confirm := 0, request := none,
                                 response := none }] }) ∧
    sproto_protoname { type := [],
                       proto := [{ name := "a", tag := 1, confirm := 0, request := none,
                                   response := none },
                                 { name := "b", tag := 2, confirm := 0, request := none,
                                   response := none }] } 2 = some "b" := by
  decide

/-- C22. The record of the protocol `p` has the header slots 0 (name), 4 (tag
1), 3 (a skip slot) and 4: walked with the running wire tag, its value slots
have the tags 0, 1 and 4, so the last one is `confirm = 1`. `import_protocol`
takes the last slot, the slot at position 3, for the response: with two types
in the bundle the protocol is loaded with the response type 1 and `confirm`
0, and with no type the blob is rejected. -/
theorem import_protocol_switches_on_slot_position :
    recordEntries blobConfirmNoType 14 = [(0, 0), (1, 4), (4, 4)] ∧
    entryValue (recordEntries blobConfirmNoType 14) 4 = some 1 ∧
    sproto_create junk0 blobConfirmTwoTypes 63
      = .ret (some { type := [{ name := "Foo", base := 0, maxn := 0, f := [] },
                              { name := "Bar", base := 0, maxn := 0, f := [] }],
                     proto := [{ name := "p", tag := 1, confirm := 0, request := none,
                                 response := some 1 }] }) ∧
    sproto_create junk0 blobConfirmNoType 33 = .ret none := by
  decide

/-- The loop of `count_array` over items whose length plus 4 does not wrap:
when it returns a count, the items counted fill `length` exactly. -/
theorem count_array_loop_fills (p : List Nat) (h : ∀ off, todword p off < 0xFFFFFFFC) :
    ∀ (fuel stream length n : Nat) (r : Int),
      count_array_loop p fuel stream length n = .ret r → 0 ≤ r →
      n ≤ r.toNat ∧ recordOff p stream (r.toNat - n) = stream + length := by
  intro fuel
  induction fuel with
  | zero => intro stream length n r hr; simp [count_array_loop] at hr
  | succ fuel ih =>
    intro stream length n r hr h0
    unfold count_array_loop at hr
    by_cases c0 : length > 0
    · rw [if_pos c0] at hr
      by_cases c1 : length < SIZEOF_LENGTH
      · rw [if_pos c1] at hr
        simp only [Outcome.ret.injEq] at hr
        omega
      rw [if_neg c1] at hr
      simp only [] at hr
      have hd := h stream
      have hns : (todword p stream + SIZEOF_LENGTH) % 2 ^ 32 = todword p stream + 4 := by
        simp only [SIZEOF_LENGTH]
        omega
      rw [hns] at hr
      by_cases c2 : todword p stream + 4 > length
      · rw [if_pos c2] at hr
        simp only [Outcome.ret.injEq] at hr
        omega
      rw [if_neg c2] at hr
      obtain ⟨i1, i2⟩ := ih _ _ _ r hr h0
      refine ⟨by omega, ?_⟩
      rw [show r.toNat - n = (r.toNat - (n + 1)) + 1 by omega]
      show recordOff p (stream + SIZEOF_LENGTH + todword p stream) (r.toNat - (n + 1))
        = stream + length
      simp only [SIZEOF_LENGTH]
      rw [show stream + 4 + todword p stream = stream + (todword p stream + 4) by omega, i2]
      omega
    · rw [if_neg c0] at hr
      simp only [Outcome.ret.injEq] at hr
      have hl : length = 0 := by omega
      subst hl
      have hrn : r.toNat = n := by rw [← hr]; simp
      rw [hrn]
      exact ⟨le_refl _, by rw [Nat.sub_self]; rfl⟩

/-- On a stream none of whose item lengths is `0xFFFFFFFC` or more,
`count_array` returns -1 or the number of length-prefixed items that fill the
declared length exactly. -/
theorem count_array_exact (p : List Nat) (h : ∀ off, todword p off < 0xFFFFFFFC)
    (stream : Nat) :
    ∃ r, count_array p stream = .ret r ∧
      (r = -1 ∨ (0 ≤ r ∧ recordOff p (stream + SIZEOF_LENGTH) r.toNat
        = stream + SIZEOF_LENGTH + todword p stream)) := by
  obtain ⟨r, hr⟩ := count_array_total p (fun off => by have := h off; omega) stream
  refine ⟨r, hr, ?_⟩
  by_cases h0 : 0 ≤ r
  · right
    refine ⟨h0, ?_⟩
    have := (count_array_loop_fills p h _ _ _ 0 r hr h0).2
    rw [Nat.sub_zero] at this
    exact this
  · left
    unfold count_array at hr
    have : ∀ (fuel stream length n : Nat) (r : Int),
        count_array_loop p fuel stream length n = .ret r → r = -1 ∨ 0 ≤ r := by
      intro fuel
      induction fuel with
      | zero => intro stream length n r hr; simp [count_array_loop] at hr
      | succ fuel ih =>
        intro stream length n r hr
        unfold count_array_loop at hr
        simp only [] at hr
        split_ifs at hr
        · simp only [Outcome.ret.injEq] at hr; exact Or.inl hr.symm
        · simp only [Outcome.ret.injEq] at hr; exact Or.inl hr.symm
        · exact ih _ _ _ r hr
        · simp only [Outcome.ret.injEq] at hr; right; rw [← hr]; positivity
    rcases this _ _ _ _ r hr with h1 | h1
    · exact h1
    · exact absurd h1 h0

/-- C27. On the stream `04 00 00 00 FC FF FF FF`, an array of 4 bytes whose
item declares the length `0xFFFFFFFC`, the 32-bit sum of the item length and 4
is 0, the loop of `count_array` goes on with `stream` and `length` unchanged,
and `count_array` gives no result, with any fuel. -/
theorem count_array_item_length_wraps :
    (todword streamLongItem 4 + SIZEOF_LENGTH) % 2 ^ 32 = 0 ∧
    count_array streamLongItem 0 = .outOfFuel ∧
    (∀ fuel n : Nat, count_array_loop streamLongItem fuel 4 4 n = .outOfFuel) :=
  ⟨by decide, by decide, count_array_loop_stuck streamLongItem 4 4 (by decide) (by decide)⟩


theorem tagsAscending_tags_ok : ∀ (fs : List field) (last : Int), tagsAscending fs →
    (∀ f0, fs.head? = some f0 → last < f0.tag) → import_tags_ok fs last = true := by
  intro fs
  induction fs with
  | nil => intro last _ _; rfl
  | cons f fs ih =>
    intro last hc hl
    rw [tags_ok_cons]
    refine ⟨hl f rfl, ih f.tag (List.Chain'.tail hc) ?_⟩
    intro f0 h0
    cases fs with
    | nil => simp at h0
    | cons g gs =>
      simp only [List.head?_cons, Option.some.injEq] at h0
      subst h0
      exact (List.chain'_cons.mp hc).1

theorem tagsAscending_ok (fs : List field) (h : tagsAscending fs) :
    ∃ last, import_tags_ok fs last = true := by
  cases fs with
  | nil => exact ⟨0, rfl⟩
  | cons f fs =>
    refine ⟨f.tag - 1, tagsAscending_tags_ok _ _ h ?_⟩
    intro f0 h0
    simp only [List.head?_cons, Option.some.injEq] at h0
    subst h0
    omega

/-- The binary search of `findtag` is the linear search, for strictly
ascending tags. -/
theorem findtag_loop_linear (fs : List field) (h : tagsAscending fs) (t : Int) :
    findtag_loop fs t fs.length 0 fs.length = findtagLinear fs t := by
  obtain ⟨last, hok⟩ := tagsAscending_ok fs h
  unfold findtagLinear
  cases hf : fs.find? (fun f => decide (f.tag = t)) with
  | some f =>
    have hm : f ∈ fs := List.mem_of_find?_eq_some hf
    have ht : f.tag = t := by simpa using List.find?_some hf
    obtain ⟨i, hi⟩ := List.mem_iff_getElem?.mp hm
    have hilt : i < fs.length := by
      by_contra hcon
      rw [List.getElem?_eq_none (by omega)] at hi
      exact Option.noConfusion hi
    rw [← ht]
    exact findtag_loop_spec fs last hok i f hi fs.length 0 fs.length (Nat.zero_le _) hilt
      (le_refl _) (by omega)
  | none =>
    cases hl : findtag_loop fs t fs.length 0 fs.length with
    | none => rfl
    | some g =>
      obtain ⟨g1, g2⟩ := findtag_loop_sound fs t _ _ _ g hl
      have := List.find?_eq_none.mp hf g g1
      simp only [decide_eq_true_eq] at this
      exact absurd g2 this

/-- The direct offset of `findtag` is the linear search, for tags that are the
consecutive integers from `b`. -/
theorem findtag_direct_linear (fs : List field) (b : Int)
    (hd : ∀ (i : Nat) (f : field), fs[i]? = some f → f.tag = b + i) (t : Int) :
    (if t - b < 0 ∨ t - b ≥ fs.length then none else fs[(t - b).toNat]?)
      = findtagLinear fs t := by
  unfold findtagLinear
  cases hf : fs.find? (fun f => decide (f.tag = t)) with
  | some f =>
    have hm : f ∈ fs := List.mem_of_find?_eq_some hf
    have ht : f.tag = t := by simpa using List.find?_some hf
    obtain ⟨i, hi⟩ := List.mem_iff_getElem?.mp hm
    have hilt : i < fs.length := by
      by_contra hcon
      rw [List.getElem?_eq_none (by omega)] at hi
      exact Option.noConfusion hi
    have e := hd i f hi
    rw [if_neg (by omega), show (t - b).toNat = i by omega]
    exact hi
  | none =>
    by_cases hr : t - b < 0 ∨ t - b ≥ fs.length
    · rw [if_pos hr]
    · rw [if_neg hr]
      push_neg at hr
      have hlt : (t - b).toNat < fs.length := by omega
      cases hg : fs[(t - b).toNat]? with
      | none => rfl
      | some g =>
        exfalso
        have e := hd _ g hg
        have := List.find?_eq_none.mp hf g (List.mem_iff_getElem?.mpr ⟨_, hg⟩)
        simp only [decide_eq_true_eq] at this
        apply this
        rw [e, Int.toNat_of_nonneg (by omega)]
        omega

theorem consecutive_of_span (fs : List field) (last : Int)
    (hok : import_tags_ok fs last = true) (f0 fl : field) (h0 : fs.head? = some f0)
    (hl : fs.getLast? = some fl) (hspan : fl.tag - f0.tag + 1 = fs.length) :
    ∀ (i : Nat) (f : field), fs[i]? = some f → f.tag = f0.tag + i := by
  intro i f hi
  have h0' : fs[0]? = some f0 := by rw [← h0]; exact (List.head?_eq_getElem? _).symm
  have hl' : fs[fs.length - 1]? = some fl := by
    rw [← hl]; exact (List.getLast?_eq_getElem? _).symm
  have hilt : i < fs.length := by
    by_contra hc
    rw [List.getElem?_eq_none (by omega)] at hi
    exact Option.noConfusion hi
  have e1 := tags_ok_step fs last hok 0 i f0 f (by omega) h0' hi
  have e2 := tags_ok_step fs last hok i (fs.length - 1) f fl (by omega) hi hl'
  have e3 : ((fs.length - 1 - i : Nat) : Int) = (fs.length : Int) - 1 - i := by omega
  have e4 : ((i - 0 : Nat) : Int) = i := by simp
  omega

/-- C23. For every type whose field tags ascend strictly and whose `base`
satisfies the dense invariant, and for every integer `t`, `findtag` returns
what a linear search over the fields for the tag `t` returns: the field whose
tag is `t` when there is one, and `NULL` otherwise. So does each strategy on
its own: the binary search (the type with `base = -1`), and the direct offset
(the type with `base = b ≥ 0`) when the tags are the consecutive integers from
`b`. -/
theorem findtag_refines_linear_search (st : sproto_type) (hasc : tagsAscending st.f)
    (hbase : baseDense st) (t : Int) :
    findtag st t = findtagLinear st.f t ∧
    (∀ f, findtag st t = some f ↔ (f ∈ st.f ∧ f.tag = t)) ∧
    (findtag st t = none ↔ ∀ f ∈ st.f, f.tag ≠ t) ∧
    findtag { st with base := -1 } t = findtagLinear st.f t ∧
    (∀ b : Int, 0 ≤ b → (∀ (i : Nat) (f : field), st.f[i]? = some f → f.tag = b + i) →
      findtag { st with base := b } t = findtagLinear st.f t) := by
  obtain ⟨last, hok⟩ := tagsAscending_ok st.f hasc
  have hbin : findtag { st with base := -1 } t = findtagLinear st.f t := by
    unfold findtag
    rw [if_neg (by norm_num)]
    exact findtag_loop_linear st.f hasc t
  have hdir : ∀ b : Int, 0 ≤ b →
      (∀ (i : Nat) (f : field), st.f[i]? = some f → f.tag = b + i) →
      findtag { st with base := b } t = findtagLinear st.f t := by
    intro b hb hd
    unfold findtag
    rw [if_pos (show ({ st with base := b } : sproto_type).base ≥ 0 from hb)]
    exact findtag_direct_linear st.f b hd t
  have hmain : findtag st t = findtagLinear st.f t := by
    by_cases hb : st.base ≥ 0
    · cases hfs : st.f with
      | nil =>
        unfold findtag
        rw [if_pos hb]
        simp only [sproto_type.n, hfs, List.length_nil]
        rw [if_pos (by
          by_cases h1 : t - st.base < 0
          · exact Or.inl h1
          · right; simp only [Nat.cast_zero]; omega)]
        rfl
      | cons f0 rest =>
        have hne : st.f ≠ [] := by rw [hfs]; exact List.cons_ne_nil _ _
        have h0 : st.f.head? = some f0 := by rw [hfs]; rfl
        obtain ⟨fl, hl⟩ : ∃ fl, st.f.getLast? = some fl :=
          ⟨st.f.getLast hne, List.getLast?_eq_getLast _ hne⟩
        have hbe := hbase f0 fl h0 hl
        by_cases hspan : fl.tag - f0.tag + 1 = st.f.length
        · rw [if_pos hspan] at hbe
          have hd := consecutive_of_span st.f last hok f0 fl h0 hl hspan
          rw [← hbe] at hd
          have := hdir st.base hb hd
          rw [← hfs]
          exact this
        · rw [if_neg hspan] at hbe
          omega
    · have : findtag st t = findtag { st with base := -1 } t := by
        unfold findtag
        rw [if_neg hb, if_neg (by norm_num)]
        rfl
      rw [this]
      exact hbin
  have hinj : ∀ f g, f ∈ st.f → g ∈ st.f → f.tag = g.tag → f = g := by
    intro f g hf hg htag
    obtain ⟨i, hi⟩ := List.mem_iff_getElem?.mp hf
    obtain ⟨j, hj⟩ := List.mem_iff_getElem?.mp hg
    have := tags_ok_inj st.f last hok i j f g hi hj htag
    subst this
    rw [hi] at hj
    exact Option.some.inj hj
  refine ⟨hmain, ?_, ?_, hbin, hdir⟩
  · intro f
    rw [hmain]
    unfold findtagLinear
    constructor
    · intro h
      exact ⟨List.mem_of_find?_eq_some h, by simpa using List.find?_some h⟩
    · rintro ⟨hm, ht⟩
      cases hf : st.f.find? (fun f => decide (f.tag = t)) with
      | none =>
        have := List.find?_eq_none.mp hf f hm
        simp only [decide_eq_true_eq] at this
        exact absurd ht this
      | some g =>
        have hg1 : g ∈ st.f := List.mem_of_find?_eq_some hf
        have hg2 : g.tag = t := by simpa using List.find?_some hf
        rw [hinj g f hg1 hm (by rw [hg2, ht])]
  · rw [hmain]
    unfold findtagLinear
    rw [List.find?_eq_none]
    simp only [decide_eq_true_eq]

theorem findtag_refines_linear_search_witness :
    tagsAscending fooAC.f ∧ baseDense fooAC ∧
    findtag fooAC 3 = some (integerField "c" 3) ∧ findtag fooAC 2 = none ∧
    (findtag fooAC 3 = findtagLinear fooAC.f 3 ∧
      (∀ f, findtag fooAC 3 = some f ↔ (f ∈ fooAC.f ∧ f.tag = 3)) ∧
      (findtag fooAC 3 = none ↔ ∀ f ∈ fooAC.f, f.tag ≠ 3) ∧
      findtag { fooAC with base := -1 } 3 = findtagLinear fooAC.f 3 ∧
      (∀ b : Int, 0 ≤ b →
        (∀ (i : Nat) (f : field), fooAC.f[i]? = some f → f.tag = b + i) →
        findtag { fooAC with base := b } 3 = findtagLinear fooAC.f 3)) :=
  have hasc : tagsAscending fooAC.f := by
    unfold tagsAscending fooAC
    simp [integerField]
  have hbase : baseDense fooAC := by
    intro f0 fl h0 hl
    have e0 : f0 = integerField "a" 0 := by
      have : fooAC.f.head? = some (integerField "a" 0) := rfl
      rw [this] at h0; exact (Option.some.inj h0).symm
    have el : fl = integerField "c" 3 := by
      have : fooAC.f.getLast? = some (integerField "c" 3) := rfl
      rw [this] at hl; exact (Option.some.inj hl).symm
    subst e0 el
    decide
  ⟨hasc, hbase, by decide, by decide, findtag_refines_linear_search fooAC hasc hbase 3⟩


/-- C25. For every type as the loader computes it (tags strictly ascending from
above -1, `maxn` the field count plus the number of fields whose tag exceeds
the previous tag + 1, the previous tag of the first field being -1), every
callback and every point of the loop of `sproto_encode` over the fields (the
state `s` after the first `k` fields): the number `index` of header slots
written is at most `maxn`, and the tag slots the next field writes, whatever
its value and size, leave `index` at most `maxn` and change no byte from the
offset `2 + 2 * maxn` on, where the body area starts; they change the slots
from the old `index` up to the new one only. -/
theorem sproto_encode_slots_within_maxn {σ : Type} (types : List sproto_type)
    (st : sproto_type) (hasc : import_tags_ok st.f (-1) = true)
    (hmaxn : st.maxn = import_maxn st.f (-1) st.f.length) (buffer : Mem) (size : Int)
    (cb : sproto_callback σ) (ud : σ) (k : Nat) (s : EncState σ)
    (hrun : encode_fields types cb (st.f.take k)
      { mem := buffer, ud := ud, data := SIZEOF_HEADER + st.maxn * SIZEOF_FIELD,
        size := size - ((SIZEOF_HEADER + st.maxn * SIZEOF_FIELD : Nat) : Int), index := 0,
        lasttag := -1 } = .ret (.next s)) :
    s.index ≤ st.maxn ∧
    ∀ (f : field) (value : Nat) (sz : Int) (m1 : Mem) (ud1 : σ) (s1 : EncState σ),
      st.f[k]? = some f →
      encode_tag f value sz { s with mem := m1, ud := ud1 } = .next s1 →
      s1.index ≤ st.maxn ∧
      (∀ q, SIZEOF_HEADER + st.maxn * SIZEOF_FIELD ≤ q → s1.mem q = m1 q) ∧
      (∀ q, (q < SIZEOF_HEADER + SIZEOF_FIELD * s.index ∨
          SIZEOF_HEADER + SIZEOF_FIELD * s1.index ≤ q) → s1.mem q = m1 q) := by
  have hmax : slotsOf (-1) st.f = st.maxn := by
    have := import_maxn_slotsOf st.f (-1) 0
    rw [Nat.zero_add, Nat.zero_add] at this
    rw [hmaxn, this]
  have hsplit : st.f.take k ++ st.f.drop k = st.f := List.take_append_drop k st.f
  obtain ⟨P', hok, hS⟩ := encode_fields_slots types cb st.maxn (st.f.drop k) (st.f.take k) (-1)
    _ s (by rw [hsplit]; exact hasc)
    (by rw [hsplit]
        exact ⟨le_refl _, by
          show 0 + (if (-1 : Int) < -1 then 1 else 0) + slotsOf (-1) st.f ≤ st.maxn
          rw [if_neg (lt_irrefl _), hmax]; omega⟩) hrun
  refine ⟨?_, ?_⟩
  · have := hS.2
    omega
  · intro f value sz m1 ud1 s1 hk htag
    have hklt : k < st.f.length := by
      by_contra hc
      rw [List.getElem?_eq_none (by omega)] at hk
      exact Option.noConfusion hk
    have hf : st.f[k] = f := by
      rw [List.getElem?_eq_getElem hklt] at hk
      exact Option.some.inj hk
    have hdrop : st.f.drop k = f :: st.f.drop (k + 1) := by
      rw [← hf]; exact List.drop_eq_getElem_cons hklt
    rw [hdrop] at hok hS
    obtain ⟨hP, _⟩ := (tags_ok_cons f _ P').mp hok
    obtain ⟨_, _, a3, a4⟩ :=
      encode_tag_slots st.maxn P' f (st.f.drop (k + 1)) value sz
        { s with mem := m1, ud := ud1 } s1 hP hS htag
    refine ⟨a3, fun q hq => a4 q (Or.inr ?_), a4⟩
    simp only [SIZEOF_HEADER, SIZEOF_FIELD] at hq ⊢
    omega

theorem sproto_encode_slots_within_maxn_witness :
    import_tags_ok fooAC.f (-1) = true ∧
    fooAC.maxn = import_maxn fooAC.f (-1) fooAC.f.length ∧
    fooAC.f[1]? = some (integerField "c" 3) ∧
    encode_tag (integerField "c" 3) 16 2
        ({ mem := wr (wr zeroMem 2 12) 3 0, ud := (), data := 8, size := 12, index := 1,
           lasttag := 0 } : EncState Unit)
      = .next { mem := wr (wr (wr (wr (wr (wr zeroMem 2 12) 3 0) 4 3) 5 0) 6 16) 7 0,
                ud := (), data := 8, size := 12, index := 3, lasttag := 3 } ∧
    ((1 : Nat) ≤ fooAC.maxn ∧
      ∀ (f : field) (value : Nat) (sz : Int) (m1 : Mem) (ud1 : Unit) (s1 : EncState Unit),
        fooAC.f[1]? = some f →
        encode_tag f value sz
          { ({ mem := wr (wr zeroMem 2 12) 3 0, ud := (), data := 8, size := 12, index := 1,
               lasttag := 0 } : EncState Unit) with mem := m1, ud := ud1 } = .next s1 →
        s1.index ≤ fooAC.maxn ∧
        (∀ q, SIZEOF_HEADER + fooAC.maxn * SIZEOF_FIELD ≤ q → s1.mem q = m1 q) ∧
        (∀ q, (q < SIZEOF_HEADER + SIZEOF_FIELD * 1 ∨
            SIZEOF_HEADER + SIZEOF_FIELD * s1.index ≤ q) → s1.mem q = m1 q)) :=
  ⟨by decide, by decide, rfl, rfl,
    sproto_encode_slots_within_maxn [] fooAC (by decide) (by decide) zeroMem 20
      (hostEncode (msgAC 5 7)) () 1
      { mem := wr (wr zeroMem 2 12) 3 0, ud := (), data := 8, size := 12, index := 1,
        lasttag := 0 } rfl⟩


/-- The walk of `slotEntries` over the bytes is the walk of `walkSlots` over
the slots the bytes hold. -/
theorem slotEntries_walk (p : List Nat) (stream : Nat) (vs : List Nat)
    (hv : ∀ (j v : Nat), vs[j]? = some v → toword p (stream + SIZEOF_FIELD * j) = v) :
    ∀ (k i : Nat) (tag : Int), i + k = vs.length →
      slotEntries p stream k i tag = walkSlots (vs.drop i) tag := by
  intro k
  induction k with
  | zero =>
    intro i tag hik
    rw [List.drop_of_length_le (by omega)]
    rfl
  | succ k ih =>
    intro i tag hik
    have hilt : i < vs.length := by omega
    rw [List.drop_eq_getElem_cons hilt]
    unfold slotEntries walkSlots
    simp only []
    rw [hv i vs[i] (List.getElem?_eq_getElem hilt)]
    rw [ih (i + 1) _ (by omega), ih (i + 1) _ (by omega)]

theorem hostSlot_even (v : HostValue) : ¬ (hostSlot v &&& 1 ≠ 0) := by
  rw [Nat.and_one_is_mod]
  cases v with
  | int x =>
    simp only [hostSlot]
    split_ifs <;> omega
  | bool b => cases b <;> decide
  | str b => simp [hostSlot]

/-- The decoder's rule over the slots the encoder writes for a message gives
every assigned field its own tag. -/
theorem walkSlots_hostSlots (msg : Int → Option HostValue) :
    ∀ (fs : List field) (last P : Int), last ≤ P → import_tags_ok fs P = true →
      walkSlots (hostSlots msg last fs) last = emittedSlots msg fs := by
  intro fs
  induction fs with
  | nil => intro last P _ _; rfl
  | cons f fs ih =>
    intro last P hl hok
    obtain ⟨hgt, hok2⟩ := (tags_ok_cons f fs P).mp hok
    cases hm : msg f.tag with
    | none =>
      rw [hostSlots_cons_none msg _ f fs hm]
      unfold emittedSlots
      rw [List.filterMap_cons, hm]
      exact ih last f.tag (by omega) hok2
    | some v =>
      rw [hostSlots_cons_some msg _ f fs v hm]
      unfold emittedSlots
      rw [List.filterMap_cons, hm]
      simp only [Option.map_some']
      have hrest := ih f.tag f.tag (le_refl _) hok2
      unfold emittedSlots at hrest
      unfold tagSlots
      by_cases hg : f.tag - last - 1 > 0
      · rw [if_pos hg]
        simp only [List.cons_append, List.nil_append]
        have hodd : ((f.tag - last - 1 - 1) * 2 + 1).toNat &&& 1 ≠ 0 := by
          rw [Nat.and_one_is_mod]; omega
        have htag : last + 1 + ((((f.tag - last - 1 - 1) * 2 + 1).toNat / 2 : Nat) : Int)
            = f.tag - 1 := by omega
        unfold walkSlots
        rw [if_pos hodd, htag]
        unfold walkSlots
        rw [if_neg (hostSlot_even v), show f.tag - 1 + 1 = f.tag by omega, hrest]
      · rw [if_neg hg]
        simp only [List.nil_append, List.cons_append]
        unfold walkSlots
        rw [if_neg (hostSlot_even v), show last + 1 = f.tag by omega, hrest]

/-- The slots the encoder writes for a message are the value slots and the
skip slots. -/
theorem hostSlots_count (msg : Int → Option HostValue) :
    ∀ (fs : List field) (last : Int),
      (hostSlots msg last fs).length
        = (emittedSlots msg fs).length + skipCount last ((emittedSlots msg fs).map Prod.fst) := by
  intro fs
  induction fs with
  | nil => intro last; rfl
  | cons f fs ih =>
    intro last
    cases hm : msg f.tag with
    | none =>
      rw [hostSlots_cons_none msg _ f fs hm]
      unfold emittedSlots
      rw [List.filterMap_cons, hm]
      exact ih last
    | some v =>
      rw [hostSlots_cons_some msg _ f fs v hm]
      unfold emittedSlots
      rw [List.filterMap_cons, hm]
      simp only [Option.map_some', List.map_cons, List.length_cons, List.length_append,
        tagSlots_length, skipCount]
      have := ih f.tag
      unfold emittedSlots at this
      rw [this]
      split_ifs <;> omega


/-- The header of the encoding of a message, walked with the decoder's rule:
the value slots are those of the assigned fields, each with the tag of its
field, and the field count is the number of value slots and skip slots. -/
theorem hostWire_header_walk (msg : Int → Option HostValue) (fs : List field)
    (hok : import_tags_ok fs (-1) = true) (htag : ∀ f ∈ fs, f.tag ≤ 32766) :
    slotEntries (hostWire msg fs) SIZEOF_HEADER (toword (hostWire msg fs) 0) 0 (-1)
      = emittedSlots msg fs ∧
    toword (hostWire msg fs) 0
      = (emittedSlots msg fs).length + skipCount (-1) ((emittedSlots msg fs).map Prod.fst) := by
  have hk : (hostSlots msg (-1) fs).length < 65536 := by
    have := hostSlots_length_le msg fs (-1)
    have := fields_length_le fs hok htag
    omega
  have hfn : toword (hostWire msg fs) 0 = (hostSlots msg (-1) fs).length := by
    simp only [hostWire, toword, rd, List.cons_append, List.nil_append, List.getD_cons_zero,
      List.getD_cons_succ]
    omega
  refine ⟨?_, by rw [hfn]; exact hostSlots_count msg fs (-1)⟩
  rw [hfn, slotEntries_walk (hostWire msg fs) SIZEOF_HEADER (hostSlots msg (-1) fs) ?_ _ 0 (-1)
    (by omega), List.drop_zero]
  · exact walkSlots_hostSlots msg fs (-1) (-1) (le_refl _) hok
  · intro j v hj
    have hv := hostSlots_lt msg fs (-1) (le_refl _) hok htag v
      (List.mem_iff_getElem?.mpr ⟨j, hj⟩)
    simp only [SIZEOF_HEADER, SIZEOF_FIELD]
    rw [show 2 + 2 * j = ([(hostSlots msg (-1) fs).length % 256,
        (hostSlots msg (-1) fs).length / 2 ^ 8 % 256] : List Nat).length + j * 2 by
      simp only [List.length_cons, List.length_nil]; omega]
    unfold hostWire
    rw [List.append_assoc, toword_append_right]
    exact toword_slotBytes _ j v _ hj hv

/-- C24. For every type as `import_type` builds it (tags strictly ascending,
non-negative, at most 32766, so that adjacent tags differ by less than 32768)
and every message of scalar values the buffer has room for: whenever
`sproto_encode` returns, the header it wrote, walked with the decoder's rule
from the running tag -1 over `field_count` slots, has as its value slots
exactly the assigned fields in their order, each with the tag of the field
that produced it and the slot of its value; and `field_count` is the number of
value slots plus the number of skip slots, one skip slot for every assigned
field whose tag is more than one above the tag of the assigned field before
it. The encoder does return when every array field with `map > 0` has a
subtype whose two field names it can read (`mapFieldsReadable`); on any other
type it stops at such a field and emits nothing. -/
theorem sproto_encode_header_walk (types : List sproto_type) (st : sproto_type)
    (msg : Int → Option HostValue) (buffer : Mem) (size : Int) (hst : LoadedType st)
    (hfit : ∀ f ∈ st.f, ∀ v, msg f.tag = some v → hostFits f v)
    (hsize : (2 + 2 * st.maxn + (hostBytes msg st.f).length + 8 : Nat) ≤ size)
    (hmax : size < 2 ^ 31) :
    (mapFieldsReadable types st.f →
      ∃ (n : Nat) (m' : Mem), sproto_encode types st buffer size (hostEncode msg) ()
        = .ret ((n : Int), m', ())) ∧
    ∀ (r : Int) (m' : Mem),
      sproto_encode types st buffer size (hostEncode msg) () = .ret (r, m', ()) →
      0 ≤ r ∧
      slotEntries (readN m' 0 r.toNat) SIZEOF_HEADER (toword (readN m' 0 r.toNat) 0) 0 (-1)
        = emittedSlots msg st.f ∧
      toword (readN m' 0 r.toNat) 0
        = (emittedSlots msg st.f).length
          + skipCount (-1) ((emittedSlots msg st.f).map Prod.fst) := by
  refine ⟨fun hmap => ?_, fun r m' hrun => ?_⟩
  · obtain ⟨m0, h1, _, _⟩ := sproto_encode_wire types st msg buffer size hst hfit hmap hsize hmax
    exact ⟨_, m0, h1⟩
  · by_cases hmap : mapFieldsReadable types st.f
    · obtain ⟨m0, h1, h2, _⟩ :=
        sproto_encode_wire types st msg buffer size hst hfit hmap hsize hmax
      rw [h1] at hrun
      simp only [Outcome.ret.injEq, Prod.mk.injEq, and_true] at hrun
      obtain ⟨hr, hm⟩ := hrun
      subst hr
      subst hm
      rw [Int.toNat_ofNat, h2]
      exact ⟨Int.ofNat_nonneg _, hostWire_header_walk msg st.f hst.ascending hst.tag_le⟩
    · rw [sproto_encode_unreadable types st msg buffer size hst hfit hmap hsize hmax] at hrun
      cases hrun

theorem sproto_encode_header_walk_witness :
    LoadedType fooAC ∧
    (∀ f ∈ fooAC.f, ∀ v, msgAC 5 7 f.tag = some v → hostFits f v) ∧
    emittedSlots (msgAC 5 7) fooAC.f = [(0, 12), (3, 16)] ∧
    skipCount (-1) ((emittedSlots (msgAC 5 7) fooAC.f).map Prod.fst) = 1 ∧
    encoded 8 (sproto_encode [] fooAC zeroMem 20 (hostEncode (msgAC 5 7)) ())
      = .ret (8, [3, 0, 12, 0, 3, 0, 16, 0]) ∧
    mapFieldsReadable [] fooAC.f ∧
    ∃ (n : Nat) (m' : Mem), sproto_encode [] fooAC zeroMem 20 (hostEncode (msgAC 5 7)) ()
        = .ret ((n : Int), m', ()) ∧
      slotEntries (readN m' 0 n) SIZEOF_HEADER (toword (readN m' 0 n) 0) 0 (-1)
        = emittedSlots (msgAC 5 7) fooAC.f ∧
      toword (readN m' 0 n) 0
        = (emittedSlots (msgAC 5 7) fooAC.f).length
          + skipCount (-1) ((emittedSlots (msgAC 5 7) fooAC.f).map Prod.fst) := by
  have hfit : ∀ f ∈ fooAC.f, ∀ v, msgAC 5 7 f.tag = some v → hostFits f v := by
    intro f hf v hv
    simp only [fooAC, List.mem_cons, List.mem_singleton, List.not_mem_nil, or_false] at hf
    rcases hf with rfl | rfl
    · have : v = .int 5 := by
        have h : msgAC 5 7 0 = some (.int 5) := rfl
        have hv' : msgAC 5 7 0 = some v := hv
        rw [h] at hv'; exact (Option.some.inj hv').symm
      subst this
      exact ⟨rfl, by norm_num, by norm_num⟩
    · have : v = .int 7 := by
        have h : msgAC 5 7 3 = some (.int 7) := rfl
        have hv' : msgAC 5 7 3 = some v := hv
        rw [h] at hv'; exact (Option.some.inj hv').symm
      subst this
      exact ⟨rfl, by norm_num, by norm_num⟩
  have key := sproto_encode_header_walk [] fooAC (msgAC 5 7) zeroMem 20 loaded_fooAC hfit
    (by decide) (by norm_num)
  obtain ⟨n, m', hrun⟩ := key.1 (by decide)
  have hwalk := (key.2 n m' hrun).2
  rw [Int.toNat_ofNat] at hwalk
  exact ⟨loaded_fooAC, hfit, by decide, by decide, by decide, by decide, n, m', hrun, hwalk⟩


theorem nzBytes_srcBlock_le (srcv : List Nat) (j : Nat) (h : j < (srcv.length + 7) / 8) :
    (nzBytes (srcBlock srcv (8 * j))).length ≤ 8 := by
  have h1 : (srcBlock srcv (8 * j)).length ≤ 8 := by
    rw [srcBlock_eq srcv j h, List.length_take]
    omega
  exact le_trans (List.length_filter_le _ _) h1

/-- The size `sproto_pack` has counted after `j` blocks: at least one byte per
block, and at most 8 per block and 2 per record of up to 256 blocks, a run
that is still open counted from the block where it started. -/
theorem pack_loop_size_bounds (srcv : List Nat) :
    ∀ (k j : Nat) (s : PackState), j + k ≤ (srcv.length + 7) / 8 → s.ff_n < 256 →
      s.ff_n ≤ j → j ≤ s.size →
      (s.ff_n = 0 → s.size ≤ 8 * j + 2 * (j / 256)) →
      (s.ff_n > 0 → s.size ≤ 8 * j + 2 * ((j - s.ff_n) / 256) + 2) →
      (pack_loop srcv k (8 * j) s).ff_n < 256 ∧
      (pack_loop srcv k (8 * j) s).ff_n ≤ j + k ∧
      j + k ≤ (pack_loop srcv k (8 * j) s).size ∧
      ((pack_loop srcv k (8 * j) s).ff_n = 0 →
        (pack_loop srcv k (8 * j) s).size ≤ 8 * (j + k) + 2 * ((j + k) / 256)) ∧
      ((pack_loop srcv k (8 * j) s).ff_n > 0 →
        (pack_loop srcv k (8 * j) s).size
          ≤ 8 * (j + k) + 2 * ((j + k - (pack_loop srcv k (8 * j) s).ff_n) / 256) + 2) := by
  intro k
  induction k with
  | zero => intro j s _ h1 h2 h3 h4 h5; exact ⟨h1, h2, h3, h4, h5⟩
  | succ k ih =>
    intro j s hjk h1 h2 h3 h4 h5
    simp only [pack_loop]
    rw [show 8 * j + 8 = 8 * (j + 1) by ring, show j + (k + 1) = (j + 1) + k by omega]
    have hnz := nzBytes_srcBlock_le srcv j (by omega)
    have hsize := pack_step_size srcv (8 * j) s
    have hffn := pack_step_ff_n srcv (8 * j) s
    generalize (nzBytes (srcBlock srcv (8 * j))).length = nz at hnz hsize hffn
    generalize pack_step srcv (8 * j) s = s1 at hsize hffn
    apply ih (j + 1) s1 (by omega)
    · rw [hffn]; split_ifs <;> omega
    · rw [hffn]; split_ifs <;> omega
    · rw [hsize]
      unfold segRet
      simp only []
      split_ifs <;> omega
    · intro h0
      rw [hsize]
      rw [hffn] at h0
      unfold segRet at h0 ⊢
      simp only [] at h0 ⊢
      by_cases hn : s.ff_n = 0
      · have := h4 hn
        split_ifs at h0 ⊢ <;> omega
      · have := h5 (by omega)
        split_ifs at h0 ⊢ <;> omega
    · intro h0
      rw [hsize, hffn]
      rw [hffn] at h0
      unfold segRet at h0 ⊢
      simp only [] at h0 ⊢
      by_cases hn : s.ff_n = 0
      · have := h4 hn
        split_ifs at h0 ⊢ <;> omega
      · have := h5 (by omega)
        split_ifs at h0 ⊢ <;> omega

/-- C26, as stated, fails: the input of the one byte 1 has all bytes non-zero
and one block, for which the bound is `8 * 1 + 2 * 1 = 10`, and `sproto_pack`
returns 2: its block is the byte and 7 bytes of padding, written as a mask and
one byte. So it is for 5 non-zero bytes (6, not 10). -/
theorem sproto_pack_short_input_below_bound :
    (∀ v ∈ [1], v ≠ 0) ∧ ([1].length + 7) / 8 = 1 ∧
    (sproto_pack [1] zeroMem 16).1 = 2 ∧
    8 * (([1].length + 7) / 8) + 2 * ((([1].length + 7) / 8 + 255) / 256) = 10 ∧
    (sproto_pack [1, 2, 3, 4, 5] zeroMem 16).1 = 6 := by
  decide

/-- C26, amended: for every input of `srcsz` bytes, with `B = ceil(srcsz/8)`
blocks, and every destination and capacity, the size `sproto_pack` returns is
at least `B` and at most `8 * B + 2 * ceil(B/256)`; the upper bound is attained
by the inputs whose bytes are all non-zero and whose size is a multiple of 8. -/
theorem sproto_pack_size_bounds (srcv : List Nat) (m : Mem) (bufsz : Int) :
    (srcv.length + 7) / 8 ≤ (sproto_pack srcv m bufsz).1 ∧
    (sproto_pack srcv m bufsz).1
      ≤ 8 * ((srcv.length + 7) / 8) + 2 * (((srcv.length + 7) / 8 + 255) / 256) ∧
    ((∀ v ∈ srcv, v ≠ 0) → srcv.length % 8 = 0 →
      (sproto_pack srcv m bufsz).1
        = 8 * ((srcv.length + 7) / 8) + 2 * (((srcv.length + 7) / 8 + 255) / 256)) := by
  obtain ⟨a1, a2, a3, a4, a5⟩ := pack_loop_size_bounds srcv ((srcv.length + 7) / 8) 0
    (pack_init m bufsz) (by omega) (by simp [pack_init]) (by simp [pack_init])
    (by simp [pack_init]) (by simp [pack_init]) (by simp [pack_init])
  simp only [Nat.mul_zero, Nat.zero_add] at a1 a2 a3 a4 a5
  have hs : (sproto_pack srcv m bufsz).1
      = (pack_loop srcv ((srcv.length + 7) / 8) 0 (pack_init m bufsz)).size := rfl
  refine ⟨by rw [hs]; exact a3, ?_, ?_⟩
  · rw [hs]
    by_cases h0 : (pack_loop srcv ((srcv.length + 7) / 8) 0 (pack_init m bufsz)).ff_n = 0
    · have := a4 h0
      omega
    · have := a5 (by omega)
      omega
  · intro hnz hlen
    by_cases hn : srcv.length = 0
    · have : srcv = [] := List.length_eq_zero.mp hn
      subst this
      rfl
    · have hsz := sproto_pack_size_congr srcv m m bufsz ((sproto_pack srcv m bufsz).1 : Int)
      rw [hsz]
      have := (pack_dense_spec srcv m ((sproto_pack srcv m bufsz).1 : Int) (srcv.length / 8)
        (by omega) (by omega) hnz (by rw [← hsz])).1
      rw [this]
      omega

theorem sproto_pack_size_bounds_witness :
    (∀ v ∈ [1, 2, 3, 4, 5, 6, 7, 8], v ≠ 0) ∧ [1, 2, 3, 4, 5, 6, 7, 8].length % 8 = 0 ∧
    (sproto_pack [1, 2, 3, 4, 5, 6, 7, 8] zeroMem 16).1 = 10 ∧
    (sproto_pack [0, 0, 0, 0, 0, 0, 0, 0, 0] zeroMem 16).1 = 2 ∧
    (([1, 2, 3, 4, 5, 6, 7, 8].length + 7) / 8
        ≤ (sproto_pack [1, 2, 3, 4, 5, 6, 7, 8] zeroMem 16).1 ∧
      (sproto_pack [1, 2, 3, 4, 5, 6, 7, 8] zeroMem 16).1
        ≤ 8 * (([1, 2, 3, 4, 5, 6, 7, 8].length + 7) / 8)
          + 2 * ((([1, 2, 3, 4, 5, 6, 7, 8].length + 7) / 8 + 255) / 256) ∧
      ((∀ v ∈ [1, 2, 3, 4, 5, 6, 7, 8], v ≠ 0) → [1, 2, 3, 4, 5, 6, 7, 8].length % 8 = 0 →
        (sproto_pack [1, 2, 3, 4, 5, 6, 7, 8] zeroMem 16).1
          = 8 * (([1, 2, 3, 4, 5, 6, 7, 8].length + 7) / 8)
            + 2 * ((([1, 2, 3, 4, 5, 6, 7, 8].length + 7) / 8 + 255) / 256))) :=
  ⟨by decide, by decide, by decide, by decide,
    sproto_pack_size_bounds [1, 2, 3, 4, 5, 6, 7, 8] zeroMem 16⟩

end Sproto
